import Mathlib

/-!
# SNM_ChunkParserPatcher (src/SnM/SnM_ChunkParserPatcher.h)

A shallow embedding of the RPP chunk parser/patcher.

* C strings (`const char*`, `WDL_FastString`) are lists of characters: the bytes
  before the terminating NUL. A NULL pointer is `none`.
* Pointers into a buffer are offsets (`Nat`) from its first byte.
* Machine `int`s are `Int`/`Nat`; chunks are assumed shorter than 2^31 bytes, so
  no offset or counter wraps.
* A run of C code ends in an `Outcome`: a result, undefined behaviour (a NULL
  or out-of-bounds access in the source), or exhausted fuel (the loop had not
  finished after the given number of iterations).
-/

namespace SnM

/-- A C string: the bytes before the terminating NUL. -/
abbrev CStr := List Char

/-- How a run of the C code ends. -/
inductive Outcome (α : Type) where
  | ok (a : α)
  | undefined
  | outOfFuel
  deriving DecidableEq, Repr

/-! ## libc string functions -/

/-- `strchr(s, '\n')`, as the line before the newline and the text after it. -/
def splitLine : CStr → Option (CStr × CStr)
  | [] => none
  | c :: cs =>
    if c = '\n' then some ([], cs)
    else match splitLine cs with
      | none => none
      | some (l, r) => some (c :: l, r)

/-- `strncmp(s, lit, strlen(lit)) == 0`: `s` starts with `lit`. -/
def startsWith : CStr → CStr → Bool
  | _, [] => true
  | [], _ :: _ => false
  | c :: cs, d :: ds => c == d && startsWith cs ds

/-- `strstr(hay, needle)`: offset of the first occurrence, `none` for NULL. -/
def strstr (hay needle : CStr) : Option Nat :=
  if startsWith hay needle then some 0
  else match hay with
    | [] => none
    | _ :: t => (strstr t needle).map (· + 1)

/-- `strchr(s, '\n')` as an offset. -/
def strchrNL : CStr → Option Nat
  | [] => none
  | c :: cs => if c = '\n' then some 0 else (strchrNL cs).map (· + 1)

/-- ASCII `tolower`. -/
def toLowerAscii (c : Char) : Char :=
  if 65 ≤ c.toNat ∧ c.toNat ≤ 90 then Char.ofNat (c.toNat + 32) else c

/-- `_strnicmp(s, lit, strlen(lit)) == 0`. -/
def startsWithNoCase : CStr → CStr → Bool
  | _, [] => true
  | [], _ :: _ => false
  | c :: cs, d :: ds => toLowerAscii c == toLowerAscii d && startsWithNoCase cs ds

/-! ## Fast chunk helpers (`RemoveChunkLines`, `FindEndOfSubChunk`) -/

/-- `while (*bol && bol > _chunk && *bol != '\n') bol--;` -/
def walkToBOL (chunk : CStr) : Nat → Nat
  | 0 => 0
  | b + 1 =>
    match chunk.get? (b + 1) with
    | none => b + 1
    | some c => if c = '\n' then b + 1 else walkToBOL chunk b

/-- `memset(chunk + start, ' ', len)`. -/
def memsetSpaces (chunk : CStr) (start len : Nat) : CStr :=
  chunk.take start ++ List.replicate len ' ' ++ chunk.drop (start + len)

/-- `strstr(chunk + start, needle)` as an offset from `chunk`. -/
def strstrFrom (chunk : CStr) (start : Nat) (needle : CStr) : Option Nat :=
  (strstr (chunk.drop start) needle).map (· + start)

/-- The `while(idStr)` loop of `RemoveChunkLines`; one unit of fuel per iteration.
`_checkEOLChar` is the character code, `0` for no check. -/
def RemoveChunkLinesLoop (searchStr : CStr) (checkBOL : Bool) (checkEOLChar : Nat) :
    Nat → CStr → Option Nat → Nat → Outcome (Nat × CStr)
  | _, chunk, none, updates => .ok (updates, chunk)
  | 0, _, some _, _ => .outOfFuel
  | fuel + 1, chunk, some idStr, updates =>
    let eol := (strchrNL (chunk.drop idStr)).map (· + idStr)
    let bol := walkToBOL chunk idStr
    match eol with
    | none =>
      -- idStr = strstr(idStr+1, ..): idStr+1 must not pass the terminator
      if idStr + 1 ≤ chunk.length then
        RemoveChunkLinesLoop searchStr checkBOL checkEOLChar fuel chunk
          (strstrFrom chunk (idStr + 1) searchStr) updates
      else .undefined
    | some eol =>
      if chunk.get? bol = some '\n' ∨ bol = 0 then
        -- *(eol-1) is read only when an end-of-line character is required
        if checkEOLChar ≠ 0 ∧ eol = 0 then .undefined
        else if (checkEOLChar = 0 ∨ (chunk.get? (eol - 1)).map Char.toNat = some checkEOLChar) ∧
            (checkBOL = false ∨ idStr = bol + (if bol = 0 then 0 else 1)) then
          let bol1 := if bol ≠ 0 then bol + 1 else bol
          -- memset(bol, ' ', (int)(eol-bol))
          if bol1 ≤ eol then
            let chunk1 := memsetSpaces chunk bol1 (eol - bol1)
            RemoveChunkLinesLoop searchStr checkBOL checkEOLChar fuel chunk1
              (strstrFrom chunk1 bol1 searchStr) (updates + 1)
          else .undefined
        else
          RemoveChunkLinesLoop searchStr checkBOL checkEOLChar fuel chunk
            (strstrFrom chunk (idStr + 1) searchStr) updates
      else
        RemoveChunkLinesLoop searchStr checkBOL checkEOLChar fuel chunk
          (strstrFrom chunk (idStr + 1) searchStr) updates

/-- `RemoveChunkLines(char* _chunk, const char* _searchStr, bool _checkBOL, int _checkEOLChar)`:
the update count and the chunk as overwritten in place. -/
def RemoveChunkLines (fuel : Nat) (chunk : CStr) (searchStr : Option CStr)
    (checkBOL : Bool) (checkEOLChar : Nat) : Outcome (Nat × CStr) :=
  match searchStr with
  | none => .ok (0, chunk)
  | some s => RemoveChunkLinesLoop s checkBOL checkEOLChar fuel chunk (strstr chunk s) 0

/-- `RemoveAllIds(char* _chunk)`. -/
def RemoveAllIds (fuel : Nat) (chunk : CStr) : Outcome (Nat × CStr) :=
  RemoveChunkLines fuel chunk (some "ID \x7b".toList) false '}'.toNat

/-- The inner loop of `FindEndOfSubChunk`; `boc` and `eoc` are offsets from `_chunk`. -/
def FindEndOfSubChunkLoop (chunk : CStr) : Nat → Option Nat → Option Nat → Nat → Outcome Int
  | 0, _, _, _ => .outOfFuel
  | fuel + 1, boc, eoc, depth =>
    if (boc.isSome ∨ eoc.isSome) ∧ depth > 0 then
      match boc, eoc with
      | some b, none =>
        FindEndOfSubChunkLoop chunk fuel (strstrFrom chunk (b + 1) "\n<".toList) none (depth + 1)
      | some b, some e =>
        if b < e then
          FindEndOfSubChunkLoop chunk fuel (strstrFrom chunk (b + 1) "\n<".toList) (some e) (depth + 1)
        else if e < b then
          if depth - 1 = 0 then .ok ((e : Int) + 3)
          else FindEndOfSubChunkLoop chunk fuel (some b) (strstrFrom chunk (e + 1) "\n>\n".toList) (depth - 1)
        else FindEndOfSubChunkLoop chunk fuel (some b) (some e) depth
      | none, some e =>
        if depth - 1 = 0 then .ok ((e : Int) + 3)
        else FindEndOfSubChunkLoop chunk fuel none (strstrFrom chunk (e + 1) "\n>\n".toList) (depth - 1)
      | none, none => .ok (-1)
    else .ok (-1)

/-- `FindEndOfSubChunk(const char* _chunk, int _startPos)`: the end position of the
sub-chunk starting at `_startPos`, `-1` if failed. `_chunk+_startPos+1` must not pass
the terminator. -/
def FindEndOfSubChunk (chunk : CStr) (startPos : Int) : Outcome Int :=
  if 0 ≤ startPos then
    let start := startPos.toNat
    if start + 1 ≤ chunk.length then
      FindEndOfSubChunkLoop chunk (2 * chunk.length + 2)
        (strstrFrom chunk (start + 1) "\n<".toList)
        (strstrFrom chunk (start + 1) "\n>\n".toList) 1
    else .undefined
  else .ok (-1)

/-! ## The line tokenizer (WDL `LineParser`) -/

/-- The line tokenizer used by the parser: WDL's `LineParser`, which is not part of
this source file. `parse` gives the tokens of a line (`none` when `lp.parse` reports
an error), `toInt` the integer value of a non-empty token text. -/
structure LineParser where
  parse : CStr → Option (List CStr)
  toInt : CStr → Int

/-- `lp.gettoken_str(token)`: `""` when out of range. -/
def gettoken_str (toks : List CStr) (token : Int) : CStr :=
  if 0 ≤ token then (toks.get? token.toNat).getD [] else []

/-- `lp.gettoken_int(token)`: `0` when out of range or empty. -/
def gettoken_int (lp : LineParser) (toks : List CStr) (token : Int) : Int :=
  if gettoken_str toks token = [] then 0 else lp.toInt (gettoken_str toks token)

/-- State machine of `wdlTokenize`: `cur` is the token being read, with its opening
quote if any and its characters in reverse. -/
def wdlTokenizeGo : CStr → Option (Option Char × CStr) → Option (List CStr)
  | [], none => some []
  | [], some (none, acc) => some [acc.reverse]
  | [], some (some _, _) => none
  | c :: cs, none =>
    if c = ' ' ∨ c = '\t' then wdlTokenizeGo cs none
    else if c = '"' ∨ c = '\'' ∨ c = '`' then wdlTokenizeGo cs (some (some c, []))
    else wdlTokenizeGo cs (some (none, [c]))
  | c :: cs, some (none, acc) =>
    if c = ' ' ∨ c = '\t' then (wdlTokenizeGo cs none).map (acc.reverse :: ·)
    else wdlTokenizeGo cs (some (none, c :: acc))
  | c :: cs, some (some q, acc) =>
    if c = q then (wdlTokenizeGo cs none).map (acc.reverse :: ·)
    else wdlTokenizeGo cs (some (some q, c :: acc))

/-- Modelled from the spec: the line tokenizer `tokenize(line) -> ordered tokens`
(WDL `LineParser::parse`, absent from the source). Tokens are delimited by spaces and
tabs; a token opened by a quote character runs to the matching quote and may contain
whitespace; an unterminated quote is a parse error. -/
def wdlTokenize (line : CStr) : Option (List CStr) :=
  wdlTokenizeGo line none

/-- Value of a run of decimal digits, stopping at the first other character. -/
def digitsValue : CStr → Nat → Nat
  | [], acc => acc
  | c :: cs, acc =>
    if 48 ≤ c.toNat ∧ c.toNat ≤ 57 then digitsValue cs (acc * 10 + (c.toNat - 48)) else acc

/-- Modelled from the spec: `token_int(i)` (WDL `LineParser::gettoken_int`, absent from
the source) on a token text: an optional minus sign and decimal digits. -/
def wdlTokenInt (tok : CStr) : Int :=
  match tok with
  | '-' :: ds => - (digitsValue ds 0 : Int)
  | ds => (digitsValue ds 0 : Int)

/-- Modelled from the spec: the tokenizer collaborator of section 6. -/
def wdlLineParser : LineParser :=
  { parse := wdlTokenize, toInt := wdlTokenInt }

/-! ## SNM_ChunkParserPatcher: cache and commit -/

/-- Modelled from the spec: the host object behind `m_reaObject`, with
`read_state(origin) -> text` (`none` when the read fails) and
`write_state(origin, text) -> success`; `recording` is `GetPlayState() & 4`. -/
structure ReaObject where
  state : Option CStr
  recording : Bool
  writable : Bool
  deriving DecidableEq, Repr

/-- The members of `SNM_ChunkParserPatcher`. `m_originalChunk` holds the content of
the attached `WDL_FastString` (the origin buffer). -/
structure SNM_ChunkParserPatcher where
  m_chunk : CStr
  m_autoCommit : Bool
  m_reaObject : Option ReaObject
  m_originalChunk : Option CStr
  m_updates : Int
  m_processBase64 : Bool
  m_processInProjectMIDI : Bool
  m_processFreeze : Bool
  m_minimalState : Bool
  m_isParsingSource : Bool
  m_breakParsePatch : Bool
  m_chunkType : Int
  deriving DecidableEq, Repr

namespace SNM_ChunkParserPatcher

/-- Constructor `SNM_ChunkParserPatcher(void* _reaObject, ...)`. -/
def newFromObject (reaObject : Option ReaObject) (autoCommit processBase64
    processInProjectMIDI processFreeze : Bool) : SNM_ChunkParserPatcher :=
  { m_chunk := [], m_autoCommit := autoCommit, m_reaObject := reaObject,
    m_originalChunk := none, m_updates := 0, m_processBase64 := processBase64,
    m_processInProjectMIDI := processInProjectMIDI, m_processFreeze := processFreeze,
    m_minimalState := false, m_isParsingSource := false, m_breakParsePatch := false,
    m_chunkType := -1 }

/-- Constructor `SNM_ChunkParserPatcher(WDL_FastString* _chunk, ...)`. -/
def newFromChunk (chunk : Option CStr) (autoCommit processBase64
    processInProjectMIDI processFreeze : Bool) : SNM_ChunkParserPatcher :=
  { m_chunk := [], m_autoCommit := autoCommit, m_reaObject := none,
    m_originalChunk := chunk, m_updates := 0, m_processBase64 := processBase64,
    m_processInProjectMIDI := processInProjectMIDI, m_processFreeze := processFreeze,
    m_minimalState := false, m_isParsingSource := false, m_breakParsePatch := false,
    m_chunkType := -1 }

/-- `GetChunk()`: get and cache the RPP chunk; the engine afterwards, whose `m_chunk`
is the returned string. -/
def GetChunk (e : SNM_ChunkParserPatcher) : SNM_ChunkParserPatcher :=
  if e.m_chunk.length = 0 then
    match e.m_reaObject with
    | some obj =>
      match obj.state with
      | some cData => { e with m_chunk := cData }
      | none => e
    | none =>
      match e.m_originalChunk with
      | some orig => { e with m_chunk := orig }
      | none => e
  else e

/-- `SetChunk(const char* _newChunk, int _updates)`. -/
def SetChunk (e : SNM_ChunkParserPatcher) (newChunk : Option CStr) (updates : Int) :
    SNM_ChunkParserPatcher :=
  { GetChunk { e with m_updates := updates } with m_chunk := newChunk.getD [] }

/-- `GetUpdates()`. -/
def GetUpdates (e : SNM_ChunkParserPatcher) : Int := e.m_updates

/-- `IncUpdates()`. -/
def IncUpdates (e : SNM_ChunkParserPatcher) : SNM_ChunkParserPatcher × Int :=
  ({ e with m_updates := e.m_updates + 1 }, e.m_updates + 1)

/-- `SetUpdates(int _updates)`. -/
def SetUpdates (e : SNM_ChunkParserPatcher) (updates : Int) : SNM_ChunkParserPatcher × Int :=
  ({ e with m_updates := updates }, updates)

/-- `Commit(bool _force)`: the engine (with its origin) afterwards and the returned flag. -/
def Commit (e : SNM_ChunkParserPatcher) (force : Bool) : SNM_ChunkParserPatcher × Bool :=
  if e.m_updates ≠ 0 ∨ force = true then
    let e1 := GetChunk e
    if e1.m_chunk.length ≠ 0 then
      match e1.m_reaObject with
      | some obj =>
        if obj.recording = false ∧ obj.writable = true then
          (SetChunk { e1 with m_reaObject := some { obj with state := some e1.m_chunk } }
            (some []) 0, true)
        else (e1, false)
      | none =>
        match e1.m_originalChunk with
        | some _ => (SetChunk { e1 with m_originalChunk := some e1.m_chunk } (some []) 0, true)
        | none => (e1, false)
    else (e1, false)
  else (e, false)

/-- The destructor `~SNM_ChunkParserPatcher()`: what is left is the origin. -/
def destroy (e : SNM_ChunkParserPatcher) : SNM_ChunkParserPatcher :=
  if e.m_autoCommit then (Commit e false).1 else e

/-- `CancelUpdates()`. -/
def CancelUpdates (e : SNM_ChunkParserPatcher) : SNM_ChunkParserPatcher :=
  SetChunk e (some []) 0

/-- `GetChunkType()`: 1 for track, 0 for other; cached in `m_chunkType`. -/
def GetChunkType (e : SNM_ChunkParserPatcher) : SNM_ChunkParserPatcher × Int :=
  if e.m_chunkType < 0 then
    let e1 := GetChunk e
    let t : Int :=
      if e1.m_chunk.length ≥ 7 ∧
          (startsWith e1.m_chunk "<TRACK\n".toList ∨ startsWith e1.m_chunk "<TRACK ".toList)
      then 1 else 0
    ({ e1 with m_chunkType := t }, t)
  else (e, e.m_chunkType)

end SNM_ChunkParserPatcher

/-! ## ParsePatchCore -/

abbrev SNM_PARSE_AND_PATCH : Int := 0
abbrev SNM_PARSE_AND_PATCH_EXCEPT : Int := 1
abbrev SNM_PARSE : Int := 2
abbrev SNM_PARSE_EXCEPT : Int := 3
abbrev SNM_GET_CHUNK_CHAR : Int := 6
abbrev SNM_SET_CHUNK_CHAR : Int := 7
abbrev SNM_SETALL_CHUNK_CHAR_EXCEPT : Int := 8
abbrev SNM_GETALL_CHUNK_CHAR_EXCEPT : Int := 9
abbrev SNM_TOGGLE_CHUNK_INT : Int := 10
abbrev SNM_TOGGLE_CHUNK_INT_EXCEPT : Int := 11
abbrev SNM_REPLACE_SUBCHUNK_OR_LINE : Int := 12
abbrev SNM_GET_SUBCHUNK_OR_LINE : Int := 13
abbrev SNM_GET_SUBCHUNK_OR_LINE_EOL : Int := 14
abbrev SNM_COUNT_KEYWORD : Int := 15
abbrev SNM_MAX_CHUNK_LINE_LENGTH : Nat := 8192

/-- The parameters of `ParsePatchCore` other than `_value`, which is part of the
scan state because the get modes write through it. -/
structure Params where
  write : Bool
  mode : Int
  depth : Int
  expectedParent : Option CStr
  keyWord : Option CStr
  occurence : Int
  tokenPos : Int
  valueExcept : Option CStr
  breakKeyword : Option CStr
  deriving DecidableEq, Repr

/-- The locals of `ParsePatchCore` during the scan, with the engine members it
updates. `rest` is the text at `pEOL+1` and `pos` its offset in `cData`. A parent is
its `WDL_FastString` object: an allocation number (the pointer identity, `allocs`
counts the objects created so far) and the name. `value` is what `_value` points to. -/
structure Scan where
  e : SNM_ChunkParserPatcher
  rest : CStr
  pos : Nat
  newChunk : Option CStr
  value : Option CStr
  updates : Nat
  occurence : Nat
  posStartOfSubchunk : Int
  subChunkKeyword : Option Nat
  parents : List (Nat × CStr)
  allocs : Nat
  deriving DecidableEq, Repr

/-- What the body of the `for(;;)` does for one line. -/
inductive Step where
  | next (s : Scan)
  | brk (s : Scan)
  | ret (s : Scan) (v : Int)
  | undefined
  | fuel
  deriving DecidableEq, Repr

/-- Control flow inside the loop body: go on with the line (`alter` so far), or
`return`. -/
inductive Flow where
  | cont (s : Scan) (alter : Bool)
  | ret (s : Scan) (v : Int)
  | undefined
  deriving DecidableEq, Repr

/-- `GetParent(&parents)`: the innermost parent's name, `""` if none. -/
def GetParent (parents : List (Nat × CStr)) : CStr :=
  match parents.getLast? with
  | some (_, name) => name
  | none => []

/-- `IsChildOf(_parents, _ancestor)`. -/
def IsChildOf (parents : List (Nat × CStr)) (ancestor : CStr) : Bool :=
  parents.any (fun q => q.2 == ancestor)

/-- The token loop of `WriteChunkLine`, from token number `i` on. -/
def emitTokens (value : CStr) (tokenPos : Int) : List CStr → Nat → CStr
  | [], _ => []
  | t :: ts, i =>
    (if (i : Int) = tokenPos then value else t) ++
      (if ts = [] then ['\n'] else [' ']) ++ emitTokens value tokenPos ts (i + 1)

/-- `WriteChunkLine(_chunkLine, _value, _tokenPos, _lp)`: the chunk line afterwards and
the returned flag; `none` for a NULL `_value` or an append through a NULL `_chunkLine`. -/
def WriteChunkLine (chunkLine : Option CStr) (value : Option CStr) (tokenPos : Int)
    (toks : List CStr) : Option (Option CStr × Bool) :=
  match value with
  | none => none
  | some v =>
    if gettoken_str toks tokenPos ≠ v then
      if toks = [] then some (chunkLine, false)
      else match chunkLine with
        | none => none
        | some c =>
          some (some (c ++ emitTokens v tokenPos toks 0),
            decide (0 ≤ tokenPos ∧ tokenPos < toks.length))
    else some (chunkLine, false)

/-- `IsMatchingParsedLine`: `(tolerantMatch, strictMatch)`; `none` when `strcmp` is
reached with a NULL parsed keyword (a line without token). -/
def IsMatchingParsedLine (expectedDepth parsedDepth : Int) (expectedParent : Option CStr)
    (parsedParent : CStr) (expectedKeyword parsedKeyword : Option CStr) :
    Option (Bool × Bool) :=
  if expectedDepth = -1 then some (true, false)
  else if expectedDepth = parsedDepth then
    match expectedParent with
    | none => some (true, false)
    | some ep =>
      if parsedParent = ep then
        match expectedKeyword with
        | none => some (true, false)
        | some ek =>
          match parsedKeyword with
          | none => none
          | some pk => if pk = ek then some (true, true) else some (false, false)
      else some (false, false)
  else some (false, false)

/-- The `while (skippedLen >= 0)` loop of the track freeze skip; `acc` is
`pEOSkippedChunk` as an offset from `pLine`. -/
def freezeSkipLoop (pLine : CStr) : Nat → Int → Option Nat → Outcome (Option Nat)
  | 0, _, _ => .outOfFuel
  | fuel + 1, skippedLen, acc =>
    if 0 ≤ skippedLen then
      if startsWith (pLine.drop skippedLen.toNat) "<FREEZE ".toList then
        match FindEndOfSubChunk pLine skippedLen with
        | .ok n => freezeSkipLoop pLine fuel n (some skippedLen.toNat)
        | .undefined => .undefined
        | .outOfFuel => .outOfFuel
      else .ok (some skippedLen.toNat)
    else .ok acc

/-- Lines 719-748: `pEOSkippedChunk` as an offset from `pLine`, and the engine
(`GetChunkType()` caches the chunk type). `line` is the line at `pLine`. -/
def detectSkip (s : Scan) (line : CStr) : Outcome (SNM_ChunkParserPatcher × Option Nat) :=
  let curLineLen := line.length
  if s.e.m_processBase64 = false ∧ curLineLen > 2 ∧
      line.drop (curLineLen - 2) = "==".toList then
    .ok (s.e, strstr s.rest ">\n".toList)
  else if s.e.m_processInProjectMIDI = false ∧ s.e.m_isParsingSource = true ∧
      ((curLineLen > 2 ∧ startsWithNoCase s.rest "E ".toList = true) ∨
       (curLineLen > 3 ∧ startsWithNoCase s.rest "Em ".toList = true)) then
    .ok (s.e, strstr s.rest "GUID \x7b".toList)
  else if s.e.m_processFreeze = false ∧ s.parents.length = 1 ∧ curLineLen > 8 then
    let et := s.e.GetChunkType
    if et.2 = 1 ∧ startsWith s.rest "<FREEZE ".toList = true then
      match FindEndOfSubChunk s.rest 0 with
      | .ok n =>
        match freezeSkipLoop s.rest (s.rest.length + 1) n none with
        | .ok k => .ok (et.1, k)
        | .undefined => .undefined
        | .outOfFuel => .outOfFuel
      | .undefined => .undefined
      | .outOfFuel => .outOfFuel
    else .ok (et.1, none)
  else .ok (s.e, none)

/-- Lines 750-758: the skipped region `pLine[0..k)` is copied to the new chunk and to
the fetched sub-chunk. -/
def copySkipped (p : Params) (s : Scan) (k : Nat) : Scan :=
  let alter := s.subChunkKeyword.isSome && decide (p.mode = SNM_REPLACE_SUBCHUNK_OR_LINE)
  let newChunk :=
    if p.write = true ∧ alter = false then s.newChunk.map (· ++ s.rest.take k) else s.newChunk
  let value :=
    if (p.mode = SNM_GET_SUBCHUNK_OR_LINE ∨ p.mode = SNM_GET_SUBCHUNK_OR_LINE_EOL) ∧
        s.subChunkKeyword.isSome = true then s.value.map (· ++ s.rest.take k)
    else s.value
  { s with newChunk := newChunk, value := value }

/-- Lines 815-820: the end of an element updates `m_isParsingSource` and pops the
parent list. -/
def closeElement (s : Scan) (alter : Bool) : Flow :=
  .cont { s with
    e := { s.e with m_isParsingSource :=
      (if s.e.m_isParsingSource then decide (GetParent s.parents ≠ "SOURCE".toList) else false) },
    parents := s.parents.dropLast } alter

/-- Lines 776-822: parent list maintenance. `eolPos1` is `pEOL-cData+1`. -/
def updateParents (p : Params) (s : Scan) (toks : List CStr) (curLineLen : Nat)
    (eolPos1 : Int) : Flow :=
  match toks with
  | [] => .cont s false
  | keyword :: _ =>
    match keyword with
    | '<' :: name =>
      .cont { s with
        e := { s.e with m_isParsingSource := (s.e.m_isParsingSource ||
          decide (toks.length = 2 ∧ curLineLen > 9 ∧ name = "SOURCE".toList)) },
        parents := s.parents ++ [(s.allocs, name)],
        allocs := s.allocs + 1 } false
    | '>' :: _ =>
      if s.subChunkKeyword.isSome = true ∧ p.depth = s.parents.length ∧
          s.subChunkKeyword = (s.parents.get? (p.depth - 1).toNat).map Prod.fst then
        let s1 := { s with subChunkKeyword := none }
        if p.mode = SNM_REPLACE_SUBCHUNK_OR_LINE then
          closeElement { s1 with e := { s1.e with m_breakParsePatch := decide (p.occurence ≠ -1) } } true
        else if p.mode = SNM_GET_SUBCHUNK_OR_LINE ∨ p.mode = SNM_GET_SUBCHUNK_OR_LINE_EOL then
          .ret { s1 with value := s1.value.map (· ++ ">\n".toList) }
            (if p.mode = SNM_GET_SUBCHUNK_OR_LINE then s.posStartOfSubchunk else eolPos1)
        else closeElement s1 false
      else closeElement s false
    | _ => .cont s false


/-- The text written for a toggled token: `"%d"` of `!lp.gettoken_int(_tokenPos)`. The
`_snprintf` length is always 1, so the `return -1` that follows it is never taken. -/
def toggleValue (lp : LineParser) (toks : List CStr) (tokenPos : Int) : CStr :=
  if gettoken_int lp toks tokenPos = 0 then "1".toList else "0".toList

/-- `alter |= WriteChunkLine(newChunk, value, _tokenPos, &lp)`. -/
def writeLine (p : Params) (s : Scan) (alter : Bool) (value : Option CStr)
    (toks : List CStr) : Flow :=
  match WriteChunkLine s.newChunk value p.tokenPos toks with
  | none => .undefined
  | some (c, u) => .cont { s with newChunk := c } (alter || u)

/-- `m_breakParsePatch = (_occurence != -1);` after a step that went on. -/
def setBreak (p : Params) : Flow → Flow
  | .cont s alter =>
    .cont { s with e := { s.e with m_breakParsePatch := decide (p.occurence ≠ -1) } } alter
  | f => f

/-- `strstr(pLine, _keyWord)` turned into a position + 1 in the chunk, `-1` if NULL. -/
def keywordPos1 (lineText : CStr) (linePos : Nat) (keyWord : CStr) : Int :=
  match strstr lineText keyWord with
  | some i => ((linePos + i + 1 : Nat) : Int)
  | none => -1

/-- Lines 847-914: the `switch (_mode)` for a strict match on the requested occurence.
`currentParent` is the identity of the innermost parent object. -/
def matchingOccurence (lp : LineParser) (p : Params) (s : Scan) (alter : Bool)
    (toks : List CStr) (curLine lineText : CStr) (linePos : Nat) (eolPos1 : Int)
    (currentParent : Nat) (keyWord : CStr) : Flow :=
  if p.mode = SNM_GET_CHUNK_CHAR then
    .ret { s with value := s.value.map (fun _ => gettoken_str toks p.tokenPos) }
      (keywordPos1 lineText linePos keyWord)
  else if p.mode = SNM_SET_CHUNK_CHAR then
    setBreak p (writeLine p s alter s.value toks)
  else if p.mode = SNM_SETALL_CHUNK_CHAR_EXCEPT ∨ p.mode = SNM_TOGGLE_CHUNK_INT_EXCEPT then
    match p.valueExcept with
    | some ve =>
      if ve ≠ gettoken_str toks p.tokenPos then writeLine p s alter (some ve) toks
      else .cont s alter
    | none => .cont s alter
  else if p.mode = SNM_PARSE_AND_PATCH ∨ p.mode = SNM_PARSE then
    setBreak p (.cont s alter)
  else if p.mode = SNM_TOGGLE_CHUNK_INT then
    setBreak p (writeLine p s alter (some (toggleValue lp toks p.tokenPos)) toks)
  else if p.mode = SNM_REPLACE_SUBCHUNK_OR_LINE then
    match s.newChunk, s.value with
    | some c, some v =>
      .cont { s with
        newChunk := some (c ++ v),
        subChunkKeyword :=
          (if keyWord.head? = some '<' then some currentParent else s.subChunkKeyword) } true
    | _, _ => .undefined
  else if p.mode = SNM_GET_SUBCHUNK_OR_LINE then
    let s1 := { s with
      value := s.value.map (· ++ curLine ++ ['\n']),
      posStartOfSubchunk := keywordPos1 lineText linePos keyWord }
    if s.value.isSome = true ∧ keyWord.head? = some '<' then
      .cont { s1 with subChunkKeyword := some currentParent } alter
    else .ret s1 (keywordPos1 lineText linePos keyWord)
  else if p.mode = SNM_GET_SUBCHUNK_OR_LINE_EOL then
    let s1 := { s with value := s.value.map (· ++ curLine ++ ['\n']) }
    if keyWord.head? = some '<' then
      .cont { s1 with subChunkKeyword := some currentParent } alter
    else .ret s1 eolPos1
  else .cont s alter

/-- Lines 919-944: the `switch (_mode)` for a strict match on another occurence. -/
def otherOccurence (lp : LineParser) (p : Params) (s : Scan) (alter : Bool)
    (toks : List CStr) : Flow :=
  if p.mode = SNM_SETALL_CHUNK_CHAR_EXCEPT then
    match s.value with
    | none => .undefined
    | some v =>
      if v ≠ gettoken_str toks p.tokenPos then writeLine p s alter (some v) toks
      else .cont s alter
  else if p.mode = SNM_GETALL_CHUNK_CHAR_EXCEPT then
    match s.value with
    | none => .undefined
    | some v => if v ≠ gettoken_str toks p.tokenPos then .ret s 0 else .cont s alter
  else if p.mode = SNM_TOGGLE_CHUNK_INT_EXCEPT then
    writeLine p s alter (some (toggleValue lp toks p.tokenPos)) toks
  else .cont s alter

/-- `occurence++;` after a step that went on. -/
def incOccurence : Flow → Flow
  | .cont s alter => .cont { s with occurence := s.occurence + 1 } alter
  | f => f

/-- Lines 825-962: matching and dispatch of the parsed line. The notification
callbacks are those of the base class (no-op, no update). -/
def dispatch (lp : LineParser) (p : Params) (s : Scan) (alter : Bool) (toks : List CStr)
    (curLine lineText : CStr) (linePos : Nat) (eolPos1 : Int) : Flow :=
  match s.parents.getLast? with
  | none => .cont s alter
  | some currentParent =>
    match IsMatchingParsedLine p.depth s.parents.length p.expectedParent currentParent.2
        p.keyWord toks.head? with
    | none => .undefined
    | some (tolerantMatch, strictMatch) =>
      if tolerantMatch = true ∧ p.mode < 0 then
        .cont { s with occurence := s.occurence + 1 } alter
      else if strictMatch = true ∧ p.mode ≥ 0 then
        if p.occurence = s.occurence ∨ p.occurence = -1 then
          incOccurence (matchingOccurence lp p s alter toks curLine lineText linePos eolPos1
            currentParent.1 (p.keyWord.getD []))
        else incOccurence (otherOccurence lp p s alter toks)
      else if s.subChunkKeyword.isSome = false ∧ p.keyWord.isSome = true ∧
          p.breakKeyword.isSome = true then
        match toks.head? with
        | none => .undefined
        | some keyword =>
          if some keyword = p.breakKeyword then
            .cont { s with e := { s.e with m_breakParsePatch := true } } alter
          else .cont s alter
      else if s.subChunkKeyword.isSome = true then
        .cont { s with value :=
          (if p.mode = SNM_GET_SUBCHUNK_OR_LINE ∨ p.mode = SNM_GET_SUBCHUNK_OR_LINE_EOL then
            s.value.map (· ++ curLine ++ ['\n']) else s.value) }
          (decide (p.mode = SNM_REPLACE_SUBCHUNK_OR_LINE))
      else .cont s alter

/-- Lines 963-970: count the update, or copy the current line. -/
def finishLine (p : Params) (s : Scan) (alter : Bool) (toks : List CStr) (curLine : CStr) :
    Scan :=
  { s with
    updates := s.updates + (if p.write = true ∧ alter = true then 1 else 0),
    newChunk :=
      (if p.write = true ∧ alter = false ∧ toks ≠ [] then s.newChunk.map (· ++ curLine ++ ['\n'])
       else s.newChunk) }

/-- Lines 767-768: `curLine`, the line cut to `SNM_MAX_CHUNK_LINE_LENGTH-1` bytes if
it is too long. -/
def truncLine (line : CStr) : CStr :=
  line.take
    (if line.length ≥ SNM_MAX_CHUNK_LINE_LENGTH then SNM_MAX_CHUNK_LINE_LENGTH - 1
     else line.length)

/-- Lines 765-970: parsing and processing of the line `line` found at offset `off` of
`pLine` (after the skip, if any); `after` is the text behind its newline. -/
def processLine (lp : LineParser) (p : Params) (s : Scan) (off : Nat) (line after : CStr) :
    Step :=
  let curLineLen := line.length
  let curLine := truncLine line
  let linePos := s.pos + off
  let eolPos1 : Int := ((linePos + curLineLen + 1 : Nat) : Int)
  let lineText := s.rest.drop off
  let s0 := { s with rest := after, pos := linePos + curLineLen + 1 }
  match lp.parse curLine with
  | none => .next s0
  | some toks =>
    match updateParents p s0 toks curLineLen eolPos1 with
    | .ret s1 v => .ret s1 v
    | .undefined => .undefined
    | .cont s1 alter1 =>
      match dispatch lp p s1 alter1 toks curLine lineText linePos eolPos1 with
      | .ret s2 v => .ret s2 v
      | .undefined => .undefined
      | .cont s2 alter2 => .next (finishLine p s2 alter2 toks curLine)

/-- Lines 719-762 without the copies: where the line to parse lies. No offset: it is
the line at `pLine`; offset `k`: it starts at `pLine + k`, behind a skipped region
(`pLine = pEOSkippedChunk; pEOL = strchr(pEOSkippedChunk, '\n');`, undefined when that
`strchr` finds no newline). With it the line, the text behind its newline and the engine. -/
def nextLine (s : Scan) (line after : CStr) :
    Outcome (SNM_ChunkParserPatcher × Option Nat × CStr × CStr) :=
  match detectSkip s line with
  | .undefined => .undefined
  | .outOfFuel => .outOfFuel
  | .ok (e1, none) => .ok (e1, none, line, after)
  | .ok (e1, some k) =>
    match splitLine (s.rest.drop k) with
    | none => .undefined
    | some (line1, after1) => .ok (e1, some k, line1, after1)

/-- One iteration of the `for(;;)` of `ParsePatchCore` (lines 706-971). -/
def iteration (lp : LineParser) (p : Params) (s : Scan) : Step :=
  match splitLine s.rest with
  | none => .brk s
  | some (line, after) =>
    if s.e.m_breakParsePatch = true then
      .brk (if p.write = true then { s with newChunk := s.newChunk.map (· ++ s.rest) } else s)
    else
      match nextLine s line after with
      | .undefined => .undefined
      | .outOfFuel => .fuel
      | .ok (e1, none, line1, after1) => processLine lp p { s with e := e1 } 0 line1 after1
      | .ok (e1, some k, line1, after1) =>
        processLine lp p (copySkipped p { s with e := e1 } k) k line1 after1

/-- The `for(;;)`: the scan state at the `break`, with the value of a `return` taken
inside the loop. -/
def scanLoop (lp : LineParser) (p : Params) : Nat → Scan → Outcome (Scan × Option Int)
  | 0, _ => .outOfFuel
  | fuel + 1, s =>
    match iteration lp p s with
    | .next s1 => scanLoop lp p fuel s1
    | .brk s1 => .ok (s1, none)
    | .ret s1 v => .ok (s1, some v)
    | .undefined => .undefined
    | .fuel => .outOfFuel

/-- What a call of `ParsePatchCore` leaves: the engine, the returned value and what
`_value` points to. -/
structure Result where
  engine : SNM_ChunkParserPatcher
  ret : Int
  value : Option CStr
  deriving DecidableEq, Repr

/-- Lines 991-1026: the value returned after the loop. -/
def returnValue (p : Params) (updates occurence : Nat) : Int :=
  if p.mode = SNM_GET_CHUNK_CHAR ∨ p.mode = SNM_GET_SUBCHUNK_OR_LINE ∨
      p.mode = SNM_GET_SUBCHUNK_OR_LINE_EOL then 0
  else if p.mode = SNM_GETALL_CHUNK_CHAR_EXCEPT then 1
  else if p.mode = SNM_PARSE ∨ p.mode = SNM_PARSE_EXCEPT then 1
  else if p.mode = SNM_COUNT_KEYWORD then occurence
  else if p.mode = SNM_PARSE_AND_PATCH ∨ p.mode = SNM_PARSE_AND_PATCH_EXCEPT ∨
      p.mode = SNM_SET_CHUNK_CHAR ∨ p.mode = SNM_SETALL_CHUNK_CHAR_EXCEPT ∨
      p.mode = SNM_TOGGLE_CHUNK_INT ∨ p.mode = SNM_TOGGLE_CHUNK_INT_EXCEPT ∨
      p.mode = SNM_REPLACE_SUBCHUNK_OR_LINE then updates
  else if p.write = true then updates else 0

/-- The scan state at the start of the loop (lines 697-703); `e` is the engine after
`GetChunk()`. -/
def initScan (e : SNM_ChunkParserPatcher) (p : Params) (value : Option CStr) : Scan :=
  { e := { e with m_isParsingSource := false },
    rest := e.m_chunk, pos := 0,
    newChunk := if p.write = true then some [] else none,
    value := value, updates := 0, occurence := 0, posStartOfSubchunk := -1,
    subChunkKeyword := none, parents := [], allocs := 0 }

/-- Lines 973-986 and 1028: the cache is replaced by the new chunk if the pass made
updates and the new chunk is not empty. -/
def updateCache (p : Params) (s : Scan) : SNM_ChunkParserPatcher :=
  let e1 :=
    match s.newChunk with
    | some newChunk =>
      if p.write = true ∧ s.updates ≠ 0 ∧ newChunk.length ≠ 0 then
        { s.e with m_updates := s.e.m_updates + s.updates, m_chunk := newChunk }
      else s.e
    | none => s.e
  { e1 with m_breakParsePatch := false }

namespace SNM_ChunkParserPatcher

/-- `ParsePatchCore(_write, _mode, _depth, _expectedParent, _keyWord, _occurence,
_tokenPos, _value, _valueExcept, _breakKeyword)` with the callbacks of the base class.
The loop reads at least one byte per iteration, so the chunk length bounds it. -/
def ParsePatchCore (lp : LineParser) (e : SNM_ChunkParserPatcher) (p : Params)
    (value : Option CStr) : Outcome Result :=
  let e1 := e.GetChunk
  match scanLoop lp p (e1.m_chunk.length + 1) (initScan e1 p value) with
  | .ok (s, some v) => .ok { engine := s.e, ret := v, value := s.value }
  | .ok (s, none) =>
    .ok { engine := updateCache p s, ret := returnValue p s.updates s.occurence,
          value := s.value }
  | .undefined => .undefined
  | .outOfFuel => .outOfFuel

/-- `ParsePatch(...)`. -/
def ParsePatch (lp : LineParser) (e : SNM_ChunkParserPatcher) (mode depth : Int)
    (expectedParent keyWord : Option CStr) (occurence tokenPos : Int)
    (value valueExcept breakKeyword : Option CStr) : Outcome Result :=
  e.ParsePatchCore lp
    { write := true, mode := mode, depth := depth, expectedParent := expectedParent,
      keyWord := keyWord, occurence := occurence, tokenPos := tokenPos,
      valueExcept := valueExcept, breakKeyword := breakKeyword } value

/-- `Parse(...)`. -/
def Parse (lp : LineParser) (e : SNM_ChunkParserPatcher) (mode depth : Int)
    (expectedParent keyWord : Option CStr) (occurence tokenPos : Int)
    (value valueExcept breakKeyword : Option CStr) : Outcome Result :=
  e.ParsePatchCore lp
    { write := false, mode := mode, depth := depth, expectedParent := expectedParent,
      keyWord := keyWord, occurence := occurence, tokenPos := tokenPos,
      valueExcept := valueExcept, breakKeyword := breakKeyword } value

/-- `GetSubChunk(_keyword, _depth, _occurence, _chunk, _breakKeyword)`: the engine, the
returned position and the content of `_chunk` afterwards. -/
def GetSubChunk (lp : LineParser) (e : SNM_ChunkParserPatcher) (keyword : Option CStr)
    (depth occurence : Int) (chunk breakKeyword : Option CStr) :
    Outcome (SNM_ChunkParserPatcher × Int × Option CStr) :=
  match keyword with
  | some kw =>
    if depth > 0 then
      match e.Parse lp SNM_GET_SUBCHUNK_OR_LINE depth (some kw) (some ('<' :: kw)) occurence (-1)
          (chunk.map (fun _ => [])) none breakKeyword with
      | .ok r =>
        if r.ret ≤ 0 then .ok (r.engine, -1, r.value.map (fun _ => []))
        else .ok (r.engine, r.ret - 1, r.value)
      | .undefined => .undefined
      | .outOfFuel => .outOfFuel
    else .ok (e, -1, chunk)
  | none => .ok (e, -1, chunk)

/-- `ReplaceSubChunk(_keyword, _depth, _occurence, _newSubChunk, _breakKeyword)`. -/
def ReplaceSubChunk (lp : LineParser) (e : SNM_ChunkParserPatcher) (keyword : Option CStr)
    (depth occurence : Int) (newSubChunk breakKeyword : Option CStr) :
    Outcome (SNM_ChunkParserPatcher × Bool) :=
  match keyword with
  | some kw =>
    if depth > 0 then
      match e.ParsePatch lp SNM_REPLACE_SUBCHUNK_OR_LINE depth (some kw) (some ('<' :: kw))
          occurence 0 newSubChunk none breakKeyword with
      | .ok r => .ok (r.engine, decide (r.ret > 0))
      | .undefined => .undefined
      | .outOfFuel => .outOfFuel
    else .ok (e, false)
  | none => .ok (e, false)

/-- `RemoveSubChunk(_keyword, _depth, _occurence, _breakKeyword)`. -/
def RemoveSubChunk (lp : LineParser) (e : SNM_ChunkParserPatcher) (keyword : Option CStr)
    (depth occurence : Int) (breakKeyword : Option CStr) :
    Outcome (SNM_ChunkParserPatcher × Bool) :=
  e.ReplaceSubChunk lp keyword depth occurence (some []) breakKeyword

/-- `RemoveIds()`: `m_updates` is left alone. -/
def RemoveIds (fuel : Nat) (e : SNM_ChunkParserPatcher) :
    Outcome (SNM_ChunkParserPatcher × Nat) :=
  match RemoveChunkLines fuel e.GetChunk.m_chunk (some "ID \x7b".toList) false '}'.toNat with
  | .ok (n, c) => .ok ({ e.GetChunk with m_chunk := c }, n)
  | .undefined => .undefined
  | .outOfFuel => .outOfFuel

/-- `RemoveLines(const char* _removedKeyword, bool _checkBOL, int _checkEOLChar)`. -/
def RemoveLines (fuel : Nat) (e : SNM_ChunkParserPatcher) (removedKeyword : Option CStr)
    (checkBOL : Bool) (checkEOLChar : Nat) : Outcome (SNM_ChunkParserPatcher × Int) :=
  match RemoveChunkLines fuel e.GetChunk.m_chunk removedKeyword checkBOL checkEOLChar with
  | .ok (n, c) => .ok ({ e.GetChunk with m_chunk := c, m_updates := n }, n)
  | .undefined => .undefined
  | .outOfFuel => .outOfFuel

end SNM_ChunkParserPatcher

/-! ## Definitions used in the statements and proofs -/

open SNM_ChunkParserPatcher

/-- A position found by `strstr` for `needle`. -/
def FoundAt (chunk needle : CStr) : Option Nat → Prop
  | none => True
  | some b => startsWith (chunk.drop b) needle = true

/-- Number of positions a search pointer can still visit. -/
def searchRoom (chunk : CStr) : Option Nat → Nat
  | none => 0
  | some b => chunk.length - b

/-- The engine without the members that a scan updates. -/
def stablePart (e : SNM_ChunkParserPatcher) : SNM_ChunkParserPatcher :=
  { e with m_isParsingSource := false, m_breakParsePatch := false, m_chunkType := 0 }

/-- What the processing of a line keeps of the scan state. -/
def Kept (s s1 : Scan) : Prop :=
  s1.rest = s.rest ∧ s1.pos = s.pos ∧ s1.updates = s.updates ∧
  stablePart s1.e = stablePart s.e ∧ (s.newChunk.isSome = true → s1.newChunk.isSome = true)

/-- `Kept` for the state of a `Flow`. -/
def FlowKept (s : Scan) : Flow → Prop
  | .cont s1 _ => Kept s s1
  | .ret s1 _ => Kept s s1
  | .undefined => True

/-- The built-in modes whose dispatch can alter a line. -/
def AltersLines (mode : Int) : Prop :=
  mode = SNM_SET_CHUNK_CHAR ∨ mode = SNM_SETALL_CHUNK_CHAR_EXCEPT ∨
  mode = SNM_TOGGLE_CHUNK_INT ∨ mode = SNM_TOGGLE_CHUNK_INT_EXCEPT ∨
  mode = SNM_REPLACE_SUBCHUNK_OR_LINE

/-- The alter flag of a `Flow` that goes on is `a`. -/
def FlowAlter (a : Bool) : Flow → Prop
  | .cont _ a1 => a1 = a
  | _ => True

/-- The built-in read/write modes, whose returned value is the update count. -/
def ReadWriteMode (mode : Int) : Prop :=
  mode = SNM_PARSE_AND_PATCH ∨ mode = SNM_PARSE_AND_PATCH_EXCEPT ∨
  mode = SNM_SET_CHUNK_CHAR ∨ mode = SNM_SETALL_CHUNK_CHAR_EXCEPT ∨
  mode = SNM_TOGGLE_CHUNK_INT ∨ mode = SNM_TOGGLE_CHUNK_INT_EXCEPT ∨
  mode = SNM_REPLACE_SUBCHUNK_OR_LINE

/-- The `Flow` is not a `return`. -/
def NoRet : Flow → Prop
  | .ret _ _ => False
  | _ => True

/-- What an iteration of the scan keeps. -/
def StepFacts (p : Params) (s s1 : Scan) : Prop :=
  stablePart s1.e = stablePart s.e ∧
  (s.newChunk.isSome = true → s1.newChunk.isSome = true) ∧
  (¬ AltersLines p.mode → s1.updates = s.updates)

/-- The facts on the outcome of one line or one iteration. -/
def StepOk (p : Params) (s : Scan) (restBound : Nat) : Step → Prop
  | .next s1 => s1.rest.length < restBound ∧ StepFacts p s s1
  | .brk s1 => StepFacts p s s1
  | .ret s1 _ => StepFacts p s s1 ∧ ¬ ReadWriteMode p.mode
  | .undefined => True
  | .fuel => False

/-- Where the scan stands in the Document: the engine (of which the walk reads the
options, the cached chunk type and `m_isParsingSource`), the text not yet read, its
offset, and the parent list. -/
structure Cursor where
  e : SNM_ChunkParserPatcher
  rest : CStr
  pos : Nat
  parents : List (Nat × CStr)
  allocs : Nat
  deriving DecidableEq, Repr

/-- The cursor of a scan state. -/
def Scan.cursor (s : Scan) : Cursor :=
  { e := s.e, rest := s.rest, pos := s.pos, parents := s.parents, allocs := s.allocs }

/-- A scan state standing at a cursor, with nothing else in it. -/
def Cursor.scan (c : Cursor) : Scan :=
  { e := c.e, rest := c.rest, pos := c.pos, newChunk := none, value := none, updates := 0,
    occurence := 0, posStartOfSubchunk := -1, subChunkKeyword := none,
    parents := c.parents, allocs := c.allocs }

/-- The scan state moved to a cursor. -/
def Scan.withCursor (s : Scan) (c : Cursor) : Scan :=
  { s with
    e := c.e,
    rest := c.rest,
    pos := c.pos,
    parents := c.parents,
    allocs := c.allocs }

/-- The parent list maintenance of lines 780-787 and 815-820, which does not depend
on the mode: a line whose first token begins with `<` pushes a parent, one whose first
token begins with `>` pops one. -/
def applyParents (c : Cursor) (toks : List CStr) (curLineLen : Nat) : Cursor :=
  match toks with
  | [] => c
  | keyword :: _ =>
    match keyword with
    | '<' :: name =>
      { c with
        e := { c.e with m_isParsingSource := (c.e.m_isParsingSource ||
          decide (toks.length = 2 ∧ curLineLen > 9 ∧ name = "SOURCE".toList)) },
        parents := c.parents ++ [(c.allocs, name)],
        allocs := c.allocs + 1 }
    | '>' :: _ =>
      { c with
        e := { c.e with m_isParsingSource :=
          (if c.e.m_isParsingSource then decide (GetParent c.parents ≠ "SOURCE".toList)
           else false) },
        parents := c.parents.dropLast }
    | _ => c

/-- A line that the scan tokenizes, that is, a line outside the opaque regions:
`skipped` is the opaque region copied through right before it (empty if none),
`linePos` the offset of the line in the chunk, `line` its bytes without the newline,
`after` the text behind its newline, `toks` its tokens (`none` when the tokenizer
reports an error) and `parents` the names of the open elements, root first, once the
line has pushed or popped its own. -/
structure LineEvent where
  skipped : CStr
  linePos : Nat
  line : CStr
  after : CStr
  toks : Option (List CStr)
  parents : List CStr
  deriving DecidableEq, Repr

/-- One step of the walk over the lines. -/
inductive WalkStep where
  | stop
  | undefined
  | fuel
  | line (ev : LineEvent) (c : Cursor)
  deriving DecidableEq, Repr

/-- The next line that the scan tokenizes from a cursor, by the same opaque-region
rules as the scan (`nextLine`), and the cursor behind it. -/
def walkStep (lp : LineParser) (c : Cursor) : WalkStep :=
  match splitLine c.rest with
  | none => .stop
  | some (line, after) =>
    match nextLine c.scan line after with
    | .undefined => .undefined
    | .outOfFuel => .fuel
    | .ok (e1, k, line1, after1) =>
      let off := k.getD 0
      let c0 : Cursor :=
        { c with e := e1, rest := after1, pos := c.pos + off + line1.length + 1 }
      match lp.parse (truncLine line1) with
      | none =>
        .line { skipped := c.rest.take off, linePos := c.pos + off, line := line1,
                after := after1, toks := none, parents := c.parents.map Prod.snd } c0
      | some toks =>
        .line { skipped := c.rest.take off, linePos := c.pos + off, line := line1,
                after := after1, toks := some toks,
                parents := (applyParents c0 toks line1.length).parents.map Prod.snd }
          (applyParents c0 toks line1.length)

/-- The lines that the scan tokenizes from a cursor on, in document order. -/
def walk (lp : LineParser) : Nat → Cursor → List LineEvent
  | 0, _ => []
  | fuel + 1, c =>
    match walkStep lp c with
    | .line ev c1 => ev :: walk lp fuel c1
    | _ => []

/-- The cursor at the start of a scan of the engine's chunk (`e` is the engine after
`GetChunk()`). -/
def startCursor (e : SNM_ChunkParserPatcher) : Cursor :=
  { e := { e with m_isParsingSource := false },
    rest := e.m_chunk, pos := 0, parents := [], allocs := 0 }

/-- The lines of the cached Document outside its opaque regions, each with its
element stack. -/
def documentLines (lp : LineParser) (e : SNM_ChunkParserPatcher) : List LineEvent :=
  walk lp (e.GetChunk.m_chunk.length + 1) (startCursor e.GetChunk)

/-- The line has first token `keyWord`, its element stack has length `depth` and its
innermost open element is named `parent`. -/
def LineEvent.Matches (depth : Int) (parent keyWord : CStr) (ev : LineEvent) : Prop :=
  ev.toks.bind List.head? = some keyWord ∧ (ev.parents.length : Int) = depth ∧
  ev.parents.getLast? = some parent

instance (depth : Int) (parent keyWord : CStr) (ev : LineEvent) :
    Decidable (ev.Matches depth parent keyWord) := by
  unfold LineEvent.Matches
  infer_instance

/-- The scan state in which the line of a walk step is dispatched when no sub-chunk
is being processed: the cursor is behind the line and the skipped region has been
copied to the new chunk. -/
def Scan.atLine (p : Params) (s : Scan) (ev : LineEvent) (c1 : Cursor) : Scan :=
  { s.withCursor c1 with
    newChunk := if p.write = true then s.newChunk.map (· ++ ev.skipped) else s.newChunk }

/-- What the scan does with the line of a walk step when no sub-chunk is being
processed. -/
def Scan.onLine (lp : LineParser) (p : Params) (s : Scan) (ev : LineEvent) (c1 : Cursor) :
    Step :=
  match ev.toks with
  | none => .next (s.atLine p ev c1)
  | some toks =>
    match dispatch lp p (s.atLine p ev c1) false toks (truncLine ev.line)
        (ev.line ++ '\n' :: ev.after) ev.linePos
        ((ev.linePos + ev.line.length + 1 : Nat) : Int) with
    | .cont s2 a => .next (finishLine p s2 a toks (truncLine ev.line))
    | .ret s2 v => .ret s2 v
    | .undefined => .undefined

/-- The parameters of a count of the lines with keyword `keyWord` at depth `depth`
under `parent`: `Parse(SNM_COUNT_KEYWORD, depth, parent, keyWord, -1, ...)`, no
early-stop keyword. -/
def countParams (depth : Int) (parent keyWord : CStr) (tokenPos : Int)
    (valueExcept : Option CStr) : Params :=
  { write := false, mode := SNM_COUNT_KEYWORD, depth := depth, expectedParent := some parent,
    keyWord := some keyWord, occurence := -1, tokenPos := tokenPos,
    valueExcept := valueExcept, breakKeyword := none }

/-- The Document of the id-removal scenario of the spec. -/
def idScenario : CStr := "<TRACK\nID \x7b\nGUID1\n\x7d\nNAME x\n>\n".toList

/-- The same Document with the id on one line. -/
def idScenarioOneLine : CStr := "<TRACK\nID \x7bGUID1\x7d\nNAME x\n>\n".toList

/-- An engine attached to the buffer `"<A\n>\n"` whose cache holds one pending update. -/
def pendingEngine : SNM_ChunkParserPatcher :=
  { newFromChunk (some "<A\n>\n".toList) false false false false with
    m_chunk := "<A\nB 1\n>\n".toList, m_updates := 1 }

/-- The bypass scenario of the spec: a track with one effect chain. -/
def bypassDoc : CStr := "<TRACK\nNAME foo\n<FXCHAIN\nBYPASS 0\n>\n>\n".toList

/-- The toggle of the bypass scenario: token 1 of `BYPASS` at depth 2 under `FXCHAIN`,
occurence 0. -/
def bypassToggle : Params :=
  { write := true, mode := SNM_TOGGLE_CHUNK_INT, depth := 2,
    expectedParent := some "FXCHAIN".toList, keyWord := some "BYPASS".toList, occurence := 0,
    tokenPos := 1, valueExcept := none, breakKeyword := none }

/-- A track whose effect chain has three effects. -/
def fxChainDoc : CStr :=
  "<TRACK\n<FXCHAIN\nFXID a\nFXID b\n<VST x\n>\nFXID c\n>\n>\n".toList

/-- The scan of `"abcd==\n>\n"` in count mode, about to read its first line. -/
def blobScan : Scan :=
  initScan (newFromChunk (some "abcd==\n>\n".toList) true false false false).GetChunk
    { write := false, mode := SNM_COUNT_KEYWORD, depth := 1, expectedParent := some "A".toList,
      keyWord := some "abcd==".toList, occurence := -1, tokenPos := -1, valueExcept := none,
      breakKeyword := none } none

/-- The parameters of a toggle of token `tokenPos` on occurence `k` of the lines with
keyword `keyWord` at depth `depth` under `parent`:
`ParsePatch(SNM_TOGGLE_CHUNK_INT, depth, parent, keyWord, k, tokenPos, ...)`, no
early-stop keyword. -/
def toggleParams (depth : Int) (parent keyWord : CStr) (k : Nat) (tokenPos : Int)
    (valueExcept : Option CStr) : Params :=
  { write := true, mode := SNM_TOGGLE_CHUNK_INT, depth := depth,
    expectedParent := some parent, keyWord := some keyWord, occurence := (k : Int),
    tokenPos := tokenPos, valueExcept := valueExcept, breakKeyword := none }

/-- What a rebuild copies for a line that no operation alters: the line as given to
the tokenizer and a newline if the line has a token, nothing otherwise. -/
def LineEvent.copied (ev : LineEvent) : CStr :=
  match ev.toks with
  | some (_ :: _) => truncLine ev.line ++ ['\n']
  | _ => []

/-- What a rebuild holds for a run of lines that no operation alters: before each
line the opaque region skipped in front of it. -/
def rebuiltLines (evs : List LineEvent) : CStr :=
  (evs.map (fun ev => ev.skipped ++ ev.copied)).flatten

/-- The text behind the line of an early exit as the rebuild keeps it: all of it if it
still holds a newline, nothing otherwise (`if (!pEOL) break;` comes first). -/
def keptTail (after : CStr) : CStr :=
  if (splitLine after).isSome then after else []

/-- The flipped text of a token that is `"0"` or `"1"`. -/
def flipToken (tok : CStr) : CStr :=
  if tok = "0".toList then "1".toList else "0".toList

/-- The line that `WriteChunkLine` writes for a list of tokens: each token followed by
a blank, the last one by a newline. -/
def tokensLine : List CStr → CStr
  | [] => []
  | t :: ts => t ++ (if ts = [] then ['\n'] else [' ']) ++ tokensLine ts

/-- The scan state once the skipped region in front of the line, if any, has been
copied (lines 750-758). -/
def skipState (p : Params) (s : Scan) (e1 : SNM_ChunkParserPatcher) : Option Nat → Scan
  | none => { s with e := e1 }
  | some k => copySkipped p { s with e := e1 } k

/-- The line closes the sub-chunk being processed (lines 791-793). -/
def closesSub (p : Params) (s : Scan) (toks : List CStr) : Prop :=
  toks.head?.bind List.head? = some '>' ∧ s.subChunkKeyword.isSome = true ∧
  p.depth = s.parents.length ∧
  s.subChunkKeyword = (s.parents.get? (p.depth - 1).toNat).map Prod.fst

/-- The innermost parent's identity, 0 if none. -/
def currentParentId (s : Scan) : Nat :=
  (s.parents.getLast?.map Prod.fst).getD 0

/-- What lines 953-962 do with a line that is no strict match when no early-stop
keyword is given. -/
def nonStrictFlow (p : Params) (s : Scan) (alter : Bool) (curLine : CStr) : Flow :=
  if s.subChunkKeyword.isSome = true then
    .cont { s with value :=
      (if p.mode = SNM_GET_SUBCHUNK_OR_LINE ∨ p.mode = SNM_GET_SUBCHUNK_OR_LINE_EOL then
        s.value.map (· ++ curLine ++ ['\n']) else s.value) }
      (decide (p.mode = SNM_REPLACE_SUBCHUNK_OR_LINE))
  else .cont s alter

/-- The cursor behind a line before the line's own push or pop. -/
def Cursor.behind (c : Cursor) (e1 : SNM_ChunkParserPatcher) (ev : LineEvent) : Cursor :=
  { c with e := e1, rest := ev.after, pos := ev.linePos + ev.line.length + 1 }

/-- The parameters of `ReplaceSubChunk(keyword, depth, k, text)` without early-stop
keyword: `ParsePatch(SNM_REPLACE_SUBCHUNK_OR_LINE, depth, keyword, "<keyword", k, 0,
text)`. -/
def replaceSubParams (depth : Int) (keyword : CStr) (k : Int) : Params :=
  { write := true, mode := SNM_REPLACE_SUBCHUNK_OR_LINE, depth := depth,
    expectedParent := some keyword, keyWord := some ('<' :: keyword), occurence := k,
    tokenPos := 0, valueExcept := none, breakKeyword := none }

/-- The property holds of the result, if there is one. -/
def Outcome.okThen {α : Type} (o : Outcome α) (P : α → Prop) : Prop :=
  match o with
  | .ok x => P x
  | _ => True

/-- The rebuild that a replace pass makes of the lines of a Document: outside the
replaced elements each line is kept as a rebuild keeps it; the opening line of an
element named `keyword` at depth `depth` whose occurence is asked for (`k`, or all of
them for `k = -1`) is replaced by `text` and the lines up to and including the one
that brings the element stack below `depth` are dropped; for `k ≠ -1` the text behind
that line is then kept as it is. `inside` tells whether the first line lies in an
element being replaced, `occ` is the number of opening lines met so far. -/
def replaced (depth : Int) (keyword text : CStr) (k : Int) :
    List LineEvent → Nat → Bool → CStr
  | [], _, _ => []
  | ev :: evs, occ, false =>
    if ev.Matches depth keyword ('<' :: keyword) then
      if k = occ ∨ k = -1 then
        ev.skipped ++ text ++ replaced depth keyword text k evs (occ + 1) true
      else ev.skipped ++ ev.copied ++ replaced depth keyword text k evs (occ + 1) false
    else ev.skipped ++ ev.copied ++ replaced depth keyword text k evs occ false
  | ev :: evs, occ, true =>
    if (ev.parents.length : Int) < depth then
      if k = -1 then replaced depth keyword text k evs occ false else keptTail ev.after
    else replaced depth keyword text k evs occ true

/-- The number of lines that a replace pass counts as updated: the opening line of
each replaced element, the lines inside it that the tokenizer accepts, and its closing
line. -/
def replacedLines (depth : Int) (keyword : CStr) (k : Int) :
    List LineEvent → Nat → Bool → Nat
  | [], _, _ => 0
  | ev :: evs, occ, false =>
    if ev.Matches depth keyword ('<' :: keyword) then
      if k = occ ∨ k = -1 then 1 + replacedLines depth keyword k evs (occ + 1) true
      else replacedLines depth keyword k evs (occ + 1) false
    else replacedLines depth keyword k evs occ false
  | ev :: evs, occ, true =>
    if (ev.parents.length : Int) < depth then
      1 + (if k = -1 then replacedLines depth keyword k evs occ false else 0)
    else (if ev.toks.isSome = true then 1 else 0) + replacedLines depth keyword k evs occ true

/-- The element being processed is still open: it is entry `depth - 1` of the parent
list. -/
def InsideSub (depth : Int) (s : Scan) : Prop :=
  ∃ id, s.subChunkKeyword = some id ∧ depth ≤ (s.parents.length : Int) ∧
    (s.parents.get? (depth - 1).toNat).map Prod.fst = some id

/-- The parameters of `GetSubChunk(keyword, depth, k, chunk)` without early-stop
keyword: `Parse(SNM_GET_SUBCHUNK_OR_LINE, depth, keyword, "<keyword", k, -1, chunk)`. -/
def getSubParams (depth : Int) (keyword : CStr) (k : Int) : Params :=
  { write := false, mode := SNM_GET_SUBCHUNK_OR_LINE, depth := depth,
    expectedParent := some keyword, keyWord := some ('<' :: keyword), occurence := k,
    tokenPos := -1, valueExcept := none, breakKeyword := none }

/-- What a fetch appends for a line inside the fetched sub-chunk: the line as given to
the tokenizer and a newline, nothing if the tokenizer reports an error. -/
def LineEvent.fetched (ev : LineEvent) : CStr :=
  match ev.toks with
  | some _ => truncLine ev.line ++ ['\n']
  | none => []

/-- The chunk type that the engine works with: the cached one, or the one that
`GetChunkType()` computes. -/
def chunkTypeOf (e : SNM_ChunkParserPatcher) : Int := e.GetChunkType.2

/-- What a fetch holds for a run of lines inside the fetched sub-chunk: before each
line the opaque region skipped in front of it. -/
def innerText (evs : List LineEvent) : CStr :=
  (evs.map (fun ev => ev.skipped ++ ev.fetched)).flatten

/-- The text that a fetch returns for an element: its opening line, the lines inside
it, and a closing `>` line in place of the line that closes it. -/
def fetchedText (evi : LineEvent) (inner : List LineEvent) (evj : LineEvent) : CStr :=
  truncLine evi.line ++ ['\n'] ++ innerText inner ++ (evj.skipped ++ ">\n".toList)

/-- A Document with elements named `X` at depth 3 under two different parents. -/
def twoParentsDoc : CStr := "<R\n<A\n<X 1\n>\n>\n<B\n<X 2\n>\n<X 3\n>\n>\n>\n".toList

/-- A Document with two sibling elements named `FX`. -/
def twoFxDoc : CStr := "<T\n<FX a\n>\n<FX b\nP 1\n>\n>\n".toList

/-- Two engines that the traversal cannot tell apart: same options, same
`m_isParsingSource`, same chunk type. -/
def EngSim (e e1 : SNM_ChunkParserPatcher) : Prop :=
  e.m_processBase64 = e1.m_processBase64 ∧
  e.m_processInProjectMIDI = e1.m_processInProjectMIDI ∧
  e.m_processFreeze = e1.m_processFreeze ∧
  e.m_isParsingSource = e1.m_isParsingSource ∧
  chunkTypeOf e = chunkTypeOf e1

/-- Two cursors at the same place with engines that the traversal cannot tell apart. -/
def CurSim (c c1 : Cursor) : Prop :=
  c.rest = c1.rest ∧ c.pos = c1.pos ∧ c.parents = c1.parents ∧ c.allocs = c1.allocs ∧
  EngSim c.e c1.e

/-- The bytes of a run of lines as they stand in the Document: before each line the
opaque region skipped in front of it, behind it its newline. -/
def verbatimLines (evs : List LineEvent) : CStr :=
  (evs.map (fun ev => ev.skipped ++ ev.line ++ ['\n'])).flatten

/-- A Document with an empty line in front of a sub-chunk. -/
def blankLineDoc : CStr := "<A\n\n<B\n>\n>\n".toList

/-- An engine attached to the buffer `"<A\nK 0\n>\n"` whose cache holds an edited
Document with one pending update. -/
def editedEngine (autoCommit : Bool) : SNM_ChunkParserPatcher :=
  { newFromChunk (some "<A\nK 0\n>\n".toList) autoCommit false false false with
    m_chunk := "<A\nK 1\n>\n".toList, m_updates := 1 }

/-- Number of reads of the origin made by one call of `GetChunk()` (lines 230-239):
one if the cache is empty and an origin is attached (the state of the object is
fetched, or the attached buffer is copied), none otherwise. -/
def originReads (e : SNM_ChunkParserPatcher) : Nat :=
  if e.m_chunk.length = 0 then
    match e.m_reaObject with
    | some _ => 1
    | none =>
      match e.m_originalChunk with
      | some _ => 1
      | none => 0
  else 0

/-- An access to the cached Document: a query (`GetChunk()`, `GetChunkType()`, a call
of `ParsePatchCore` that does not write: `Parse` and the helpers built on one call of
it), an edit (`SetChunk(_newChunk, _updates)`, a call of `ParsePatchCore` that writes:
`ParsePatch` and the helpers built on one call of it, `RemoveIds()`, `RemoveLines(...)`),
a commit or `CancelUpdates()`. -/
inductive Access where
  | getChunk
  | setChunk (newChunk : Option CStr) (updates : Int)
  | commit (force : Bool)
  | cancelUpdates
  | getChunkType
  | parsePatchCore (lp : LineParser) (p : Params) (value : Option CStr)
  | removeIds (fuel : Nat)
  | removeLines (fuel : Nat) (removedKeyword : Option CStr) (checkBOL : Bool)
      (checkEOLChar : Nat)

/-- The engine after an access; none if the access does not return. -/
def Access.apply (a : Access) (e : SNM_ChunkParserPatcher) : Option SNM_ChunkParserPatcher :=
  match a with
  | .getChunk => some e.GetChunk
  | .setChunk newChunk updates => some (e.SetChunk newChunk updates)
  | .commit force => some (e.Commit force).1
  | .cancelUpdates => some e.CancelUpdates
  | .getChunkType => some e.GetChunkType.1
  | .parsePatchCore lp p value =>
    match e.ParsePatchCore lp p value with
    | .ok r => some r.engine
    | _ => none
  | .removeIds fuel =>
    match e.RemoveIds fuel with
    | .ok r => some r.1
    | _ => none
  | .removeLines fuel removedKeyword checkBOL checkEOLChar =>
    match e.RemoveLines fuel removedKeyword checkBOL checkEOLChar with
    | .ok r => some r.1
    | _ => none

/-- Number of reads of the origin made by an access: the calls of `GetChunk()` in it.
`SetChunk` calls it once after the counter is set; `Commit` calls it once if the
counter is not zero or the commit is forced, and once more through `SetChunk("", 0)`
when the write-back is done (the cache is then the chunk that was written);
`GetChunkType` calls it once if the type is not cached yet; `ParsePatchCore` calls it
twice in a row (`GetChunk() ? GetChunk()->Get() : NULL`, l.690; the calls of
`GetChunkType()` inside its loop are made while a line is being processed, when the
cache is not empty); `RemoveIds` and `RemoveLines` call it once. -/
def Access.reads (a : Access) (e : SNM_ChunkParserPatcher) : Nat :=
  match a with
  | .getChunk => originReads e
  | .setChunk _ updates => originReads { e with m_updates := updates }
  | .commit force =>
    if e.m_updates ≠ 0 ∨ force = true then
      originReads e + (if (e.Commit force).2 = true then originReads e.GetChunk else 0)
    else 0
  | .cancelUpdates => originReads { e with m_updates := 0 }
  | .getChunkType => if e.m_chunkType < 0 then originReads e else 0
  | .parsePatchCore _ _ _ => originReads e + originReads e.GetChunk
  | .removeIds _ => originReads e
  | .removeLines _ _ _ _ => originReads e

/-- The access is a query: it leaves the cached Document as `GetChunk()` gives it. -/
def Access.IsQuery : Access → Prop
  | .getChunk => True
  | .getChunkType => True
  | .parsePatchCore _ p _ => p.write = false
  | _ => False

/-- Number of reads of the origin made by a sequence of accesses, up to the first one
that does not return. -/
def readsOf : List Access → SNM_ChunkParserPatcher → Nat
  | [], _ => 0
  | a :: rest, e =>
    a.reads e + (match a.apply e with
      | some e1 => readsOf rest e1
      | none => 0)

/-- Number of accesses of a sequence that find the cache empty. -/
def emptyHits : List Access → SNM_ChunkParserPatcher → Nat
  | [], _ => 0
  | a :: rest, e =>
    (if e.m_chunk = [] then 1 else 0) + (match a.apply e with
      | some e1 => emptyHits rest e1
      | none => 0)

/-- The parameters of a set of token `tokenPos` on occurence `k` of the lines with
keyword `keyWord` at depth `depth` under `parent`:
`ParsePatch(SNM_SET_CHUNK_CHAR, depth, parent, keyWord, k, tokenPos, ...)`, no
early-stop keyword. -/
def setParams (depth : Int) (parent keyWord : CStr) (k : Nat) (tokenPos : Int)
    (valueExcept : Option CStr) : Params :=
  { write := true, mode := SNM_SET_CHUNK_CHAR, depth := depth,
    expectedParent := some parent, keyWord := some keyWord, occurence := (k : Int),
    tokenPos := tokenPos, valueExcept := valueExcept, breakKeyword := none }

/-- Whether `WriteChunkLine` reports an update for a line with tokens `toks`: the
value differs from the token and the token index is in range. -/
def isWritten (v : CStr) (tokenPos : Int) (toks : List CStr) : Bool :=
  decide (gettoken_str toks tokenPos ≠ v ∧ 0 ≤ tokenPos ∧ tokenPos < toks.length)

/-- What a write pass puts in the new chunk for a line with tokens `toks` on which
`WriteChunkLine` is called with `v` (lines 597-614 and 963-970): nothing but the copy
of the line if the value equals the token; the tokens re-emitted with the token at
`tokenPos` replaced if it differs, followed by the copy of the line when no token was
replaced (index out of range). -/
def writtenLine (v : CStr) (tokenPos : Int) (toks : List CStr) (curLine : CStr) : CStr :=
  if gettoken_str toks tokenPos ≠ v then
    emitTokens v tokenPos toks 0 ++
      (if 0 ≤ tokenPos ∧ tokenPos < toks.length then [] else curLine ++ ['\n'])
  else curLine ++ ['\n']

/-- The parameters of a set-all-except of token `tokenPos` with target occurence `k` of
the lines with keyword `keyWord` at depth `depth` under `parent`:
`ParsePatch(SNM_SETALL_CHUNK_CHAR_EXCEPT, depth, parent, keyWord, k, tokenPos, ...)`,
no early-stop keyword. -/
def setAllParams (depth : Int) (parent keyWord : CStr) (k : Nat) (tokenPos : Int)
    (valueExcept : Option CStr) : Params :=
  { write := true, mode := SNM_SETALL_CHUNK_CHAR_EXCEPT, depth := depth,
    expectedParent := some parent, keyWord := some keyWord, occurence := (k : Int),
    tokenPos := tokenPos, valueExcept := valueExcept, breakKeyword := none }

/-- The value that a set-all-except pass hands to `WriteChunkLine` on the matching line
that has `occ` matching lines before it: `_valueExcept` (possibly NULL, then the line
is not written) on occurence `k` (lines 860-866), `_value` on the others (lines
919-924). -/
def setAllValue (k : Nat) (v : CStr) (valueExcept : Option CStr) (occ : Nat) : Option CStr :=
  if occ = k then valueExcept else some v

/-- What a set-all-except pass puts in the new chunk for a line, and the number of
updates it counts for it, when `x` is the value for the line if it matches. -/
def LineEvent.setAll (ev : LineEvent) (depth : Int) (parent keyWord : CStr) (tokenPos : Int)
    (x : Option CStr) : CStr × Nat :=
  if ev.Matches depth parent keyWord then
    match x, ev.toks with
    | some x, some toks =>
      (writtenLine x tokenPos toks (truncLine ev.line),
        if isWritten x tokenPos toks = true then 1 else 0)
    | _, _ => (ev.copied, 0)
  else (ev.copied, 0)

/-- The new chunk of a set-all-except pass over the lines `evs`, the first of which has
`occ` matching lines before it. -/
def setAllLines (depth : Int) (parent keyWord : CStr) (k : Nat) (tokenPos : Int) (v : CStr)
    (valueExcept : Option CStr) : List LineEvent → Nat → CStr
  | [], _ => []
  | ev :: evs, occ =>
    ev.skipped ++
      (ev.setAll depth parent keyWord tokenPos (setAllValue k v valueExcept occ)).1 ++
      setAllLines depth parent keyWord k tokenPos v valueExcept evs
        (occ + (if ev.Matches depth parent keyWord then 1 else 0))

/-- The number of updates of a set-all-except pass over the lines `evs`. -/
def setAllCount (depth : Int) (parent keyWord : CStr) (k : Nat) (tokenPos : Int) (v : CStr)
    (valueExcept : Option CStr) : List LineEvent → Nat → Nat
  | [], _ => 0
  | ev :: evs, occ =>
    (ev.setAll depth parent keyWord tokenPos (setAllValue k v valueExcept occ)).2 +
      setAllCount depth parent keyWord k tokenPos v valueExcept evs
        (occ + (if ev.Matches depth parent keyWord then 1 else 0))

/-- `while (*p && *p != '\n') p++` on the text at `p`, whose offset is `pos`: the
offset of the first newline, or of the terminating NUL. -/
def scanForwardFrom : CStr → Nat → Nat
  | [], pos => pos
  | c :: cs, pos => if c = '\n' then pos else scanForwardFrom cs (pos + 1)

/-- `while (pChunk[pos] && pChunk[pos] != '\n') pos++;`. -/
def scanForward (chunk : CStr) (pos : Nat) : Nat :=
  scanForwardFrom (chunk.drop pos) pos

/-- `while (pChunk[pos] && pChunk[pos] != '\n') pos--;`: the offset of the newline (or
NUL) found; undefined when the scan passes the start of the buffer. -/
def scanBackward (chunk : CStr) : Nat → Outcome Nat
  | 0 =>
    match chunk[0]? with
    | none => .ok 0
    | some c => if c = '\n' then .ok 0 else .undefined
  | pos + 1 =>
    match chunk[pos + 1]? with
    | none => .ok (pos + 1)
    | some c => if c = '\n' then .ok (pos + 1) else scanBackward chunk pos

/-- `if (pChunk[pos] && pChunk[pos+1]) return pos+1;` and the final `return -1;` of
`GetLinePos`. -/
def lineStartBehind (chunk : CStr) (pos : Nat) : Int :=
  if chunk[pos]?.isSome = true ∧ chunk[pos + 1]?.isSome = true then ((pos + 1 : Nat) : Int)
  else -1

/-- `GetLinePos(_dir, _parent, _keyword, _depth, _occurence, _breakKeyword)`: the engine
afterwards and the returned position. -/
def SNM_ChunkParserPatcher.GetLinePos (lp : LineParser) (e : SNM_ChunkParserPatcher) (dir : Int)
    (parent keyword : Option CStr) (depth occurence : Int) (breakKeyword : Option CStr) :
    Outcome (SNM_ChunkParserPatcher × Int) :=
  match e.Parse lp SNM_GET_CHUNK_CHAR depth parent keyword occurence 0 none none
      breakKeyword with
  | .undefined => .undefined
  | .outOfFuel => .outOfFuel
  | .ok r =>
    if r.ret > 0 then
      let pos := (r.ret - 1).toNat
      if dir = -1 ∨ dir = 1 then
        if dir = -1 then
          match scanBackward r.engine.m_chunk (if pos ≥ 2 then pos - 2 else pos) with
          | .ok q => .ok (r.engine, lineStartBehind r.engine.m_chunk q)
          | .undefined => .undefined
          | .outOfFuel => .outOfFuel
        else
          .ok (r.engine, lineStartBehind r.engine.m_chunk (scanForward r.engine.m_chunk pos))
      else .ok (r.engine, ((pos : Nat) : Int))
    else .ok (r.engine, -1)

/-- The parameters of the position query of `GetLinePos`:
`Parse(SNM_GET_CHUNK_CHAR, depth, parent, keyWord, k, 0, NULL, NULL, NULL)`. -/
def getPosParams (depth : Int) (parent keyWord : CStr) (k : Nat) : Params :=
  { write := false, mode := SNM_GET_CHUNK_CHAR, depth := depth,
    expectedParent := some parent, keyWord := some keyWord, occurence := (k : Int),
    tokenPos := 0, valueExcept := none, breakKeyword := none }

/-- The Document `"<A\nB 1\nK 1\n>\n"`, whose line `K 1` starts at offset 7. -/
def threeLineDoc : CStr := "<A\nB 1\nK 1\n>\n".toList

/-- The line `K 1` of `threeLineDoc` as the scan meets it. -/
def threeLineDocK : LineEvent :=
  { skipped := [], linePos := 7, line := "K 1".toList, after := ">\n".toList,
    toks := some ["K".toList, "1".toList], parents := ["A".toList] }

/-- Modelled from the spec: the text buffer operation that deletes `len` bytes at
`position` (WDL `WDL_FastString::DeleteSub`, absent from the source). -/
def deleteSub (s : CStr) (position len : Nat) : CStr :=
  s.take position ++ s.drop (position + len)

/-- Modelled from the spec: the text buffer operation that inserts `str` at `position`,
at the end if `position` lies beyond it (WDL `WDL_FastString::Insert`, absent from the
source). -/
def insertAt (s str : CStr) (position : Nat) : CStr :=
  s.take position ++ str ++ s.drop position

/-- `ReplaceLine(int _pos, const char* _str)`: replaces the characters from `_pos` to
the next end of line. -/
def SNM_ChunkParserPatcher.ReplaceLineAt (e : SNM_ChunkParserPatcher) (pos : Int) (str : Option CStr) :
    SNM_ChunkParserPatcher × Bool :=
  if pos ≥ 0 then
    let e1 := e.GetChunk
    if (e1.m_chunk.length : Int) > pos then
      let q := scanForward e1.m_chunk pos.toNat
      if e1.m_chunk[q]? = some '\n' then
        let c1 := deleteSub e1.m_chunk pos.toNat (q + 1 - pos.toNat)
        let c2 :=
          match str with
          | some s => if s ≠ [] then insertAt c1 s pos.toNat else c1
          | none => c1
        ({ e1 with m_chunk := c2, m_updates := e1.m_updates + 1 }, true)
      else (e1, false)
    else (e1, false)
  else (e, false)

/-- `ReplaceLine(_parent, _keyword, _depth, _occurence, _newSubChunk, _breakKeyword)`. -/
def SNM_ChunkParserPatcher.ReplaceLine (lp : LineParser) (e : SNM_ChunkParserPatcher) (parent keyword : Option CStr)
    (depth occurence : Int) (newSubChunk breakKeyword : Option CStr) :
    Outcome (SNM_ChunkParserPatcher × Bool) :=
  match keyword with
  | some kw =>
    if depth ≥ 0 then
      match e.ParsePatch lp SNM_REPLACE_SUBCHUNK_OR_LINE depth parent (some kw) occurence 0
          newSubChunk none breakKeyword with
      | .ok r => .ok (r.engine, decide (r.ret > 0))
      | .undefined => .undefined
      | .outOfFuel => .outOfFuel
    else .ok (e, false)
  | none => .ok (e, false)

/-- `InsertAfterBefore(_dir, _str, _parent, _keyword, _depth, _occurence,
_breakKeyword)`. -/
def SNM_ChunkParserPatcher.InsertAfterBefore (lp : LineParser) (e : SNM_ChunkParserPatcher) (dir : Int)
    (str parent keyword : Option CStr) (depth occurence : Int) (breakKeyword : Option CStr) :
    Outcome (SNM_ChunkParserPatcher × Bool) :=
  match str, keyword with
  | some s, some kw =>
    if s ≠ [] then
      match e.GetLinePos lp dir parent (some kw) depth occurence breakKeyword with
      | .ok (e1, pos) =>
        if pos ≥ 0 then
          .ok ({ e1 with m_chunk := insertAt e1.m_chunk s pos.toNat,
                         m_updates := e1.m_updates + 1 }, true)
        else .ok (e1, false)
      | .undefined => .undefined
      | .outOfFuel => .outOfFuel
    else .ok (e, false)
  | _, _ => .ok (e, false)

/-- An editing operation on the cached Document. -/
inductive Edit where
  | parsePatch (mode depth : Int) (expectedParent keyWord : Option CStr)
      (occurence tokenPos : Int) (value valueExcept breakKeyword : Option CStr)
  | replaceLineAt (pos : Int) (str : Option CStr)
  | replaceLine (parent keyword : Option CStr) (depth occurence : Int)
      (newSubChunk breakKeyword : Option CStr)
  | insertAfterBefore (dir : Int) (str parent keyword : Option CStr) (depth occurence : Int)
      (breakKeyword : Option CStr)
  | removeLines (fuel : Nat) (removedKeyword : Option CStr) (checkBOL : Bool)
      (checkEOLChar : Nat)
  deriving DecidableEq, Repr

/-- Whether the operation is `RemoveLines`. -/
def Edit.isRemoveLines : Edit → Bool
  | .removeLines _ _ _ _ => true
  | _ => false

/-- The engine after an editing operation. -/
def Edit.apply (lp : LineParser) (ed : Edit) (e : SNM_ChunkParserPatcher) :
    Outcome SNM_ChunkParserPatcher :=
  match ed with
  | .parsePatch mode depth expectedParent keyWord occurence tokenPos value valueExcept
      breakKeyword =>
    match e.ParsePatch lp mode depth expectedParent keyWord occurence tokenPos value
        valueExcept breakKeyword with
    | .ok r => .ok r.engine
    | .undefined => .undefined
    | .outOfFuel => .outOfFuel
  | .replaceLineAt pos str => .ok (e.ReplaceLineAt pos str).1
  | .replaceLine parent keyword depth occurence newSubChunk breakKeyword =>
    match e.ReplaceLine lp parent keyword depth occurence newSubChunk breakKeyword with
    | .ok r => .ok r.1
    | .undefined => .undefined
    | .outOfFuel => .outOfFuel
  | .insertAfterBefore dir str parent keyword depth occurence breakKeyword =>
    match e.InsertAfterBefore lp dir str parent keyword depth occurence breakKeyword with
    | .ok r => .ok r.1
    | .undefined => .undefined
    | .outOfFuel => .outOfFuel
  | .removeLines fuel removedKeyword checkBOL checkEOLChar =>
    match e.RemoveLines fuel removedKeyword checkBOL checkEOLChar with
    | .ok r => .ok r.1
    | .undefined => .undefined
    | .outOfFuel => .outOfFuel

/-- The engine after a sequence of editing operations, and whether one of them changed
the cached Document (the chunk that `GetChunk()` gives after it is not the one it gave
before). -/
def applyEdits (lp : LineParser) : List Edit → SNM_ChunkParserPatcher →
    Outcome (SNM_ChunkParserPatcher × Bool)
  | [], e => .ok (e, false)
  | ed :: rest, e =>
    match ed.apply lp e with
    | .ok e1 =>
      match applyEdits lp rest e1 with
      | .ok (e2, m) => .ok (e2, m || decide (e1.GetChunk.m_chunk ≠ e.GetChunk.m_chunk))
      | .undefined => .undefined
      | .outOfFuel => .outOfFuel
    | .undefined => .undefined
    | .outOfFuel => .outOfFuel

/-- The Document (the chunk that `GetChunk()` gives) and the counter of `e1` are those
of `e`. -/
def SameDoc (e e1 : SNM_ChunkParserPatcher) : Prop :=
  e1.GetChunk.m_chunk = e.GetChunk.m_chunk ∧ e1.m_updates = e.m_updates

/-- What an editing operation leaves of the Document and the counter: either both as
they were, or a greater counter. -/
def Grows (e e1 : SNM_ChunkParserPatcher) : Prop :=
  SameDoc e e1 ∨ e.m_updates < e1.m_updates

/-- A line of 8193 bytes: the tokens `X` and 8191 times `y`. -/
def longLine : CStr := 'X' :: ' ' :: List.replicate 8191 'y'

/-- The text behind the first line of `longLineDoc`. -/
def longLineRest : CStr := longLine ++ '\n' :: "K 0\n>\n".toList

/-- A Document whose second line has 8193 bytes. -/
def longLineDoc : CStr := '<' :: 'A' :: '\n' :: longLineRest

/-- The first 8191 bytes of `longLine`. -/
def longLineCut : CStr := 'X' :: ' ' :: List.replicate 8189 'y'

/-- An engine on `longLineDoc` that processes every region of the Document. -/
def longEngine : SNM_ChunkParserPatcher :=
  newFromChunk (some longLineDoc) true true true true

/-- The first line of `longLineDoc`. -/
def longEvent1 : LineEvent :=
  { skipped := [], linePos := 0, line := "<A".toList, after := longLineRest,
    toks := some ["<A".toList], parents := ["A".toList] }

/-- The long line of `longLineDoc`, as the scan reads it. -/
def longEvent2 : LineEvent :=
  { skipped := [], linePos := 3, line := longLine, after := "K 0\n>\n".toList,
    toks := some [['X'], List.replicate 8189 'y'], parents := ["A".toList] }

/-- The line `K 0` of `longLineDoc`. -/
def longEvent3 : LineEvent :=
  { skipped := [], linePos := 8197, line := "K 0".toList, after := ">\n".toList,
    toks := some ["K".toList, "0".toList], parents := ["A".toList] }

/-- The cursor of the walk of `longLineDoc` behind its first line. -/
def longCursor1 : Cursor :=
  { e := { longEngine.GetChunk with m_isParsingSource := false }, rest := longLineRest,
    pos := 3, parents := [(0, "A".toList)], allocs := 1 }

/-- The cursor of the walk of `longLineDoc` behind its long line. -/
def longCursor2 : Cursor :=
  { longCursor1 with rest := "K 0\n>\n".toList, pos := 8197 }

/-- The cursor of the walk of `longLineDoc` behind the line `K 0`. -/
def longCursor3 : Cursor :=
  { longCursor1 with rest := ">\n".toList, pos := 8201 }

/-- A Document whose blob line is followed by a line that ends in `>`. -/
def blobTailDoc : CStr := "<A\nabcd==\nNAME x>\n>\n".toList

/-- What a line leaves of the scan state when no line is dispatched. -/
def Untouched (s s1 : Scan) : Prop :=
  s1.subChunkKeyword = none ∧ s1.updates = s.updates ∧ s1.occurence = s.occurence ∧
  s1.value = s.value

/-- The parameters of a fetch in the end-of-line variant of the element named `keyword`:
`Parse(SNM_GET_SUBCHUNK_OR_LINE_EOL, depth, keyword, "<keyword", k, -1, value)`, no
early-stop keyword. -/
def getEolParams (depth : Int) (keyword : CStr) (k : Int) : Params :=
  { write := false, mode := SNM_GET_SUBCHUNK_OR_LINE_EOL, depth := depth,
    expectedParent := some keyword, keyWord := some ('<' :: keyword), occurence := k,
    tokenPos := -1, valueExcept := none, breakKeyword := none }

/-- The element stack and the is-parsing-source flag are those of `s`. -/
def SameStack (s s1 : Scan) : Prop :=
  s1.parents = s.parents ∧ s1.e.m_isParsingSource = s.e.m_isParsingSource

/-- `SameStack` for the state of a `Flow`. -/
def FlowStack (s : Scan) : Flow → Prop
  | .cont s1 _ => SameStack s s1
  | .ret s1 _ => SameStack s s1
  | .undefined => True

/-- When the is-parsing-source flag is set, an open element is named `SOURCE`. -/
def SourceInv (s : Scan) : Prop :=
  s.e.m_isParsingSource = true → ∃ q ∈ s.parents, q.2 = "SOURCE".toList

/-- `SourceInv` for the state of a `Flow`. -/
def FlowSource : Flow → Prop
  | .cont s1 _ => SourceInv s1
  | .ret s1 _ => SourceInv s1
  | .undefined => True

/-- `SourceInv` for the state of a `Step`. -/
def StepSource : Step → Prop
  | .next s1 => SourceInv s1
  | .brk s1 => SourceInv s1
  | .ret s1 _ => SourceInv s1
  | .undefined => True
  | .fuel => True

/-- The scan state at the start of iteration `n` of the loop, if the loop gets there. -/
def scanState (lp : LineParser) (p : Params) : Nat → Scan → Option Scan
  | 0, s => some s
  | n + 1, s =>
    match iteration lp p s with
    | .next s1 => scanState lp p n s1
    | _ => none

/-- The condition of lines 729-731, under which the scan takes an embedded-event line
as the start of an opaque region. -/
def eventRuleApplies (s : Scan) (line : CStr) : Prop :=
  ¬ (s.e.m_processBase64 = false ∧ line.length > 2 ∧
      line.drop (line.length - 2) = "==".toList) ∧
  s.e.m_processInProjectMIDI = false ∧ s.e.m_isParsingSource = true ∧
  ((line.length > 2 ∧ startsWithNoCase s.rest "E ".toList = true) ∨
   (line.length > 3 ∧ startsWithNoCase s.rest "Em ".toList = true))

/-- Reference definition, after the words of the description: the element stack after a
line with tokens `toks` (`none` if the line does not tokenize): a line whose first token
begins with `<` pushes the rest of that token, one whose first token begins with `>`
pops the innermost element, any other line leaves the stack as it is. -/
def specStackStep (stack : List CStr) : Option (List CStr) → List CStr
  | some (('<' :: name) :: _) => stack ++ [name]
  | some (('>' :: _) :: _) => stack.dropLast
  | _ => stack

/-- The newline-terminated lines of a text, in order; `acc` holds the bytes of the
current line read so far, last first. -/
def linesGo : CStr → CStr → List CStr
  | [], _ => []
  | c :: cs, acc => if c = '\n' then acc.reverse :: linesGo cs [] else linesGo cs (c :: acc)

/-- The newline-terminated lines of a text, in order (a tail without newline is not a
line). -/
def linesOf (s : CStr) : List CStr := linesGo s []

/-- The tokens of each line as the scan tokenizes it. -/
def lineTokens (lp : LineParser) (lines : List CStr) : List (Option (List CStr)) :=
  lines.map (fun l => lp.parse (truncLine l))

/-- Reference definition, after the words of the description: the names, root first, of
the elements opened and not yet closed in a run of lines. -/
def specOpenElements (ts : List (Option (List CStr))) : List CStr :=
  ts.foldl specStackStep []

/-- The line opens an element: its first token begins with `<`. -/
def opensElement : Option (List CStr) → Bool
  | some (('<' :: _) :: _) => true
  | _ => false

/-- The line closes an element: its first token begins with `>`. -/
def closesElement : Option (List CStr) → Bool
  | some (('>' :: _) :: _) => true
  | _ => false

/-- Reference definition, after the words of the description: a well-formed Document, as
a condition on the tokens of its lines: no prefix closes more elements than it opens,
and the whole closes as many as it opens. -/
def SpecWellFormed (ts : List (Option (List CStr))) : Prop :=
  (∀ n, (ts.take n).countP closesElement ≤ (ts.take n).countP opensElement) ∧
  ts.countP closesElement = ts.countP opensElement

/-- The text behind the first `n` newline-terminated lines. -/
def dropLines : Nat → CStr → CStr
  | 0, s => s
  | n + 1, s =>
    match splitLine s with
    | none => s
    | some (_, r) => dropLines n r

/-- The three options that turn the skipping of opaque regions off. -/
def ProcessesAll (e : SNM_ChunkParserPatcher) : Prop :=
  e.m_processBase64 = true ∧ e.m_processInProjectMIDI = true ∧ e.m_processFreeze = true

/-- The parameters of a read of token `tokenPos` on occurence `k` of the lines with
keyword `keyWord` at depth `depth` under `parent`:
`Parse(SNM_GET_CHUNK_CHAR, depth, parent, keyWord, k, tokenPos, value)`. -/
def getTokParams (depth : Int) (parent keyWord : CStr) (k : Nat) (tokenPos : Int) : Params :=
  { write := false, mode := SNM_GET_CHUNK_CHAR, depth := depth,
    expectedParent := some parent, keyWord := some keyWord, occurence := (k : Int),
    tokenPos := tokenPos, valueExcept := none, breakKeyword := none }

/-- The text of the line that `WriteChunkLine` writes for a list of tokens, without its
newline: the tokens separated by single blanks. -/
def spacedLine (toks : List CStr) : CStr :=
  (tokensLine toks).dropLast

/-- The line written for the tokens holds no newline and, cut to the length that the
scan gives to the tokenizer, reads as these tokens again. -/
def ReadsBack (lp : LineParser) (toks : List CStr) : Prop :=
  '\n' ∉ spacedLine toks ∧ lp.parse (truncLine (spacedLine toks)) = some toks

instance (lp : LineParser) (toks : List CStr) : Decidable (ReadsBack lp toks) := by
  unfold ReadsBack
  infer_instance

/-- Whether the marker starts at offset `j` of the buffer. -/
def markerAt (chunk marker : CStr) (j : Nat) : Bool :=
  startsWith (chunk.drop j) marker

/-- The number of markers that start at an offset `j` with `s < j ≤ q`. -/
def markersIn (chunk marker : CStr) (s q : Nat) : Nat :=
  (List.range (q + 1)).countP (fun j => decide (s < j) && markerAt chunk marker j)

/-- Reference definition, after the words of the description of `FindEndOfSubChunk`
(balanced, nesting-aware count): among the markers that start behind offset `s` and not
behind offset `q`, the close markers `"\n>\n"` outnumber the open markers `"\n<"`. -/
def SpecClosesExceed (chunk : CStr) (s q : Nat) : Prop :=
  markersIn chunk "\n<".toList s q < markersIn chunk "\n>\n".toList s q

instance (chunk : CStr) (s q : Nat) : Decidable (SpecClosesExceed chunk s q) := by
  unfold SpecClosesExceed
  infer_instance

/-- Reference definition: what the description of `FindEndOfSubChunk` asks of a result
`r` for a start offset `s`: `-1` when the close markers never outnumber the open
markers, otherwise the end of the first close marker at which they do. -/
def SpecBalancedEnd (chunk : CStr) (s : Nat) (r : Int) : Prop :=
  (r = -1 ∧ ∀ q, s < q → ¬ SpecClosesExceed chunk s q) ∨
  (∃ q : Nat, r = (q : Int) + 3 ∧ s < q ∧ q + 3 ≤ chunk.length ∧
    (chunk.drop q).take 3 = "\n>\n".toList ∧ SpecClosesExceed chunk s q ∧
    ∀ j, s < j → j < q → ¬ SpecClosesExceed chunk s j)

/-- The number of newlines from the search position on (none behind a failed search). -/
def newlinesFrom (chunk : CStr) : Option Nat → Nat
  | none => 0
  | some i => (chunk.drop i).count '\n'

/-- A line without token whose element stack has the searched depth and the searched
parent: on such a line `IsMatchingParsedLine` compares the searched keyword with the
NULL keyword of the line (l.633). -/
def LineEvent.Tokenless (depth : Int) (parent : CStr) (ev : LineEvent) : Prop :=
  ev.toks = some [] ∧ (ev.parents.length : Int) = depth ∧ ev.parents.getLast? = some parent

instance (depth : Int) (parent : CStr) (ev : LineEvent) :
    Decidable (ev.Tokenless depth parent) := by
  unfold LineEvent.Tokenless
  infer_instance

/-- The walk from a cursor comes to the end of the text within the fuel: every region
that the scan skips is followed by a line (lines 759-761 take the `strchr` of the end
of the skipped region without a test). -/
def walkEnds (lp : LineParser) : Nat → Cursor → Bool
  | 0, _ => false
  | fuel + 1, c =>
    match walkStep lp c with
    | .stop => true
    | .line _ c1 => walkEnds lp fuel c1
    | _ => false

/-- The scan of the cached Document comes to the end of its text. -/
def documentEnds (lp : LineParser) (e : SNM_ChunkParserPatcher) : Bool :=
  walkEnds lp (e.GetChunk.m_chunk.length + 1) (startCursor e.GetChunk)

/-- The engine with the early-exit flag lowered. -/
def noBreak (e : SNM_ChunkParserPatcher) : SNM_ChunkParserPatcher :=
  { e with m_breakParsePatch := false }

/-- The scan state holds the buffers that the mode writes through: the new chunk for
the modes that alter lines, the value for the modes that read it. -/
def Scan.Ready (p : Params) (s : Scan) : Prop :=
  (AltersLines p.mode → s.newChunk.isSome = true) ∧
  ((p.mode = SNM_SET_CHUNK_CHAR ∨ p.mode = SNM_SETALL_CHUNK_CHAR_EXCEPT ∨
    p.mode = SNM_GETALL_CHUNK_CHAR_EXCEPT ∨ p.mode = SNM_REPLACE_SUBCHUNK_OR_LINE) →
    s.value.isSome = true)

/-- What the dispatch of a line keeps of the scan state. -/
def Scan.Tracks (s s1 : Scan) : Prop :=
  s1.rest = s.rest ∧ s1.pos = s.pos ∧ s1.parents = s.parents ∧ s1.allocs = s.allocs ∧
  noBreak s1.e = noBreak s.e ∧ s1.newChunk.isSome = s.newChunk.isSome ∧
  s1.value.isSome = s.value.isSome

/-- The dispatch left the occurence counter, the sub-chunk being processed and the
engine as they were. -/
def Scan.Quiet (s s1 : Scan) : Prop :=
  s1.occurence = s.occurence ∧ s1.subChunkKeyword = s.subChunkKeyword ∧ s1.e = s.e

/-- The flow is defined, with the property of its state when it goes on. -/
def FlowDef (P : Scan → Prop) (R : Prop) : Flow → Prop
  | .cont s1 _ => P s1
  | .ret _ _ => R
  | .undefined => False

/-- What the line of a walk step leaves of a scan that goes on: the scan stands at
the cursor behind the line, its buffers are still there, the occurence counter has
counted the line if it is a strict match, and unless the line is the requested
occurence the scan is still outside a sub-chunk with the early-exit flag down. -/
def Scan.After (p : Params) (parent keyWord : CStr) (s : Scan) (ev : LineEvent)
    (c1 : Cursor) (s1 : Scan) : Prop :=
  s1.rest = c1.rest ∧ s1.pos = c1.pos ∧ s1.parents = c1.parents ∧ s1.allocs = c1.allocs ∧
  noBreak s1.e = noBreak c1.e ∧ s1.Ready p ∧
  s1.occurence = s.occurence + (if ev.Matches p.depth parent keyWord then 1 else 0) ∧
  (s.subChunkKeyword = none →
    ¬ (ev.Matches p.depth parent keyWord ∧
      (p.occurence = s.occurence ∨ p.occurence = -1)) →
    s1.subChunkKeyword = none ∧ s1.e = c1.e) ∧
  s1.newChunk.isSome = s.newChunk.isSome ∧ s1.value.isSome = s.value.isSome

/-- The bypass scenario with an empty line in the FX chain, in front of the `BYPASS`
line. -/
def bypassBlankDoc : CStr := "<TRACK\n<FXCHAIN\n\nBYPASS 0\n>\n>\n".toList

/-- An effect chain with an empty line between its two `FXID` lines. -/
def fxBlankDoc : CStr := "<TRACK\n<FXCHAIN\nFXID a\n\nFXID b\n>\n>\n".toList

/-- The Document `"<A\n\n>\n"`: an element that holds an empty line. -/
def blankInsideDoc : CStr := "<A\n\n>\n".toList

/-- The closing line of `longLineDoc`. -/
def longEvent4 : LineEvent :=
  { skipped := [], linePos := 8201, line := ">".toList, after := [],
    toks := some [">".toList], parents := [] }

/-- The cursor of the walk of `longLineDoc` behind its closing line. -/
def longCursor4 : Cursor :=
  { longCursor1 with rest := [], pos := 8203, parents := [] }

/-- The parameters of the same pass without early-stop keyword. -/
def Params.noStop (p : Params) : Params := { p with breakKeyword := none }

/-- A line that the test of the early-stop keyword `b` (l.949) passes over: its first
token is not `b`, and if it has no token it stands outside every element, where the test
is not reached (l.826). -/
def LineEvent.PassesStop (b : CStr) (ev : LineEvent) : Prop :=
  (ev.toks = some [] → ev.parents = []) ∧ ev.toks.bind List.head? ≠ some b

instance (b : CStr) (ev : LineEvent) : Decidable (ev.PassesStop b) := by
  unfold LineEvent.PassesStop
  infer_instance

/-- The engine with the early-exit flag raised. -/
def Scan.raised (s : Scan) : Scan := { s with e := { s.e with m_breakParsePatch := true } }

/-- The step with the early-exit flag raised if the loop goes on. -/
def Step.raised : Step → Step
  | .next s => .next s.raised
  | st => st

/-- The pass asks for every occurence in a mode whose matching lines neither end the
pass nor open a sub-chunk: no get mode, and no replace of a sub-chunk. -/
def Params.AllQuiet (p : Params) : Prop :=
  p.occurence = -1 ∧ p.mode ≠ SNM_GET_CHUNK_CHAR ∧ p.mode ≠ SNM_GET_SUBCHUNK_OR_LINE ∧
  p.mode ≠ SNM_GET_SUBCHUNK_OR_LINE_EOL ∧
  (p.mode = SNM_REPLACE_SUBCHUNK_OR_LINE → p.keyWord.bind List.head? ≠ some '<')

/-- The flow goes on with the sub-chunk being processed and the engine as they were,
or is undefined. -/
def QuietFlow (s : Scan) : Flow → Prop
  | .cont s1 _ => s1.subChunkKeyword = s.subChunkKeyword ∧ s1.e = s.e
  | .ret _ _ => False
  | .undefined => True

/-- The two engines have the same processing options. -/
def SameOptions (e e1 : SNM_ChunkParserPatcher) : Prop :=
  e1.m_processBase64 = e.m_processBase64 ∧
  e1.m_processInProjectMIDI = e.m_processInProjectMIDI ∧
  e1.m_processFreeze = e.m_processFreeze

/-- The line starts no opaque region for the engine (l.719-748): for each kind of
region, the engine processes it or the line does not look like its first line (a line
of more than two bytes that ends with `==`; a line that begins with `E ` or `Em `,
whatever the case; a line that begins with `<FREEZE `). -/
def StartsNoRegion (e : SNM_ChunkParserPatcher) (line : CStr) : Prop :=
  (e.m_processBase64 = true ∨
    ¬ (line.length > 2 ∧ line.drop (line.length - 2) = "==".toList)) ∧
  (e.m_processInProjectMIDI = true ∨
    (startsWithNoCase line "E ".toList = false ∧
      startsWithNoCase line "Em ".toList = false)) ∧
  (e.m_processFreeze = true ∨ startsWith line "<FREEZE ".toList = false)

instance (e : SNM_ChunkParserPatcher) (line : CStr) : Decidable (StartsNoRegion e line) := by
  unfold StartsNoRegion
  infer_instance

/-- The bypass scenario with a blank line in the track. -/
def blankTrackDoc : CStr := "<TRACK\n\nNAME foo\n<FXCHAIN\nBYPASS 0\n>\n>\n".toList

/-- The Document of the bypass scenario after one toggle of `BYPASS`. -/
def bypassOnDoc : CStr := "<TRACK\nNAME foo\n<FXCHAIN\nBYPASS 1\n>\n>\n".toList

/-- What the toggle of the third scenario of C3 leaves: the line `1 x`. -/
def keywordToggled : Result :=
  { engine :=
      { newFromChunk (some "<A\n0 x\n>\n".toList) true false false false with
        m_chunk := "<A\n1 x\n>\n".toList,
        m_updates := 1 },
    ret := 1, value := none }

/-- What the toggle of the fourth scenario of C3 leaves: the line `K 1 a==`. -/
def blobToggled : Result :=
  { engine :=
      { newFromChunk (some "<A\nK 0 \"a==\"\n>\n".toList) true false false false with
        m_chunk := "<A\nK 1 a==\n>\n".toList,
        m_updates := 1,
        m_chunkType := 0 },
    ret := 1, value := none }

/-- A MIDI source with an event line `E` in front of a line `K` whose tokens `GUID` and
`\x7bx` stand two blanks apart, and no `GUID` line. -/
def midiSpacedDoc : CStr := "<ITEM\n<SOURCE MIDI\nE 1 2\nK GUID  \x7bx 0\n>\n>\n".toList

/-- What the toggle of the fifth scenario of C3 leaves: the line `K GUID \x7bx 1`. -/
def guidToggled : Result :=
  { engine :=
      { newFromChunk (some midiSpacedDoc) true false false false with
        m_chunk := "<ITEM\n<SOURCE MIDI\nE 1 2\nK GUID \x7bx 1\n>\n>\n".toList,
        m_updates := 1,
        m_chunkType := 0,
        m_isParsingSource := true },
    ret := 1, value := none }

/-- What the set of the first scenario of C29 leaves: the line `K a b 1`. -/
def quotedSet : Result :=
  { engine :=
      { newFromChunk (some "<A\nK \"a b\" 0\n>\n".toList) true false false false with
        m_chunk := "<A\nK a b 1\n>\n".toList,
        m_updates := 1,
        m_chunkType := 0 },
    ret := 1, value := some "1".toList }

/-- What the set of the second scenario of C29 leaves: the line `K a==`. -/
def blobSet : Result :=
  { engine :=
      { newFromChunk (some "<A\nK 0\n>\n".toList) true false false false with
        m_chunk := "<A\nK a==\n>\n".toList,
        m_updates := 1 },
    ret := 1, value := some "a==".toList }

/-- A MIDI source with an event line `E` in front of a line `K`, and no `GUID` line. -/
def midiSourceDoc : CStr := "<ITEM\n<SOURCE MIDI\nE 1 2\nK GUID 0\n>\n>\n".toList

/-- What the set of the third scenario of C29 leaves: the line `K GUID \x7b1\x7d`. -/
def guidSet : Result :=
  { engine :=
      { newFromChunk (some midiSourceDoc) true false false false with
        m_chunk := "<ITEM\n<SOURCE MIDI\nE 1 2\nK GUID \x7b1\x7d\n>\n>\n".toList,
        m_updates := 1,
        m_chunkType := 0,
        m_isParsingSource := true },
    ret := 1, value := some "\x7b1\x7d".toList }

/-! ## Theorems -/

/-! ## Lemmas on the string functions -/

theorem splitLine_eq {s l r : CStr} (h : splitLine s = some (l, r)) : s = l ++ '\n' :: r := by
  induction s generalizing l r with
  | nil => simp [splitLine] at h
  | cons c cs ih =>
    unfold splitLine at h
    split at h
    · rename_i hc
      simp at h
      obtain ⟨rfl, rfl⟩ := h
      simp [hc]
    · split at h
      · simp at h
      · rename_i l1 r1 h1
        simp at h
        obtain ⟨rfl, rfl⟩ := h
        simp [ih h1]

theorem splitLine_length {s l r : CStr} (h : splitLine s = some (l, r)) :
    l.length + 1 + r.length = s.length := by
  rw [splitLine_eq h]; simp; omega

theorem splitLine_no_newline {s l r : CStr} (h : splitLine s = some (l, r)) : '\n' ∉ l := by
  induction s generalizing l r with
  | nil => simp [splitLine] at h
  | cons c cs ih =>
    unfold splitLine at h
    split at h
    · simp at h
      obtain ⟨rfl, rfl⟩ := h
      simp
    · rename_i hc
      split at h
      · simp at h
      · rename_i l1 r1 h1
        simp at h
        obtain ⟨rfl, rfl⟩ := h
        simp only [List.mem_cons, not_or]
        exact ⟨fun h' => hc h'.symm, ih h1⟩

theorem splitLine_append {l r : CStr} (h : '\n' ∉ l) : splitLine (l ++ '\n' :: r) = some (l, r) := by
  induction l with
  | nil => simp [splitLine]
  | cons c cs ih =>
    simp only [List.mem_cons, not_or] at h
    have hc : c ≠ '\n' := fun h' => h.1 h'.symm
    simp [splitLine, hc, ih h.2]

theorem startsWith_iff {s n : CStr} : startsWith s n = true ↔ ∃ t, s = n ++ t := by
  induction n generalizing s with
  | nil => cases s <;> simp [startsWith]
  | cons d ds ih =>
    cases s with
    | nil => simp [startsWith]
    | cons c cs =>
      simp only [startsWith, Bool.and_eq_true, beq_iff_eq, ih, List.cons_append, List.cons.injEq]
      constructor
      · rintro ⟨rfl, t, rfl⟩; exact ⟨t, rfl, rfl⟩
      · rintro ⟨t, rfl, rfl⟩; exact ⟨rfl, t, rfl⟩

theorem strstr_spec {h n : CStr} {i : Nat} (hs : strstr h n = some i) :
    i + n.length ≤ h.length ∧ startsWith (h.drop i) n = true := by
  induction h generalizing i with
  | nil =>
    unfold strstr at hs
    split at hs
    · rename_i h0
      simp at hs; subst hs
      obtain ⟨t, ht⟩ := startsWith_iff.mp h0
      have : n = [] := by
        cases n with
        | nil => rfl
        | cons a b => simp at ht
      subst this
      simp [h0]
    · simp at hs
  | cons c cs ih =>
    unfold strstr at hs
    split at hs
    · rename_i h0
      simp at hs; subst hs
      obtain ⟨t, ht⟩ := startsWith_iff.mp h0
      refine ⟨?_, by simpa using h0⟩
      rw [ht]; simp
    · simp only [Option.map_eq_some'] at hs
      obtain ⟨j, hj, rfl⟩ := hs
      obtain ⟨h1, h2⟩ := ih hj
      exact ⟨by simp; omega, by simpa using h2⟩

theorem strstrFrom_spec {chunk n : CStr} {start i : Nat} (hstart : start ≤ chunk.length)
    (hs : strstrFrom chunk start n = some i) :
    start ≤ i ∧ i + n.length ≤ chunk.length ∧ startsWith (chunk.drop i) n = true := by
  unfold strstrFrom at hs
  simp only [Option.map_eq_some'] at hs
  obtain ⟨j, hj, rfl⟩ := hs
  obtain ⟨h1, h2⟩ := strstr_spec hj
  refine ⟨by omega, ?_, ?_⟩
  · simp at h1; omega
  · simpa [List.drop_drop, Nat.add_comm] using h2

/-! ## The loops end within their fuel -/

theorem foundAt_lt {chunk needle : CStr} {b : Nat} (hn : needle ≠ [])
    (h : FoundAt chunk needle (some b)) : b + needle.length ≤ chunk.length := by
  obtain ⟨t, ht⟩ := startsWith_iff.mp h
  have := congrArg List.length ht
  simp at this
  have hpos : 0 < needle.length := List.length_pos.mpr hn
  omega

theorem strstrFrom_next {chunk needle : CStr} {b : Nat} (hn : needle ≠ [])
    (h : FoundAt chunk needle (some b)) :
    FoundAt chunk needle (strstrFrom chunk (b + 1) needle) ∧
    searchRoom chunk (strstrFrom chunk (b + 1) needle) < searchRoom chunk (some b) ∧
    ∀ b1, strstrFrom chunk (b + 1) needle = some b1 → b < b1 := by
  have hb := foundAt_lt hn h
  have hpos : 0 < needle.length := List.length_pos.mpr hn
  cases hs : strstrFrom chunk (b + 1) needle with
  | none => simp [FoundAt, searchRoom]; omega
  | some b1 =>
    obtain ⟨h1, h2, h3⟩ := strstrFrom_spec (by omega) hs
    refine ⟨h3, ?_, ?_⟩
    · simp [searchRoom]; omega
    · intro b2 hb2; simp at hb2; omega

theorem FindEndOfSubChunkLoop_total (chunk : CStr) (lo : Nat) :
    ∀ (fuel : Nat) (boc eoc : Option Nat) (depth : Nat),
      FoundAt chunk "\n<".toList boc → FoundAt chunk "\n>\n".toList eoc →
      (∀ e, eoc = some e → lo ≤ e) →
      searchRoom chunk boc + searchRoom chunk eoc < fuel →
      ∃ n : Int, FindEndOfSubChunkLoop chunk fuel boc eoc depth = .ok n ∧
        (n = -1 ∨ ((lo : Int) + 3 ≤ n ∧ n ≤ chunk.length)) := by
  intro fuel
  induction fuel with
  | zero => intro boc eoc depth _ _ _ h; omega
  | succ fuel ih =>
    intro boc eoc depth hb he hlo hroom
    unfold FindEndOfSubChunkLoop
    split
    · rename_i hcond
      have hn1 : "\n<".toList ≠ [] := by decide
      have hn2 : "\n>\n".toList ≠ [] := by decide
      match boc, eoc with
      | some b, none =>
        simp only
        obtain ⟨h1, h2, _⟩ := strstrFrom_next hn1 hb
        exact ih _ _ _ h1 trivial (by simp) (by simp [searchRoom] at *; omega)
      | some b, some e =>
        simp only
        have hel := foundAt_lt hn2 he
        have hlo' := hlo e rfl
        split
        · obtain ⟨h1, h2, _⟩ := strstrFrom_next hn1 hb
          exact ih _ _ _ h1 he hlo (by simp [searchRoom] at *; omega)
        · split
          · split
            · refine ⟨_, rfl, Or.inr ⟨by omega, ?_⟩⟩
              have : ("\n>\n".toList).length = 3 := by decide
              rw [this] at hel
              omega
            · obtain ⟨h1, h2, h3⟩ := strstrFrom_next hn2 he
              refine ih _ _ _ hb h1 ?_ (by simp [searchRoom] at *; omega)
              intro e1 he1
              have := h3 e1 he1
              omega
          · -- boc = eoc is impossible: the second characters differ
            rename_i hbe1 hbe2
            have hbe : b = e := by omega
            subst hbe
            obtain ⟨t1, ht1⟩ := startsWith_iff.mp hb
            obtain ⟨t2, ht2⟩ := startsWith_iff.mp he
            rw [ht1] at ht2
            simp at ht2
      | none, some e =>
        simp only
        have hel := foundAt_lt hn2 he
        have hlo' := hlo e rfl
        split
        · refine ⟨_, rfl, Or.inr ⟨by omega, ?_⟩⟩
          have : ("\n>\n".toList).length = 3 := by decide
          rw [this] at hel
          omega
        · obtain ⟨h1, h2, h3⟩ := strstrFrom_next hn2 he
          refine ih _ _ _ trivial h1 ?_ (by simp [searchRoom] at *; omega)
          intro e1 he1
          have := h3 e1 he1
          omega
      | none, none => exact ⟨_, rfl, Or.inl rfl⟩
    · exact ⟨_, rfl, Or.inl rfl⟩

theorem FindEndOfSubChunk_total (chunk : CStr) (startPos : Int) :
    FindEndOfSubChunk chunk startPos = .undefined ∨
    ∃ n : Int, FindEndOfSubChunk chunk startPos = .ok n ∧
      (n = -1 ∨ (startPos + 4 ≤ n ∧ n ≤ chunk.length)) := by
  unfold FindEndOfSubChunk
  split
  · rename_i h0
    simp only
    split
    · rename_i hlen
      right
      have hb : FoundAt chunk "\n<".toList (strstrFrom chunk (startPos.toNat + 1) "\n<".toList) := by
        cases hs : strstrFrom chunk (startPos.toNat + 1) "\n<".toList with
        | none => trivial
        | some b => exact (strstrFrom_spec hlen hs).2.2
      have he : FoundAt chunk "\n>\n".toList
          (strstrFrom chunk (startPos.toNat + 1) "\n>\n".toList) := by
        cases hs : strstrFrom chunk (startPos.toNat + 1) "\n>\n".toList with
        | none => trivial
        | some b => exact (strstrFrom_spec hlen hs).2.2
      have hlo : ∀ e, strstrFrom chunk (startPos.toNat + 1) "\n>\n".toList = some e →
          startPos.toNat + 1 ≤ e := fun e hs => (strstrFrom_spec hlen hs).1
      have hroom : searchRoom chunk (strstrFrom chunk (startPos.toNat + 1) "\n<".toList) +
          searchRoom chunk (strstrFrom chunk (startPos.toNat + 1) "\n>\n".toList) <
          2 * chunk.length + 2 := by
        have h1 : ∀ o : Option Nat, searchRoom chunk o ≤ chunk.length := by
          intro o; cases o <;> simp [searchRoom]
        have := h1 (strstrFrom chunk (startPos.toNat + 1) "\n<".toList)
        have := h1 (strstrFrom chunk (startPos.toNat + 1) "\n>\n".toList)
        omega
      obtain ⟨n, hn, hb⟩ := FindEndOfSubChunkLoop_total chunk (startPos.toNat + 1) _ _ _ 1
        hb he hlo hroom
      refine ⟨n, hn, ?_⟩
      rcases hb with hb | ⟨hb1, hb2⟩
      · exact Or.inl hb
      · right
        refine ⟨?_, hb2⟩
        have : (startPos.toNat : Int) = startPos := Int.toNat_of_nonneg h0
        push_cast at hb1
        omega
    · exact Or.inl rfl
  · exact Or.inr ⟨-1, rfl, Or.inl rfl⟩

theorem freezeSkipLoop_total (pLine : CStr) :
    ∀ (fuel : Nat) (skippedLen : Int) (acc : Option Nat),
      0 < fuel → (0 ≤ skippedLen → pLine.length - skippedLen.toNat < fuel) →
      freezeSkipLoop pLine fuel skippedLen acc ≠ .outOfFuel := by
  intro fuel
  induction fuel with
  | zero => intro sk acc h; omega
  | succ fuel ih =>
    intro sk acc _ h
    unfold freezeSkipLoop
    split
    · rename_i h0
      split
      · rename_i hsw
        obtain ⟨t, ht⟩ := startsWith_iff.mp hsw
        have hlen : sk.toNat + 8 ≤ pLine.length := by
          have h1 := congrArg List.length ht
          simp at h1
          have : ("<FREEZE ".toList).length = 8 := by decide
          omega
        rcases FindEndOfSubChunk_total pLine sk with hu | ⟨n, hn, hb⟩
        · rw [hu]; simp
        · rw [hn]
          simp only
          have h' := h h0
          apply ih
          · omega
          · intro hn0
            rcases hb with rfl | ⟨hb1, hb2⟩
            · omega
            · have : (sk.toNat : Int) = sk := Int.toNat_of_nonneg h0
              have : (n.toNat : Int) = n := Int.toNat_of_nonneg hn0
              omega
      · simp
    · simp

theorem detectSkip_total (s : Scan) (line : CStr) : detectSkip s line ≠ .outOfFuel := by
  unfold detectSkip
  simp only
  split
  · simp
  · split
    · simp
    · split
      · split
        · rcases FindEndOfSubChunk_total s.rest 0 with hu | ⟨n, hn, _⟩
          · rw [hu]; simp
          · rw [hn]
            simp only
            have := freezeSkipLoop_total s.rest (s.rest.length + 1) n none (by omega)
              (fun _ => by omega)
            split <;> simp_all
        · simp
      · simp

theorem nextLine_total (s : Scan) (line after : CStr) : nextLine s line after ≠ .outOfFuel := by
  unfold nextLine
  have := detectSkip_total s line
  split <;> try simp_all
  split <;> simp

/-! ## What a scan leaves alone -/

theorem stablePart_GetChunk (e : SNM_ChunkParserPatcher) :
    stablePart e.GetChunk = (stablePart e).GetChunk := by
  obtain ⟨c, ac, ro, oc, u, b64, midi, fr, ms, ips, bpp, ct⟩ := e
  cases ro with
  | none =>
    cases oc with
    | none => simp [GetChunk, stablePart]
    | some orig =>
      by_cases h : c.length = 0 <;> simp [GetChunk, stablePart, h]
  | some obj =>
    obtain ⟨st, rc, wr⟩ := obj
    cases st with
    | none => simp [GetChunk, stablePart]
    | some cData =>
      by_cases h : c.length = 0 <;> simp [GetChunk, stablePart, h]

theorem GetChunk_GetChunk (e : SNM_ChunkParserPatcher) : e.GetChunk.GetChunk = e.GetChunk := by
  obtain ⟨c, ac, ro, oc, u, b64, midi, fr, ms, ips, bpp, ct⟩ := e
  cases ro with
  | none =>
    cases oc with
    | none => simp [GetChunk]
    | some orig =>
      by_cases h : c.length = 0
      · by_cases h1 : orig.length = 0 <;> simp [GetChunk, h, h1]
      · simp [GetChunk, h]
  | some obj =>
    obtain ⟨st, rc, wr⟩ := obj
    cases st with
    | none => simp [GetChunk]
    | some cData =>
      by_cases h : c.length = 0
      · by_cases h1 : cData.length = 0 <;> simp [GetChunk, h, h1]
      · simp [GetChunk, h]

theorem stablePart_GetChunkType (e : SNM_ChunkParserPatcher)
    (hf : (stablePart e).GetChunk = stablePart e) :
    stablePart e.GetChunkType.1 = stablePart e := by
  unfold GetChunkType
  split
  · simp only
    show stablePart e.GetChunk = stablePart e
    rw [stablePart_GetChunk, hf]
  · rfl

theorem kept_refl (s : Scan) : Kept s s := ⟨rfl, rfl, rfl, rfl, id⟩

theorem kept_trans {a b c : Scan} (h1 : Kept a b) (h2 : Kept b c) : Kept a c :=
  ⟨h2.1.trans h1.1, h2.2.1.trans h1.2.1, h2.2.2.1.trans h1.2.2.1,
    h2.2.2.2.1.trans h1.2.2.2.1, fun h => h2.2.2.2.2 (h1.2.2.2.2 h)⟩

theorem writeLine_kept (p : Params) (s : Scan) (alter : Bool) (v : Option CStr)
    (toks : List CStr) : FlowKept s (writeLine p s alter v toks) := by
  unfold writeLine WriteChunkLine
  split
  · trivial
  · rename_i c u h
    refine ⟨rfl, rfl, rfl, rfl, ?_⟩
    intro hs
    simp only at hs ⊢
    split at h
    · simp at h
    · split at h
      · split at h
        · simp at h; rw [← h.1]; exact hs
        · split at h
          · simp at h
          · simp at h; rw [← h.1]; rfl
      · simp at h; rw [← h.1]; exact hs

theorem setBreak_kept (p : Params) (s : Scan) (f : Flow) (h : FlowKept s f) :
    FlowKept s (setBreak p f) := by
  cases f with
  | cont s1 a => exact ⟨h.1, h.2.1, h.2.2.1, h.2.2.2.1, h.2.2.2.2⟩
  | ret s1 v => exact h
  | undefined => trivial

theorem incOccurence_kept (s : Scan) (f : Flow) (h : FlowKept s f) :
    FlowKept s (incOccurence f) := by
  cases f with
  | cont s1 a => exact ⟨h.1, h.2.1, h.2.2.1, h.2.2.2.1, h.2.2.2.2⟩
  | ret s1 v => exact h
  | undefined => trivial

theorem setBreak_alter (p : Params) (a : Bool) (f : Flow) (h : FlowAlter a f) :
    FlowAlter a (setBreak p f) := by
  cases f <;> exact h

theorem incOccurence_alter (a : Bool) (f : Flow) (h : FlowAlter a f) :
    FlowAlter a (incOccurence f) := by
  cases f <;> exact h

theorem matchingOccurence_kept (lp : LineParser) (p : Params) (s : Scan) (alter : Bool)
    (toks : List CStr) (curLine lineText : CStr) (linePos : Nat) (eolPos1 : Int)
    (currentParent : Nat) (keyWord : CStr) :
    FlowKept s (matchingOccurence lp p s alter toks curLine lineText linePos eolPos1
      currentParent keyWord) := by
  unfold matchingOccurence
  split
  · exact ⟨rfl, rfl, rfl, rfl, id⟩
  split
  · exact setBreak_kept _ _ _ (writeLine_kept _ _ _ _ _)
  split
  · split
    · split
      · exact writeLine_kept _ _ _ _ _
      · exact kept_refl s
    · exact kept_refl s
  split
  · exact setBreak_kept _ _ _ (kept_refl s)
  split
  · exact setBreak_kept _ _ _ (writeLine_kept _ _ _ _ _)
  split
  · split
    · exact ⟨rfl, rfl, rfl, rfl, fun _ => rfl⟩
    · trivial
  split
  · simp only
    split
    · exact ⟨rfl, rfl, rfl, rfl, id⟩
    · exact ⟨rfl, rfl, rfl, rfl, id⟩
  split
  · simp only
    split
    · exact ⟨rfl, rfl, rfl, rfl, id⟩
    · exact ⟨rfl, rfl, rfl, rfl, id⟩
  · exact kept_refl s

theorem otherOccurence_kept (lp : LineParser) (p : Params) (s : Scan) (alter : Bool)
    (toks : List CStr) : FlowKept s (otherOccurence lp p s alter toks) := by
  unfold otherOccurence
  split
  · split
    · trivial
    · split
      · exact writeLine_kept _ _ _ _ _
      · exact kept_refl s
  split
  · split
    · trivial
    · split
      · exact kept_refl s
      · exact kept_refl s
  split
  · exact writeLine_kept _ _ _ _ _
  · exact kept_refl s

theorem dispatch_kept (lp : LineParser) (p : Params) (s : Scan) (alter : Bool)
    (toks : List CStr) (curLine lineText : CStr) (linePos : Nat) (eolPos1 : Int) :
    FlowKept s (dispatch lp p s alter toks curLine lineText linePos eolPos1) := by
  unfold dispatch
  split
  · exact kept_refl s
  · split
    · trivial
    · split
      · exact ⟨rfl, rfl, rfl, rfl, id⟩
      split
      · split
        · exact incOccurence_kept _ _ (matchingOccurence_kept _ _ _ _ _ _ _ _ _ _ _)
        · exact incOccurence_kept _ _ (otherOccurence_kept _ _ _ _ _)
      split
      · split
        · trivial
        · split
          · exact ⟨rfl, rfl, rfl, rfl, id⟩
          · exact kept_refl s
      split
      · exact ⟨rfl, rfl, rfl, rfl, id⟩
      · exact kept_refl s

theorem updateParents_kept (p : Params) (s : Scan) (toks : List CStr) (curLineLen : Nat)
    (eolPos1 : Int) : FlowKept s (updateParents p s toks curLineLen eolPos1) := by
  unfold updateParents closeElement
  split
  · exact kept_refl s
  · split
    · exact ⟨rfl, rfl, rfl, rfl, id⟩
    · split
      · simp only
        split
        · exact ⟨rfl, rfl, rfl, rfl, id⟩
        · split
          · exact ⟨rfl, rfl, rfl, rfl, id⟩
          · exact ⟨rfl, rfl, rfl, rfl, id⟩
      · exact ⟨rfl, rfl, rfl, rfl, id⟩
    · exact kept_refl s

theorem readWriteMode_ne_get {m : Int} (h : ReadWriteMode m) :
    m ≠ SNM_GET_CHUNK_CHAR ∧ m ≠ SNM_GET_SUBCHUNK_OR_LINE ∧
    m ≠ SNM_GET_SUBCHUNK_OR_LINE_EOL ∧ m ≠ SNM_GETALL_CHUNK_CHAR_EXCEPT := by
  rcases h with h | h | h | h | h | h | h <;> subst h <;> decide

theorem not_altersLines {m : Int} (h : ¬ AltersLines m) :
    m ≠ SNM_SET_CHUNK_CHAR ∧ m ≠ SNM_SETALL_CHUNK_CHAR_EXCEPT ∧
    m ≠ SNM_TOGGLE_CHUNK_INT ∧ m ≠ SNM_TOGGLE_CHUNK_INT_EXCEPT ∧
    m ≠ SNM_REPLACE_SUBCHUNK_OR_LINE :=
  ⟨fun h1 => h (Or.inl h1), fun h1 => h (Or.inr (Or.inl h1)),
   fun h1 => h (Or.inr (Or.inr (Or.inl h1))),
   fun h1 => h (Or.inr (Or.inr (Or.inr (Or.inl h1)))),
   fun h1 => h (Or.inr (Or.inr (Or.inr (Or.inr h1))))⟩

theorem setBreak_noRet (p : Params) (f : Flow) (h : NoRet f) : NoRet (setBreak p f) := by
  cases f <;> exact h

theorem incOccurence_noRet (f : Flow) (h : NoRet f) : NoRet (incOccurence f) := by
  cases f <;> exact h

theorem writeLine_noRet (p : Params) (s : Scan) (alter : Bool) (v : Option CStr)
    (toks : List CStr) : NoRet (writeLine p s alter v toks) := by
  unfold writeLine
  split <;> trivial

theorem updateParents_facts (p : Params) (s : Scan) (toks : List CStr) (curLineLen : Nat)
    (eolPos1 : Int) :
    (¬ AltersLines p.mode → FlowAlter false (updateParents p s toks curLineLen eolPos1)) ∧
    (ReadWriteMode p.mode → NoRet (updateParents p s toks curLineLen eolPos1)) := by
  unfold updateParents closeElement
  constructor
  · intro hm
    split
    · rfl
    · split
      · rfl
      · split
        · simp only
          split
          · rename_i h; exact absurd h (not_altersLines hm).2.2.2.2
          · split
            · trivial
            · rfl
        · rfl
      · rfl
  · intro hm
    split
    · trivial
    · split
      · trivial
      · split
        · simp only
          split
          · trivial
          · split
            · rename_i h1 h2
              rcases h2 with h2 | h2
              · exact absurd h2 (readWriteMode_ne_get hm).2.1
              · exact absurd h2 (readWriteMode_ne_get hm).2.2.1
            · trivial
        · trivial
      · trivial

theorem matchingOccurence_facts (lp : LineParser) (p : Params) (s : Scan) (alter : Bool)
    (toks : List CStr) (curLine lineText : CStr) (linePos : Nat) (eolPos1 : Int)
    (currentParent : Nat) (keyWord : CStr) :
    (¬ AltersLines p.mode → FlowAlter alter (matchingOccurence lp p s alter toks curLine
      lineText linePos eolPos1 currentParent keyWord)) ∧
    (ReadWriteMode p.mode → NoRet (matchingOccurence lp p s alter toks curLine
      lineText linePos eolPos1 currentParent keyWord)) := by
  constructor
  · intro hm
    unfold matchingOccurence
    split
    · trivial
    split
    · rename_i h; exact absurd h (not_altersLines hm).1
    split
    · rename_i h
      rcases h with h | h
      · exact absurd h (not_altersLines hm).2.1
      · exact absurd h (not_altersLines hm).2.2.2.1
    split
    · rfl
    split
    · rename_i h; exact absurd h (not_altersLines hm).2.2.1
    split
    · rename_i h; exact absurd h (not_altersLines hm).2.2.2.2
    split
    · simp only
      split
      · rfl
      · trivial
    split
    · simp only
      split
      · rfl
      · trivial
    · rfl
  · intro hm
    rcases hm with h | h | h | h | h | h | h
    · simp [matchingOccurence, h, setBreak, NoRet]
    · simp [matchingOccurence, h, setBreak, NoRet]
    · simp only [matchingOccurence, h]
      simp
      exact setBreak_noRet _ _ (writeLine_noRet _ _ _ _ _)
    · simp only [matchingOccurence, h]
      simp
      split
      · split <;> first | exact writeLine_noRet _ _ _ _ _ | trivial
      · trivial
    · simp only [matchingOccurence, h]
      simp
      exact setBreak_noRet _ _ (writeLine_noRet _ _ _ _ _)
    · simp only [matchingOccurence, h]
      simp
      split
      · split <;> first | exact writeLine_noRet _ _ _ _ _ | trivial
      · trivial
    · simp only [matchingOccurence, h]
      simp
      split <;> trivial

theorem otherOccurence_facts (lp : LineParser) (p : Params) (s : Scan) (alter : Bool)
    (toks : List CStr) :
    (¬ AltersLines p.mode → FlowAlter alter (otherOccurence lp p s alter toks)) ∧
    (ReadWriteMode p.mode → NoRet (otherOccurence lp p s alter toks)) := by
  constructor
  · intro hm
    unfold otherOccurence
    split
    · rename_i h; exact absurd h (not_altersLines hm).2.1
    split
    · split
      · trivial
      · split
        · trivial
        · rfl
    split
    · rename_i h; exact absurd h (not_altersLines hm).2.2.2.1
    · rfl
  · intro hm
    rcases hm with h | h | h | h | h | h | h
    · simp [otherOccurence, h, NoRet]
    · simp [otherOccurence, h, NoRet]
    · simp [otherOccurence, h, NoRet]
    · simp only [otherOccurence, h]
      simp
      split
      · trivial
      · split <;> first | exact writeLine_noRet _ _ _ _ _ | trivial
    · simp [otherOccurence, h, NoRet]
    · simp only [otherOccurence, h]
      simp
      exact writeLine_noRet _ _ _ _ _
    · simp [otherOccurence, h, NoRet]

theorem dispatch_facts (lp : LineParser) (p : Params) (s : Scan) (alter : Bool)
    (toks : List CStr) (curLine lineText : CStr) (linePos : Nat) (eolPos1 : Int) :
    (¬ AltersLines p.mode → alter = false →
      FlowAlter false (dispatch lp p s alter toks curLine lineText linePos eolPos1)) ∧
    (ReadWriteMode p.mode →
      NoRet (dispatch lp p s alter toks curLine lineText linePos eolPos1)) := by
  unfold dispatch
  constructor
  · intro hm ha
    subst ha
    split
    · rfl
    · split
      · trivial
      · split
        · rfl
        split
        · split
          · exact incOccurence_alter _ _ ((matchingOccurence_facts _ _ _ _ _ _ _ _ _ _ _).1 hm)
          · exact incOccurence_alter _ _ ((otherOccurence_facts _ _ _ _ _).1 hm)
        split
        · split
          · trivial
          · split <;> rfl
        split
        · show decide (p.mode = SNM_REPLACE_SUBCHUNK_OR_LINE) = false
          have := (not_altersLines hm).2.2.2.2
          simp [this]
        · rfl
  · intro hm
    split
    · trivial
    · split
      · trivial
      · split
        · trivial
        split
        · split
          · exact incOccurence_noRet _ ((matchingOccurence_facts _ _ _ _ _ _ _ _ _ _ _).2 hm)
          · exact incOccurence_noRet _ ((otherOccurence_facts _ _ _ _ _).2 hm)
        split
        · split
          · trivial
          · split <;> trivial
        split
        · trivial
        · trivial

theorem stepFacts_refl (p : Params) (s : Scan) : StepFacts p s s := ⟨rfl, id, fun _ => rfl⟩

theorem stepFacts_trans {p : Params} {a b c : Scan} (h1 : StepFacts p a b)
    (h2 : StepFacts p b c) : StepFacts p a c :=
  ⟨h2.1.trans h1.1, fun h => h2.2.1 (h1.2.1 h), fun h => (h2.2.2 h).trans (h1.2.2 h)⟩

theorem kept_stepFacts {p : Params} {s s1 : Scan} (h : Kept s s1) : StepFacts p s s1 :=
  ⟨h.2.2.2.1, h.2.2.2.2, fun _ => h.2.2.1⟩

theorem finishLine_facts (p : Params) (s : Scan) (alter : Bool) (toks : List CStr)
    (curLine : CStr) (ha : ¬ AltersLines p.mode → alter = false) :
    (finishLine p s alter toks curLine).rest = s.rest ∧
    StepFacts p s (finishLine p s alter toks curLine) := by
  refine ⟨rfl, rfl, ?_, ?_⟩
  · intro h
    simp only [finishLine]
    split
    · simpa using h
    · exact h
  · intro hm
    simp [finishLine, ha hm]

theorem processLine_facts (lp : LineParser) (p : Params) (s : Scan) (off : Nat)
    (line after : CStr) :
    StepOk p s (after.length + 1) (processLine lp p s off line after) := by
  unfold processLine
  simp only
  split
  · exact ⟨Nat.lt_succ_self _, rfl, id, fun _ => rfl⟩
  · rename_i toks _
    generalize hs0 : ({ s with rest := after, pos := s.pos + off + line.length + 1 } : Scan) = s0
    have hs0k : StepFacts p s s0 := by subst hs0; exact ⟨rfl, id, fun _ => rfl⟩
    have hs0r : s0.rest = after := by subst hs0; rfl
    have hk1 := updateParents_kept p s0 toks line.length
      ((s.pos + off + line.length + 1 : Nat) : Int)
    have hf1 := updateParents_facts p s0 toks line.length
      ((s.pos + off + line.length + 1 : Nat) : Int)
    split
    · rename_i s1 v h1
      rw [h1] at hk1 hf1
      refine ⟨stepFacts_trans hs0k (kept_stepFacts hk1), fun hm => hf1.2 hm⟩
    · trivial
    · rename_i s1 alter1 h1
      rw [h1] at hk1 hf1
      have hk2 := dispatch_kept lp p s1 alter1 toks
        (truncLine line) (s.rest.drop off) (s.pos + off)
        ((s.pos + off + line.length + 1 : Nat) : Int)
      have hf2 := dispatch_facts lp p s1 alter1 toks
        (truncLine line) (s.rest.drop off) (s.pos + off)
        ((s.pos + off + line.length + 1 : Nat) : Int)
      split
      · rename_i s2 v h2
        rw [h2] at hk2 hf2
        exact ⟨stepFacts_trans (stepFacts_trans hs0k (kept_stepFacts hk1)) (kept_stepFacts hk2), fun hm => hf2.2 hm⟩
      · trivial
      · rename_i s2 alter2 h2
        rw [h2] at hk2 hf2
        have ha : ¬ AltersLines p.mode → alter2 = false :=
          fun hm => hf2.1 hm (hf1.1 hm)
        obtain ⟨hr, hfl⟩ := finishLine_facts p s2 alter2 toks
          (truncLine line) ha
        refine ⟨?_, stepFacts_trans (stepFacts_trans (stepFacts_trans hs0k (kept_stepFacts hk1)) (kept_stepFacts hk2)) hfl⟩
        rw [hr, hk2.1, hk1.1, hs0r]
        exact Nat.lt_succ_self _

theorem stepOk_mono {p : Params} {s s0 : Scan} {n m : Nat} {st : Step} (h : StepOk p s0 n st)
    (hnm : n ≤ m) (h0 : StepFacts p s s0) : StepOk p s m st := by
  cases st with
  | next s1 => exact ⟨Nat.lt_of_lt_of_le h.1 hnm, stepFacts_trans h0 h.2⟩
  | brk s1 => exact stepFacts_trans h0 h
  | ret s1 v => exact ⟨stepFacts_trans h0 h.1, h.2⟩
  | undefined => trivial
  | fuel => exact h

theorem detectSkip_stable (s : Scan) (line : CStr)
    (hE : (stablePart s.e).GetChunk = stablePart s.e) (e1 : SNM_ChunkParserPatcher)
    (k : Option Nat) (h : detectSkip s line = .ok (e1, k)) :
    stablePart e1 = stablePart s.e := by
  unfold detectSkip at h
  simp only at h
  split at h
  · simp at h; rw [← h.1]
  · split at h
    · simp at h; rw [← h.1]
    · split at h
      · split at h
        · split at h
          · split at h
            · simp at h; rw [← h.1]; exact stablePart_GetChunkType _ hE
            · simp at h
            · simp at h
          · simp at h
          · simp at h
        · simp at h; rw [← h.1]; exact stablePart_GetChunkType _ hE
      · simp at h; rw [← h.1]

theorem nextLine_facts (s : Scan) (line after : CStr)
    (hE : (stablePart s.e).GetChunk = stablePart s.e) (hl : after.length + 1 ≤ s.rest.length)
    (e1 : SNM_ChunkParserPatcher) (k : Option Nat) (line1 after1 : CStr)
    (h : nextLine s line after = .ok (e1, k, line1, after1)) :
    stablePart e1 = stablePart s.e ∧ after1.length + 1 ≤ s.rest.length := by
  unfold nextLine at h
  split at h
  · simp at h
  · simp at h
  · rename_i e2 hd
    simp at h
    obtain ⟨rfl, -, -, rfl⟩ := h
    exact ⟨detectSkip_stable s line hE _ _ hd, hl⟩
  · rename_i e2 k2 hd
    split at h
    · simp at h
    · rename_i l2 a2 hsp
      simp at h
      obtain ⟨rfl, -, -, rfl⟩ := h
      refine ⟨detectSkip_stable s line hE _ _ hd, ?_⟩
      have := splitLine_length hsp
      simp at this
      omega

theorem copySkipped_facts (p : Params) (s : Scan) (k : Nat) :
    (copySkipped p s k).rest = s.rest ∧ (copySkipped p s k).pos = s.pos ∧
    StepFacts p s (copySkipped p s k) ∧ (copySkipped p s k).e = s.e := by
  refine ⟨rfl, rfl, ⟨rfl, ?_, fun _ => rfl⟩, rfl⟩
  intro h
  simp only [copySkipped]
  split
  · simpa using h
  · exact h

theorem iteration_facts (lp : LineParser) (p : Params) (s : Scan)
    (hE : (stablePart s.e).GetChunk = stablePart s.e) :
    StepOk p s s.rest.length (iteration lp p s) := by
  unfold iteration
  split
  · exact stepFacts_refl p s
  · rename_i line after hsp
    have hl : after.length + 1 ≤ s.rest.length := by
      have := splitLine_length hsp; omega
    split
    · split
      · refine ⟨rfl, ?_, fun _ => rfl⟩
        intro h; simpa using h
      · exact stepFacts_refl p s
    · have htot := nextLine_total s line after
      split
      · trivial
      · rename_i h; exact htot h
      · rename_i e1 line1 after1 hn
        obtain ⟨h1, h2⟩ := nextLine_facts s line after hE hl _ _ _ _ hn
        exact stepOk_mono (processLine_facts lp p { s with e := e1 } 0 line1 after1) h2
          ⟨h1, id, fun _ => rfl⟩
      · rename_i e1 k line1 after1 hn
        obtain ⟨h1, h2⟩ := nextLine_facts s line after hE hl _ _ _ _ hn
        obtain ⟨-, -, h3, -⟩ := copySkipped_facts p { s with e := e1 } k
        exact stepOk_mono (processLine_facts lp p (copySkipped p { s with e := e1 } k) k line1 after1) h2
          (stepFacts_trans (show StepFacts p s { s with e := e1 } from ⟨h1, id, fun _ => rfl⟩) h3)

theorem scanLoop_facts (lp : LineParser) (p : Params) :
    ∀ (fuel : Nat) (s : Scan), s.rest.length < fuel →
      (stablePart s.e).GetChunk = stablePart s.e →
      match scanLoop lp p fuel s with
      | .ok (s1, r) => StepFacts p s s1 ∧ (r.isSome = true → ¬ ReadWriteMode p.mode)
      | .undefined => True
      | .outOfFuel => False := by
  intro fuel
  induction fuel with
  | zero => intro s h; omega
  | succ fuel ih =>
    intro s hlen hE
    have hit := iteration_facts lp p s hE
    cases hi : iteration lp p s with
    | next s1 =>
      rw [hi] at hit
      have hE1 : (stablePart s1.e).GetChunk = stablePart s1.e := by rw [hit.2.1]; exact hE
      have := ih s1 (by have := hit.1; omega) hE1
      simp only [scanLoop, hi]
      split at this
      · exact ⟨stepFacts_trans hit.2 this.1, this.2⟩
      · trivial
      · exact this.elim
    | brk s1 =>
      rw [hi] at hit
      simp only [scanLoop, hi]
      exact ⟨hit, by simp⟩
    | ret s1 v =>
      rw [hi] at hit
      simp only [scanLoop, hi]
      exact ⟨hit.1, fun _ => hit.2⟩
    | undefined => simp only [scanLoop, hi]
    | fuel =>
      rw [hi] at hit
      exact hit.elim

/-! ## The lines of a Document as the scan meets them -/

theorem nextLine_cursor (s : Scan) (line after : CStr) :
    nextLine s.cursor.scan line after = nextLine s line after := rfl

theorem withCursor_cursor (s : Scan) : s.withCursor s.cursor = s := by
  cases s; rfl

theorem updateParents_normal (p : Params) (s : Scan) (toks : List CStr) (curLineLen : Nat)
    (eolPos1 : Int) (h : s.subChunkKeyword = none) :
    updateParents p s toks curLineLen eolPos1 =
      .cont (s.withCursor (applyParents s.cursor toks curLineLen)) false := by
  match toks with
  | [] => simp [updateParents, applyParents, withCursor_cursor]
  | [] :: tail => simp [updateParents, applyParents, withCursor_cursor]
  | (ch :: name) :: tail =>
    by_cases h1 : ch = '<'
    · subst h1
      simp [updateParents, applyParents, Scan.withCursor, Scan.cursor]
    · by_cases h2 : ch = '>'
      · subst h2
        simp [updateParents, applyParents, Scan.withCursor, Scan.cursor, closeElement, h]
      · have e1 : updateParents p s ((ch :: name) :: tail) curLineLen eolPos1 = .cont s false := by
          unfold updateParents
          split
          · rename_i heq; simp at heq
          · split
            · rename_i heq; simp at heq; exact absurd heq.1.1 h1
            · rename_i heq; simp at heq; exact absurd heq.1.1 h2
            · rfl
        have e2 : applyParents s.cursor ((ch :: name) :: tail) curLineLen = s.cursor := by
          unfold applyParents
          split
          · rename_i heq; simp at heq
          · split
            · rename_i heq; simp at heq; exact absurd heq.1.1 h1
            · rename_i heq; simp at heq; exact absurd heq.1.1 h2
            · rfl
        rw [e1, e2, withCursor_cursor]

theorem nextLine_lineText {s : Scan} {line after : CStr} {e1 : SNM_ChunkParserPatcher}
    {k : Option Nat} {line1 after1 : CStr} (hsp : splitLine s.rest = some (line, after))
    (h : nextLine s line after = .ok (e1, k, line1, after1)) :
    s.rest.drop (k.getD 0) = line1 ++ '\n' :: after1 := by
  unfold nextLine at h
  split at h
  · simp at h
  · simp at h
  · simp at h
    obtain ⟨-, rfl, rfl, rfl⟩ := h
    simpa using splitLine_eq hsp
  · split at h
    · simp at h
    · rename_i l2 a2 hsp2
      simp at h
      obtain ⟨-, rfl, rfl, rfl⟩ := h
      simpa using splitLine_eq hsp2

theorem processLine_normal (lp : LineParser) (p : Params) (s : Scan) (off : Nat)
    (line after : CStr) (hsub : s.subChunkKeyword = none) :
    processLine lp p s off line after =
      match lp.parse (truncLine line) with
      | none => .next { s with rest := after, pos := s.pos + off + line.length + 1 }
      | some toks =>
        match dispatch lp p
            (({ s with rest := after, pos := s.pos + off + line.length + 1 } : Scan).withCursor
              (applyParents
                ({ s with rest := after, pos := s.pos + off + line.length + 1 } : Scan).cursor
                toks line.length))
            false toks (truncLine line) (s.rest.drop off) (s.pos + off)
            ((s.pos + off + line.length + 1 : Nat) : Int) with
        | .cont s2 a => .next (finishLine p s2 a toks (truncLine line))
        | .ret s2 v => .ret s2 v
        | .undefined => .undefined := by
  unfold processLine
  simp only
  cases hp : lp.parse (truncLine line) with
  | none => rfl
  | some toks =>
    simp only
    have hu := updateParents_normal p
      ({ s with rest := after, pos := s.pos + off + line.length + 1 } : Scan) toks line.length
      ((s.pos + off + line.length + 1 : Nat) : Int) hsub
    rw [hu]
    dsimp only
    generalize dispatch lp p _ false toks _ _ _ _ = d
    cases d <;> rfl

theorem copySkipped_normal (p : Params) (s : Scan) (k : Nat) (hsub : s.subChunkKeyword = none) :
    copySkipped p s k =
      { s with newChunk :=
          if p.write = true then s.newChunk.map (· ++ s.rest.take k) else s.newChunk } := by
  simp [copySkipped, hsub]

theorem iteration_normal (lp : LineParser) (p : Params) (s : Scan)
    (hb : s.e.m_breakParsePatch = false) (hsub : s.subChunkKeyword = none) :
    iteration lp p s =
      match walkStep lp s.cursor with
      | .stop => .brk s
      | .undefined => .undefined
      | .fuel => .fuel
      | .line ev c1 => s.onLine lp p ev c1 := by
  have hcur : s.cursor.rest = s.rest := rfl
  cases hsp : splitLine s.rest with
  | none => simp [iteration, walkStep, hcur, hsp]
  | some la =>
    obtain ⟨line, after⟩ := la
    cases hn : nextLine s line after with
    | undefined => simp [iteration, walkStep, hcur, hsp, hb, nextLine_cursor, hn]
    | outOfFuel => simp [iteration, walkStep, hcur, hsp, hb, nextLine_cursor, hn]
    | ok r =>
      obtain ⟨e1, k, line1, after1⟩ := r
      have hlt := nextLine_lineText hsp hn
      simp only [iteration, walkStep, hcur, hsp, hb, nextLine_cursor, hn]
      cases k with
      | none =>
        simp only [Bool.false_eq_true, if_false]
        rw [processLine_normal lp p ({ s with e := e1 } : Scan) 0 line1 after1 hsub]
        simp only [Option.getD_none] at hlt ⊢
        cases hp : lp.parse (truncLine line1) with
        | none =>
          simp only [Scan.onLine, Scan.atLine, Scan.withCursor, Scan.cursor, List.take_zero,
            List.append_nil, Nat.add_zero]
          cases s
          simp
        | some toks =>
          simp only [Scan.onLine, Scan.atLine, Scan.withCursor, Scan.cursor, List.take_zero,
            List.append_nil, Nat.add_zero, hlt]
          cases s
          simp
      | some k =>
        simp only [Bool.false_eq_true, if_false]
        rw [copySkipped_normal p ({ s with e := e1 } : Scan) k hsub]
        have hpl := processLine_normal lp p
          ({ ({ s with e := e1 } : Scan) with
            newChunk := if p.write = true then s.newChunk.map (· ++ s.rest.take k)
              else s.newChunk } : Scan) k line1 after1 hsub
        rw [hpl]
        simp only [Option.getD_some] at hlt ⊢
        cases hp : lp.parse (truncLine line1) with
        | none =>
          simp only [Scan.onLine, Scan.atLine, Scan.withCursor, Scan.cursor]
        | some toks =>
          simp only [Scan.onLine, Scan.atLine, Scan.withCursor, Scan.cursor, hlt]

theorem applyParents_rest (c : Cursor) (toks : List CStr) (n : Nat) :
    (applyParents c toks n).rest = c.rest ∧ (applyParents c toks n).pos = c.pos := by
  unfold applyParents
  split
  · exact ⟨rfl, rfl⟩
  · split <;> exact ⟨rfl, rfl⟩

/-- What a walk step tells about its line: the text at the cursor is the skipped
region, the line, its newline and the text after it; the cursor moves behind the line. -/
theorem walkStep_line {lp : LineParser} {c c1 : Cursor} {ev : LineEvent}
    (h : walkStep lp c = .line ev c1) :
    c.rest = ev.skipped ++ ev.line ++ '\n' :: ev.after ∧
    ev.linePos = c.pos + ev.skipped.length ∧
    c1.rest = ev.after ∧ c1.pos = ev.linePos + ev.line.length + 1 ∧
    ev.parents = c1.parents.map Prod.snd := by
  unfold walkStep at h
  split at h
  · simp at h
  · rename_i line after hsp
    split at h
    · simp at h
    · simp at h
    · rename_i e1 k line1 after1 hn
      have hlt := nextLine_lineText (s := c.scan) hsp hn
      have hlt' : c.rest.drop (k.getD 0) = line1 ++ '\n' :: after1 := hlt
      have hoff : k.getD 0 ≤ c.rest.length := by
        by_contra hgt
        have : c.rest.drop (k.getD 0) = [] := List.drop_eq_nil_of_le (by omega)
        rw [this] at hlt'
        simp at hlt'
      have hdec : c.rest = c.rest.take (k.getD 0) ++ line1 ++ '\n' :: after1 := by
        rw [List.append_assoc, ← hlt', List.take_append_drop]
      simp only at h
      split at h
      · simp at h
        obtain ⟨rfl, rfl⟩ := h
        refine ⟨hdec, ?_, rfl, rfl, rfl⟩
        simp [List.length_take, Nat.min_eq_left hoff]
      · simp at h
        obtain ⟨rfl, rfl⟩ := h
        refine ⟨hdec, ?_, (applyParents_rest _ _ _).1, (applyParents_rest _ _ _).2, rfl⟩
        simp [List.length_take, Nat.min_eq_left hoff]

theorem getLast?_map_snd (l : List (Nat × CStr)) :
    (l.map Prod.snd).getLast? = l.getLast?.map Prod.snd := by
  simp [List.getLast?_eq_getElem?, List.getElem?_map]

theorem count_dispatch (lp : LineParser) (depth : Int) (parent keyWord : CStr)
    (tokenPos : Int) (valueExcept : Option CStr) (s : Scan) (toks : List CStr)
    (curLine lineText : CStr) (linePos : Nat) (eolPos1 : Int)
    (hsub : s.subChunkKeyword = none) :
    dispatch lp (countParams depth parent keyWord tokenPos valueExcept) s false toks curLine
        lineText linePos eolPos1 = .undefined ∨
    dispatch lp (countParams depth parent keyWord tokenPos valueExcept) s false toks curLine
        lineText linePos eolPos1 =
      .cont { s with occurence := s.occurence +
        (if toks.head? = some keyWord ∧ (s.parents.length : Int) = depth ∧
            s.parents.getLast?.map Prod.snd = some parent then 1 else 0) } false := by
  obtain ⟨e, rest, pos, nc, v, u, occ, pss, sck, parents, allocs⟩ := s
  simp only at hsub
  subst hsub
  have hm : ¬ (SNM_COUNT_KEYWORD < 0) := by decide
  have hm2 : SNM_COUNT_KEYWORD ≥ 0 := by decide
  unfold dispatch
  cases hl : parents.getLast? with
  | none =>
    right
    simp [hl]
  | some cp =>
    simp only [countParams, IsMatchingParsedLine, hl]
    by_cases h1 : depth = -1
    · right
      subst h1
      have : ¬ ((parents.length : Int) = -1) := by omega
      simp [this, hm]
    · by_cases h2 : depth = (parents.length : Int)
      · by_cases h3 : cp.2 = parent
        · cases ht : toks.head? with
          | none => left; simp [h1, h2, h3]
          | some pk =>
            right
            by_cases h4 : pk = keyWord
            · simp [h1, h2.symm, h3, h4, incOccurence, matchingOccurence, hm, hm2]
            · simp [h1, h2.symm, h3, h4, hm]
        · right
          simp [h1, h2.symm, h3, hm]
      · right
        have h2' : ¬ ((parents.length : Int) = depth) := fun h => h2 h.symm
        simp [h1, h2, h2', hm]

theorem detectSkip_engine {s : Scan} {line : CStr} {e1 : SNM_ChunkParserPatcher}
    {k : Option Nat} (h : detectSkip s line = .ok (e1, k)) :
    e1 = s.e ∨ e1 = s.e.GetChunkType.1 := by
  unfold detectSkip at h
  simp only at h
  split at h
  · simp at h; exact Or.inl h.1.symm
  · split at h
    · simp at h; exact Or.inl h.1.symm
    · split at h
      · split at h
        · split at h
          · split at h
            · simp at h; exact Or.inr h.1.symm
            · simp at h
            · simp at h
          · simp at h
          · simp at h
        · simp at h; exact Or.inr h.1.symm
      · simp at h; exact Or.inl h.1.symm

theorem GetChunk_break (e : SNM_ChunkParserPatcher) :
    e.GetChunk.m_breakParsePatch = e.m_breakParsePatch := by
  unfold GetChunk
  split
  · split
    · split <;> rfl
    · split <;> rfl
  · rfl

theorem GetChunkType_break (e : SNM_ChunkParserPatcher) :
    e.GetChunkType.1.m_breakParsePatch = e.m_breakParsePatch := by
  unfold GetChunkType
  split
  · exact GetChunk_break e
  · rfl

theorem nextLine_break {s : Scan} {line after : CStr} {e1 : SNM_ChunkParserPatcher}
    {k : Option Nat} {line1 after1 : CStr}
    (h : nextLine s line after = .ok (e1, k, line1, after1)) :
    e1.m_breakParsePatch = s.e.m_breakParsePatch := by
  unfold nextLine at h
  split at h
  · simp at h
  · simp at h
  · rename_i e2 hd
    simp at h
    obtain ⟨rfl, -⟩ := h
    rcases detectSkip_engine hd with h1 | h1 <;> rw [h1]
    exact GetChunkType_break _
  · rename_i e2 k2 hd
    split at h
    · simp at h
    · simp at h
      obtain ⟨rfl, -⟩ := h
      rcases detectSkip_engine hd with h1 | h1 <;> rw [h1]
      exact GetChunkType_break _

theorem applyParents_break (c : Cursor) (toks : List CStr) (n : Nat) :
    (applyParents c toks n).e.m_breakParsePatch = c.e.m_breakParsePatch := by
  unfold applyParents
  split
  · rfl
  · split <;> rfl

theorem walkStep_break {lp : LineParser} {c c1 : Cursor} {ev : LineEvent}
    (h : walkStep lp c = .line ev c1) :
    c1.e.m_breakParsePatch = c.e.m_breakParsePatch := by
  unfold walkStep at h
  split at h
  · simp at h
  · split at h
    · simp at h
    · simp at h
    · rename_i e1 k line1 after1 hn
      have hb := nextLine_break hn
      simp only at h
      split at h
      · simp at h
        obtain ⟨-, rfl⟩ := h
        exact hb
      · simp at h
        obtain ⟨-, rfl⟩ := h
        rw [applyParents_break]
        exact hb

theorem count_onLine (lp : LineParser) (depth : Int) (parent keyWord : CStr)
    (tokenPos : Int) (valueExcept : Option CStr) (s : Scan) (ev : LineEvent) (c1 : Cursor)
    (hw : walkStep lp s.cursor = .line ev c1) (hsub : s.subChunkKeyword = none) :
    s.onLine lp (countParams depth parent keyWord tokenPos valueExcept) ev c1 = .undefined ∨
    s.onLine lp (countParams depth parent keyWord tokenPos valueExcept) ev c1 =
      .next { s.withCursor c1 with occurence := s.occurence +
        (if ev.Matches depth parent keyWord then 1 else 0) } := by
  obtain ⟨-, -, -, -, hpar⟩ := walkStep_line hw
  unfold Scan.onLine
  cases ht : ev.toks with
  | none =>
    right
    have : ¬ ev.Matches depth parent keyWord := by simp [LineEvent.Matches, ht]
    simp only [this, if_false, Nat.add_zero]
    cases s
    rfl
  | some toks =>
    simp only
    have hat : s.atLine (countParams depth parent keyWord tokenPos valueExcept) ev c1 =
        s.withCursor c1 := by
      cases s; rfl
    rw [hat]
    have hsub1 : (s.withCursor c1).subChunkKeyword = none := hsub
    rcases count_dispatch lp depth parent keyWord tokenPos valueExcept (s.withCursor c1) toks
      (truncLine ev.line) (ev.line ++ '\n' :: ev.after) ev.linePos
      ((ev.linePos + ev.line.length + 1 : Nat) : Int) hsub1 with hd | hd
    · left; rw [hd]
    · right
      rw [hd]
      have hiff : (toks.head? = some keyWord ∧ ((s.withCursor c1).parents.length : Int) = depth ∧
          (s.withCursor c1).parents.getLast?.map Prod.snd = some parent) ↔
          ev.Matches depth parent keyWord := by
        simp only [LineEvent.Matches, ht, Option.bind_some, hpar, List.length_map,
          getLast?_map_snd]
        rfl
      simp only [hiff]
      cases s
      simp [finishLine, countParams, Scan.withCursor]

theorem count_scanLoop (lp : LineParser) (depth : Int) (parent keyWord : CStr)
    (tokenPos : Int) (valueExcept : Option CStr) :
    ∀ (fuel : Nat) (s : Scan), s.e.m_breakParsePatch = false → s.subChunkKeyword = none →
      match scanLoop lp (countParams depth parent keyWord tokenPos valueExcept) fuel s with
      | .ok (s1, r) => r = none ∧ s1.occurence = s.occurence +
          (walk lp fuel s.cursor).countP (fun ev => decide (ev.Matches depth parent keyWord))
      | _ => True := by
  intro fuel
  induction fuel with
  | zero => intro s _ _; simp [scanLoop]
  | succ fuel ih =>
    intro s hb hsub
    have hit := iteration_normal lp (countParams depth parent keyWord tokenPos valueExcept) s
      hb hsub
    cases hw : walkStep lp s.cursor with
    | stop =>
      rw [hw] at hit
      simp [scanLoop, hit, walk, hw]
    | undefined =>
      rw [hw] at hit
      simp [scanLoop, hit]
    | fuel =>
      rw [hw] at hit
      simp [scanLoop, hit]
    | line ev c1 =>
      rw [hw] at hit
      simp only at hit
      rcases count_onLine lp depth parent keyWord tokenPos valueExcept s ev c1 hw hsub
        with ho | ho
      · rw [ho] at hit
        simp [scanLoop, hit]
      · rw [ho] at hit
        have hb1 : c1.e.m_breakParsePatch = false := (walkStep_break hw).trans hb
        have := ih { s.withCursor c1 with occurence := s.occurence +
          (if ev.Matches depth parent keyWord then 1 else 0) } hb1 hsub
        simp only [scanLoop, hit, walk, hw]
        split at this
        · rename_i s1 r hs
          have hc : ({ s.withCursor c1 with occurence := s.occurence +
            (if ev.Matches depth parent keyWord then 1 else 0) } : Scan).cursor = c1 := by
            cases s; rfl
          rw [hc] at this
          rw [hs]
          simp only
          refine ⟨this.1, ?_⟩
          rw [this.2, List.countP_cons]
          simp only [decide_eq_true_eq]
          split <;> omega
        · trivial

theorem RemoveChunkLinesLoop_none (searchStr : CStr) (checkBOL : Bool) (checkEOLChar fuel : Nat)
    (chunk : CStr) (updates : Nat) :
    RemoveChunkLinesLoop searchStr checkBOL checkEOLChar fuel chunk none updates =
      .ok (updates, chunk) := by
  cases fuel <;> rfl

/-- C8 (counterexample): on the Document of the scenario, no run of `RemoveAllIds`
returns one update with the content `"<TRACK\n \nNAME x\n>\n"`: the line `ID {` does
not end in `}`. -/
theorem c8_counterexample :
    ¬ ∃ fuel, RemoveAllIds fuel idScenario = .ok (1, "<TRACK\n \nNAME x\n>\n".toList) := by
  rintro ⟨fuel, h⟩
  cases fuel with
  | zero => exact absurd h (by decide)
  | succ n =>
    have h1 : RemoveAllIds (n + 1) idScenario =
        RemoveChunkLinesLoop "ID \x7b".toList false '}'.toNat n idScenario none 0 := rfl
    rw [h1, RemoveChunkLinesLoop_none] at h
    exact absurd h (by decide)

/-- C8 (amended): removing all ids from `"<TRACK\nID {\nGUID1\n}\nNAME x\n>\n"` leaves
it unchanged with an update count of 0 (the line `ID {` does not end in `}`), and from
`"<TRACK\nID {GUID1}\nNAME x\n>\n"`, where the id is on one line, it overwrites the ten
bytes of that line with spaces, the length unchanged, with an update count of 1. -/
theorem c8_remove_all_ids_scenario (fuel : Nat) :
    RemoveAllIds (fuel + 1) idScenario = .ok (0, idScenario) ∧
    RemoveAllIds (fuel + 1) idScenarioOneLine =
      .ok (1, "<TRACK\n          \nNAME x\n>\n".toList) := by
  have h1 : RemoveAllIds (fuel + 1) idScenario =
      RemoveChunkLinesLoop "ID \x7b".toList false '}'.toNat fuel idScenario none 0 := rfl
  have h2 : RemoveAllIds (fuel + 1) idScenarioOneLine =
      RemoveChunkLinesLoop "ID \x7b".toList false '}'.toNat fuel
        "<TRACK\n          \nNAME x\n>\n".toList none 1 := rfl
  rw [h1, h2, RemoveChunkLinesLoop_none, RemoveChunkLinesLoop_none]
  exact ⟨rfl, rfl⟩

/-! ### Commit -/

/-- C10 (counterexample): a forced commit of an engine attached to an empty buffer
returns false. -/
theorem c10_counterexample :
    ((newFromChunk (some []) true false false false).Commit true).2 = false := by
  decide

/-- C10 (amended): for an engine attached to an in-memory origin buffer, Commit with
a zero counter and no force returns false and changes nothing; with a non-zero counter
or forced, if the cached Document (the chunk `GetChunk()` gives) is not empty, Commit
makes the origin equal to it, clears the cache, zeroes the counter and returns true;
if that Document is empty, Commit returns false and changes nothing. -/
theorem c10_commit (e : SNM_ChunkParserPatcher) (force : Bool) (orig : CStr)
    (hobj : e.m_reaObject = none) (horig : e.m_originalChunk = some orig) :
    ((e.m_updates = 0 ∧ force = false) → e.Commit force = (e, false)) ∧
    ((e.m_updates ≠ 0 ∨ force = true) → e.GetChunk.m_chunk ≠ [] →
      (e.Commit force).2 = true ∧
      (e.Commit force).1.m_originalChunk = some e.GetChunk.m_chunk ∧
      (e.Commit force).1.m_chunk = [] ∧ (e.Commit force).1.m_updates = 0) ∧
    ((e.m_updates ≠ 0 ∨ force = true) → e.GetChunk.m_chunk = [] →
      e.Commit force = (e, false)) := by
  have hg : e.GetChunk = if e.m_chunk.length = 0 then { e with m_chunk := orig } else e := by
    simp [GetChunk, hobj, horig]
  refine ⟨?_, ?_, ?_⟩
  · rintro ⟨h0, hf⟩
    simp [Commit, h0, hf]
  · intro h hne
    have hlen : e.GetChunk.m_chunk.length ≠ 0 := by
      simpa [List.length_eq_zero] using hne
    have hobj1 : e.GetChunk.m_reaObject = none := by
      rw [hg]; split <;> simp [hobj]
    have horig1 : e.GetChunk.m_originalChunk = some orig := by
      rw [hg]; split <;> simp [horig]
    simp only [Commit, if_pos h, if_pos hlen, hobj1, horig1]
    simp [SetChunk, GetChunk]
  · intro h he
    have hlen : e.GetChunk.m_chunk.length = 0 := by simp [he]
    have hge : e.GetChunk = e := by
      have h1 := he
      rw [hg] at h1 ⊢
      split at h1
      · rename_i hz
        have : e.m_chunk = [] := List.length_eq_zero.mp hz
        simp only [hz, if_true]
        cases e
        simp_all
      · rename_i hz; simp [hz]
    simp only [Commit, if_pos h, hlen]
    simp [hge]

/-- C10 (witness): a pending update is written back to the origin buffer. -/
theorem c10_commit_witness :
    pendingEngine.m_reaObject = none ∧
    pendingEngine.m_originalChunk = some "<A\n>\n".toList ∧
    (pendingEngine.Commit false).2 = true ∧
    (pendingEngine.Commit false).1.m_originalChunk = some "<A\nB 1\n>\n".toList ∧
    (pendingEngine.Commit false).1.m_chunk = [] ∧
    (pendingEngine.Commit false).1.m_updates = 0 :=
  ⟨rfl, rfl, (c10_commit pendingEngine false "<A\n>\n".toList rfl rfl).2.1
      (Or.inl (by decide)) (by decide)⟩

theorem initScan_filled (e : SNM_ChunkParserPatcher) (p : Params) (value : Option CStr) :
    (stablePart (initScan e.GetChunk p value).e).GetChunk =
      stablePart (initScan e.GetChunk p value).e := by
  show (stablePart e.GetChunk).GetChunk = stablePart e.GetChunk
  rw [← stablePart_GetChunk, GetChunk_GetChunk]

theorem returnValue_alters {p : Params} (h : AltersLines p.mode) (updates occurence : Nat) :
    returnValue p updates occurence = updates := by
  rcases h with h | h | h | h | h <;> simp [returnValue, h]

theorem GetChunk_m_updates (e : SNM_ChunkParserPatcher) : e.GetChunk.m_updates = e.m_updates := by
  unfold GetChunk
  split
  · split
    · split <;> rfl
    · split <;> rfl
  · rfl

/-- C1: every call of ParsePatchCore (Parse or ParsePatch, any mode) ends within its
fuel, and when it returns, the cached Document (the chunk that `GetChunk()` gives
before the call) and the update counter are unchanged, unless the call is a write pass
in a line-altering mode that returns a non-zero update count, by which the counter
has grown. -/
theorem c1_cache_frame (lp : LineParser) (e : SNM_ChunkParserPatcher) (p : Params)
    (value : Option CStr) :
    match e.ParsePatchCore lp p value with
    | .ok r =>
      (r.engine.m_chunk = e.GetChunk.m_chunk ∧ r.engine.m_updates = e.m_updates) ∨
      (p.write = true ∧ AltersLines p.mode ∧ r.ret ≠ 0 ∧
        r.engine.m_updates = e.m_updates + r.ret)
    | .undefined => True
    | .outOfFuel => False := by
  have hf := scanLoop_facts lp p (e.GetChunk.m_chunk.length + 1) (initScan e.GetChunk p value)
    (Nat.lt_succ_self _) (initScan_filled e p value)
  unfold ParsePatchCore
  simp only
  cases hs : scanLoop lp p (e.GetChunk.m_chunk.length + 1) (initScan e.GetChunk p value) with
  | ok sr =>
    obtain ⟨s, r⟩ := sr
    rw [hs] at hf
    obtain ⟨⟨hst, -, hup⟩, -⟩ := hf
    have hchunk : s.e.m_chunk = e.GetChunk.m_chunk := congrArg (·.m_chunk) hst
    have hupd : s.e.m_updates = e.m_updates :=
      (congrArg (·.m_updates) hst).trans (GetChunk_m_updates e)
    cases r with
    | some v => exact Or.inl ⟨hchunk, hupd⟩
    | none =>
      simp only
      unfold updateCache
      simp only
      split
      · rename_i newChunk hnc
        split
        · rename_i hcond
          right
          have hal : AltersLines p.mode := by
            by_contra hna
            have := hup hna
            simp [initScan] at this
            exact hcond.2.1 this
          rw [returnValue_alters hal]
          refine ⟨hcond.1, hal, ?_, ?_⟩
          · exact_mod_cast hcond.2.1
          · simp [hupd]
        · exact Or.inl ⟨hchunk, hupd⟩
      · exact Or.inl ⟨hchunk, hupd⟩
  | undefined => trivial
  | outOfFuel => rw [hs] at hf; exact hf

/-- C9 (counterexample): removing the only sub-chunk of `"<A\n>\n"` is a write pass
that returns 2 updates, yet the rebuilt buffer is empty and the cache and the counter
are left as they were. -/
theorem c9_counterexample :
    ∃ r s, (newFromChunk (some "<A\n>\n".toList) true false false false).ParsePatch wdlLineParser
        SNM_REPLACE_SUBCHUNK_OR_LINE 1 (some "A".toList) (some "<A".toList) 0 0 (some [])
        none none = .ok r ∧
      scanLoop wdlLineParser
        { write := true, mode := SNM_REPLACE_SUBCHUNK_OR_LINE, depth := 1,
          expectedParent := some "A".toList, keyWord := some "<A".toList, occurence := 0,
          tokenPos := 0, valueExcept := none, breakKeyword := none } 6
        (initScan (newFromChunk (some "<A\n>\n".toList) true false false false).GetChunk
          { write := true, mode := SNM_REPLACE_SUBCHUNK_OR_LINE, depth := 1,
            expectedParent := some "A".toList, keyWord := some "<A".toList, occurence := 0,
            tokenPos := 0, valueExcept := none, breakKeyword := none } (some [])) =
        .ok (s, none) ∧
      s.newChunk = some [] ∧ r.ret = 2 ∧
      r.engine.m_chunk = "<A\n>\n".toList ∧ r.engine.m_updates = 0 :=
  ⟨_, _, rfl, rfl, rfl, rfl, rfl, rfl⟩

theorem returnValue_readWrite {p : Params} (h : ReadWriteMode p.mode) (updates occurence : Nat) :
    returnValue p updates occurence = updates := by
  rcases h with h | h | h | h | h | h | h <;> simp [returnValue, h]

/-- C9 (amended): a write pass in a built-in read/write mode that returns a non-zero
count ran the scan to its end; the count is the pass's update count; if the rebuilt
buffer is not empty, the cache is exactly that buffer and the update counter has grown
by the count; if the rebuilt buffer is empty, the cache and the counter are unchanged. -/
theorem c9_cache_swap (lp : LineParser) (e : SNM_ChunkParserPatcher) (p : Params)
    (value : Option CStr) (r : Result) (hw : p.write = true) (hm : ReadWriteMode p.mode)
    (h : e.ParsePatchCore lp p value = .ok r) (hr : r.ret ≠ 0) :
    ∃ s newChunk,
      scanLoop lp p (e.GetChunk.m_chunk.length + 1) (initScan e.GetChunk p value) =
        .ok (s, none) ∧
      s.newChunk = some newChunk ∧ r.ret = s.updates ∧
      (newChunk ≠ [] →
        r.engine.m_chunk = newChunk ∧ r.engine.m_updates = e.m_updates + r.ret) ∧
      (newChunk = [] →
        r.engine.m_chunk = e.GetChunk.m_chunk ∧ r.engine.m_updates = e.m_updates) := by
  have hf := scanLoop_facts lp p (e.GetChunk.m_chunk.length + 1) (initScan e.GetChunk p value)
    (Nat.lt_succ_self _) (initScan_filled e p value)
  unfold ParsePatchCore at h
  simp only at h
  cases hs : scanLoop lp p (e.GetChunk.m_chunk.length + 1) (initScan e.GetChunk p value) with
  | ok sr =>
    obtain ⟨s, ro⟩ := sr
    rw [hs] at hf h
    obtain ⟨⟨hst, hnc, -⟩, hret⟩ := hf
    have hchunk : s.e.m_chunk = e.GetChunk.m_chunk := congrArg (·.m_chunk) hst
    have hupd : s.e.m_updates = e.m_updates :=
      (congrArg (·.m_updates) hst).trans (GetChunk_m_updates e)
    cases ro with
    | some v => exact absurd hm (hret rfl)
    | none =>
      simp only at h
      have hsome : s.newChunk.isSome = true := hnc (by simp [initScan, hw])
      obtain ⟨newChunk, hnew⟩ := Option.isSome_iff_exists.mp hsome
      refine ⟨s, newChunk, rfl, hnew, ?_, ?_, ?_⟩
      · injection h with h; rw [← h]; exact returnValue_readWrite hm _ _
      · intro hne
        have hu : s.updates ≠ 0 := by
          intro h0
          apply hr
          injection h with h; rw [← h]
          simp [returnValue_readWrite hm, h0]
        have hret' : r.ret = s.updates := by
          injection h with h; rw [← h]; exact returnValue_readWrite hm _ _
        have hlen : newChunk.length ≠ 0 := by simpa [List.length_eq_zero] using hne
        injection h with h
        rw [← h]
        simp [updateCache, hnew, hw, hu, hlen, hupd, returnValue_readWrite hm]
      · intro he
        injection h with h
        rw [← h]
        simp [updateCache, hnew, he, hchunk, hupd]
  | undefined => rw [hs] at h; simp at h
  | outOfFuel => rw [hs] at h; simp at h

/-- C9 (witness): the toggle of the bypass scenario swaps the cache for the rebuilt
buffer and counts one update. -/
theorem c9_cache_swap_witness :
    ∃ r, (newFromChunk (some bypassDoc) true false false false).ParsePatchCore wdlLineParser
        bypassToggle none = .ok r ∧ r.ret = 1 ∧
      r.engine.m_chunk = "<TRACK\nNAME foo\n<FXCHAIN\nBYPASS 1\n>\n>\n".toList ∧
      r.engine.m_updates = 1 ∧
      ∃ s newChunk,
        scanLoop wdlLineParser bypassToggle
          ((newFromChunk (some bypassDoc) true false false false).GetChunk.m_chunk.length + 1)
          (initScan (newFromChunk (some bypassDoc) true false false false).GetChunk
            bypassToggle none) = .ok (s, none) ∧
        s.newChunk = some newChunk ∧ r.ret = s.updates ∧
        (newChunk ≠ [] → r.engine.m_chunk = newChunk ∧ r.engine.m_updates = 0 + r.ret) ∧
        (newChunk = [] →
          r.engine.m_chunk = (newFromChunk (some bypassDoc) true false false false).GetChunk.m_chunk ∧
          r.engine.m_updates = 0) :=
  ⟨_, rfl, rfl, rfl, rfl,
    c9_cache_swap wdlLineParser (newFromChunk (some bypassDoc) true false false false)
      bypassToggle none _ rfl (Or.inr (Or.inr (Or.inr (Or.inr (Or.inl rfl))))) rfl (by decide)⟩

theorem returnValue_count (depth : Int) (parent keyWord : CStr) (tokenPos : Int)
    (valueExcept : Option CStr) (updates occurence : Nat) :
    returnValue (countParams depth parent keyWord tokenPos valueExcept) updates occurence =
      occurence := by
  simp [returnValue, countParams]

theorem startsWith_drop_getElem? {s : CStr} {k : Nat} {a b : Char}
    (h : startsWith (s.drop k) [a, b] = true) : s[k]? = some a ∧ s[k + 1]? = some b := by
  obtain ⟨t, ht⟩ := startsWith_iff.mp h
  have h0 : (s.drop k)[0]? = some a := by rw [ht]; simp
  have h1 : (s.drop k)[1]? = some b := by rw [ht]; simp
  rw [List.getElem?_drop] at h0 h1
  exact ⟨by simpa using h0, h1⟩

theorem blob_line_before_marker {rest line after : CStr} {k : Nat}
    (hsp : splitLine rest = some (line, after)) (hlen : line.length > 2)
    (heq : line.drop (line.length - 2) = "==".toList)
    (hk : strstr rest ">\n".toList = some k) : line.length < k := by
  obtain ⟨-, hsw⟩ := strstr_spec hk
  obtain ⟨h0, h1⟩ := startsWith_drop_getElem? (a := '>') (b := '\n') hsw
  have hrest := splitLine_eq hsp
  have hnl := splitLine_no_newline hsp
  by_contra hle
  have hle : k ≤ line.length := by omega
  rw [hrest] at h0 h1
  rcases Nat.lt_or_ge (k + 1) line.length with hlt | hge
  · -- the byte at k+1 is inside the line, which has no newline
    rw [List.getElem?_append_left hlt] at h1
    have := List.getElem?_mem h1
    exact hnl this
  · rcases Nat.lt_or_ge k line.length with hlt2 | hge2
    · -- k is the last byte of the line, which is '='
      have hk1 : k = line.length - 1 := by omega
      rw [List.getElem?_append_left hlt2] at h0
      have hlast : (line.drop (line.length - 2))[1]? = some '=' := by rw [heq]; rfl
      rw [List.getElem?_drop] at hlast
      have : line.length - 2 + 1 = k := by omega
      rw [this, h0] at hlast
      exact absurd hlast (by decide)
    · have hk2 : k = line.length := by omega
      subst hk2
      rw [List.getElem?_append_right (Nat.le_refl _)] at h0
      simp at h0

/-- C7 (amended): with encoded-blob processing disabled, when the scan arrives at a
line longer than 2 characters that ends in `==` and the text `">\n"` occurs somewhere
from there on, that line is not dispatched: the marker lies behind the line, the whole
region up to the marker is copied through (`copySkipped`), and the only line parsed
and dispatched in that iteration is the `>` line at the marker. -/
theorem c7_blob_line_skipped (lp : LineParser) (p : Params) (s : Scan) (line after : CStr)
    (k : Nat) (hsp : splitLine s.rest = some (line, after))
    (hbrk : s.e.m_breakParsePatch = false) (hb64 : s.e.m_processBase64 = false)
    (hlen : line.length > 2) (heq : line.drop (line.length - 2) = "==".toList)
    (hk : strstr s.rest ">\n".toList = some k) :
    line.length < k ∧
    iteration lp p s =
      processLine lp p (copySkipped p s k) k ['>'] (s.rest.drop (k + 2)) := by
  refine ⟨blob_line_before_marker hsp hlen heq hk, ?_⟩
  obtain ⟨-, hsw⟩ := strstr_spec hk
  obtain ⟨t, ht⟩ := startsWith_iff.mp hsw
  have hd2 : s.rest.drop (k + 2) = t := by
    have : s.rest.drop (k + 2) = (s.rest.drop k).drop 2 := by
      rw [List.drop_drop, Nat.add_comm]
    rw [this, ht]; rfl
  have hsp2 : splitLine (s.rest.drop k) = some (['>'], t) := by
    rw [ht]; rfl
  have hds : detectSkip s line = .ok (s.e, some k) := by
    unfold detectSkip
    simp only [hb64, hk]
    rw [if_pos ⟨trivial, hlen, heq⟩]
  have hnl : nextLine s line after = .ok (s.e, some k, ['>'], t) := by
    unfold nextLine
    rw [hds]
    simp only [hsp2]
  unfold iteration
  simp only [hsp, hbrk, hnl, hd2]
  cases s
  rfl

/-- C7 (witness): at the start of `"abcd==\n>\n"` the blob line is skipped up to offset
7 and the line dispatched is `>`. -/
theorem c7_blob_line_skipped_witness :
    splitLine blobScan.rest = some ("abcd==".toList, ">\n".toList) ∧
    strstr blobScan.rest ">\n".toList = some 7 ∧
    ("abcd==".toList).length < 7 ∧
    iteration wdlLineParser
        { write := false, mode := SNM_COUNT_KEYWORD, depth := 1,
          expectedParent := some "A".toList, keyWord := some "abcd==".toList, occurence := -1,
          tokenPos := -1, valueExcept := none, breakKeyword := none } blobScan =
      processLine wdlLineParser
        { write := false, mode := SNM_COUNT_KEYWORD, depth := 1,
          expectedParent := some "A".toList, keyWord := some "abcd==".toList, occurence := -1,
          tokenPos := -1, valueExcept := none, breakKeyword := none }
        (copySkipped
          { write := false, mode := SNM_COUNT_KEYWORD, depth := 1,
            expectedParent := some "A".toList, keyWord := some "abcd==".toList, occurence := -1,
            tokenPos := -1, valueExcept := none, breakKeyword := none } blobScan 7) 7 ['>']
        (blobScan.rest.drop (7 + 2)) :=
  ⟨rfl, rfl,
    c7_blob_line_skipped wdlLineParser _ blobScan "abcd==".toList ">\n".toList 7 rfl rfl rfl
      (by decide) rfl rfl⟩

/-- C7 (counterexample): with encoded-blob processing disabled, the line `KEY==` is
counted by count mode in `"<A\nKEY==\n"`, where no `">\n"` follows it, and in the
well-formed track `"<TRACK\n<FREEZE 0 1 2\n>\nKEY==\n>\n"`, where the scan lands on it
behind the skipped frozen sub-chunk. -/
theorem c7_counterexample :
    (∃ r, (newFromChunk (some "<A\nKEY==\n".toList) true false false false).Parse
        wdlLineParser SNM_COUNT_KEYWORD 1 (some "A".toList) (some "KEY==".toList) (-1) (-1)
        none none none = .ok r ∧ r.ret = 1) ∧
    (∃ r, (newFromChunk (some "<TRACK\n<FREEZE 0 1 2\n>\nKEY==\n>\n".toList) true false false
        false).Parse wdlLineParser SNM_COUNT_KEYWORD 1 (some "TRACK".toList)
        (some "KEY==".toList) (-1) (-1) none none none = .ok r ∧ r.ret = 1) :=
  ⟨⟨_, rfl, rfl⟩, ⟨_, rfl, rfl⟩⟩

theorem toggle_dispatch (lp : LineParser) (depth : Int) (parent keyWord : CStr) (k : Nat)
    (tokenPos : Int) (valueExcept : Option CStr) (s : Scan) (toks : List CStr)
    (curLine lineText : CStr) (linePos : Nat) (eolPos1 : Int)
    (hsub : s.subChunkKeyword = none) :
    (¬ (toks.head? = some keyWord ∧ (s.parents.length : Int) = depth ∧
        s.parents.getLast?.map Prod.snd = some parent) →
      dispatch lp (toggleParams depth parent keyWord k tokenPos valueExcept) s false toks
          curLine lineText linePos eolPos1 = .undefined ∨
      dispatch lp (toggleParams depth parent keyWord k tokenPos valueExcept) s false toks
          curLine lineText linePos eolPos1 = .cont s false) ∧
    ((toks.head? = some keyWord ∧ (s.parents.length : Int) = depth ∧
        s.parents.getLast?.map Prod.snd = some parent) →
      (s.occurence ≠ k →
        dispatch lp (toggleParams depth parent keyWord k tokenPos valueExcept) s false toks
          curLine lineText linePos eolPos1 =
        .cont { s with occurence := s.occurence + 1 } false) ∧
      (s.occurence = k →
        dispatch lp (toggleParams depth parent keyWord k tokenPos valueExcept) s false toks
          curLine lineText linePos eolPos1 =
        incOccurence (setBreak (toggleParams depth parent keyWord k tokenPos valueExcept)
          (writeLine (toggleParams depth parent keyWord k tokenPos valueExcept) s false
            (some (toggleValue lp toks tokenPos)) toks)))) := by
  obtain ⟨e, rest, pos, nc, v, u, occ, pss, sck, parents, allocs⟩ := s
  simp only at hsub
  subst hsub
  have hm : ¬ (SNM_TOGGLE_CHUNK_INT < 0) := by decide
  have hm2 : SNM_TOGGLE_CHUNK_INT ≥ 0 := by decide
  have hk1 : ¬ ((k : Int) = -1) := by omega
  unfold dispatch
  cases hl : parents.getLast? with
  | none =>
    constructor
    · intro _; right; simp [hl]
    · intro h; simp [hl] at h
  | some cp =>
    simp only [toggleParams, IsMatchingParsedLine, hl]
    by_cases h1 : depth = -1
    · subst h1
      have : ¬ ((parents.length : Int) = -1) := by omega
      constructor
      · intro _; right; simp [this, hm]
      · intro h; exact absurd h.2.1 this
    · by_cases h2 : depth = (parents.length : Int)
      · by_cases h3 : cp.2 = parent
        · cases ht : toks.head? with
          | none =>
            constructor
            · intro _; left; simp [h1, h2, h3]
            · intro h; simp at h
          | some pk =>
            by_cases h4 : pk = keyWord
            · constructor
              · intro h; exact absurd ⟨by rw [h4], h2.symm, by simp [h3]⟩ h
              · intro _
                constructor
                · intro hocc
                  have hocc' : ¬ ((k : Int) = (occ : Int)) := by
                    intro h; apply hocc; show occ = k; omega
                  simp [h1, h2.symm, h3, h4, incOccurence, otherOccurence, hm, hm2, hocc', hk1]
                · intro hocc
                  have hocc2 : occ = k := hocc
                  subst hocc2
                  simp [h1, h2.symm, h3, h4, matchingOccurence, hm, hm2]
            · constructor
              · intro _; right; simp [h1, h2.symm, h3, h4, hm]
              · intro h; simp at h; exact absurd h.1 h4
        · constructor
          · intro _; right; simp [h1, h2.symm, h3, hm]
          · intro h; simp at h; exact absurd h.2.2 h3
      · have h2' : ¬ ((parents.length : Int) = depth) := fun h => h2 h.symm
        constructor
        · intro _; right; simp [h1, h2, h2', hm]
        · intro h; exact absurd h.2.1 h2'

theorem matches_iff {lp : LineParser} {c c1 : Cursor} {ev : LineEvent} {toks : List CStr}
    (hw : walkStep lp c = .line ev c1) (ht : ev.toks = some toks) (depth : Int)
    (parent keyWord : CStr) :
    (toks.head? = some keyWord ∧ (c1.parents.length : Int) = depth ∧
      c1.parents.getLast?.map Prod.snd = some parent) ↔ ev.Matches depth parent keyWord := by
  obtain ⟨-, -, -, -, hpar⟩ := walkStep_line hw
  simp only [LineEvent.Matches, ht, Option.bind_some, hpar, List.length_map, getLast?_map_snd]
  rfl

theorem toggle_onLine_other (lp : LineParser) (depth : Int) (parent keyWord : CStr) (k : Nat)
    (tokenPos : Int) (valueExcept : Option CStr) (s : Scan) (ev : LineEvent) (c1 : Cursor)
    (c : CStr) (hw : walkStep lp s.cursor = .line ev c1) (hsub : s.subChunkKeyword = none)
    (hnc : s.newChunk = some c)
    (hnot : ev.Matches depth parent keyWord → s.occurence ≠ k) :
    s.onLine lp (toggleParams depth parent keyWord k tokenPos valueExcept) ev c1 = .undefined ∨
    s.onLine lp (toggleParams depth parent keyWord k tokenPos valueExcept) ev c1 =
      .next { s.withCursor c1 with
        newChunk := some (c ++ (ev.skipped ++ ev.copied)),
        occurence := s.occurence + (if ev.Matches depth parent keyWord then 1 else 0) } := by
  unfold Scan.onLine
  cases ht : ev.toks with
  | none =>
    right
    have : ¬ ev.Matches depth parent keyWord := by simp [LineEvent.Matches, ht]
    simp only [this, if_false, Nat.add_zero]
    cases s
    simp only at hnc
    simp [Scan.atLine, Scan.withCursor, toggleParams, hnc, LineEvent.copied, ht]
  | some toks =>
    simp only
    have hsub1 : (s.atLine (toggleParams depth parent keyWord k tokenPos valueExcept) ev
        c1).subChunkKeyword = none := hsub
    have hd := toggle_dispatch lp depth parent keyWord k tokenPos valueExcept
      (s.atLine (toggleParams depth parent keyWord k tokenPos valueExcept) ev c1) toks
      (truncLine ev.line) (ev.line ++ '\n' :: ev.after) ev.linePos
      ((ev.linePos + ev.line.length + 1 : Nat) : Int) hsub1
    have hiff := matches_iff hw ht depth parent keyWord
    have hpar : (s.atLine (toggleParams depth parent keyWord k tokenPos valueExcept) ev
        c1).parents = c1.parents := rfl
    rw [hpar] at hd
    rw [hiff] at hd
    by_cases hm : ev.Matches depth parent keyWord
    · right
      have hne : toks ≠ [] := by
        intro h
        rw [h] at hiff
        simp at hiff
        exact hiff hm
      have := (hd.2 hm).1 (hnot hm)
      rw [this]
      cases s
      simp only at hnc
      obtain ⟨t, ts, rfl⟩ := List.exists_cons_of_ne_nil hne
      simp [finishLine, toggleParams, Scan.atLine, Scan.withCursor, hnc, hm,
        LineEvent.copied, ht]
    · rcases hd.1 hm with h | h
      · left; rw [h]
      · right
        rw [h]
        cases s
        simp only at hnc
        cases toks with
        | nil =>
          simp [finishLine, toggleParams, Scan.atLine, Scan.withCursor, hnc, hm,
            LineEvent.copied, ht]
        | cons t ts =>
          simp [finishLine, toggleParams, Scan.atLine, Scan.withCursor, hnc, hm,
            LineEvent.copied, ht]

theorem toggle_onLine_target (lp : LineParser) (depth : Int) (parent keyWord : CStr) (k : Nat)
    (tokenPos : Int) (valueExcept : Option CStr) (s : Scan) (ev : LineEvent) (c1 : Cursor)
    (c : CStr) (toks : List CStr)
    (hw : walkStep lp s.cursor = .line ev c1) (hsub : s.subChunkKeyword = none)
    (hnc : s.newChunk = some c) (hm : ev.Matches depth parent keyWord)
    (hocc : s.occurence = k) (ht : ev.toks = some toks)
    (hne : gettoken_str toks tokenPos ≠ toggleValue lp toks tokenPos)
    (hin : 0 ≤ tokenPos ∧ tokenPos < toks.length) :
    s.onLine lp (toggleParams depth parent keyWord k tokenPos valueExcept) ev c1 =
      .next { s.withCursor c1 with
        e := { c1.e with m_breakParsePatch := true },
        newChunk := some (c ++ (ev.skipped ++
          emitTokens (toggleValue lp toks tokenPos) tokenPos toks 0)),
        updates := s.updates + 1,
        occurence := s.occurence + 1 } := by
  unfold Scan.onLine
  rw [ht]
  simp only
  have hsub1 : (s.atLine (toggleParams depth parent keyWord k tokenPos valueExcept) ev
      c1).subChunkKeyword = none := hsub
  have hd := toggle_dispatch lp depth parent keyWord k tokenPos valueExcept
    (s.atLine (toggleParams depth parent keyWord k tokenPos valueExcept) ev c1) toks
    (truncLine ev.line) (ev.line ++ '\n' :: ev.after) ev.linePos
    ((ev.linePos + ev.line.length + 1 : Nat) : Int) hsub1
  have hiff := matches_iff hw ht depth parent keyWord
  have hpar : (s.atLine (toggleParams depth parent keyWord k tokenPos valueExcept) ev
      c1).parents = c1.parents := rfl
  rw [hpar] at hd
  rw [hiff] at hd
  have hne0 : toks ≠ [] := by
    intro h
    rw [h] at hiff
    simp at hiff
    exact hiff hm
  have := (hd.2 hm).2 hocc
  rw [this]
  have hk1 : ¬ ((k : Int) = -1) := by omega
  cases s
  simp only at hnc
  simp [writeLine, WriteChunkLine, setBreak, incOccurence, finishLine, toggleParams,
    Scan.atLine, Scan.withCursor, hnc, hne, hne0, hin.1, hin.2, hk1]

theorem iteration_breaking (lp : LineParser) (p : Params) (s : Scan) (c : CStr)
    (hw : p.write = true) (hb : s.e.m_breakParsePatch = true) (hnc : s.newChunk = some c) :
    iteration lp p s = .brk { s with newChunk := some (c ++ keptTail s.rest) } := by
  unfold iteration keptTail
  cases hsp : splitLine s.rest with
  | none =>
    cases s
    simp only at hnc
    simp [hnc]
  | some la =>
    cases s
    simp only at hnc hb
    simp [hb, hw, hnc]

theorem toggle_scanLoop (lp : LineParser) (depth : Int) (parent keyWord : CStr) (k : Nat)
    (tokenPos : Int) (valueExcept : Option CStr) (ev : LineEvent) (toks : List CStr)
    (hm : ev.Matches depth parent keyWord) (ht : ev.toks = some toks)
    (hne : gettoken_str toks tokenPos ≠ toggleValue lp toks tokenPos)
    (hin : 0 ≤ tokenPos ∧ tokenPos < toks.length) :
    ∀ (fuel : Nat) (s : Scan) (c : CStr) (i : Nat), s.e.m_breakParsePatch = false →
      s.subChunkKeyword = none → s.newChunk = some c →
      (walk lp fuel s.cursor)[i]? = some ev →
      s.occurence + ((walk lp fuel s.cursor).take i).countP
        (fun ev => decide (ev.Matches depth parent keyWord)) = k →
      match scanLoop lp (toggleParams depth parent keyWord k tokenPos valueExcept) fuel s with
      | .ok (s1, r) => r = none ∧ s1.updates = s.updates + 1 ∧
          s1.newChunk = some (c ++ rebuiltLines ((walk lp fuel s.cursor).take i) ++
            (ev.skipped ++ emitTokens (toggleValue lp toks tokenPos) tokenPos toks 0) ++
            keptTail ev.after)
      | _ => True := by
  intro fuel
  induction fuel with
  | zero => intro s c i _ _ _ _ _; simp [scanLoop]
  | succ fuel ih =>
    intro s c i hb hsub hnc hev hcnt
    have hit := iteration_normal lp (toggleParams depth parent keyWord k tokenPos valueExcept) s
      hb hsub
    cases hw : walkStep lp s.cursor with
    | stop => simp [walk, hw] at hev
    | undefined => simp [walk, hw] at hev
    | fuel => simp [walk, hw] at hev
    | line ev0 c1 =>
      rw [hw] at hit
      simp only at hit
      simp only [walk, hw] at hev hcnt ⊢
      cases i with
      | zero =>
        simp only [List.getElem?_cons_zero, Option.some.injEq] at hev
        subst hev
        simp only [List.take_zero, List.countP_nil, Nat.add_zero] at hcnt
        rw [toggle_onLine_target lp depth parent keyWord k tokenPos valueExcept s ev0 c1 c toks
          hw hsub hnc hm hcnt ht hne hin] at hit
        simp only [scanLoop, hit]
        cases fuel with
        | zero => simp [scanLoop]
        | succ fuel =>
          have hrest : c1.rest = ev0.after := (walkStep_line hw).2.2.1
          simp only [scanLoop]
          rw [iteration_breaking lp _ _ _ rfl rfl rfl]
          simp [rebuiltLines, Scan.withCursor, hrest]
      | succ j =>
        simp only [List.getElem?_cons_succ] at hev
        simp only [List.take_succ_cons, List.countP_cons, decide_eq_true_eq] at hcnt
        have hnot : ev0.Matches depth parent keyWord → s.occurence ≠ k := by
          intro h
          simp only [h, if_true] at hcnt
          omega
        rcases toggle_onLine_other lp depth parent keyWord k tokenPos valueExcept s ev0 c1 c
          hw hsub hnc hnot with ho | ho
        · rw [ho] at hit
          simp [scanLoop, hit]
        · rw [ho] at hit
          have hb1 : c1.e.m_breakParsePatch = false := (walkStep_break hw).trans hb
          obtain ⟨s2, hs2⟩ : ∃ s2 : Scan, s2 = { s.withCursor c1 with
              newChunk := some (c ++ (ev0.skipped ++ ev0.copied)),
              occurence := s.occurence +
                (if ev0.Matches depth parent keyWord then 1 else 0) } := ⟨_, rfl⟩
          have hit2 : iteration lp (toggleParams depth parent keyWord k tokenPos valueExcept) s =
              .next s2 := by rw [hs2]; exact hit
          have hc : s2.cursor = c1 := by rw [hs2]; cases s; rfl
          have hu2 : s2.updates = s.updates := by rw [hs2]; cases s; rfl
          have this := ih s2 (c ++ (ev0.skipped ++ ev0.copied)) j
            (by rw [hs2]; exact hb1) (by rw [hs2]; exact hsub) (by rw [hs2])
            (by rw [hc]; exact hev)
            (by rw [hc, hs2]; simp only; omega)
          simp only [scanLoop, hit2]
          rw [hc, hu2] at this
          revert this
          generalize scanLoop lp (toggleParams depth parent keyWord k tokenPos valueExcept)
            fuel s2 = res
          intro this
          cases res with
          | ok sr =>
            obtain ⟨s1, r⟩ := sr
            simp only at this ⊢
            refine ⟨this.1, this.2.1, ?_⟩
            rw [this.2.2]
            simp [rebuiltLines, List.append_assoc]
          | undefined => trivial
          | outOfFuel => trivial

theorem toggle_returnValue (depth : Int) (parent keyWord : CStr) (k : Nat) (tokenPos : Int)
    (valueExcept : Option CStr) (updates occurence : Nat) :
    returnValue (toggleParams depth parent keyWord k tokenPos valueExcept) updates occurence =
      updates := by
  simp [returnValue, toggleParams]

theorem emitTokens_ne_nil (v : CStr) (tokenPos : Int) (t : CStr) (ts : List CStr) (i : Nat) :
    emitTokens v tokenPos (t :: ts) i ≠ [] := by
  unfold emitTokens
  by_cases h : ts = [] <;> simp [h]

/-- What a toggle of occurence `k` does when line `i` of the Document is that
occurence and the text to write differs from the token at an index in range. -/
theorem toggle_core (lp : LineParser) (e : SNM_ChunkParserPatcher) (depth : Int)
    (parent keyWord : CStr) (k : Nat) (tokenPos : Int) (value valueExcept : Option CStr)
    (i : Nat) (ev : LineEvent) (toks : List CStr)
    (hb : e.m_breakParsePatch = false)
    (hev : (documentLines lp e)[i]? = some ev)
    (hm : ev.Matches depth parent keyWord)
    (hcnt : ((documentLines lp e).take i).countP
      (fun ev => decide (ev.Matches depth parent keyWord)) = k)
    (ht : ev.toks = some toks)
    (hne : gettoken_str toks tokenPos ≠ toggleValue lp toks tokenPos)
    (hin : 0 ≤ tokenPos ∧ tokenPos < toks.length) :
    match e.ParsePatchCore lp (toggleParams depth parent keyWord k tokenPos valueExcept)
      value with
    | .ok r => r.ret = 1 ∧ r.engine.m_updates = e.m_updates + 1 ∧
        r.engine.m_chunk = rebuiltLines ((documentLines lp e).take i) ++
          (ev.skipped ++ emitTokens (toggleValue lp toks tokenPos) tokenPos toks 0) ++
          keptTail ev.after ∧
        r.engine.m_breakParsePatch = false
    | .undefined => True
    | .outOfFuel => False := by
  have hf := scanLoop_facts lp (toggleParams depth parent keyWord k tokenPos valueExcept)
    (e.GetChunk.m_chunk.length + 1)
    (initScan e.GetChunk (toggleParams depth parent keyWord k tokenPos valueExcept) value)
    (Nat.lt_succ_self _) (initScan_filled e _ value)
  have hc := toggle_scanLoop lp depth parent keyWord k tokenPos valueExcept ev toks hm ht hne
    hin (e.GetChunk.m_chunk.length + 1)
    (initScan e.GetChunk (toggleParams depth parent keyWord k tokenPos valueExcept) value)
    [] i ((GetChunk_break e).trans hb) rfl rfl hev (by
      have : (initScan e.GetChunk (toggleParams depth parent keyWord k tokenPos valueExcept)
        value).occurence = 0 := rfl
      rw [this, Nat.zero_add]
      exact hcnt)
  unfold ParsePatchCore
  simp only
  cases hs : scanLoop lp (toggleParams depth parent keyWord k tokenPos valueExcept)
      (e.GetChunk.m_chunk.length + 1)
      (initScan e.GetChunk (toggleParams depth parent keyWord k tokenPos valueExcept) value) with
  | ok sr =>
    obtain ⟨s, r⟩ := sr
    rw [hs] at hf hc
    obtain ⟨⟨hst, -, -⟩, -⟩ := hf
    obtain ⟨rfl, hupd, hnew⟩ := hc
    have hupd0 : s.updates = 1 := by rw [hupd]; rfl
    have hu : s.e.m_updates = e.m_updates :=
      (congrArg (·.m_updates) hst).trans (GetChunk_m_updates e)
    have hdoc : walk lp (e.GetChunk.m_chunk.length + 1)
        (initScan e.GetChunk (toggleParams depth parent keyWord k tokenPos valueExcept)
          value).cursor = documentLines lp e := rfl
    rw [hdoc] at hnew
    have htne : toks ≠ [] := by
      intro h
      rw [h] at hin
      simp at hin
      omega
    obtain ⟨t, ts, rfl⟩ := List.exists_cons_of_ne_nil htne
    have hlen : (rebuiltLines ((documentLines lp e).take i) ++
        (ev.skipped ++ emitTokens (toggleValue lp (t :: ts) tokenPos) tokenPos (t :: ts) 0) ++
        keptTail ev.after).length ≠ 0 := by
      have := emitTokens_ne_nil (toggleValue lp (t :: ts) tokenPos) tokenPos t ts 0
      have h2 : 0 < (emitTokens (toggleValue lp (t :: ts) tokenPos) tokenPos (t :: ts)
          0).length := List.length_pos.mpr this
      simp only [List.length_append]
      omega
    simp only [List.nil_append] at hnew
    simp only
    refine ⟨?_, ?_, ?_, rfl⟩
    · rw [toggle_returnValue, hupd0]; rfl
    · simp only [updateCache, hnew]
      rw [if_pos ⟨rfl, by omega, hlen⟩]
      simp only [hu, hupd0]
      rfl
    · simp only [updateCache, hnew]
      rw [if_pos ⟨rfl, by omega, hlen⟩]
  | undefined => trivial
  | outOfFuel => rw [hs] at hf; exact hf

theorem emitTokens_behind (v : CStr) (tokenPos : Int) :
    ∀ (toks : List CStr) (i : Nat), tokenPos < i → emitTokens v tokenPos toks i = tokensLine toks
  | [], _, _ => rfl
  | t :: ts, i, h => by
    have hne : ¬ ((i : Int) = tokenPos) := by omega
    simp only [emitTokens, tokensLine, hne, if_false]
    rw [emitTokens_behind v tokenPos ts (i + 1) (by omega)]

theorem emitTokens_eq_set (v : CStr) :
    ∀ (toks : List CStr) (i n : Nat),
      emitTokens v ((i + n : Nat) : Int) toks i = tokensLine (toks.set n v)
  | [], _, _ => rfl
  | t :: ts, i, 0 => by
    simp only [emitTokens, tokensLine, List.set_cons_zero, Nat.add_zero, if_true]
    rw [emitTokens_behind v _ ts (i + 1) (by omega)]
  | t :: ts, i, n + 1 => by
    have hne : ¬ ((i : Int) = ((i + (n + 1) : Nat) : Int)) := by omega
    have hnil : (ts.set n v = []) ↔ (ts = []) := by
      cases ts <;> cases n <;> simp
    simp only [emitTokens, tokensLine, List.set_cons_succ, hne, if_false, hnil]
    have : i + (n + 1) = (i + 1) + n := by omega
    rw [this, emitTokens_eq_set v ts (i + 1) n]

theorem emitTokens_set (v : CStr) (tokenPos : Int) (toks : List CStr) (h : 0 ≤ tokenPos) :
    emitTokens v tokenPos toks 0 = tokensLine (toks.set tokenPos.toNat v) := by
  have := emitTokens_eq_set v toks 0 tokenPos.toNat
  rw [Nat.zero_add, Int.toNat_of_nonneg h] at this
  exact this

theorem toggleValue_flip (lp : LineParser) (toks : List CStr) (tokenPos : Int)
    (h0 : lp.toInt "0".toList = 0) (h1 : lp.toInt "1".toList ≠ 0)
    (htok : gettoken_str toks tokenPos = "0".toList ∨ gettoken_str toks tokenPos = "1".toList) :
    toggleValue lp toks tokenPos = flipToken (gettoken_str toks tokenPos) ∧
    gettoken_str toks tokenPos ≠ toggleValue lp toks tokenPos ∧
    (0 ≤ tokenPos ∧ tokenPos < toks.length) := by
  have hin : 0 ≤ tokenPos ∧ tokenPos < toks.length := by
    have hne : gettoken_str toks tokenPos ≠ [] := by
      rcases htok with h | h <;> rw [h] <;> decide
    unfold gettoken_str at hne
    by_cases hp : 0 ≤ tokenPos
    · refine ⟨hp, ?_⟩
      by_contra hge
      have : toks[tokenPos.toNat]? = none := List.getElem?_eq_none (by omega)
      simp [hp, this] at hne
    · simp [hp] at hne
  have h0a : lp.toInt ['0'] = 0 := h0
  have h1a : ¬ (lp.toInt ['1'] = 0) := h1
  rcases htok with h | h
  · refine ⟨?_, ?_, hin⟩
    · simp [toggleValue, gettoken_int, h, h0a, flipToken]
    · simp [toggleValue, gettoken_int, h, h0a]
  · refine ⟨?_, ?_, hin⟩
    · simp [toggleValue, gettoken_int, h, h1a, flipToken]
    · simp [toggleValue, gettoken_int, h, h1a]

theorem iteration_at (lp : LineParser) (p : Params) (s : Scan) (line after : CStr)
    (e1 : SNM_ChunkParserPatcher) (k : Option Nat) (line1 after1 : CStr)
    (hb : s.e.m_breakParsePatch = false) (hsp : splitLine s.rest = some (line, after))
    (hn : nextLine s line after = .ok (e1, k, line1, after1)) :
    iteration lp p s = processLine lp p (skipState p s e1 k) (k.getD 0) line1 after1 := by
  unfold iteration
  simp only [hsp, hb, hn]
  cases k <;> simp [skipState]

theorem walkStep_inv {lp : LineParser} {c c1 : Cursor} {ev : LineEvent}
    (h : walkStep lp c = .line ev c1) :
    ∃ line after e1 k, splitLine c.rest = some (line, after) ∧
      nextLine c.scan line after = .ok (e1, k, ev.line, ev.after) ∧
      ev.skipped = c.rest.take (k.getD 0) ∧ ev.linePos = c.pos + k.getD 0 ∧
      lp.parse (truncLine ev.line) = ev.toks ∧
      c1 = (match ev.toks with
        | none =>
          { c with e := e1, rest := ev.after, pos := c.pos + k.getD 0 + ev.line.length + 1 }
        | some toks =>
          applyParents
            { c with e := e1, rest := ev.after, pos := c.pos + k.getD 0 + ev.line.length + 1 }
            toks ev.line.length) := by
  unfold walkStep at h
  split at h
  · simp at h
  · rename_i line after hsp
    split at h
    · simp at h
    · simp at h
    · rename_i e1 k line1 after1 hn
      simp only at h
      split at h
      · rename_i hp
        simp at h
        obtain ⟨rfl, rfl⟩ := h
        exact ⟨line, after, e1, k, hsp, hn, rfl, rfl, hp, rfl⟩
      · rename_i toks hp
        simp at h
        obtain ⟨rfl, rfl⟩ := h
        exact ⟨line, after, e1, k, hsp, hn, rfl, rfl, hp, rfl⟩

theorem updateParents_open (p : Params) (s : Scan) (toks : List CStr) (curLineLen : Nat)
    (eolPos1 : Int) (h : ¬ closesSub p s toks) :
    updateParents p s toks curLineLen eolPos1 =
      .cont (s.withCursor (applyParents s.cursor toks curLineLen)) false := by
  match toks with
  | [] => simp [updateParents, applyParents, withCursor_cursor]
  | [] :: tail => simp [updateParents, applyParents, withCursor_cursor]
  | (ch :: name) :: tail =>
    by_cases h1 : ch = '<'
    · subst h1
      simp [updateParents, applyParents, Scan.withCursor, Scan.cursor]
    · by_cases h2 : ch = '>'
      · subst h2
        have hc : ¬ (s.subChunkKeyword.isSome = true ∧ p.depth = s.parents.length ∧
            s.subChunkKeyword = (s.parents.get? (p.depth - 1).toNat).map Prod.fst) := by
          intro hh
          exact h ⟨by simp, hh⟩
        simp only [updateParents, hc, if_false]
        simp [applyParents, Scan.withCursor, Scan.cursor, closeElement]
      · have e1 : updateParents p s ((ch :: name) :: tail) curLineLen eolPos1 = .cont s false := by
          unfold updateParents
          split
          · rename_i heq; simp at heq
          · split
            · rename_i heq; simp at heq; exact absurd heq.1.1 h1
            · rename_i heq; simp at heq; exact absurd heq.1.1 h2
            · rfl
        have e2 : applyParents s.cursor ((ch :: name) :: tail) curLineLen = s.cursor := by
          unfold applyParents
          split
          · rename_i heq; simp at heq
          · split
            · rename_i heq; simp at heq; exact absurd heq.1.1 h1
            · rename_i heq; simp at heq; exact absurd heq.1.1 h2
            · rfl
        rw [e1, e2, withCursor_cursor]

theorem updateParents_close (p : Params) (s : Scan) (toks : List CStr) (curLineLen : Nat)
    (eolPos1 : Int) (h : closesSub p s toks) :
    updateParents p s toks curLineLen eolPos1 =
      (if p.mode = SNM_REPLACE_SUBCHUNK_OR_LINE then
        closeElement { s with
          subChunkKeyword := none,
          e := { s.e with m_breakParsePatch := decide (p.occurence ≠ -1) } } true
      else if p.mode = SNM_GET_SUBCHUNK_OR_LINE ∨ p.mode = SNM_GET_SUBCHUNK_OR_LINE_EOL then
        .ret { s with subChunkKeyword := none, value := s.value.map (· ++ ">\n".toList) }
          (if p.mode = SNM_GET_SUBCHUNK_OR_LINE then s.posStartOfSubchunk else eolPos1)
      else closeElement { s with subChunkKeyword := none } false) := by
  obtain ⟨hh, hrest⟩ := h
  match toks with
  | [] => simp at hh
  | [] :: tail => simp at hh
  | (ch :: name) :: tail =>
    simp at hh
    subst hh
    simp only [updateParents]
    rw [if_pos hrest]

theorem dispatch_cases (lp : LineParser) (p : Params) (s : Scan) (alter : Bool)
    (toks : List CStr) (curLine lineText : CStr) (linePos : Nat) (eolPos1 : Int)
    (parent keyWord : CStr) (hP : p.expectedParent = some parent)
    (hK : p.keyWord = some keyWord) (hbk : p.breakKeyword = none) (hmode : p.mode ≥ 0)
    (hd : 0 < p.depth) :
    (s.parents = [] →
      dispatch lp p s alter toks curLine lineText linePos eolPos1 = .cont s alter) ∧
    (s.parents ≠ [] → ¬ (toks.head? = some keyWord ∧ (s.parents.length : Int) = p.depth ∧
        s.parents.getLast?.map Prod.snd = some parent) →
      dispatch lp p s alter toks curLine lineText linePos eolPos1 = .undefined ∨
      dispatch lp p s alter toks curLine lineText linePos eolPos1 =
        nonStrictFlow p s alter curLine) ∧
    ((toks.head? = some keyWord ∧ (s.parents.length : Int) = p.depth ∧
        s.parents.getLast?.map Prod.snd = some parent) →
      dispatch lp p s alter toks curLine lineText linePos eolPos1 =
        if p.occurence = s.occurence ∨ p.occurence = -1 then
          incOccurence (matchingOccurence lp p s alter toks curLine lineText linePos eolPos1
            (currentParentId s) keyWord)
        else incOccurence (otherOccurence lp p s alter toks)) := by
  have hm : ¬ (p.mode < 0) := by omega
  have h1 : ¬ (p.depth = -1) := by omega
  unfold dispatch
  cases hl : s.parents.getLast? with
  | none =>
    have hnil : s.parents = [] := List.getLast?_eq_none_iff.mp hl
    refine ⟨fun _ => rfl, fun h => absurd hnil h, ?_⟩
    intro h
    simp at h
  | some cp =>
    have hne : s.parents ≠ [] := by
      intro h
      rw [h] at hl
      simp at hl
    refine ⟨fun h => absurd h hne, ?_, ?_⟩
    · intro _ hM
      simp only [IsMatchingParsedLine, hP, hK, h1, if_false]
      by_cases h2 : p.depth = (s.parents.length : Int)
      · by_cases h3 : cp.2 = parent
        · cases ht : toks.head? with
          | none => left; simp [h2, h3]
          | some pk =>
            by_cases h4 : pk = keyWord
            · exact absurd ⟨by rw [ht, h4], h2.symm, by simp [h3]⟩ hM
            · right
              simp [h2.symm, h3, h4, hm, hbk, nonStrictFlow]
        · right
          simp [h2.symm, h3, hm, hbk, nonStrictFlow]
      · right
        have h2b : ¬ ((s.parents.length : Int) = p.depth) := fun h => h2 h.symm
        simp [h2, hm, hbk, nonStrictFlow]
    · intro hM
      obtain ⟨hh, hlen, hpar⟩ := hM
      have h3 : cp.2 = parent := by simpa using hpar
      have hid : currentParentId s = cp.1 := by simp [currentParentId, hl]
      simp [IsMatchingParsedLine, hP, hK, h1, hlen.symm, h3, hh, hm, hmode, hid]

theorem dispatch_other_depth (lp : LineParser) (p : Params) (s : Scan) (alter : Bool)
    (toks : List CStr) (curLine lineText : CStr) (linePos : Nat) (eolPos1 : Int)
    (hbk : p.breakKeyword = none) (hmode : p.mode ≥ 0) (hd : 0 < p.depth)
    (hne : s.parents ≠ []) (hlen : (s.parents.length : Int) ≠ p.depth) :
    dispatch lp p s alter toks curLine lineText linePos eolPos1 =
      nonStrictFlow p s alter curLine := by
  have hm : ¬ (p.mode < 0) := by omega
  have h1 : ¬ (p.depth = -1) := by omega
  have h2 : ¬ (p.depth = (s.parents.length : Int)) := fun h => hlen h.symm
  unfold dispatch
  cases hl : s.parents.getLast? with
  | none => exact absurd (List.getLast?_eq_none_iff.mp hl) hne
  | some cp => simp [IsMatchingParsedLine, h1, h2, hm, hbk, nonStrictFlow]

theorem nextLine_engine {s : Scan} {line after : CStr} {e1 : SNM_ChunkParserPatcher}
    {k : Option Nat} {line1 after1 : CStr}
    (h : nextLine s line after = .ok (e1, k, line1, after1)) :
    e1 = s.e ∨ e1 = s.e.GetChunkType.1 := by
  unfold nextLine at h
  split at h
  · simp at h
  · simp at h
  · rename_i e2 hd
    simp at h
    obtain ⟨rfl, -⟩ := h
    exact detectSkip_engine hd
  · rename_i e2 k2 hd
    split at h
    · simp at h
    · simp at h
      obtain ⟨rfl, -⟩ := h
      exact detectSkip_engine hd

theorem iteration_line (lp : LineParser) (p : Params) (s : Scan) (ev : LineEvent)
    (c1 : Cursor) (hb : s.e.m_breakParsePatch = false)
    (hw : walkStep lp s.cursor = .line ev c1) :
    ∃ e1 k, iteration lp p s =
        processLine lp p (skipState p s e1 k) (k.getD 0) ev.line ev.after ∧
      ev.skipped = s.rest.take (k.getD 0) ∧ ev.linePos = s.pos + k.getD 0 ∧
      lp.parse (truncLine ev.line) = ev.toks ∧
      c1 = (match ev.toks with
        | none => s.cursor.behind e1 ev
        | some toks => applyParents (s.cursor.behind e1 ev) toks ev.line.length) ∧
      e1.m_breakParsePatch = false ∧ (e1 = s.e ∨ e1 = s.e.GetChunkType.1) ∧
      s.rest.drop (k.getD 0) = ev.line ++ '\n' :: ev.after := by
  obtain ⟨line, after, e1, k, hsp, hn, hsk, hpos, hparse, hc1⟩ := walkStep_inv hw
  have hn1 : nextLine s line after = .ok (e1, k, ev.line, ev.after) := hn
  have hsp1 : splitLine s.rest = some (line, after) := hsp
  refine ⟨e1, k, iteration_at lp p s line after e1 k ev.line ev.after hb hsp1 hn1, hsk, hpos,
    hparse, ?_, (nextLine_break hn1).trans hb, nextLine_engine hn1,
    nextLine_lineText hsp1 hn1⟩
  rw [hc1]
  have hpos2 : ev.linePos = s.cursor.pos + k.getD 0 := hpos
  cases ev.toks <;> simp [Cursor.behind, hpos2]

theorem applyParents_shape (c : Cursor) (toks : List CStr) (n : Nat) :
    (∃ name, toks.head? = some ('<' :: name) ∧
      (applyParents c toks n).parents = c.parents ++ [(c.allocs, name)]) ∨
    (toks.head?.bind List.head? = some '>' ∧
      (applyParents c toks n).parents = c.parents.dropLast) ∨
    (toks.head?.bind List.head? ≠ some '<' ∧ toks.head?.bind List.head? ≠ some '>' ∧
      (applyParents c toks n).parents = c.parents) := by
  match toks with
  | [] => right; right; simp [applyParents]
  | [] :: tail => right; right; simp [applyParents]
  | (ch :: name) :: tail =>
    by_cases h1 : ch = '<'
    · subst h1
      left
      exact ⟨name, rfl, rfl⟩
    · by_cases h2 : ch = '>'
      · subst h2
        right; left
        exact ⟨rfl, rfl⟩
      · right; right
        refine ⟨by simpa using h1, by simpa using h2, ?_⟩
        unfold applyParents
        split
        · rename_i heq; simp at heq
        · split
          · rename_i heq; simp at heq; exact absurd heq.1.1 h1
          · rename_i heq; simp at heq; exact absurd heq.1.1 h2
          · rfl

theorem iteration_noLine (lp : LineParser) (p : Params) (s : Scan)
    (hb : s.e.m_breakParsePatch = false) :
    (walkStep lp s.cursor = .stop → iteration lp p s = .brk s) ∧
    (walkStep lp s.cursor = .undefined → iteration lp p s = .undefined) ∧
    (walkStep lp s.cursor = .fuel → iteration lp p s = .fuel) := by
  have hcur : s.cursor.rest = s.rest := rfl
  cases hsp : splitLine s.rest with
  | none => simp [iteration, walkStep, hcur, hsp]
  | some la =>
    obtain ⟨line, after⟩ := la
    cases hn : nextLine s line after with
    | undefined => simp [iteration, walkStep, hcur, hsp, hb, nextLine_cursor, hn]
    | outOfFuel => simp [iteration, walkStep, hcur, hsp, hb, nextLine_cursor, hn]
    | ok r =>
      obtain ⟨e1, k, line1, after1⟩ := r
      simp only [walkStep, hcur, hsp, nextLine_cursor, hn]
      refine ⟨?_, ?_, ?_⟩ <;> intro h <;> split at h <;> simp at h

theorem replace_onLine (lp : LineParser) (depth : Int) (keyword : CStr) (k : Int)
    (s : Scan) (ev : LineEvent) (c1 : Cursor) (c text : CStr) (hd : 0 < depth)
    (hw : walkStep lp s.cursor = .line ev c1) (hsub : s.subChunkKeyword = none)
    (hnc : s.newChunk = some c) (hv : s.value = some text) :
    s.onLine lp (replaceSubParams depth keyword k) ev c1 = .undefined ∨
    s.onLine lp (replaceSubParams depth keyword k) ev c1 = .next
      (if ev.Matches depth keyword ('<' :: keyword) then
        if k = s.occurence ∨ k = -1 then
          { s.withCursor c1 with
            newChunk := some (c ++ (ev.skipped ++ text)),
            subChunkKeyword := some ((c1.parents.getLast?.map Prod.fst).getD 0),
            occurence := s.occurence + 1,
            updates := s.updates + 1 }
        else
          { s.withCursor c1 with
            newChunk := some (c ++ (ev.skipped ++ ev.copied)),
            occurence := s.occurence + 1 }
      else { s.withCursor c1 with newChunk := some (c ++ (ev.skipped ++ ev.copied)) }) := by
  unfold Scan.onLine
  cases ht : ev.toks with
  | none =>
    right
    have : ¬ ev.Matches depth keyword ('<' :: keyword) := by simp [LineEvent.Matches, ht]
    simp only [this, if_false]
    cases s
    simp only at hnc
    simp [Scan.atLine, Scan.withCursor, replaceSubParams, hnc, LineEvent.copied, ht]
  | some toks =>
    simp only
    have hmode : (replaceSubParams depth keyword k).mode ≥ 0 := by
      show SNM_REPLACE_SUBCHUNK_OR_LINE ≥ 0
      decide
    have hdc := dispatch_cases lp (replaceSubParams depth keyword k)
      (s.atLine (replaceSubParams depth keyword k) ev c1) false toks
      (truncLine ev.line) (ev.line ++ '\n' :: ev.after) ev.linePos
      ((ev.linePos + ev.line.length + 1 : Nat) : Int) keyword ('<' :: keyword) rfl rfl rfl
      hmode hd
    have hiff := matches_iff hw ht depth keyword ('<' :: keyword)
    have hpar : (s.atLine (replaceSubParams depth keyword k) ev c1).parents = c1.parents := rfl
    have hdep : (replaceSubParams depth keyword k).depth = depth := rfl
    rw [hpar, hdep, hiff] at hdc
    obtain ⟨hnil, hnon, hmat⟩ := hdc
    have hsub1 : (s.atLine (replaceSubParams depth keyword k) ev c1).subChunkKeyword = none :=
      hsub
    by_cases hm : ev.Matches depth keyword ('<' :: keyword)
    · right
      have hne : toks ≠ [] := by
        intro h
        rw [h] at hiff
        simp at hiff
        exact hiff hm
      obtain ⟨t, ts, rfl⟩ := List.exists_cons_of_ne_nil hne
      rw [hmat hm]
      have hocc : (s.atLine (replaceSubParams depth keyword k) ev c1).occurence = s.occurence :=
        rfl
      have hkk : (replaceSubParams depth keyword k).occurence = k := rfl
      rw [hocc, hkk]
      simp only [hm, if_true]
      by_cases hk : k = s.occurence ∨ k = -1
      · simp only [hk, if_true]
        cases s
        simp only at hnc hv
        simp [matchingOccurence, incOccurence, finishLine, replaceSubParams, Scan.atLine,
          Scan.withCursor, hnc, hv, currentParentId]
      · simp only [hk, if_false]
        cases s
        simp only at hnc hv
        simp [otherOccurence, incOccurence, finishLine, replaceSubParams, Scan.atLine,
          Scan.withCursor, hnc, LineEvent.copied, ht]
    · simp only [hm, if_false]
      have hfin : Step.next (finishLine (replaceSubParams depth keyword k)
          (s.atLine (replaceSubParams depth keyword k) ev c1) false toks (truncLine ev.line)) =
          Step.next { s.withCursor c1 with newChunk := some (c ++ (ev.skipped ++ ev.copied)) } := by
        cases s
        simp only at hnc
        cases toks with
        | nil =>
          simp [finishLine, replaceSubParams, Scan.atLine, Scan.withCursor, hnc,
            LineEvent.copied, ht]
        | cons t ts =>
          simp [finishLine, replaceSubParams, Scan.atLine, Scan.withCursor, hnc,
            LineEvent.copied, ht]
      by_cases hpn : c1.parents = []
      · right
        rw [hnil hpn]
        exact hfin
      · rcases hnon hpn hm with h | h
        · left; rw [h]
        · right
          rw [h]
          simp only [nonStrictFlow, hsub1]
          exact hfin

theorem parents_push_inv {α : Type} (ps : List α) (x : α) (depth : Int) (hd : 0 < depth)
    (hlen : depth ≤ (ps.length : Int)) :
    ((ps ++ [x]).length : Int) ≠ depth ∧ depth ≤ ((ps ++ [x]).length : Int) ∧
    (ps ++ [x]).get? (depth - 1).toNat = ps.get? (depth - 1).toNat := by
  have h1 : (depth - 1).toNat < ps.length := by omega
  refine ⟨?_, ?_, ?_⟩
  · simp only [List.length_append, List.length_singleton]; push_cast; omega
  · simp only [List.length_append, List.length_singleton]; push_cast; omega
  · simp only [List.get?_eq_getElem?]
    exact List.getElem?_append_left h1

theorem parents_pop_inv {α : Type} (ps : List α) (depth : Int) (hd : 0 < depth)
    (hlen : depth < (ps.length : Int)) :
    depth ≤ (ps.dropLast.length : Int) ∧
    ps.dropLast.get? (depth - 1).toNat = ps.get? (depth - 1).toNat := by
  have h1 : (depth - 1).toNat < ps.length - 1 := by omega
  refine ⟨?_, ?_⟩
  · simp only [List.length_dropLast]; omega
  · simp only [List.get?_eq_getElem?, List.dropLast_eq_take, List.getElem?_take, h1, if_true]

/-- The state of a replace pass behind a line inside the sub-chunk being replaced. -/
theorem replace_skipState (depth : Int) (keyword : CStr) (k : Int) (s : Scan)
    (e1 : SNM_ChunkParserPatcher) (k1 : Option Nat) (id : Nat)
    (hsub : s.subChunkKeyword = some id) :
    skipState (replaceSubParams depth keyword k) s e1 k1 = { s with e := e1 } := by
  cases k1 with
  | none => rfl
  | some n => simp [skipState, copySkipped, replaceSubParams, hsub]

theorem closeElement_close (s : Scan) (toks : List CStr) (n : Nat) (b alter : Bool)
    (h : toks.head?.bind List.head? = some '>') :
    closeElement { s with
        subChunkKeyword := none,
        e := { s.e with m_breakParsePatch := b } } alter =
      .cont { s.withCursor (applyParents s.cursor toks n) with
        e := { (applyParents s.cursor toks n).e with m_breakParsePatch := b },
        subChunkKeyword := none } alter := by
  match toks, h with
  | (ch :: name) :: tail, h =>
    simp at h
    subst h
    simp [closeElement, applyParents, Scan.withCursor, Scan.cursor]

theorem replace_inside (lp : LineParser) (depth : Int) (keyword : CStr) (k : Int)
    (s : Scan) (ev : LineEvent) (c1 : Cursor) (id : Nat) (hd : 0 < depth)
    (hb : s.e.m_breakParsePatch = false) (hw : walkStep lp s.cursor = .line ev c1)
    (hsub : s.subChunkKeyword = some id) (hlen : depth ≤ (s.parents.length : Int))
    (hid : (s.parents.get? (depth - 1).toNat).map Prod.fst = some id) :
    (iteration lp (replaceSubParams depth keyword k) s = .undefined ∨
     iteration lp (replaceSubParams depth keyword k) s = .next
      (if (c1.parents.length : Int) < depth then
        { s.withCursor c1 with
          e := { c1.e with m_breakParsePatch := decide (k ≠ -1) },
          subChunkKeyword := none,
          updates := s.updates + 1 }
      else { s.withCursor c1 with
        updates := s.updates + (if ev.toks.isSome = true then 1 else 0) })) ∧
    (depth ≤ (c1.parents.length : Int) →
      (c1.parents.get? (depth - 1).toNat).map Prod.fst = some id) := by
  obtain ⟨e1, k1, hit, hsk, hpos, hparse, hc1, hb1, heng, hdrop⟩ :=
    iteration_line lp (replaceSubParams depth keyword k) s ev c1 hb hw
  rw [hit, replace_skipState depth keyword k s e1 k1 id hsub]
  have hmode : (replaceSubParams depth keyword k).mode ≥ 0 := by
    show SNM_REPLACE_SUBCHUNK_OR_LINE ≥ 0
    decide
  unfold processLine
  simp only [hparse]
  cases ht : ev.toks with
  | none =>
    rw [ht] at hc1
    simp only at hc1
    subst hc1
    have hnot : ¬ (((s.cursor.behind e1 ev).parents.length : Int) < depth) := by
      show ¬ ((s.parents.length : Int) < depth)
      omega
    refine ⟨Or.inr ?_, fun _ => hid⟩
    simp only [hnot, if_false]
    cases s
    simp [Scan.withCursor, Cursor.behind, Scan.cursor, hpos]
  | some toks =>
    rw [ht] at hc1
    simp only at hc1
    simp only
    obtain ⟨s0, hs0⟩ : ∃ s0 : Scan, s0 = { ({ s with e := e1 } : Scan) with
      rest := ev.after, pos := s.pos + k1.getD 0 + ev.line.length + 1 } := ⟨_, rfl⟩
    have hs0c : s0.cursor = s.cursor.behind e1 ev := by
      rw [hs0]
      simp [Scan.cursor, Cursor.behind, hpos]
    have hc1a : applyParents s0.cursor toks ev.line.length = c1 := by rw [hs0c, hc1]
    have hs0p : s0.parents = s.parents := by rw [hs0]
    have hs0s : s0.subChunkKeyword = some id := by rw [hs0]; exact hsub
    have hs0w : s0.withCursor c1 = { s.withCursor c1 with updates := s.updates } := by
      rw [hs0]; cases s; rfl
    rw [← hs0]
    have hshape := applyParents_shape s0.cursor toks ev.line.length
    rw [hc1a] at hshape
    have hcp : s0.cursor.parents = s.parents := hs0p
    rw [hcp] at hshape
    by_cases hcl : closesSub (replaceSubParams depth keyword k) s0 toks
    · -- the line closes the sub-chunk
      obtain ⟨hgt, -, hdl, -⟩ := hcl
      have hdl2 : depth = (s.parents.length : Int) := by rw [← hs0p]; exact hdl
      have hpar : c1.parents = s.parents.dropLast := by
        rcases hshape with ⟨name, hh, -⟩ | ⟨-, hp⟩ | ⟨-, hh, -⟩
        · rw [hh] at hgt; simp at hgt
        · exact hp
        · exact absurd hgt hh
      have hlt : (c1.parents.length : Int) < depth := by
        rw [hpar, List.length_dropLast]; omega
      refine ⟨Or.inr ?_, fun h => absurd hlt (by omega)⟩
      rw [updateParents_close _ _ _ _ _ ⟨hgt, by rw [hs0s]; rfl, hdl, by
        show s0.subChunkKeyword = (s0.parents.get? (depth - 1).toNat).map Prod.fst
        rw [hs0s, hs0p, hid]⟩]
      have hmr : (replaceSubParams depth keyword k).mode = SNM_REPLACE_SUBCHUNK_OR_LINE := rfl
      simp only [hmr, if_true]
      obtain ⟨s1, hs1⟩ : ∃ s1 : Scan, s1 = { s.withCursor c1 with
          e := { c1.e with m_breakParsePatch := decide (k ≠ -1) },
          subChunkKeyword := none } := ⟨_, rfl⟩
      have hs1eq := closeElement_close s0 toks ev.line.length
        (decide ((replaceSubParams depth keyword k).occurence ≠ -1)) true hgt
      rw [hs1eq, hc1a]
      have hkk : (replaceSubParams depth keyword k).occurence = k := rfl
      rw [hkk]
      have hs1b : ({ s0.withCursor c1 with
          e := { c1.e with m_breakParsePatch := decide (k ≠ -1) },
          subChunkKeyword := none } : Scan) = s1 := by
        rw [hs1, hs0]; cases s; rfl
      rw [hs1b]
      have hs1p : s1.parents = c1.parents := by rw [hs1]; rfl
      have hs1s : s1.subChunkKeyword = none := by rw [hs1]
      have hdisp : ∀ (lineText : CStr) (linePos : Nat) (eolPos1 : Int),
          dispatch lp (replaceSubParams depth keyword k) s1 true toks
            (truncLine ev.line) lineText linePos eolPos1 = .cont s1 true := by
        intro lineText linePos eolPos1
        by_cases hnil : s1.parents = []
        · exact (dispatch_cases lp _ s1 true toks _ _ _ _ keyword ('<' :: keyword) rfl rfl rfl
            hmode hd).1 hnil
        · rw [dispatch_other_depth lp _ s1 true toks _ _ _ _ rfl hmode hd hnil
            (by rw [hs1p]; show (c1.parents.length : Int) ≠ depth; omega)]
          simp [nonStrictFlow, hs1s]
      dsimp only
      rw [hdisp]
      simp only [hlt, if_true]
      rw [hs1]
      cases s
      simp [finishLine, replaceSubParams, Scan.withCursor]
    · -- any other line of the sub-chunk
      rw [updateParents_open _ _ _ _ _ hcl, hc1a]
      have hfacts : depth ≤ (c1.parents.length : Int) ∧
          (c1.parents.get? (depth - 1).toNat).map Prod.fst = some id ∧
          ¬ (toks.head? = some ('<' :: keyword) ∧ (c1.parents.length : Int) = depth ∧
            c1.parents.getLast?.map Prod.snd = some keyword) := by
        rcases hshape with ⟨name, hh, hp⟩ | ⟨hgt, hp⟩ | ⟨hlt1, hgt1, hp⟩
        · obtain ⟨h1, h2, h3⟩ := parents_push_inv s.parents (s0.cursor.allocs, name) depth hd hlen
          rw [hp]
          exact ⟨h2, by rw [h3]; exact hid, fun hM => h1 hM.2.1⟩
        · have hlt2 : depth < (s.parents.length : Int) := by
            rcases lt_or_ge depth (s.parents.length : Int) with h | h
            · exact h
            · exfalso
              apply hcl
              exact ⟨hgt, by rw [hs0s]; rfl, by
                show depth = (s0.parents.length : Int)
                rw [hs0p]; omega, by
                show s0.subChunkKeyword = (s0.parents.get? (depth - 1).toNat).map Prod.fst
                rw [hs0s, hs0p, hid]⟩
          obtain ⟨h2, h3⟩ := parents_pop_inv s.parents depth hd hlt2
          rw [hp]
          refine ⟨h2, by rw [h3]; exact hid, fun hM => ?_⟩
          rw [hM.1] at hgt
          simp at hgt
        · rw [hp]
          refine ⟨hlen, hid, fun hM => ?_⟩
          rw [hM.1] at hlt1
          simp at hlt1
      obtain ⟨hge, hidc, hnM⟩ := hfacts
      refine ⟨?_, fun _ => hidc⟩
      have hnot : ¬ ((c1.parents.length : Int) < depth) := by omega
      simp only [hnot, if_false, Option.isSome_some, if_true]
      have hwp : (s0.withCursor c1).parents = c1.parents := rfl
      have hne : (s0.withCursor c1).parents ≠ [] := by
        rw [hwp]
        intro h
        rw [h] at hge
        simp at hge
        omega
      have hdc : ∀ (lineText : CStr) (linePos : Nat) (eolPos1 : Int),
          dispatch lp (replaceSubParams depth keyword k) (s0.withCursor c1) false toks
            (truncLine ev.line) lineText linePos eolPos1 = .undefined ∨
          dispatch lp (replaceSubParams depth keyword k) (s0.withCursor c1) false toks
            (truncLine ev.line) lineText linePos eolPos1 =
            nonStrictFlow (replaceSubParams depth keyword k) (s0.withCursor c1) false
              (truncLine ev.line) := by
        intro lineText linePos eolPos1
        exact (dispatch_cases lp (replaceSubParams depth keyword k) (s0.withCursor c1) false
          toks (truncLine ev.line) lineText linePos eolPos1
          keyword ('<' :: keyword) rfl rfl rfl hmode hd).2.1 hne (by rw [hwp]; exact hnM)
      have hdc := hdc (List.drop (k1.getD 0) ({ s with e := e1 } : Scan).rest)
        (({ s with e := e1 } : Scan).pos + k1.getD 0)
        ((({ s with e := e1 } : Scan).pos + k1.getD 0 + ev.line.length + 1 : Nat) : Int)
      rcases hdc with h | h
      · left; rw [h]
      · right
        rw [h]
        have hsw : (s0.withCursor c1).subChunkKeyword = some id := hs0s
        simp only [nonStrictFlow, hsw, Option.isSome_some, if_true]
        rw [hs0w]
        cases s
        simp only at hsub
        simp [finishLine, replaceSubParams, Scan.withCursor, hsub]

theorem okThen_imp {α : Type} {o : Outcome α} {P Q : α → Prop} (h : o.okThen P)
    (hPQ : ∀ x, P x → Q x) : o.okThen Q := by
  cases o with
  | ok x => exact hPQ x h
  | undefined => trivial
  | outOfFuel => trivial

theorem scanLoop_next {lp : LineParser} {p : Params} {s s1 : Scan} (fuel : Nat)
    (h : iteration lp p s = .next s1) :
    scanLoop lp p (fuel + 1) s = scanLoop lp p fuel s1 := by
  simp [scanLoop, h]

theorem scanLoop_breaking (lp : LineParser) (p : Params) (fuel : Nat) (s : Scan) (c : CStr)
    (hw : p.write = true) (hb : s.e.m_breakParsePatch = true) (hnc : s.newChunk = some c) :
    (scanLoop lp p fuel s).okThen (fun sr => sr.2 = none ∧
      sr.1.newChunk = some (c ++ keptTail s.rest) ∧ sr.1.updates = s.updates) := by
  cases fuel with
  | zero => trivial
  | succ fuel =>
    simp only [scanLoop, iteration_breaking lp p s c hw hb hnc]
    exact ⟨rfl, rfl, rfl⟩

theorem opened_insideSub (depth : Int) (ps : List (Nat × CStr)) (hd : 0 < depth)
    (hlen : (ps.length : Int) = depth) :
    (ps.get? (depth - 1).toNat).map Prod.fst =
      some ((ps.getLast?.map Prod.fst).getD 0) := by
  have h1 : (depth - 1).toNat = ps.length - 1 := by omega
  have h2 : ps.length - 1 < ps.length := by omega
  rw [h1, List.get?_eq_getElem?, List.getLast?_eq_getElem?, List.getElem?_eq_getElem h2]
  rfl

theorem replace_scanLoop (lp : LineParser) (depth : Int) (keyword : CStr) (k : Int)
    (text : CStr) (hd : 0 < depth) :
    ∀ (fuel : Nat) (s : Scan) (c : CStr) (inside : Bool),
      s.e.m_breakParsePatch = false → s.newChunk = some c → s.value = some text →
      (inside = false → s.subChunkKeyword = none) →
      (inside = true → InsideSub depth s) →
      (scanLoop lp (replaceSubParams depth keyword k) fuel s).okThen (fun sr =>
        sr.2 = none ∧
        sr.1.newChunk = some (c ++
          replaced depth keyword text k (walk lp fuel s.cursor) s.occurence inside) ∧
        sr.1.updates = s.updates +
          replacedLines depth keyword k (walk lp fuel s.cursor) s.occurence inside) := by
  intro fuel
  induction fuel with
  | zero => intro s c inside _ _ _ _ _; trivial
  | succ fuel ih =>
    intro s c inside hb hnc hv hout hin
    obtain ⟨hstop, hund, hfuel⟩ := iteration_noLine lp (replaceSubParams depth keyword k) s hb
    cases hw : walkStep lp s.cursor with
    | stop =>
      simp only [scanLoop, hstop hw, walk, hw]
      cases inside <;> simp [Outcome.okThen, replaced, replacedLines, hnc]
    | undefined => simp only [scanLoop, hund hw]; trivial
    | fuel => simp only [scanLoop, hfuel hw]; trivial
    | line ev c1 =>
      have hb1 : c1.e.m_breakParsePatch = false := (walkStep_break hw).trans hb
      have hevp : ev.parents.length = c1.parents.length := by
        rw [(walkStep_line hw).2.2.2.2, List.length_map]
      simp only [walk, hw]
      cases inside with
      | false =>
        have hsub := hout rfl
        have hit := iteration_normal lp (replaceSubParams depth keyword k) s hb hsub
        rw [hw] at hit
        simp only at hit
        rcases replace_onLine lp depth keyword k s ev c1 c text hd hw hsub hnc hv with ho | ho
        · rw [ho] at hit
          simp only [scanLoop, hit]
          trivial
        · rw [ho] at hit
          by_cases hm : ev.Matches depth keyword ('<' :: keyword)
          · by_cases hk : k = s.occurence ∨ k = -1
            · simp only [hm, hk, if_true, replaced, replacedLines] at hit ⊢
              obtain ⟨s2, hs2⟩ : ∃ s2 : Scan, s2 = { s.withCursor c1 with
                  newChunk := some (c ++ (ev.skipped ++ text)),
                  subChunkKeyword := some ((c1.parents.getLast?.map Prod.fst).getD 0),
                  occurence := s.occurence + 1,
                  updates := s.updates + 1 } := ⟨_, rfl⟩
              have hit2 : iteration lp (replaceSubParams depth keyword k) s = .next s2 := by
                rw [hs2]; exact hit
              have f1 : s2.cursor = c1 := by rw [hs2]; cases s; rfl
              have f2 : s2.occurence = s.occurence + 1 := by rw [hs2]
              have f3 : s2.updates = s.updates + 1 := by rw [hs2]
              have f4 : s2.newChunk = some (c ++ (ev.skipped ++ text)) := by rw [hs2]
              have f5 : s2.value = some text := by rw [hs2]; exact hv
              have f6 : s2.e.m_breakParsePatch = false := by rw [hs2]; exact hb1
              have f7 : s2.subChunkKeyword =
                  some ((c1.parents.getLast?.map Prod.fst).getD 0) := by rw [hs2]
              have f8 : s2.parents = c1.parents := by rw [hs2]; rfl
              have hlen : (c1.parents.length : Int) = depth := by
                rw [← hevp]; exact hm.2.1
              rw [scanLoop_next fuel hit2]
              refine okThen_imp (ih s2 (c ++ (ev.skipped ++ text)) true f6 f4 f5
                (fun h => by simp at h)
                (fun _ => ⟨_, f7, by rw [f8]; omega, by
                  rw [f8]; exact opened_insideSub depth c1.parents hd hlen⟩)) ?_
              intro sr h
              rw [f1, f2, f3] at h
              refine ⟨h.1, ?_, ?_⟩
              · rw [h.2.1]
                simp [List.append_assoc]
              · rw [h.2.2]
                omega
            · simp only [hm, hk, if_true, if_false, replaced, replacedLines] at hit ⊢
              obtain ⟨s2, hs2⟩ : ∃ s2 : Scan, s2 = { s.withCursor c1 with
                  newChunk := some (c ++ (ev.skipped ++ ev.copied)),
                  occurence := s.occurence + 1 } := ⟨_, rfl⟩
              have hit2 : iteration lp (replaceSubParams depth keyword k) s = .next s2 := by
                rw [hs2]; exact hit
              have f1 : s2.cursor = c1 := by rw [hs2]; cases s; rfl
              have f2 : s2.occurence = s.occurence + 1 := by rw [hs2]
              have f3 : s2.updates = s.updates := by rw [hs2]; rfl
              have f4 : s2.newChunk = some (c ++ (ev.skipped ++ ev.copied)) := by rw [hs2]
              have f5 : s2.value = some text := by rw [hs2]; exact hv
              have f6 : s2.e.m_breakParsePatch = false := by rw [hs2]; exact hb1
              have f7 : s2.subChunkKeyword = none := by rw [hs2]; exact hsub
              rw [scanLoop_next fuel hit2]
              refine okThen_imp (ih s2 (c ++ (ev.skipped ++ ev.copied)) false f6 f4 f5
                (fun _ => f7) (fun h => by simp at h)) ?_
              intro sr h
              rw [f1, f2, f3] at h
              refine ⟨h.1, ?_, h.2.2⟩
              rw [h.2.1]
              simp [List.append_assoc]
          · simp only [hm, if_false, replaced, replacedLines] at hit ⊢
            obtain ⟨s2, hs2⟩ : ∃ s2 : Scan, s2 = { s.withCursor c1 with
                newChunk := some (c ++ (ev.skipped ++ ev.copied)) } := ⟨_, rfl⟩
            have hit2 : iteration lp (replaceSubParams depth keyword k) s = .next s2 := by
              rw [hs2]; exact hit
            have f1 : s2.cursor = c1 := by rw [hs2]; cases s; rfl
            have f2 : s2.occurence = s.occurence := by rw [hs2]; rfl
            have f3 : s2.updates = s.updates := by rw [hs2]; rfl
            have f4 : s2.newChunk = some (c ++ (ev.skipped ++ ev.copied)) := by rw [hs2]
            have f5 : s2.value = some text := by rw [hs2]; exact hv
            have f6 : s2.e.m_breakParsePatch = false := by rw [hs2]; exact hb1
            have f7 : s2.subChunkKeyword = none := by rw [hs2]; exact hsub
            rw [scanLoop_next fuel hit2]
            refine okThen_imp (ih s2 (c ++ (ev.skipped ++ ev.copied)) false f6 f4 f5
              (fun _ => f7) (fun h => by simp at h)) ?_
            intro sr h
            rw [f1, f2, f3] at h
            refine ⟨h.1, ?_, h.2.2⟩
            rw [h.2.1]
            simp [List.append_assoc]
      | true =>
        obtain ⟨id, hsub, hlen, hid⟩ := hin rfl
        obtain ⟨hstep, hinv⟩ := replace_inside lp depth keyword k s ev c1 id hd hb hw hsub hlen hid
        rcases hstep with ho | ho
        · simp only [scanLoop, ho]
          trivial
        · simp only [replaced, replacedLines, hevp]
          by_cases hlt : (c1.parents.length : Int) < depth
          · simp only [hlt, if_true] at ho ⊢
            obtain ⟨s2, hs2⟩ : ∃ s2 : Scan, s2 = { s.withCursor c1 with
                e := { c1.e with m_breakParsePatch := decide (k ≠ -1) },
                subChunkKeyword := none,
                updates := s.updates + 1 } := ⟨_, rfl⟩
            have hit2 : iteration lp (replaceSubParams depth keyword k) s = .next s2 := by
              rw [hs2]; exact ho
            have f2 : s2.occurence = s.occurence := by rw [hs2]; rfl
            have f3 : s2.updates = s.updates + 1 := by rw [hs2]
            have f4 : s2.newChunk = some c := by rw [hs2]; exact hnc
            have f5 : s2.value = some text := by rw [hs2]; exact hv
            have f7 : s2.subChunkKeyword = none := by rw [hs2]
            have f8 : s2.rest = ev.after := by rw [hs2]; exact (walkStep_line hw).2.2.1
            rw [scanLoop_next fuel hit2]
            by_cases hk : k = -1
            · simp only [if_pos hk]
              have f6 : s2.e.m_breakParsePatch = false := by rw [hs2]; simp [hk]
              have f1 : walk lp fuel s2.cursor = walk lp fuel c1 := by
                have : s2.cursor = { c1 with e := { c1.e with m_breakParsePatch := false } } := by
                  rw [hs2]; cases s; simp [Scan.cursor, Scan.withCursor, hk]
                rw [this]
                have hc : ({ c1 with e := { c1.e with m_breakParsePatch := false } } : Cursor) =
                    c1 := by
                  cases c1 with
                  | mk e r ps pa al =>
                    cases e
                    simp only at hb1
                    simp [hb1]
                rw [hc]
              refine okThen_imp (ih s2 c false f6 f4 f5 (fun _ => f7)
                (fun h => by simp at h)) ?_
              intro sr h
              rw [f1, f2, f3] at h
              refine ⟨h.1, h.2.1, ?_⟩
              rw [h.2.2]
              omega
            · simp only [hk, if_false]
              have hbt : s2.e.m_breakParsePatch = true := by rw [hs2]; simp [hk]
              refine okThen_imp (scanLoop_breaking lp _ fuel s2 c rfl hbt f4) ?_
              intro sr h
              rw [f8, f3] at h
              exact ⟨h.1, h.2.1, by rw [h.2.2]⟩
          · simp only [hlt, if_false] at ho ⊢
            obtain ⟨s2, hs2⟩ : ∃ s2 : Scan, s2 = { s.withCursor c1 with
                updates := s.updates + (if ev.toks.isSome = true then 1 else 0) } := ⟨_, rfl⟩
            have hit2 : iteration lp (replaceSubParams depth keyword k) s = .next s2 := by
              rw [hs2]; exact ho
            have f1 : s2.cursor = c1 := by rw [hs2]; cases s; rfl
            have f2 : s2.occurence = s.occurence := by rw [hs2]; rfl
            have f3 : s2.updates = s.updates + (if ev.toks.isSome = true then 1 else 0) := by
              rw [hs2]
            have f4 : s2.newChunk = some c := by rw [hs2]; exact hnc
            have f5 : s2.value = some text := by rw [hs2]; exact hv
            have f6 : s2.e.m_breakParsePatch = false := by rw [hs2]; exact hb1
            have f7 : s2.subChunkKeyword = some id := by rw [hs2]; exact hsub
            have f8 : s2.parents = c1.parents := by rw [hs2]; rfl
            rw [scanLoop_next fuel hit2]
            refine okThen_imp (ih s2 c true f6 f4 f5 (fun h => by simp at h)
              (fun _ => ⟨id, f7, by rw [f8]; omega, by rw [f8]; exact hinv (by omega)⟩)) ?_
            intro sr h
            rw [f1, f2, f3] at h
            refine ⟨h.1, h.2.1, ?_⟩
            rw [h.2.2]
            omega

theorem get_finishLine (depth : Int) (keyword : CStr) (k : Int) (s : Scan) (alter : Bool)
    (toks : List CStr) (curLine : CStr) :
    finishLine (getSubParams depth keyword k) s alter toks curLine = s := by
  cases s
  simp [finishLine, getSubParams]

theorem get_onLine (lp : LineParser) (depth : Int) (keyword : CStr) (k : Int)
    (s : Scan) (ev : LineEvent) (c1 : Cursor) (v : CStr) (hd : 0 < depth)
    (hw : walkStep lp s.cursor = .line ev c1) (hsub : s.subChunkKeyword = none)
    (hv : s.value = some v) :
    s.onLine lp (getSubParams depth keyword k) ev c1 = .undefined ∨
    s.onLine lp (getSubParams depth keyword k) ev c1 = .next
      (if ev.Matches depth keyword ('<' :: keyword) then
        if k = s.occurence ∨ k = -1 then
          { s.withCursor c1 with
            value := some (v ++ (truncLine ev.line ++ ['\n'])),
            posStartOfSubchunk :=
              keywordPos1 (ev.line ++ '\n' :: ev.after) ev.linePos ('<' :: keyword),
            subChunkKeyword := some ((c1.parents.getLast?.map Prod.fst).getD 0),
            occurence := s.occurence + 1 }
        else { s.withCursor c1 with occurence := s.occurence + 1 }
      else s.withCursor c1) := by
  unfold Scan.onLine
  have hat : s.atLine (getSubParams depth keyword k) ev c1 = s.withCursor c1 := by
    cases s; rfl
  rw [hat]
  cases ht : ev.toks with
  | none =>
    right
    have : ¬ ev.Matches depth keyword ('<' :: keyword) := by simp [LineEvent.Matches, ht]
    simp only [this, if_false]
  | some toks =>
    simp only
    have hmode : (getSubParams depth keyword k).mode ≥ 0 := by
      show SNM_GET_SUBCHUNK_OR_LINE ≥ 0
      decide
    have hdc := dispatch_cases lp (getSubParams depth keyword k)
      (s.withCursor c1) false toks
      (truncLine ev.line) (ev.line ++ '\n' :: ev.after) ev.linePos
      ((ev.linePos + ev.line.length + 1 : Nat) : Int) keyword ('<' :: keyword) rfl rfl rfl
      hmode hd
    have hiff := matches_iff hw ht depth keyword ('<' :: keyword)
    have hpar : (s.withCursor c1).parents = c1.parents := rfl
    have hdep : (getSubParams depth keyword k).depth = depth := rfl
    rw [hpar, hdep, hiff] at hdc
    obtain ⟨hnil, hnon, hmat⟩ := hdc
    have hsub1 : (s.withCursor c1).subChunkKeyword = none := hsub
    by_cases hm : ev.Matches depth keyword ('<' :: keyword)
    · right
      rw [hmat hm]
      have hocc : (s.withCursor c1).occurence = s.occurence := rfl
      have hkk : (getSubParams depth keyword k).occurence = k := rfl
      rw [hocc, hkk]
      simp only [hm, if_true]
      by_cases hk : k = s.occurence ∨ k = -1
      · simp only [hk, if_true]
        cases s
        simp only at hv
        simp [matchingOccurence, incOccurence, finishLine, getSubParams,
          Scan.withCursor, hv, currentParentId]
      · simp only [hk, if_false]
        cases s
        simp [otherOccurence, incOccurence, finishLine, getSubParams, Scan.withCursor]
    · simp only [hm, if_false]
      by_cases hpn : c1.parents = []
      · right
        rw [hnil hpn]
        simp only [get_finishLine]
      · rcases hnon hpn hm with h | h
        · left; rw [h]
        · right
          rw [h]
          simp only [nonStrictFlow, hsub1, get_finishLine]
          rfl

theorem get_skipState (depth : Int) (keyword : CStr) (k : Int) (s : Scan)
    (e1 : SNM_ChunkParserPatcher) (k1 : Option Nat) (id : Nat) (v : CStr)
    (hsub : s.subChunkKeyword = some id) (hv : s.value = some v) :
    skipState (getSubParams depth keyword k) s e1 k1 =
      { s with e := e1, value := some (v ++ s.rest.take (k1.getD 0)) } := by
  cases k1 with
  | none =>
    cases s
    simp only at hv
    simp [skipState, hv]
  | some n =>
    cases s
    simp only at hv hsub
    simp [skipState, copySkipped, getSubParams, hsub, hv]

theorem get_inside (lp : LineParser) (depth : Int) (keyword : CStr) (k : Int)
    (s : Scan) (ev : LineEvent) (c1 : Cursor) (id : Nat) (v : CStr) (hd : 0 < depth)
    (hb : s.e.m_breakParsePatch = false) (hw : walkStep lp s.cursor = .line ev c1)
    (hsub : s.subChunkKeyword = some id) (hlen : depth ≤ (s.parents.length : Int))
    (hid : (s.parents.get? (depth - 1).toNat).map Prod.fst = some id)
    (hv : s.value = some v) :
    ((c1.parents.length : Int) < depth →
      ∃ s2, iteration lp (getSubParams depth keyword k) s = .ret s2 s.posStartOfSubchunk ∧
        s2.value = some (v ++ (ev.skipped ++ ">\n".toList)) ∧
        s2.e.m_breakParsePatch = false ∧ (s2.e = s.e ∨ s2.e = s.e.GetChunkType.1)) ∧
    (depth ≤ (c1.parents.length : Int) →
      (iteration lp (getSubParams depth keyword k) s = .undefined ∨
       iteration lp (getSubParams depth keyword k) s = .next
        { s.withCursor c1 with value := some (v ++ (ev.skipped ++ ev.fetched)) }) ∧
      (c1.parents.get? (depth - 1).toNat).map Prod.fst = some id) := by
  obtain ⟨e1, k1, hit, hsk, hpos, hparse, hc1, hb1, heng, hdrop⟩ :=
    iteration_line lp (getSubParams depth keyword k) s ev c1 hb hw
  rw [hit, get_skipState depth keyword k s e1 k1 id v hsub hv, ← hsk]
  have hmode : (getSubParams depth keyword k).mode ≥ 0 := by
    show SNM_GET_SUBCHUNK_OR_LINE ≥ 0
    decide
  unfold processLine
  simp only [hparse]
  cases ht : ev.toks with
  | none =>
    rw [ht] at hc1
    simp only at hc1
    subst hc1
    have hge : depth ≤ (((s.cursor.behind e1 ev).parents.length : Nat) : Int) := hlen
    refine ⟨fun h => absurd h (by omega), fun _ => ⟨Or.inr ?_, hid⟩⟩
    cases s
    simp [Scan.withCursor, Cursor.behind, Scan.cursor, hpos, LineEvent.fetched, ht]
  | some toks =>
    rw [ht] at hc1
    simp only at hc1
    simp only
    obtain ⟨s0, hs0⟩ : ∃ s0 : Scan, s0 =
      { ({ s with e := e1, value := some (v ++ ev.skipped) } : Scan) with
        rest := ev.after, pos := s.pos + k1.getD 0 + ev.line.length + 1 } := ⟨_, rfl⟩
    have hs0c : s0.cursor = s.cursor.behind e1 ev := by
      rw [hs0]
      simp [Scan.cursor, Cursor.behind, hpos]
    have hc1a : applyParents s0.cursor toks ev.line.length = c1 := by rw [hs0c, hc1]
    have hs0p : s0.parents = s.parents := by rw [hs0]
    have hs0s : s0.subChunkKeyword = some id := by rw [hs0]; exact hsub
    have hs0w : s0.withCursor c1 =
        { s.withCursor c1 with value := some (v ++ ev.skipped) } := by
      rw [hs0]; cases s; rfl
    rw [← hs0]
    have hshape := applyParents_shape s0.cursor toks ev.line.length
    rw [hc1a] at hshape
    have hcp : s0.cursor.parents = s.parents := hs0p
    rw [hcp] at hshape
    by_cases hcl : closesSub (getSubParams depth keyword k) s0 toks
    · -- the line closes the sub-chunk
      obtain ⟨hgt, -, hdl, -⟩ := hcl
      have hdl2 : depth = (s.parents.length : Int) := by rw [← hs0p]; exact hdl
      have hpar : c1.parents = s.parents.dropLast := by
        rcases hshape with ⟨name, hh, -⟩ | ⟨-, hp⟩ | ⟨-, hh, -⟩
        · rw [hh] at hgt; simp at hgt
        · exact hp
        · exact absurd hgt hh
      have hlt : (c1.parents.length : Int) < depth := by
        rw [hpar, List.length_dropLast]; omega
      refine ⟨fun _ => ?_, fun h => absurd hlt (by omega)⟩
      rw [updateParents_close _ _ _ _ _ ⟨hgt, by rw [hs0s]; rfl, hdl, by
        show s0.subChunkKeyword = (s0.parents.get? (depth - 1).toNat).map Prod.fst
        rw [hs0s, hs0p, hid]⟩]
      have hmr : (getSubParams depth keyword k).mode = SNM_GET_SUBCHUNK_OR_LINE := rfl
      have hmn : ¬ (SNM_GET_SUBCHUNK_OR_LINE = SNM_REPLACE_SUBCHUNK_OR_LINE) := by decide
      simp only [hmr, hmn, if_false, true_or, if_true]
      refine ⟨{ s0 with
        subChunkKeyword := none,
        value := s0.value.map (· ++ ">\n".toList) }, ?_, ?_, ?_, ?_⟩
      · have : s0.posStartOfSubchunk = s.posStartOfSubchunk := by rw [hs0]
        rw [this]
      · rw [hs0]
        simp
      · rw [hs0]
        exact hb1
      · rw [hs0]
        exact heng
    · -- any other line of the sub-chunk
      rw [updateParents_open _ _ _ _ _ hcl, hc1a]
      have hfacts : depth ≤ (c1.parents.length : Int) ∧
          (c1.parents.get? (depth - 1).toNat).map Prod.fst = some id ∧
          ¬ (toks.head? = some ('<' :: keyword) ∧ (c1.parents.length : Int) = depth ∧
            c1.parents.getLast?.map Prod.snd = some keyword) := by
        rcases hshape with ⟨name, hh, hp⟩ | ⟨hgt, hp⟩ | ⟨hlt1, hgt1, hp⟩
        · obtain ⟨h1, h2, h3⟩ := parents_push_inv s.parents (s0.cursor.allocs, name) depth hd hlen
          rw [hp]
          exact ⟨h2, by rw [h3]; exact hid, fun hM => h1 hM.2.1⟩
        · have hlt2 : depth < (s.parents.length : Int) := by
            rcases lt_or_ge depth (s.parents.length : Int) with h | h
            · exact h
            · exfalso
              apply hcl
              exact ⟨hgt, by rw [hs0s]; rfl, by
                show depth = (s0.parents.length : Int)
                rw [hs0p]; omega, by
                show s0.subChunkKeyword = (s0.parents.get? (depth - 1).toNat).map Prod.fst
                rw [hs0s, hs0p, hid]⟩
          obtain ⟨h2, h3⟩ := parents_pop_inv s.parents depth hd hlt2
          rw [hp]
          refine ⟨h2, by rw [h3]; exact hid, fun hM => ?_⟩
          rw [hM.1] at hgt
          simp at hgt
        · rw [hp]
          refine ⟨hlen, hid, fun hM => ?_⟩
          rw [hM.1] at hlt1
          simp at hlt1
      obtain ⟨hge, hidc, hnM⟩ := hfacts
      refine ⟨fun h => absurd h (by omega), fun _ => ⟨?_, hidc⟩⟩
      have hwp : (s0.withCursor c1).parents = c1.parents := rfl
      have hne : (s0.withCursor c1).parents ≠ [] := by
        rw [hwp]
        intro h
        rw [h] at hge
        simp at hge
        omega
      have hdc : ∀ (lineText : CStr) (linePos : Nat) (eolPos1 : Int),
          dispatch lp (getSubParams depth keyword k) (s0.withCursor c1) false toks
            (truncLine ev.line) lineText linePos eolPos1 = .undefined ∨
          dispatch lp (getSubParams depth keyword k) (s0.withCursor c1) false toks
            (truncLine ev.line) lineText linePos eolPos1 =
            nonStrictFlow (getSubParams depth keyword k) (s0.withCursor c1) false
              (truncLine ev.line) := by
        intro lineText linePos eolPos1
        exact (dispatch_cases lp (getSubParams depth keyword k) (s0.withCursor c1) false
          toks (truncLine ev.line) lineText linePos eolPos1
          keyword ('<' :: keyword) rfl rfl rfl hmode hd).2.1 hne (by rw [hwp]; exact hnM)
      dsimp only
      have hdc := hdc (List.drop (k1.getD 0) s.rest) (s.pos + k1.getD 0)
        ((s.pos + k1.getD 0 + ev.line.length + 1 : Nat) : Int)
      rcases hdc with h | h
      · left; rw [h]
      · right
        rw [h]
        have hsw : (s0.withCursor c1).subChunkKeyword = some id := hs0s
        simp only [nonStrictFlow, hsw, Option.isSome_some, if_true, get_finishLine]
        rw [hs0w]
        cases s
        simp only at hsub
        simp [getSubParams, Scan.withCursor, hsub, LineEvent.fetched, ht]

theorem GetChunk_isParsingSource (e : SNM_ChunkParserPatcher) (b : Bool) :
    GetChunk { e with m_isParsingSource := b } = { GetChunk e with m_isParsingSource := b } := by
  obtain ⟨c, ac, ro, oc, u, b64, midi, fr, ms, ips, bpp, ct⟩ := e
  cases ro with
  | none =>
    cases oc with
    | none => simp [GetChunk]
    | some orig => by_cases h : c.length = 0 <;> simp [GetChunk, h]
  | some obj =>
    obtain ⟨st, rc, wr⟩ := obj
    cases st with
    | none => simp [GetChunk]
    | some cd => by_cases h : c.length = 0 <;> simp [GetChunk, h]

theorem chunkTypeOf_isParsingSource (e : SNM_ChunkParserPatcher) (b : Bool) :
    chunkTypeOf { e with m_isParsingSource := b } = chunkTypeOf e := by
  unfold chunkTypeOf GetChunkType
  simp only [GetChunk_isParsingSource]
  split <;> rfl

theorem chunkTypeOf_cached (e : SNM_ChunkParserPatcher) :
    chunkTypeOf e.GetChunkType.1 = chunkTypeOf e := by
  unfold chunkTypeOf GetChunkType
  by_cases h : e.m_chunkType < 0
  · simp only [h, if_true]
    by_cases hc : e.GetChunk.m_chunk.length ≥ 7 ∧
        (startsWith e.GetChunk.m_chunk "<TRACK\n".toList ∨
          startsWith e.GetChunk.m_chunk "<TRACK ".toList)
    · simp only [hc, if_true]
      rfl
    · simp only [hc, if_false]
      rfl
  · simp only [h, if_false]

theorem applyParents_engine (c : Cursor) (toks : List CStr) (n : Nat) :
    ∃ b, (applyParents c toks n).e = { c.e with m_isParsingSource := b } := by
  unfold applyParents
  split
  · exact ⟨c.e.m_isParsingSource, rfl⟩
  · split
    · exact ⟨_, rfl⟩
    · exact ⟨_, rfl⟩
    · exact ⟨c.e.m_isParsingSource, rfl⟩

theorem walkStep_chunkType {lp : LineParser} {c c1 : Cursor} {ev : LineEvent}
    (h : walkStep lp c = .line ev c1) : chunkTypeOf c1.e = chunkTypeOf c.e := by
  obtain ⟨line, after, e1, k, -, hn, -, -, -, hc1⟩ := walkStep_inv h
  have he1 : chunkTypeOf e1 = chunkTypeOf c.e := by
    rcases nextLine_engine hn with h1 | h1
    · rw [h1]; rfl
    · rw [h1]; exact chunkTypeOf_cached _
  rw [hc1]
  cases ev.toks with
  | none => exact he1
  | some toks =>
    simp only
    obtain ⟨b, hb⟩ := applyParents_engine
      { c with e := e1, rest := ev.after, pos := c.pos + k.getD 0 + ev.line.length + 1 }
      toks ev.line.length
    rw [hb]
    simp only
    rw [chunkTypeOf_isParsingSource]
    exact he1

theorem get_scanLoop_inside (lp : LineParser) (depth : Int) (keyword : CStr) (k : Int)
    (hd : 0 < depth) (evj : LineEvent) (hj : (evj.parents.length : Int) < depth) :
    ∀ (fuel : Nat) (s : Scan) (v : CStr) (n : Nat),
      s.e.m_breakParsePatch = false → InsideSub depth s → s.value = some v →
      (walk lp fuel s.cursor)[n]? = some evj →
      (∀ m ev, m < n → (walk lp fuel s.cursor)[m]? = some ev →
        depth ≤ (ev.parents.length : Int)) →
      (scanLoop lp (getSubParams depth keyword k) fuel s).okThen (fun sr =>
        sr.2 = some s.posStartOfSubchunk ∧
        sr.1.value = some (v ++ innerText ((walk lp fuel s.cursor).take n) ++
          (evj.skipped ++ ">\n".toList)) ∧
        sr.1.e.m_breakParsePatch = false ∧ chunkTypeOf sr.1.e = chunkTypeOf s.e) := by
  intro fuel
  induction fuel with
  | zero => intro s v n _ _ _ _ _; trivial
  | succ fuel ih =>
    intro s v n hb hin hv hev hall
    cases hw : walkStep lp s.cursor with
    | stop => simp [walk, hw] at hev
    | undefined => simp [walk, hw] at hev
    | fuel => simp [walk, hw] at hev
    | line ev c1 =>
      have hb1 : c1.e.m_breakParsePatch = false := (walkStep_break hw).trans hb
      have hevp : ev.parents.length = c1.parents.length := by
        rw [(walkStep_line hw).2.2.2.2, List.length_map]
      simp only [walk, hw] at hev hall ⊢
      obtain ⟨id, hsub, hlen, hid⟩ := hin
      obtain ⟨hclose, hopen⟩ := get_inside lp depth keyword k s ev c1 id v hd hb hw hsub hlen
        hid hv
      cases n with
      | zero =>
        simp only [List.getElem?_cons_zero, Option.some.injEq] at hev
        subst hev
        obtain ⟨s2, hit, hval, hbr, heng⟩ := hclose (by rw [← hevp]; exact hj)
        simp only [scanLoop, hit]
        refine (show (_ ∧ _ ∧ _ ∧ _) from ⟨rfl, ?_, hbr, ?_⟩)
        · rw [hval]
          simp [innerText]
        · rcases heng with h | h
          · rw [h]
          · rw [h]; exact chunkTypeOf_cached _
      | succ n =>
        simp only [List.getElem?_cons_succ] at hev
        have hge : depth ≤ (c1.parents.length : Int) := by
          rw [← hevp]
          exact hall 0 ev (by omega) (by simp)
        obtain ⟨hstep, hinv⟩ := hopen hge
        rcases hstep with ho | ho
        · simp only [scanLoop, ho]
          trivial
        · obtain ⟨s2, hs2⟩ : ∃ s2 : Scan, s2 = { s.withCursor c1 with
              value := some (v ++ (ev.skipped ++ ev.fetched)) } := ⟨_, rfl⟩
          have hit2 : iteration lp (getSubParams depth keyword k) s = .next s2 := by
            rw [hs2]; exact ho
          have f1 : s2.cursor = c1 := by rw [hs2]; cases s; rfl
          have f2 : s2.posStartOfSubchunk = s.posStartOfSubchunk := by rw [hs2]; rfl
          have f5 : s2.value = some (v ++ (ev.skipped ++ ev.fetched)) := by rw [hs2]
          have f6 : s2.e.m_breakParsePatch = false := by rw [hs2]; exact hb1
          have f7 : s2.subChunkKeyword = some id := by rw [hs2]; exact hsub
          have f8 : s2.parents = c1.parents := by rw [hs2]; rfl
          have f9 : s2.e = c1.e := by rw [hs2]; rfl
          rw [scanLoop_next fuel hit2]
          refine okThen_imp (ih s2 (v ++ (ev.skipped ++ ev.fetched)) n f6
            ⟨id, f7, by rw [f8]; exact hge, by rw [f8]; exact hinv⟩ f5
            (by rw [f1]; exact hev)
            (fun m ev' hm' h' => hall (m + 1) ev' (by omega) (by
              rw [f1] at h'
              simpa using h'))) ?_
          intro sr h
          rw [f1, f2, f9] at h
          refine ⟨h.1, ?_, h.2.2.1, ?_⟩
          · rw [h.2.1]
            simp [innerText, List.append_assoc]
          · rw [h.2.2.2]
            have : chunkTypeOf c1.e = chunkTypeOf s.cursor.e := walkStep_chunkType hw
            exact this

theorem get_scanLoop (lp : LineParser) (depth : Int) (keyword : CStr) (k : Nat)
    (hd : 0 < depth) (evi evj : LineEvent)
    (hm : evi.Matches depth keyword ('<' :: keyword))
    (hj : (evj.parents.length : Int) < depth) :
    ∀ (fuel : Nat) (s : Scan) (v : CStr) (i n : Nat),
      s.e.m_breakParsePatch = false → s.subChunkKeyword = none → s.value = some v →
      (walk lp fuel s.cursor)[i]? = some evi →
      s.occurence + ((walk lp fuel s.cursor).take i).countP
        (fun ev => decide (ev.Matches depth keyword ('<' :: keyword))) = k →
      ((walk lp fuel s.cursor).drop (i + 1))[n]? = some evj →
      (∀ m ev, m < n → ((walk lp fuel s.cursor).drop (i + 1))[m]? = some ev →
        depth ≤ (ev.parents.length : Int)) →
      (scanLoop lp (getSubParams depth keyword k) fuel s).okThen (fun sr =>
        sr.2 = some (keywordPos1 (evi.line ++ '\n' :: evi.after) evi.linePos
          ('<' :: keyword)) ∧
        sr.1.value = some (v ++ (truncLine evi.line ++ ['\n']) ++
          innerText (((walk lp fuel s.cursor).drop (i + 1)).take n) ++
          (evj.skipped ++ ">\n".toList)) ∧
        sr.1.e.m_breakParsePatch = false ∧ chunkTypeOf sr.1.e = chunkTypeOf s.e) := by
  intro fuel
  induction fuel with
  | zero => intro s v i n _ _ _ _ _ _ _; trivial
  | succ fuel ih =>
    intro s v i n hb hsub hv hev hcnt hevj hall
    have hit := iteration_normal lp (getSubParams depth keyword k) s hb hsub
    cases hw : walkStep lp s.cursor with
    | stop => simp [walk, hw] at hev
    | undefined => simp [walk, hw] at hev
    | fuel => simp [walk, hw] at hev
    | line ev c1 =>
      have hb1 : c1.e.m_breakParsePatch = false := (walkStep_break hw).trans hb
      have hevp : ev.parents.length = c1.parents.length := by
        rw [(walkStep_line hw).2.2.2.2, List.length_map]
      have hct : chunkTypeOf c1.e = chunkTypeOf s.e := walkStep_chunkType hw
      rw [hw] at hit
      simp only at hit
      simp only [walk, hw] at hev hcnt hevj hall ⊢
      rcases get_onLine lp depth keyword k s ev c1 v hd hw hsub hv with ho | ho
      · rw [ho] at hit
        simp only [scanLoop, hit]
        trivial
      · rw [ho] at hit
        cases i with
        | zero =>
          simp only [List.getElem?_cons_zero, Option.some.injEq] at hev
          subst hev
          simp only [List.take_zero, List.countP_nil, Nat.add_zero] at hcnt
          have hk : (k : Int) = (s.occurence : Int) ∨ (k : Int) = -1 := by
            left; rw [hcnt]
          simp only [hm, hk, if_true] at hit
          simp only [Nat.zero_add, List.drop_succ_cons, List.drop_zero] at hevj hall ⊢
          obtain ⟨s2, hs2⟩ : ∃ s2 : Scan, s2 = { s.withCursor c1 with
              value := some (v ++ (truncLine ev.line ++ ['\n'])),
              posStartOfSubchunk :=
                keywordPos1 (ev.line ++ '\n' :: ev.after) ev.linePos ('<' :: keyword),
              subChunkKeyword := some ((c1.parents.getLast?.map Prod.fst).getD 0),
              occurence := s.occurence + 1 } := ⟨_, rfl⟩
          have hit2 : iteration lp (getSubParams depth keyword k) s = .next s2 := by
            rw [hs2]; exact hit
          have f1 : s2.cursor = c1 := by rw [hs2]; cases s; rfl
          have f2 : s2.posStartOfSubchunk =
              keywordPos1 (ev.line ++ '\n' :: ev.after) ev.linePos ('<' :: keyword) := by
            rw [hs2]
          have f5 : s2.value = some (v ++ (truncLine ev.line ++ ['\n'])) := by rw [hs2]
          have f6 : s2.e.m_breakParsePatch = false := by rw [hs2]; exact hb1
          have f7 : s2.subChunkKeyword =
              some ((c1.parents.getLast?.map Prod.fst).getD 0) := by rw [hs2]
          have f8 : s2.parents = c1.parents := by rw [hs2]; rfl
          have f9 : s2.e = c1.e := by rw [hs2]; rfl
          have hlen : (c1.parents.length : Int) = depth := by
            rw [← hevp]; exact hm.2.1
          rw [scanLoop_next fuel hit2]
          refine okThen_imp (get_scanLoop_inside lp depth keyword k hd evj hj fuel s2
            (v ++ (truncLine ev.line ++ ['\n'])) n f6
            ⟨_, f7, by rw [f8]; omega, by
              rw [f8]; exact opened_insideSub depth c1.parents hd hlen⟩ f5
            (by rw [f1]; exact hevj)
            (fun m ev' hm' h' => hall m ev' hm' (by rw [f1] at h'; exact h'))) ?_
          intro sr h
          rw [f1, f2, f9] at h
          refine ⟨h.1, ?_, h.2.2.1, by rw [h.2.2.2]; exact hct⟩
          rw [h.2.1]
        | succ i =>
          simp only [List.getElem?_cons_succ] at hev
          simp only [List.take_succ_cons, List.countP_cons, decide_eq_true_eq] at hcnt
          simp only [List.drop_succ_cons] at hevj hall ⊢
          obtain ⟨s2, hs2⟩ : ∃ s2 : Scan, s2 = { s.withCursor c1 with
              occurence := s.occurence +
                (if ev.Matches depth keyword ('<' :: keyword) then 1 else 0) } := ⟨_, rfl⟩
          have hit2 : iteration lp (getSubParams depth keyword k) s = .next s2 := by
            rw [hs2, hit]
            by_cases hm0 : ev.Matches depth keyword ('<' :: keyword)
            · have hk : ¬ ((k : Int) = (s.occurence : Int) ∨ (k : Int) = -1) := by
                simp only [hm0, if_true] at hcnt
                omega
              simp only [hm0, hk, if_true, if_false]
            · simp only [hm0, if_false, Nat.add_zero]
              cases s; rfl
          have f1 : s2.cursor = c1 := by rw [hs2]; cases s; rfl
          have f3 : s2.occurence = s.occurence +
              (if ev.Matches depth keyword ('<' :: keyword) then 1 else 0) := by rw [hs2]
          have f5 : s2.value = some v := by rw [hs2]; exact hv
          have f6 : s2.e.m_breakParsePatch = false := by rw [hs2]; exact hb1
          have f7 : s2.subChunkKeyword = none := by rw [hs2]; exact hsub
          have f9 : s2.e = c1.e := by rw [hs2]; rfl
          rw [scanLoop_next fuel hit2]
          refine okThen_imp (ih s2 v i n f6 f7 f5 (by rw [f1]; exact hev)
            (by rw [f1, f3]; omega) (by rw [f1]; exact hevj)
            (fun m ev' hm' h' => hall m ev' hm' (by rw [f1] at h'; exact h'))) ?_
          intro sr h
          rw [f1, f9] at h
          exact ⟨h.1, h.2.1, h.2.2.1, by rw [h.2.2.2]; exact hct⟩

theorem get_core (lp : LineParser) (e : SNM_ChunkParserPatcher) (depth : Int)
    (keyword : CStr) (k : Nat) (i n : Nat) (evi evj : LineEvent)
    (hb : e.m_breakParsePatch = false) (hd : 0 < depth)
    (hev : (documentLines lp e)[i]? = some evi)
    (hm : evi.Matches depth keyword ('<' :: keyword))
    (hcnt : ((documentLines lp e).take i).countP
      (fun ev => decide (ev.Matches depth keyword ('<' :: keyword))) = k)
    (hevj : ((documentLines lp e).drop (i + 1))[n]? = some evj)
    (hj : (evj.parents.length : Int) < depth)
    (hall : ∀ m ev, m < n → ((documentLines lp e).drop (i + 1))[m]? = some ev →
      depth ≤ (ev.parents.length : Int)) :
    match e.ParsePatchCore lp (getSubParams depth keyword k) (some []) with
    | .ok r =>
      r.ret = keywordPos1 (evi.line ++ '\n' :: evi.after) evi.linePos ('<' :: keyword) ∧
      r.value = some (fetchedText evi (((documentLines lp e).drop (i + 1)).take n) evj) ∧
      r.engine.m_breakParsePatch = false ∧
      chunkTypeOf r.engine = chunkTypeOf e.GetChunk ∧
      stablePart r.engine = stablePart e.GetChunk
    | .undefined => True
    | .outOfFuel => False := by
  have hf := scanLoop_facts lp (getSubParams depth keyword k)
    (e.GetChunk.m_chunk.length + 1)
    (initScan e.GetChunk (getSubParams depth keyword k) (some []))
    (Nat.lt_succ_self _) (initScan_filled e _ _)
  have hc := get_scanLoop lp depth keyword k hd evi evj hm hj
    (e.GetChunk.m_chunk.length + 1)
    (initScan e.GetChunk (getSubParams depth keyword k) (some []))
    [] i n ((GetChunk_break e).trans hb) rfl rfl hev (by
      have : (initScan e.GetChunk (getSubParams depth keyword k) (some [])).occurence = 0 :=
        rfl
      rw [this, Nat.zero_add]
      exact hcnt) hevj hall
  unfold ParsePatchCore
  simp only
  cases hs : scanLoop lp (getSubParams depth keyword k) (e.GetChunk.m_chunk.length + 1)
      (initScan e.GetChunk (getSubParams depth keyword k) (some [])) with
  | ok sr =>
    obtain ⟨s, r⟩ := sr
    rw [hs] at hf hc
    obtain ⟨⟨hst, -, -⟩, -⟩ := hf
    obtain ⟨hr, hval, hbr, hct⟩ := hc
    simp only at hr hval hbr hct
    subst hr
    simp only
    refine ⟨trivial, ?_, hbr, ?_, hst⟩
    · rw [hval]
      simp only [List.nil_append, fetchedText]
      rfl
    · rw [hct]
      exact chunkTypeOf_isParsingSource _ _
  | undefined => trivial
  | outOfFuel => rw [hs] at hf; exact hf

theorem replace_returnValue (depth : Int) (keyword : CStr) (k : Int) (updates occurence : Nat) :
    returnValue (replaceSubParams depth keyword k) updates occurence = updates := by
  simp [returnValue, replaceSubParams]

theorem replace_core (lp : LineParser) (e : SNM_ChunkParserPatcher) (depth : Int)
    (keyword : CStr) (k : Int) (text : CStr)
    (hb : e.m_breakParsePatch = false) (hd : 0 < depth) :
    match e.ParsePatchCore lp (replaceSubParams depth keyword k) (some text) with
    | .ok r =>
      r.ret = (replacedLines depth keyword k (documentLines lp e) 0 false : Nat) ∧
      (if r.ret ≠ 0 ∧ replaced depth keyword text k (documentLines lp e) 0 false ≠ [] then
        r.engine.m_chunk = replaced depth keyword text k (documentLines lp e) 0 false ∧
        r.engine.m_updates = e.m_updates + r.ret
      else r.engine.m_chunk = e.GetChunk.m_chunk ∧ r.engine.m_updates = e.m_updates)
    | .undefined => True
    | .outOfFuel => False := by
  have hf := scanLoop_facts lp (replaceSubParams depth keyword k)
    (e.GetChunk.m_chunk.length + 1)
    (initScan e.GetChunk (replaceSubParams depth keyword k) (some text))
    (Nat.lt_succ_self _) (initScan_filled e _ _)
  have hc := replace_scanLoop lp depth keyword k text hd
    (e.GetChunk.m_chunk.length + 1)
    (initScan e.GetChunk (replaceSubParams depth keyword k) (some text))
    [] false ((GetChunk_break e).trans hb) rfl rfl (fun _ => rfl) (fun h => by simp at h)
  unfold ParsePatchCore
  simp only
  cases hs : scanLoop lp (replaceSubParams depth keyword k) (e.GetChunk.m_chunk.length + 1)
      (initScan e.GetChunk (replaceSubParams depth keyword k) (some text)) with
  | ok sr =>
    obtain ⟨s, r⟩ := sr
    rw [hs] at hf hc
    obtain ⟨⟨hst, -, -⟩, -⟩ := hf
    obtain ⟨hr, hnew, hupd⟩ := hc
    simp only at hr hnew hupd
    subst hr
    have hdoc : walk lp (e.GetChunk.m_chunk.length + 1)
        (initScan e.GetChunk (replaceSubParams depth keyword k) (some text)).cursor =
        documentLines lp e := rfl
    have hocc : (initScan e.GetChunk (replaceSubParams depth keyword k)
        (some text)).occurence = 0 := rfl
    have hup0 : (initScan e.GetChunk (replaceSubParams depth keyword k)
        (some text)).updates = 0 := rfl
    rw [hdoc, hocc] at hnew hupd
    rw [hup0, Nat.zero_add] at hupd
    simp only [List.nil_append] at hnew
    have hchunk : s.e.m_chunk = e.GetChunk.m_chunk := congrArg (·.m_chunk) hst
    have hu : s.e.m_updates = e.m_updates :=
      (congrArg (·.m_updates) hst).trans (GetChunk_m_updates e)
    simp only [replace_returnValue]
    refine ⟨by rw [hupd], ?_⟩
    by_cases hcond : ((s.updates : Nat) : Int) ≠ 0 ∧
        replaced depth keyword text k (documentLines lp e) 0 false ≠ []
    · rw [if_pos hcond]
      have hc2 : (replaceSubParams depth keyword k).write = true ∧ s.updates ≠ 0 ∧
          (replaced depth keyword text k (documentLines lp e) 0 false).length ≠ 0 := by
        refine ⟨rfl, ?_, ?_⟩
        · intro h; apply hcond.1; rw [h]; rfl
        · intro h; exact hcond.2 (List.length_eq_zero.mp h)
      simp only [updateCache, hnew]
      rw [if_pos hc2]
      simp only [hu]
      exact ⟨trivial, trivial⟩
    · rw [if_neg hcond]
      have hc2 : ¬ ((replaceSubParams depth keyword k).write = true ∧ s.updates ≠ 0 ∧
          (replaced depth keyword text k (documentLines lp e) 0 false).length ≠ 0) := by
        intro h
        apply hcond
        refine ⟨?_, ?_⟩
        · intro h0; apply h.2.1; exact_mod_cast h0
        · intro h0; apply h.2.2; rw [h0]; rfl
      simp only [updateCache, hnew]
      rw [if_neg hc2]
      exact ⟨hchunk, hu⟩
  | undefined => trivial
  | outOfFuel => rw [hs] at hf; exact hf

theorem GetSubChunk_eq (lp : LineParser) (e : SNM_ChunkParserPatcher) (depth : Int)
    (keyword : CStr) (k : Int) (out : CStr) (hd : 0 < depth) :
    e.GetSubChunk lp (some keyword) depth k (some out) none =
      (match e.ParsePatchCore lp (getSubParams depth keyword k) (some []) with
       | .ok r =>
         if r.ret ≤ 0 then .ok (r.engine, -1, r.value.map (fun _ => []))
         else .ok (r.engine, r.ret - 1, r.value)
       | .undefined => .undefined
       | .outOfFuel => .outOfFuel) := by
  simp only [GetSubChunk, hd, gt_iff_lt, if_true]
  rfl

theorem ReplaceSubChunk_eq (lp : LineParser) (e : SNM_ChunkParserPatcher) (depth : Int)
    (keyword : CStr) (k : Int) (text : CStr) (hd : 0 < depth) :
    e.ReplaceSubChunk lp (some keyword) depth k (some text) none =
      (match e.ParsePatchCore lp (replaceSubParams depth keyword k) (some text) with
       | .ok r => .ok (r.engine, decide (r.ret > 0))
       | .undefined => .undefined
       | .outOfFuel => .outOfFuel) := by
  simp only [ReplaceSubChunk, hd, gt_iff_lt, if_true]
  rfl

theorem GetSubChunk_found (lp : LineParser) (e : SNM_ChunkParserPatcher) (depth : Int)
    (keyword : CStr) (k : Int) (out : CStr) (hd : 0 < depth) (r : Result) (pos : Nat)
    (hP : e.ParsePatchCore lp (getSubParams depth keyword k) (some []) = .ok r)
    (hret : r.ret = ((pos + 1 : Nat) : Int)) :
    e.GetSubChunk lp (some keyword) depth k (some out) none =
      .ok (r.engine, (pos : Int), r.value) := by
  rw [GetSubChunk_eq lp e depth keyword k out hd, hP]
  have hnot : ¬ (r.ret ≤ 0) := by rw [hret]; omega
  simp only [hnot, if_false]
  have : r.ret - 1 = (pos : Int) := by rw [hret]; push_cast; omega
  rw [this]

theorem replacedLines_pos (depth : Int) (keyword : CStr) :
    ∀ (evs : List LineEvent) (occ i : Nat) (ev : LineEvent), evs[i]? = some ev →
      ev.Matches depth keyword ('<' :: keyword) →
      0 < replacedLines depth keyword (-1) evs occ false
  | [], _, _, _, h, _ => by simp at h
  | e0 :: rest, occ, i, ev, h, hm => by
    by_cases hm0 : e0.Matches depth keyword ('<' :: keyword)
    · simp only [replacedLines, hm0, if_true, or_true]
      omega
    · simp only [replacedLines, hm0, if_false]
      cases i with
      | zero =>
        simp only [List.getElem?_cons_zero, Option.some.injEq] at h
        subst h
        exact absurd hm hm0
      | succ i =>
        simp only [List.getElem?_cons_succ] at h
        exact replacedLines_pos depth keyword rest occ i ev h hm

/-- C5 (counterexample): in `twoParentsDoc` the parent `B` has N = 2 sibling elements
named `X` at depth 3, `<X 2` and `<X 3`. `GetSubChunk("X", 3, 0)` returns the element
`<X 1` of the other parent `A`, at offset 6, not the first of those siblings. -/
theorem c5_counterexample :
    ∃ e1, (newFromChunk (some twoParentsDoc) true false false false).GetSubChunk
      wdlLineParser (some "X".toList) 3 0 (some []) none =
        .ok (e1, 6, some "<X 1\n>\n".toList) := by
  obtain ⟨r, hP⟩ : ∃ r, (newFromChunk (some twoParentsDoc) true false false
      false).ParsePatchCore wdlLineParser (getSubParams 3 "X".toList ((0 : Nat) : Int))
      (some []) = .ok r := ⟨_, rfl⟩
  have hc := get_core wdlLineParser (newFromChunk (some twoParentsDoc) true false false false)
    3 "X".toList 0 2 0
    { skipped := [], linePos := 6, line := "<X 1".toList,
      after := ">\n>\n<B\n<X 2\n>\n<X 3\n>\n>\n>\n".toList,
      toks := some ["<X".toList, "1".toList],
      parents := ["R".toList, "A".toList, "X".toList] }
    { skipped := [], linePos := 11, line := ">".toList,
      after := ">\n<B\n<X 2\n>\n<X 3\n>\n>\n>\n".toList,
      toks := some [">".toList],
      parents := ["R".toList, "A".toList] }
    rfl (by decide) rfl (by decide) rfl rfl (by decide)
    (fun m _ hm _ => absurd hm (Nat.not_lt_zero m))
  rw [hP] at hc
  obtain ⟨hret, hval, -⟩ := hc
  have hG := GetSubChunk_found wdlLineParser
    (newFromChunk (some twoParentsDoc) true false false false) 3 "X".toList
    ((0 : Nat) : Int) [] (by decide) r 6 hP (by rw [hret]; rfl)
  have hG2 : (newFromChunk (some twoParentsDoc) true false false false).GetSubChunk
      wdlLineParser (some "X".toList) 3 0 (some []) none = .ok (r.engine, 6, r.value) := hG
  exact ⟨r.engine, by rw [hG2, hval]; rfl⟩

theorem engSim_symm {e e1 : SNM_ChunkParserPatcher} (h : EngSim e e1) : EngSim e1 e :=
  ⟨h.1.symm, h.2.1.symm, h.2.2.1.symm, h.2.2.2.1.symm, h.2.2.2.2.symm⟩

theorem curSim_symm {c c1 : Cursor} (h : CurSim c c1) : CurSim c1 c :=
  ⟨h.1.symm, h.2.1.symm, h.2.2.1.symm, h.2.2.2.1.symm, engSim_symm h.2.2.2.2⟩

theorem GetChunk_flags (e : SNM_ChunkParserPatcher) :
    e.GetChunk.m_processBase64 = e.m_processBase64 ∧
    e.GetChunk.m_processInProjectMIDI = e.m_processInProjectMIDI ∧
    e.GetChunk.m_processFreeze = e.m_processFreeze ∧
    e.GetChunk.m_isParsingSource = e.m_isParsingSource ∧
    e.GetChunk.m_chunkType = e.m_chunkType := by
  unfold GetChunk
  split
  · split
    · split <;> exact ⟨rfl, rfl, rfl, rfl, rfl⟩
    · split <;> exact ⟨rfl, rfl, rfl, rfl, rfl⟩
  · exact ⟨rfl, rfl, rfl, rfl, rfl⟩

theorem GetChunkType_flags (e : SNM_ChunkParserPatcher) :
    e.GetChunkType.1.m_processBase64 = e.m_processBase64 ∧
    e.GetChunkType.1.m_processInProjectMIDI = e.m_processInProjectMIDI ∧
    e.GetChunkType.1.m_processFreeze = e.m_processFreeze ∧
    e.GetChunkType.1.m_isParsingSource = e.m_isParsingSource := by
  obtain ⟨h1, h2, h3, h4, -⟩ := GetChunk_flags e
  unfold GetChunkType
  split
  · exact ⟨h1, h2, h3, h4⟩
  · exact ⟨rfl, rfl, rfl, rfl⟩

theorem engSim_cached {e e1 : SNM_ChunkParserPatcher} (h : EngSim e e1) :
    EngSim e.GetChunkType.1 e1.GetChunkType.1 := by
  obtain ⟨a1, a2, a3, a4⟩ := GetChunkType_flags e
  obtain ⟨b1, b2, b3, b4⟩ := GetChunkType_flags e1
  refine ⟨?_, ?_, ?_, ?_, ?_⟩
  · rw [a1, b1]; exact h.1
  · rw [a2, b2]; exact h.2.1
  · rw [a3, b3]; exact h.2.2.1
  · rw [a4, b4]; exact h.2.2.2.1
  · rw [chunkTypeOf_cached, chunkTypeOf_cached]; exact h.2.2.2.2

theorem detectSkip_sim (s s1 : Scan) (line : CStr) (hr : s.rest = s1.rest)
    (hp : s.parents = s1.parents) (he : EngSim s.e s1.e) :
    match detectSkip s line with
    | .ok (e1, k) => ∃ e2, detectSkip s1 line = .ok (e2, k) ∧ EngSim e1 e2
    | .undefined => detectSkip s1 line = .undefined
    | .outOfFuel => detectSkip s1 line = .outOfFuel := by
  obtain ⟨h1, h2, h3, h4, h5⟩ := he
  have h5a : s.e.GetChunkType.2 = s1.e.GetChunkType.2 := h5
  have hc := engSim_cached (⟨h1, h2, h3, h4, h5⟩ : EngSim s.e s1.e)
  unfold detectSkip
  simp only [← hr, ← hp, ← h1, ← h2, ← h3, ← h4, ← h5a]
  by_cases c1 : s.e.m_processBase64 = false ∧ line.length > 2 ∧
      line.drop (line.length - 2) = "==".toList
  · simp only [c1, and_self, if_true]
    exact ⟨s1.e, rfl, h1, h2, h3, h4, h5⟩
  · simp only [c1, if_false]
    by_cases c2 : s.e.m_processInProjectMIDI = false ∧ s.e.m_isParsingSource = true ∧
        ((line.length > 2 ∧ startsWithNoCase s.rest "E ".toList = true) ∨
         (line.length > 3 ∧ startsWithNoCase s.rest "Em ".toList = true))
    · simp only [c2, if_true]
      exact ⟨s1.e, rfl, h1, h2, h3, h4, h5⟩
    · simp only [c2, if_false]
      by_cases c3 : s.e.m_processFreeze = false ∧ s.parents.length = 1 ∧ line.length > 8
      · simp only [c3, if_true]
        by_cases c4 : s.e.GetChunkType.2 = 1 ∧ startsWith s.rest "<FREEZE ".toList = true
        · simp only [c4, if_true]
          cases FindEndOfSubChunk s.rest 0 with
          | ok n =>
            simp only
            cases freezeSkipLoop s.rest (s.rest.length + 1) n none with
            | ok k => exact ⟨_, rfl, hc⟩
            | undefined => rfl
            | outOfFuel => rfl
          | undefined => rfl
          | outOfFuel => rfl
        · simp only [c4, if_false]
          exact ⟨_, rfl, hc⟩
      · simp only [c3, if_false]
        exact ⟨s1.e, rfl, h1, h2, h3, h4, h5⟩

theorem nextLine_sim (s s1 : Scan) (line after : CStr) (hr : s.rest = s1.rest)
    (hp : s.parents = s1.parents) (he : EngSim s.e s1.e) :
    match nextLine s line after with
    | .ok (e1, k, l1, a1) => ∃ e2, nextLine s1 line after = .ok (e2, k, l1, a1) ∧ EngSim e1 e2
    | .undefined => nextLine s1 line after = .undefined
    | .outOfFuel => nextLine s1 line after = .outOfFuel := by
  have hd := detectSkip_sim s s1 line hr hp he
  unfold nextLine
  cases hds : detectSkip s line with
  | undefined =>
    rw [hds] at hd
    simp only [hd]
  | outOfFuel =>
    rw [hds] at hd
    simp only [hd]
  | ok r =>
    obtain ⟨e1, k⟩ := r
    rw [hds] at hd
    obtain ⟨e2, hd2, hs⟩ := hd
    cases k with
    | none =>
      simp only [hd2]
      exact ⟨e2, rfl, hs⟩
    | some k =>
      simp only [hd2, ← hr]
      cases splitLine (s.rest.drop k) with
      | none => rfl
      | some la =>
        obtain ⟨l1, a1⟩ := la
        exact ⟨e2, rfl, hs⟩

theorem applyParents_sim {c c1 : Cursor} (h : CurSim c c1) (toks : List CStr) (n : Nat) :
    CurSim (applyParents c toks n) (applyParents c1 toks n) := by
  obtain ⟨hr, hpos, hp, ha, h1, h2, h3, h4, h5⟩ := h
  unfold applyParents
  split
  · exact ⟨hr, hpos, hp, ha, h1, h2, h3, h4, h5⟩
  · split
    · refine ⟨hr, hpos, by simp only [hp, ha], by simp only [ha], h1, h2, h3, ?_, ?_⟩
      · simp only [h4]
      · simp only [chunkTypeOf_isParsingSource]; exact h5
    · refine ⟨hr, hpos, by simp only [hp], ha, h1, h2, h3, ?_, ?_⟩
      · simp only [h4, hp]
      · simp only [chunkTypeOf_isParsingSource]; exact h5
    · exact ⟨hr, hpos, hp, ha, h1, h2, h3, h4, h5⟩

theorem walkStep_sim (lp : LineParser) {c c1 : Cursor} (h : CurSim c c1) (ev : LineEvent)
    (d : Cursor) (hw : walkStep lp c = .line ev d) :
    ∃ d1, walkStep lp c1 = .line ev d1 ∧ CurSim d d1 := by
  obtain ⟨hr, hpos, hp, ha, he⟩ := h
  obtain ⟨ce, cr, cp, cps, cal⟩ := c
  obtain ⟨ce1, cr1, cp1, cps1, cal1⟩ := c1
  simp only at hr hpos hp ha he
  subst hr hpos hp ha
  unfold walkStep at hw ⊢
  simp only at hw ⊢
  split at hw
  · simp at hw
  · rename_i line after hsp
    have hns := nextLine_sim
      (Cursor.scan { e := ce, rest := cr, pos := cp, parents := cps, allocs := cal })
      (Cursor.scan { e := ce1, rest := cr, pos := cp, parents := cps, allocs := cal })
      line after rfl rfl he
    split at hw
    · simp at hw
    · simp at hw
    · rename_i e1 k line1 after1 hn
      rw [hn] at hns
      obtain ⟨e2, hn2, hs⟩ := hns
      rw [hn2]
      simp only
      have hc0 : CurSim
          { e := e1, rest := after1, pos := cp + k.getD 0 + line1.length + 1, parents := cps,
            allocs := cal }
          { e := e2, rest := after1, pos := cp + k.getD 0 + line1.length + 1, parents := cps,
            allocs := cal } :=
        ⟨rfl, rfl, rfl, rfl, hs⟩
      split at hw
      · rename_i hparse
        simp only [WalkStep.line.injEq] at hw
        obtain ⟨rfl, rfl⟩ := hw
        try rw [hparse]
        exact ⟨_, rfl, hc0⟩
      · rename_i toks hparse
        simp only [WalkStep.line.injEq] at hw
        obtain ⟨rfl, rfl⟩ := hw
        have hap := applyParents_sim hc0 toks line1.length
        try rw [hparse]
        try simp only
        refine ⟨_, ?_, hap⟩
        rw [hap.2.2.1]

theorem walk_sim (lp : LineParser) :
    ∀ (n : Nat) (c c1 : Cursor), CurSim c c1 → walk lp n c = walk lp n c1 := by
  intro n
  induction n with
  | zero => intro c c1 _; rfl
  | succ n ih =>
    intro c c1 h
    cases hw : walkStep lp c with
    | line ev d =>
      obtain ⟨d1, hw1, hs⟩ := walkStep_sim lp h ev d hw
      simp only [walk, hw, hw1]
      rw [ih d d1 hs]
    | stop =>
      cases hw1 : walkStep lp c1 with
      | line ev d1 =>
        obtain ⟨d, hw2, -⟩ := walkStep_sim lp (curSim_symm h) ev d1 hw1
        rw [hw] at hw2
        simp at hw2
      | stop => simp only [walk, hw, hw1]
      | undefined => simp only [walk, hw, hw1]
      | fuel => simp only [walk, hw, hw1]
    | undefined =>
      cases hw1 : walkStep lp c1 with
      | line ev d1 =>
        obtain ⟨d, hw2, -⟩ := walkStep_sim lp (curSim_symm h) ev d1 hw1
        rw [hw] at hw2
        simp at hw2
      | stop => simp only [walk, hw, hw1]
      | undefined => simp only [walk, hw, hw1]
      | fuel => simp only [walk, hw, hw1]
    | fuel =>
      cases hw1 : walkStep lp c1 with
      | line ev d1 =>
        obtain ⟨d, hw2, -⟩ := walkStep_sim lp (curSim_symm h) ev d1 hw1
        rw [hw] at hw2
        simp at hw2
      | stop => simp only [walk, hw, hw1]
      | undefined => simp only [walk, hw, hw1]
      | fuel => simp only [walk, hw, hw1]

theorem chunkTypeOf_GetChunk (e : SNM_ChunkParserPatcher) :
    chunkTypeOf e.GetChunk = chunkTypeOf e := by
  unfold chunkTypeOf GetChunkType
  rw [(GetChunk_flags e).2.2.2.2, GetChunk_GetChunk]
  split <;> rfl

/-- An engine that differs from `e` after `GetChunk()` only in `m_isParsingSource`, the
break flag and a chunk type cached in the meantime holds the same Document lines. -/
theorem documentLines_sim (lp : LineParser) (e e1 : SNM_ChunkParserPatcher)
    (hst : stablePart e1 = stablePart e.GetChunk)
    (hct : chunkTypeOf e1 = chunkTypeOf e.GetChunk) :
    documentLines lp e1 = documentLines lp e := by
  have hf : (stablePart e.GetChunk).GetChunk = stablePart e.GetChunk := by
    rw [← stablePart_GetChunk, GetChunk_GetChunk]
  have hst1 : stablePart e1.GetChunk = stablePart e.GetChunk := by
    rw [stablePart_GetChunk, hst, hf]
  have hchunk : e1.GetChunk.m_chunk = e.GetChunk.m_chunk := congrArg (·.m_chunk) hst1
  unfold documentLines
  rw [hchunk]
  apply walk_sim
  refine ⟨hchunk, rfl, rfl, rfl, ?_, ?_, ?_, rfl, ?_⟩
  · exact congrArg (·.m_processBase64) hst1
  · exact congrArg (·.m_processInProjectMIDI) hst1
  · exact congrArg (·.m_processFreeze) hst1
  · show chunkTypeOf { e1.GetChunk with m_isParsingSource := false } =
      chunkTypeOf { e.GetChunk with m_isParsingSource := false }
    rw [chunkTypeOf_isParsingSource e1.GetChunk false,
      chunkTypeOf_isParsingSource e.GetChunk false, chunkTypeOf_GetChunk, hct]

theorem walk_text (lp : LineParser) :
    ∀ (n : Nat) (c : Cursor) (j : Nat) (ev : LineEvent), (walk lp n c)[j]? = some ev →
      c.rest = verbatimLines ((walk lp n c).take (j + 1)) ++ ev.after := by
  intro n
  induction n with
  | zero => intro c j ev h; simp [walk] at h
  | succ n ih =>
    intro c j ev h
    cases hw : walkStep lp c with
    | stop => simp [walk, hw] at h
    | undefined => simp [walk, hw] at h
    | fuel => simp [walk, hw] at h
    | line ev0 c1 =>
      obtain ⟨hrest, -, hc1, -, -⟩ := walkStep_line hw
      simp only [walk, hw] at h ⊢
      cases j with
      | zero =>
        simp only [List.getElem?_cons_zero, Option.some.injEq] at h
        subst h
        rw [hrest]
        simp [verbatimLines]
      | succ j =>
        simp only [List.getElem?_cons_succ] at h
        have := ih c1 j ev h
        rw [hc1] at this
        rw [hrest, this]
        simp [verbatimLines]

theorem verbatimLines_append (a b : List LineEvent) :
    verbatimLines (a ++ b) = verbatimLines a ++ verbatimLines b := by
  simp [verbatimLines]

theorem rebuiltLines_verbatim :
    ∀ (evs : List LineEvent) (i : Nat),
      (∀ m ev, m < i → evs[m]? = some ev → ev.copied = ev.line ++ ['\n']) →
      rebuiltLines (evs.take i) = verbatimLines (evs.take i)
  | [], _, _ => by simp [rebuiltLines, verbatimLines]
  | e0 :: rest, 0, _ => by simp [rebuiltLines, verbatimLines]
  | e0 :: rest, i + 1, h => by
    have h0 := h 0 e0 (by omega) (by simp)
    have ih := rebuiltLines_verbatim rest i
      (fun m ev hm hev => h (m + 1) ev (by omega) (by simpa using hev))
    simp only [rebuiltLines, verbatimLines, List.take_succ_cons, List.map_cons,
      List.flatten_cons] at ih ⊢
    rw [ih, h0]
    simp

theorem innerText_verbatim :
    ∀ (evs : List LineEvent) (n : Nat),
      (∀ m ev, m < n → evs[m]? = some ev → ev.fetched = ev.line ++ ['\n']) →
      innerText (evs.take n) = verbatimLines (evs.take n)
  | [], _, _ => by simp [innerText, verbatimLines]
  | e0 :: rest, 0, _ => by simp [innerText, verbatimLines]
  | e0 :: rest, n + 1, h => by
    have h0 := h 0 e0 (by omega) (by simp)
    have ih := innerText_verbatim rest n
      (fun m ev hm hev => h (m + 1) ev (by omega) (by simpa using hev))
    simp only [innerText, verbatimLines, List.take_succ_cons, List.map_cons,
      List.flatten_cons] at ih ⊢
    rw [ih, h0]
    simp

theorem replaced_inside_close (depth : Int) (keyword text : CStr) (k : Int) (hk : k ≠ -1)
    (evj : LineEvent) (hj : (evj.parents.length : Int) < depth) :
    ∀ (evs : List LineEvent) (occ n : Nat), evs[n]? = some evj →
      (∀ m ev, m < n → evs[m]? = some ev → depth ≤ (ev.parents.length : Int)) →
      replaced depth keyword text k evs occ true = keptTail evj.after ∧
      0 < replacedLines depth keyword k evs occ true
  | [], _, _, h, _ => by simp at h
  | e0 :: rest, occ, 0, h, _ => by
    simp only [List.getElem?_cons_zero, Option.some.injEq] at h
    subst h
    simp only [replaced, replacedLines, hj, hk, if_true, if_false]
    exact ⟨trivial, by omega⟩
  | e0 :: rest, occ, n + 1, h, hall => by
    simp only [List.getElem?_cons_succ] at h
    have h0 : ¬ ((e0.parents.length : Int) < depth) := by
      have := hall 0 e0 (by omega) (by simp)
      omega
    have ih := replaced_inside_close depth keyword text k hk evj hj rest occ n h
      (fun m ev hm hev => hall (m + 1) ev (by omega) (by simpa using hev))
    simp only [replaced, replacedLines, h0, if_false]
    exact ⟨ih.1, by omega⟩

theorem replaced_outside (depth : Int) (keyword text : CStr) (k : Nat)
    (evi evj : LineEvent) (hm : evi.Matches depth keyword ('<' :: keyword))
    (hj : (evj.parents.length : Int) < depth) :
    ∀ (evs : List LineEvent) (occ i n : Nat), evs[i]? = some evi →
      occ + (evs.take i).countP
        (fun ev => decide (ev.Matches depth keyword ('<' :: keyword))) = k →
      (evs.drop (i + 1))[n]? = some evj →
      (∀ m ev, m < n → (evs.drop (i + 1))[m]? = some ev →
        depth ≤ (ev.parents.length : Int)) →
      replaced depth keyword text (k : Int) evs occ false =
        rebuiltLines (evs.take i) ++ (evi.skipped ++ text) ++ keptTail evj.after ∧
      0 < replacedLines depth keyword (k : Int) evs occ false
  | [], _, _, _, h, _, _, _ => by simp at h
  | e0 :: rest, occ, 0, n, h, hcnt, hevj, hall => by
    simp only [List.getElem?_cons_zero, Option.some.injEq] at h
    subst h
    simp only [List.take_zero, List.countP_nil, Nat.add_zero] at hcnt
    simp only [Nat.zero_add, List.drop_succ_cons, List.drop_zero] at hevj hall
    have hk : (k : Int) = (occ : Int) ∨ (k : Int) = -1 := by left; rw [hcnt]
    have hk1 : (k : Int) ≠ -1 := by omega
    obtain ⟨h1, h2⟩ := replaced_inside_close depth keyword text (k : Int) hk1 evj hj rest
      (occ + 1) n hevj hall
    simp only [replaced, replacedLines, hm, hk, if_true, h1]
    refine ⟨by simp [rebuiltLines], by omega⟩
  | e0 :: rest, occ, i + 1, n, h, hcnt, hevj, hall => by
    simp only [List.getElem?_cons_succ] at h
    simp only [List.take_succ_cons, List.countP_cons, decide_eq_true_eq] at hcnt
    simp only [List.drop_succ_cons] at hevj hall
    by_cases hm0 : e0.Matches depth keyword ('<' :: keyword)
    · have hk : ¬ ((k : Int) = (occ : Int) ∨ (k : Int) = -1) := by
        simp only [hm0, if_true] at hcnt
        omega
      obtain ⟨h1, h2⟩ := replaced_outside depth keyword text k evi evj hm hj rest (occ + 1)
        i n h (by simp only [hm0, if_true] at hcnt; omega) hevj hall
      simp only [replaced, replacedLines, hm0, hk, if_true, if_false, h1]
      refine ⟨by simp [rebuiltLines, List.append_assoc], h2⟩
    · obtain ⟨h1, h2⟩ := replaced_outside depth keyword text k evi evj hm hj rest occ
        i n h (by simp only [hm0, if_false] at hcnt; omega) hevj hall
      simp only [replaced, replacedLines, hm0, if_false, h1]
      refine ⟨by simp [rebuiltLines, List.append_assoc], h2⟩

theorem take_through_close {α : Type} (l : List α) (i n : Nat) (a b : α)
    (ha : l[i]? = some a) (hb : (l.drop (i + 1))[n]? = some b) :
    l[i + 1 + n]? = some b ∧
    l.take (i + 1 + n + 1) = l.take i ++ a :: ((l.drop (i + 1)).take n ++ [b]) := by
  have hb2 : l[i + 1 + n]? = some b := by
    rw [← hb, List.getElem?_drop]
  refine ⟨hb2, ?_⟩
  have e1 : l.take (i + 1 + (n + 1)) = l.take (i + 1) ++ (l.drop (i + 1)).take (n + 1) :=
    List.take_add l (i + 1) (n + 1)
  have e2 : l.take (i + 1) = l.take i ++ [a] := by
    rw [List.take_succ, ha]; rfl
  have e3 : (l.drop (i + 1)).take (n + 1) = (l.drop (i + 1)).take n ++ [b] := by
    rw [List.take_succ, hb]; rfl
  have : i + 1 + n + 1 = i + 1 + (n + 1) := by omega
  rw [this, e1, e2, e3]
  simp

theorem originReads_le (e : SNM_ChunkParserPatcher) :
    originReads e ≤ (if e.m_chunk = [] then 1 else 0) := by
  unfold originReads
  by_cases h : e.m_chunk = []
  · simp only [h, List.length_nil, if_true]
    cases e.m_reaObject with
    | some _ => exact Nat.le_refl _
    | none =>
      cases e.m_originalChunk with
      | some _ => exact Nat.le_refl _
      | none => exact Nat.zero_le _
  · have : e.m_chunk.length ≠ 0 := fun hl => h (List.length_eq_zero.mp hl)
    simp [this]

theorem originReads_filled (e : SNM_ChunkParserPatcher) (h : e.m_chunk ≠ []) :
    originReads e = 0 := by
  have := originReads_le e
  simp only [h, if_false] at this
  omega

theorem GetChunk_filled (e : SNM_ChunkParserPatcher) (h : e.m_chunk ≠ []) : e.GetChunk = e := by
  have : e.m_chunk.length ≠ 0 := fun hl => h (List.length_eq_zero.mp hl)
  simp [GetChunk, this]

theorem GetChunk_filled_ne (e : SNM_ChunkParserPatcher) (h : e.m_chunk ≠ []) :
    e.GetChunk.m_chunk ≠ [] := by
  rw [GetChunk_filled e h]
  exact h

theorem GetChunk_origin (e : SNM_ChunkParserPatcher) :
    e.GetChunk.m_reaObject = e.m_reaObject ∧
    e.GetChunk.m_originalChunk = e.m_originalChunk := by
  unfold GetChunk
  split
  · split
    · split <;> exact ⟨rfl, rfl⟩
    · split <;> exact ⟨rfl, rfl⟩
  · exact ⟨rfl, rfl⟩

theorem SetChunk_origin (e : SNM_ChunkParserPatcher) (c : Option CStr) (u : Int) :
    (e.SetChunk c u).m_chunk = c.getD [] ∧
    (e.SetChunk c u).m_reaObject = e.m_reaObject ∧
    (e.SetChunk c u).m_originalChunk = e.m_originalChunk :=
  ⟨rfl, (GetChunk_origin { e with m_updates := u }).1,
    (GetChunk_origin { e with m_updates := u }).2⟩

theorem originReads_empty (e : SNM_ChunkParserPatcher) (h : e.m_chunk = [])
    (ho : e.m_reaObject.isSome = true ∨ e.m_originalChunk.isSome = true) :
    originReads e = 1 := by
  unfold originReads
  simp only [h, List.length_nil, if_true]
  cases hr : e.m_reaObject with
  | some _ => rfl
  | none =>
    cases hc : e.m_originalChunk with
    | some _ => rfl
    | none => simp [hr, hc] at ho

theorem originReads_GetChunk (e : SNM_ChunkParserPatcher) (h : e.GetChunk.m_chunk ≠ []) :
    originReads e.GetChunk = 0 := originReads_filled _ h

/-- An access that finds the cache filled makes no read. -/
theorem Access.reads_filled (a : Access) (e : SNM_ChunkParserPatcher) (h : e.m_chunk ≠ []) :
    a.reads e = 0 := by
  cases a with
  | getChunk => exact originReads_filled e h
  | setChunk c u => exact originReads_filled { e with m_updates := u } h
  | cancelUpdates => exact originReads_filled { e with m_updates := 0 } h
  | getChunkType =>
    simp only [Access.reads]
    split
    · exact originReads_filled e h
    · rfl
  | parsePatchCore lp p value =>
    simp only [Access.reads]
    rw [originReads_filled e h, originReads_filled _ (GetChunk_filled_ne e h)]
  | removeIds fuel => exact originReads_filled e h
  | removeLines fuel kw bol eol => exact originReads_filled e h
  | commit force =>
    simp only [Access.reads]
    rw [originReads_filled e h, originReads_filled _ (GetChunk_filled_ne e h)]
    simp

/-- An access makes at most two reads, and at most one when the origin gives a
Document that is not empty. -/
theorem Access.reads_le (a : Access) (e : SNM_ChunkParserPatcher) :
    a.reads e ≤ 2 * (if e.m_chunk = [] then 1 else 0) ∧
    (e.GetChunk.m_chunk ≠ [] → a.reads e ≤ 1) := by
  by_cases hc : e.m_chunk = []
  · simp only [hc, if_true, Nat.mul_one]
    have h1 := originReads_le e
    simp only [hc, if_true] at h1
    have h2 := originReads_le e.GetChunk
    have h3 : originReads e.GetChunk ≤ 1 := by
      split at h2 <;> omega
    have hu : ∀ u, originReads { e with m_updates := u } ≤ 1 := by
      intro u
      have := originReads_le { e with m_updates := u }
      split at this <;> omega
    cases a with
    | getChunk => exact ⟨by simp only [Access.reads]; omega, fun _ => h1⟩
    | setChunk c u => exact ⟨by simp only [Access.reads]; have := hu u; omega, fun _ => hu u⟩
    | cancelUpdates =>
      exact ⟨by simp only [Access.reads]; have := hu 0; omega, fun _ => hu 0⟩
    | getChunkType =>
      simp only [Access.reads]
      split
      · exact ⟨by omega, fun _ => h1⟩
      · exact ⟨by omega, fun _ => by omega⟩
    | parsePatchCore lp p value =>
      simp only [Access.reads]
      refine ⟨by omega, fun hne => ?_⟩
      rw [originReads_GetChunk e hne]
      omega
    | removeIds fuel => exact ⟨by simp only [Access.reads]; omega, fun _ => h1⟩
    | removeLines fuel kw bol eol => exact ⟨by simp only [Access.reads]; omega, fun _ => h1⟩
    | commit force =>
      simp only [Access.reads]
      split
      · split
        · rename_i hok
          have hne : e.GetChunk.m_chunk ≠ [] := by
            intro hg
            have hl : e.GetChunk.m_chunk.length = 0 := by rw [hg]; rfl
            revert hok
            unfold Commit
            simp only [hl]
            split <;> simp
          rw [originReads_filled _ hne]
          exact ⟨by omega, fun _ => by omega⟩
        · exact ⟨by omega, fun _ => by omega⟩
      · exact ⟨by omega, fun _ => by omega⟩
  · rw [Access.reads_filled a e hc]
    exact ⟨Nat.zero_le _, fun _ => Nat.zero_le _⟩

theorem readsOf_le : ∀ (l : List Access) (e : SNM_ChunkParserPatcher),
    readsOf l e ≤ 2 * emptyHits l e
  | [], _ => Nat.le_refl _
  | a :: rest, e => by
    have h1 := (Access.reads_le a e).1
    simp only [readsOf, emptyHits]
    cases ha : a.apply e with
    | none => simp only; omega
    | some e1 =>
      have h2 := readsOf_le rest e1
      simp only
      omega

/-- A call of `ParsePatchCore` that does not write leaves the cached Document as
`GetChunk()` gives it. -/
theorem ParsePatchCore_read_chunk (lp : LineParser) (e : SNM_ChunkParserPatcher)
    (p : Params) (value : Option CStr) (hw : p.write = false) (r : Result)
    (h : e.ParsePatchCore lp p value = .ok r) : r.engine.m_chunk = e.GetChunk.m_chunk := by
  have hf := scanLoop_facts lp p (e.GetChunk.m_chunk.length + 1) (initScan e.GetChunk p value)
    (Nat.lt_succ_self _) (initScan_filled e p value)
  unfold ParsePatchCore at h
  simp only at h
  cases hs : scanLoop lp p (e.GetChunk.m_chunk.length + 1) (initScan e.GetChunk p value) with
  | ok sr =>
    obtain ⟨s, v⟩ := sr
    rw [hs] at hf h
    obtain ⟨⟨hst, -, -⟩, -⟩ := hf
    have hchunk : s.e.m_chunk = e.GetChunk.m_chunk := congrArg (·.m_chunk) hst
    cases v with
    | some v =>
      simp only [Outcome.ok.injEq] at h
      rw [← h]
      exact hchunk
    | none =>
      simp only [Outcome.ok.injEq] at h
      rw [← h]
      simp only [updateCache, hw, Bool.false_eq_true, false_and, if_false]
      split <;> exact hchunk
  | undefined => rw [hs] at h; cases h
  | outOfFuel => rw [hs] at h; cases h

/-- A query on a filled cache leaves it filled. -/
theorem Access.query_filled (a : Access) (e e1 : SNM_ChunkParserPatcher) (hq : a.IsQuery)
    (h : e.GetChunk.m_chunk ≠ []) (ha : a.apply e = some e1) :
    e1.GetChunk.m_chunk ≠ [] ∧ (a.reads e ≠ 0 → e1.m_chunk ≠ []) ∧
    (e.m_chunk ≠ [] → e1.m_chunk ≠ []) := by
  have hgg : e.GetChunk.GetChunk.m_chunk ≠ [] := by rw [GetChunk_GetChunk]; exact h
  cases a with
  | getChunk =>
    simp only [Access.apply, Option.some.injEq] at ha
    subst ha
    exact ⟨hgg, fun _ => h, fun _ => h⟩
  | getChunkType =>
    simp only [Access.apply, Option.some.injEq] at ha
    subst ha
    simp only [Access.reads]
    unfold GetChunkType
    split
    · rename_i hlt
      simp only [hlt, if_true]
      refine ⟨?_, fun _ => h, fun _ => h⟩
      have : ({ e.GetChunk with m_chunkType :=
          (if e.GetChunk.m_chunk.length ≥ 7 ∧
            (startsWith e.GetChunk.m_chunk "<TRACK\n".toList ∨
              startsWith e.GetChunk.m_chunk "<TRACK ".toList) then 1 else 0 : Int) } :
          SNM_ChunkParserPatcher).m_chunk ≠ [] := h
      rw [GetChunk_filled _ this]
      exact this
    · rename_i hlt
      simp only [hlt, if_false]
      exact ⟨h, fun h0 => absurd rfl h0, fun h0 => h0⟩
  | parsePatchCore lp p value =>
    simp only [Access.apply] at ha
    have hw : p.write = false := hq
    cases hr : e.ParsePatchCore lp p value with
    | ok r =>
      rw [hr] at ha
      simp only [Option.some.injEq] at ha
      subst ha
      have hc := ParsePatchCore_read_chunk lp e p value hw r hr
      have hne : r.engine.m_chunk ≠ [] := by rw [hc]; exact h
      exact ⟨GetChunk_filled_ne _ hne, fun _ => hne, fun _ => hne⟩
    | undefined => rw [hr] at ha; cases ha
    | outOfFuel => rw [hr] at ha; cases ha
  | setChunk c u => exact hq.elim
  | commit f => exact hq.elim
  | cancelUpdates => exact hq.elim
  | removeIds fuel => exact hq.elim
  | removeLines fuel kw bol eol => exact hq.elim

/-- Queries on a filled cache make no read. -/
theorem readsOf_queries_filled : ∀ (l : List Access) (e : SNM_ChunkParserPatcher),
    (∀ a ∈ l, a.IsQuery) → e.m_chunk ≠ [] → readsOf l e = 0
  | [], _, _, _ => rfl
  | a :: rest, e, hq, h => by
    simp only [readsOf]
    rw [Access.reads_filled a e h]
    cases ha : a.apply e with
    | none => rfl
    | some e1 =>
      simp only [Nat.zero_add]
      have hf := Access.query_filled a e e1 (hq a (List.mem_cons_self _ _))
        (GetChunk_filled_ne e h) ha
      exact readsOf_queries_filled rest e1
        (fun b hb => hq b (List.mem_cons_of_mem _ hb)) (hf.2.2 h)

/-- Queries read an origin that gives a Document that is not empty at most once. -/
theorem readsOf_queries : ∀ (l : List Access) (e : SNM_ChunkParserPatcher),
    (∀ a ∈ l, a.IsQuery) → e.GetChunk.m_chunk ≠ [] → readsOf l e ≤ 1
  | [], _, _, _ => Nat.zero_le _
  | a :: rest, e, hq, h => by
    simp only [readsOf]
    have h1 := (Access.reads_le a e).2 h
    cases ha : a.apply e with
    | none => simp only; omega
    | some e1 =>
      simp only
      have hf := Access.query_filled a e e1 (hq a (List.mem_cons_self _ _)) h ha
      have hrest : ∀ b ∈ rest, b.IsQuery := fun b hb => hq b (List.mem_cons_of_mem _ hb)
      by_cases h0 : a.reads e = 0
      · have := readsOf_queries rest e1 hrest hf.1
        omega
      · rw [readsOf_queries_filled rest e1 hrest (hf.2.1 h0)]
        omega

/-- C11: for an engine attached to an in-memory origin buffer with pending updates
(update counter above zero, cache not empty), destroying the engine leaves the origin
equal to the cached Document when auto-commit is enabled, and leaves the origin
unchanged when the engine was constructed for manual commit. -/
theorem c11_destroy_commits (e : SNM_ChunkParserPatcher) (orig : CStr)
    (hobj : e.m_reaObject = none) (horig : e.m_originalChunk = some orig)
    (hupd : 0 < e.m_updates) (hc : e.m_chunk ≠ []) :
    (e.m_autoCommit = true → e.destroy.m_originalChunk = some e.m_chunk) ∧
    (e.m_autoCommit = false → e.destroy.m_originalChunk = some orig) := by
  have hu : e.m_updates ≠ 0 := by omega
  have hl : e.m_chunk.length ≠ 0 := fun hl => hc (List.length_eq_zero.mp hl)
  constructor
  · intro ha
    simp [destroy, ha, Commit, hu, GetChunk, hl, hobj, horig, SetChunk]
  · intro ha
    simp [destroy, ha, horig]

/-- C11 (witness): the engine `editedEngine` is attached to the buffer `"<A\nK 0\n>\n"`
and holds the edited Document `"<A\nK 1\n>\n"` with one pending update: destroying it
writes the edit to the buffer under auto-commit, and leaves the buffer as it was
otherwise. -/
theorem c11_destroy_commits_witness :
    (editedEngine true).destroy.m_originalChunk = some "<A\nK 1\n>\n".toList ∧
    (editedEngine false).destroy.m_originalChunk = some "<A\nK 0\n>\n".toList :=
  ⟨(c11_destroy_commits (editedEngine true) "<A\nK 0\n>\n".toList rfl rfl (by decide)
      (by decide)).1 rfl,
   (c11_destroy_commits (editedEngine false) "<A\nK 0\n>\n".toList rfl rfl (by decide)
      (by decide)).2 rfl⟩

/-- C15 (counterexample): on an engine attached to an empty buffer, a position query
(`Parse` in mode `SNM_GET_CHUNK_CHAR`) returns 0 and a toggle (`ParsePatch` in mode
`SNM_TOGGLE_CHUNK_INT`) returns 0, not -1; a plain parse (`SNM_PARSE`) returns 1. -/
theorem c15_counterexample :
    (∃ r, (newFromChunk (some []) true false false false).Parse wdlLineParser
        SNM_GET_CHUNK_CHAR 1 (some "A".toList) (some "K".toList) 0 1 none none none = .ok r ∧
      r.ret = 0) ∧
    (∃ r, (newFromChunk (some []) true false false false).ParsePatch wdlLineParser
        SNM_TOGGLE_CHUNK_INT 1 (some "A".toList) (some "K".toList) 0 1 none none none =
        .ok r ∧ r.ret = 0) ∧
    (∃ r, (newFromChunk (some []) true false false false).Parse wdlLineParser
        SNM_PARSE 1 (some "A".toList) (some "K".toList) 0 1 none none none = .ok r ∧
      r.ret = 1) :=
  ⟨⟨_, rfl, rfl⟩, ⟨_, rfl, rfl⟩, ⟨_, rfl, rfl⟩⟩

/-- C15 (amended): when the cached Document is empty (`GetChunk()` gives the empty
string because the origin is empty or its read failed), a call of `ParsePatchCore`,
in every mode and for every parameter, returns at once the value that the mode gives
for a scan that met nothing: 0 or 1, never -1; `_value` is left as it was and the
cache stays empty. -/
theorem c15_empty_chunk (lp : LineParser) (e : SNM_ChunkParserPatcher) (p : Params)
    (value : Option CStr) (h : e.GetChunk.m_chunk = []) :
    e.ParsePatchCore lp p value =
      .ok { engine := { e.GetChunk with m_isParsingSource := false,
                                        m_breakParsePatch := false },
            ret := returnValue p 0 0, value := value } ∧
    (returnValue p 0 0 = 0 ∨ returnValue p 0 0 = 1) ∧ returnValue p 0 0 ≠ -1 := by
  have hr : returnValue p 0 0 = 0 ∨ returnValue p 0 0 = 1 := by
    unfold returnValue
    split_ifs <;> simp
  refine ⟨?_, hr, ?_⟩
  · unfold ParsePatchCore
    simp only [h, List.length_nil, Nat.zero_add]
    have hit : iteration lp p (initScan e.GetChunk p value) =
        .brk (initScan e.GetChunk p value) := by
      simp [iteration, initScan, h, splitLine]
    simp only [scanLoop, hit]
    congr 1
    simp only [updateCache, initScan]
    by_cases hw : p.write = true <;> simp [hw] <;> exact h
  · rcases hr with h0 | h1
    · rw [h0]; decide
    · rw [h1]; decide

/-- C15 (witness): a count of keywords on an engine attached to an empty buffer
returns at once the value of a scan that met nothing. -/
theorem c15_empty_chunk_witness :
    (newFromChunk (some []) true false false false).ParsePatchCore wdlLineParser
      (countParams 1 "A".toList "K".toList 0 none) none =
      .ok { engine := { (newFromChunk (some []) true false false false).GetChunk with
                        m_isParsingSource := false, m_breakParsePatch := false },
            ret := returnValue (countParams 1 "A".toList "K".toList 0 none) 0 0,
            value := none } :=
  (c15_empty_chunk wdlLineParser (newFromChunk (some []) true false false false)
    (countParams 1 "A".toList "K".toList 0 none) none rfl).1

/-- C18 (counterexample): on an engine attached to the buffer `"<A\n>\n"`, a query, a
forced commit and a second query read the origin twice: the commit empties the cache. -/
theorem c18_counterexample :
    readsOf [Access.getChunk, Access.commit true, Access.getChunk]
      (newFromChunk (some "<A\n>\n".toList) true false false false) = 2 ∧
    readsOf [Access.getChunk, Access.getChunk]
      (newFromChunk (some []) true false false false) = 2 := by
  constructor <;> rfl

/-- C18 (amended): the Document is read from the origin only by a call of `GetChunk()`
that finds the cache empty. An access (a query, an edit, a commit) that finds the cache
filled makes no read; an access that finds it empty makes at most two reads (a call of
`ParsePatchCore` calls `GetChunk()` twice), and at most one when the origin gives a
Document that is not empty. So a sequence of accesses makes at most twice as many reads
as it has accesses that find the cache empty, and a sequence of queries on an origin
that gives a Document that is not empty reads it at most once, every later query being
served from the cache. A successful commit empties the cache, so the access that
follows it reads the origin again. -/
theorem c18_reads_on_empty_cache (l : List Access) (e : SNM_ChunkParserPatcher) :
    (∀ a : Access, e.m_chunk ≠ [] → a.reads e = 0) ∧
    (∀ a : Access, a.reads e ≤ 2 ∧ (e.m_chunk = [] ∨ a.reads e = 0) ∧
      (e.GetChunk.m_chunk ≠ [] → a.reads e ≤ 1)) ∧
    readsOf l e ≤ 2 * emptyHits l e ∧
    ((∀ a ∈ l, a.IsQuery) → e.GetChunk.m_chunk ≠ [] → readsOf l e ≤ 1) ∧
    ((∀ a ∈ l, a.IsQuery) → e.m_chunk ≠ [] → readsOf l e = 0) ∧
    (∀ force, (e.Commit force).2 = true → (e.Commit force).1.m_chunk = [] ∧
      (e.m_reaObject.isSome = true ∨ e.m_originalChunk.isSome = true) ∧
      Access.getChunk.reads (e.Commit force).1 = 1) := by
  refine ⟨fun a h => Access.reads_filled a e h, fun a => ⟨?_, ?_, (Access.reads_le a e).2⟩,
    readsOf_le l e, fun hq h => readsOf_queries l e hq h,
    fun hq h => readsOf_queries_filled l e hq h, ?_⟩
  · have := (Access.reads_le a e).1
    split at this <;> omega
  · by_cases hc : e.m_chunk = []
    · exact Or.inl hc
    · exact Or.inr (Access.reads_filled a e hc)
  · intro force hok
    have hfields := GetChunk_origin e
    by_cases h1 : e.m_updates ≠ 0 ∨ force = true
    · by_cases h2 : e.GetChunk.m_chunk.length ≠ 0
      · cases hobj : e.GetChunk.m_reaObject with
        | some obj =>
          by_cases h3 : obj.recording = false ∧ obj.writable = true
          · obtain ⟨x, hx⟩ : ∃ x : SNM_ChunkParserPatcher, x = { e.GetChunk with
                m_reaObject := some { obj with state := some e.GetChunk.m_chunk } } := ⟨_, rfl⟩
            have hc : e.Commit force = (SetChunk x (some []) 0, true) := by
              rw [hx]
              simp [Commit, h1, h2, hobj, h3]
            have hxo : x.m_reaObject.isSome = true := by rw [hx]; rfl
            have hs := SetChunk_origin x (some []) 0
            rw [hc]
            refine ⟨hs.1, Or.inl (by rw [← hfields.1, hobj]; rfl), ?_⟩
            exact originReads_empty _ hs.1 (Or.inl (by rw [hs.2.1]; exact hxo))
          · exfalso
            revert hok
            simp [Commit, h1, h2, hobj, h3]
        | none =>
          cases horig : e.GetChunk.m_originalChunk with
          | some o =>
            obtain ⟨x, hx⟩ : ∃ x : SNM_ChunkParserPatcher, x = { e.GetChunk with
                m_originalChunk := some e.GetChunk.m_chunk } := ⟨_, rfl⟩
            have hc : e.Commit force = (SetChunk x (some []) 0, true) := by
              rw [hx]
              simp [Commit, h1, h2, hobj, horig]
            have hxo : x.m_originalChunk.isSome = true := by rw [hx]; rfl
            have hs := SetChunk_origin x (some []) 0
            rw [hc]
            refine ⟨hs.1, Or.inr (by rw [← hfields.2, horig]; rfl), ?_⟩
            exact originReads_empty _ hs.1 (Or.inr (by rw [hs.2.2]; exact hxo))
          | none =>
            exfalso
            revert hok
            simp [Commit, h1, h2, hobj, horig]
      · exfalso
        revert hok
        simp [Commit, h1, h2]
    · exfalso
      revert hok
      simp [Commit, h1]

/-- C18 (witness): on an engine attached to the buffer `"<A\n>\n"`, a query, a count
of keywords and a second query read the origin once; on the filled cache of
`editedEngine` they make no read. -/
theorem c18_reads_on_empty_cache_witness :
    readsOf [Access.getChunk,
        Access.parsePatchCore wdlLineParser (countParams 1 "A".toList "K".toList 0 none) none,
        Access.getChunk]
      (newFromChunk (some "<A\n>\n".toList) true false false false) ≤ 1 ∧
    readsOf [Access.getChunk,
        Access.parsePatchCore wdlLineParser (countParams 1 "A".toList "K".toList 0 none) none,
        Access.getChunk] (editedEngine true) = 0 :=
  ⟨(c18_reads_on_empty_cache _ _).2.2.2.1
      (by
        intro a ha
        simp only [List.mem_cons, List.mem_singleton, List.not_mem_nil, or_false] at ha
        rcases ha with h | h | h
        · rw [h]; trivial
        · rw [h]; exact rfl
        · rw [h]; trivial)
      (by decide),
   (c18_reads_on_empty_cache _ _).2.2.2.2.1
      (by
        intro a ha
        simp only [List.mem_cons, List.mem_singleton, List.not_mem_nil, or_false] at ha
        rcases ha with h | h | h
        · rw [h]; trivial
        · rw [h]; exact rfl
        · rw [h]; trivial)
      (by decide)⟩

theorem finishLine_nil (p : Params) (s : Scan) (curLine : CStr) :
    finishLine p s false [] curLine = s := by
  cases s
  simp [finishLine]

theorem onLine_cases (lp : LineParser) (p : Params) (s : Scan) (ev : LineEvent) (c1 : Cursor)
    (parent keyWord : CStr) (hP : p.expectedParent = some parent)
    (hK : p.keyWord = some keyWord) (hbk : p.breakKeyword = none) (hmode : p.mode ≥ 0)
    (hd : 0 < p.depth) (hw : walkStep lp s.cursor = .line ev c1)
    (hsub : s.subChunkKeyword = none) :
    (¬ ev.Matches p.depth parent keyWord →
      s.onLine lp p ev c1 = .undefined ∨
      s.onLine lp p ev c1 =
        .next (finishLine p (s.atLine p ev c1) false (ev.toks.getD []) (truncLine ev.line))) ∧
    (ev.Matches p.depth parent keyWord → ∀ toks, ev.toks = some toks →
      s.onLine lp p ev c1 =
        match (if p.occurence = s.occurence ∨ p.occurence = -1 then
            incOccurence (matchingOccurence lp p (s.atLine p ev c1) false toks
              (truncLine ev.line) (ev.line ++ '\n' :: ev.after) ev.linePos
              ((ev.linePos + ev.line.length + 1 : Nat) : Int)
              (currentParentId (s.atLine p ev c1)) keyWord)
          else incOccurence (otherOccurence lp p (s.atLine p ev c1) false toks)) with
        | .cont s2 a => .next (finishLine p s2 a toks (truncLine ev.line))
        | .ret s2 v => .ret s2 v
        | .undefined => .undefined) := by
  have hsub1 : (s.atLine p ev c1).subChunkKeyword = none := hsub
  have hpar : (s.atLine p ev c1).parents = c1.parents := rfl
  constructor
  · intro hnm
    unfold Scan.onLine
    cases ht : ev.toks with
    | none =>
      right
      simp only [Option.getD_none]
      rw [finishLine_nil]
    | some toks =>
      simp only [Option.getD_some]
      have hd := dispatch_cases lp p (s.atLine p ev c1) false toks (truncLine ev.line)
        (ev.line ++ '\n' :: ev.after) ev.linePos
        ((ev.linePos + ev.line.length + 1 : Nat) : Int) parent keyWord hP hK hbk hmode hd
      have hiff := matches_iff hw ht p.depth parent keyWord
      rw [hpar] at hd
      rw [hiff] at hd
      by_cases hpe : c1.parents = []
      · right
        rw [hd.1 hpe]
      · rcases hd.2.1 hpe hnm with h | h
        · left
          rw [h]
        · right
          rw [h]
          simp [nonStrictFlow, hsub1]
  · intro hm toks ht
    unfold Scan.onLine
    rw [ht]
    simp only
    have hd := dispatch_cases lp p (s.atLine p ev c1) false toks (truncLine ev.line)
      (ev.line ++ '\n' :: ev.after) ev.linePos
      ((ev.linePos + ev.line.length + 1 : Nat) : Int) parent keyWord hP hK hbk hmode hd
    have hiff := matches_iff hw ht p.depth parent keyWord
    rw [hpar] at hd
    rw [hiff] at hd
    rw [hd.2.2 hm]
    rfl

theorem matches_toks {ev : LineEvent} {depth : Int} {parent keyWord : CStr}
    (hm : ev.Matches depth parent keyWord) :
    ∃ t ts, ev.toks = some (t :: ts) := by
  unfold LineEvent.Matches at hm
  cases ht : ev.toks with
  | none => simp [ht] at hm
  | some toks =>
    cases toks with
    | nil => simp [ht] at hm
    | cons t ts => exact ⟨t, ts, rfl⟩

theorem copied_cons {ev : LineEvent} {t : CStr} {ts : List CStr}
    (ht : ev.toks = some (t :: ts)) : ev.copied = truncLine ev.line ++ ['\n'] := by
  simp [LineEvent.copied, ht]

/-- What `WriteChunkLine` and the end of the loop body do to a scan state when the
line has a token and the new chunk is `c`. -/
theorem writeLine_finish (p : Params) (s : Scan) (c v : CStr) (t : CStr) (ts : List CStr)
    (curLine : CStr) (hw : p.write = true) (hnc : s.newChunk = some c) :
    ∃ s2 a, writeLine p s false (some v) (t :: ts) = .cont s2 a ∧
      s2.e = s.e ∧ s2.occurence = s.occurence ∧
      finishLine p s2 a (t :: ts) curLine =
        { s with
          newChunk := some (c ++ writtenLine v p.tokenPos (t :: ts) curLine),
          updates := s.updates + (if isWritten v p.tokenPos (t :: ts) = true then 1 else 0) } := by
  by_cases hne : gettoken_str (t :: ts) p.tokenPos = v
  · refine ⟨s, false, ?_, rfl, rfl, ?_⟩
    · simp only [writeLine, WriteChunkLine]
      rw [if_neg (not_not.mpr hne)]
      cases s
      rfl
    · cases s
      simp only at hnc
      subst hnc
      simp [finishLine, hw, writtenLine, isWritten, hne]
  · refine ⟨{ s with newChunk := some (c ++ emitTokens v p.tokenPos (t :: ts) 0) },
      decide (0 ≤ p.tokenPos ∧ p.tokenPos < ((t :: ts).length : Int)), ?_, rfl, rfl, ?_⟩
    · simp only [writeLine, WriteChunkLine, hnc]
      rw [if_pos hne, if_neg (by simp)]
      simp only [Bool.false_or]
    · cases s
      simp only at hnc
      subst hnc
      by_cases hin : 0 ≤ p.tokenPos ∧ p.tokenPos < ((t :: ts).length : Int)
      · simp only [finishLine, hw, writtenLine, isWritten, hne, hin]
        simp [hne]
      · simp only [finishLine, hw, writtenLine, isWritten, hne, hin]
        simp [hne]

theorem finishLine_copy (p : Params) (s : Scan) (ev : LineEvent) (c1 : Cursor) (c : CStr)
    (hw : p.write = true) (hnc : s.newChunk = some c) :
    finishLine p (s.atLine p ev c1) false (ev.toks.getD []) (truncLine ev.line) =
      { s.withCursor c1 with newChunk := some (c ++ (ev.skipped ++ ev.copied)) } := by
  cases s
  simp only at hnc
  subst hnc
  cases ht : ev.toks with
  | none => simp [finishLine, Scan.atLine, Scan.withCursor, hw, LineEvent.copied, ht]
  | some toks =>
    cases toks with
    | nil => simp [finishLine, Scan.atLine, Scan.withCursor, hw, LineEvent.copied, ht]
    | cons t ts => simp [finishLine, Scan.atLine, Scan.withCursor, hw, LineEvent.copied, ht]

theorem finishLine_copy_occ (p : Params) (s : Scan) (ev : LineEvent) (c1 : Cursor) (c : CStr)
    (t : CStr) (ts : List CStr) (hw : p.write = true) (hnc : s.newChunk = some c)
    (ht : ev.toks = some (t :: ts)) :
    finishLine p { s.atLine p ev c1 with occurence := s.occurence + 1 } false (t :: ts)
        (truncLine ev.line) =
      { s.withCursor c1 with
        newChunk := some (c ++ (ev.skipped ++ ev.copied)),
        occurence := s.occurence + 1 } := by
  cases s
  simp only at hnc
  subst hnc
  simp [finishLine, Scan.atLine, Scan.withCursor, hw, LineEvent.copied, ht]

theorem finishLine_flagged (p : Params) (s2 : Scan) (a b : Bool) (toks : List CStr)
    (curLine : CStr) :
    finishLine p { s2 with e := { s2.e with m_breakParsePatch := b },
                           occurence := s2.occurence + 1 } a toks curLine =
      { finishLine p s2 a toks curLine with
        e := { s2.e with m_breakParsePatch := b }, occurence := s2.occurence + 1 } := by
  cases s2
  rfl

theorem set_onLine_other (lp : LineParser) (depth : Int) (parent keyWord : CStr) (k : Nat)
    (tokenPos : Int) (valueExcept : Option CStr) (s : Scan) (ev : LineEvent) (c1 : Cursor)
    (c : CStr) (hd : 0 < depth)
    (hw : walkStep lp s.cursor = .line ev c1) (hsub : s.subChunkKeyword = none)
    (hnc : s.newChunk = some c)
    (hnot : ev.Matches depth parent keyWord → s.occurence ≠ k) :
    s.onLine lp (setParams depth parent keyWord k tokenPos valueExcept) ev c1 = .undefined ∨
    s.onLine lp (setParams depth parent keyWord k tokenPos valueExcept) ev c1 =
      .next { s.withCursor c1 with
        newChunk := some (c ++ (ev.skipped ++ ev.copied)),
        occurence := s.occurence + (if ev.Matches depth parent keyWord then 1 else 0) } := by
  have hc := onLine_cases lp (setParams depth parent keyWord k tokenPos valueExcept) s ev c1
    parent keyWord rfl rfl rfl (by show SNM_SET_CHUNK_CHAR ≥ 0; decide) hd hw hsub
  by_cases hm : ev.Matches depth parent keyWord
  · right
    obtain ⟨t, ts, ht⟩ := matches_toks hm
    rw [hc.2 hm (t :: ts) ht]
    have hk : ¬ (((k : Int) = (s.occurence : Int)) ∨ (k : Int) = -1) := by
      have := hnot hm
      omega
    have hk2 : ¬ ((setParams depth parent keyWord k tokenPos valueExcept).occurence =
        (s.occurence : Int) ∨
        (setParams depth parent keyWord k tokenPos valueExcept).occurence = -1) := hk
    rw [if_neg hk2]
    have ho : otherOccurence lp (setParams depth parent keyWord k tokenPos valueExcept)
        (s.atLine (setParams depth parent keyWord k tokenPos valueExcept) ev c1) false
        (t :: ts) =
        .cont (s.atLine (setParams depth parent keyWord k tokenPos valueExcept) ev c1)
          false := by
      simp [otherOccurence, setParams]
    rw [ho]
    simp only [incOccurence, if_pos hm]
    have := finishLine_copy_occ (setParams depth parent keyWord k tokenPos valueExcept) s ev
      c1 c t ts rfl hnc ht
    exact congrArg Step.next this
  · rcases hc.1 hm with h | h
    · left; exact h
    · right
      rw [h, finishLine_copy _ s ev c1 c rfl hnc]
      simp only [if_neg hm, Nat.add_zero]
      cases s
      rfl

theorem set_onLine_target (lp : LineParser) (depth : Int) (parent keyWord : CStr) (k : Nat)
    (tokenPos : Int) (valueExcept : Option CStr) (s : Scan) (ev : LineEvent) (c1 : Cursor)
    (c v : CStr) (toks : List CStr) (hd : 0 < depth)
    (hw : walkStep lp s.cursor = .line ev c1) (hsub : s.subChunkKeyword = none)
    (hnc : s.newChunk = some c) (hv : s.value = some v)
    (hm : ev.Matches depth parent keyWord)
    (hocc : s.occurence = k) (ht : ev.toks = some toks) :
    s.onLine lp (setParams depth parent keyWord k tokenPos valueExcept) ev c1 =
      .next { s.withCursor c1 with
        e := { c1.e with m_breakParsePatch := true },
        newChunk := some (c ++ (ev.skipped ++
          writtenLine v tokenPos toks (truncLine ev.line))),
        updates := s.updates + (if isWritten v tokenPos toks = true then 1 else 0),
        occurence := s.occurence + 1 } := by
  have hc := onLine_cases lp (setParams depth parent keyWord k tokenPos valueExcept) s ev c1
    parent keyWord rfl rfl rfl (by show SNM_SET_CHUNK_CHAR ≥ 0; decide) hd hw hsub
  obtain ⟨t, ts, ht2⟩ := matches_toks hm
  have htoks : toks = t :: ts := by
    rw [ht] at ht2
    exact Option.some.inj ht2
  subst htoks
  rw [hc.2 hm (t :: ts) ht]
  have hk2 : (setParams depth parent keyWord k tokenPos valueExcept).occurence =
      (s.occurence : Int) ∨
      (setParams depth parent keyWord k tokenPos valueExcept).occurence = -1 := by
    left
    show (k : Int) = (s.occurence : Int)
    omega
  rw [if_pos hk2]
  have hm0 : matchingOccurence lp (setParams depth parent keyWord k tokenPos valueExcept)
      (s.atLine (setParams depth parent keyWord k tokenPos valueExcept) ev c1) false (t :: ts)
      (truncLine ev.line) (ev.line ++ '\n' :: ev.after) ev.linePos
      ((ev.linePos + ev.line.length + 1 : Nat) : Int)
      (currentParentId (s.atLine (setParams depth parent keyWord k tokenPos valueExcept) ev
        c1)) keyWord =
      setBreak (setParams depth parent keyWord k tokenPos valueExcept)
        (writeLine (setParams depth parent keyWord k tokenPos valueExcept)
          (s.atLine (setParams depth parent keyWord k tokenPos valueExcept) ev c1) false
          (some v) (t :: ts)) := by
    have hv1 : (s.atLine (setParams depth parent keyWord k tokenPos valueExcept) ev
        c1).value = some v := hv
    unfold matchingOccurence
    have h1 : ¬ ((setParams depth parent keyWord k tokenPos valueExcept).mode =
        SNM_GET_CHUNK_CHAR) := by
      show ¬ (SNM_SET_CHUNK_CHAR = SNM_GET_CHUNK_CHAR)
      decide
    have h2 : (setParams depth parent keyWord k tokenPos valueExcept).mode =
        SNM_SET_CHUNK_CHAR := rfl
    rw [if_neg h1, if_pos h2, hv1]
  rw [hm0]
  have hnc1 : (s.atLine (setParams depth parent keyWord k tokenPos valueExcept) ev
      c1).newChunk = some (c ++ ev.skipped) := by
    cases s
    simp only at hnc
    subst hnc
    rfl
  obtain ⟨s2, a, hwl, he2, ho2, hfin⟩ := writeLine_finish
    (setParams depth parent keyWord k tokenPos valueExcept)
    (s.atLine (setParams depth parent keyWord k tokenPos valueExcept) ev c1)
    (c ++ ev.skipped) v t ts (truncLine ev.line) rfl hnc1
  rw [hwl]
  have hk1 : decide ((setParams depth parent keyWord k tokenPos valueExcept).occurence ≠ -1) =
      true := by
    have : ¬ ((k : Int) = -1) := by omega
    simp [setParams]
  simp only [setBreak, incOccurence, hk1]
  rw [finishLine_flagged, hfin, he2, ho2]
  cases s
  simp [Scan.atLine, Scan.withCursor, setParams, List.append_assoc]

theorem set_scanLoop (lp : LineParser) (depth : Int) (parent keyWord : CStr) (k : Nat)
    (tokenPos : Int) (valueExcept : Option CStr) (ev : LineEvent) (toks : List CStr)
    (v : CStr) (hd : 0 < depth)
    (hm : ev.Matches depth parent keyWord) (ht : ev.toks = some toks) :
    ∀ (fuel : Nat) (s : Scan) (c : CStr) (i : Nat), s.e.m_breakParsePatch = false →
      s.subChunkKeyword = none → s.newChunk = some c → s.value = some v →
      (walk lp fuel s.cursor)[i]? = some ev →
      s.occurence + ((walk lp fuel s.cursor).take i).countP
        (fun ev => decide (ev.Matches depth parent keyWord)) = k →
      (scanLoop lp (setParams depth parent keyWord k tokenPos valueExcept) fuel s).okThen
        (fun sr => sr.2 = none ∧
          sr.1.updates = s.updates + (if isWritten v tokenPos toks = true then 1 else 0) ∧
          sr.1.newChunk = some (c ++ rebuiltLines ((walk lp fuel s.cursor).take i) ++
            (ev.skipped ++ writtenLine v tokenPos toks (truncLine ev.line)) ++
            keptTail ev.after)) := by
  intro fuel
  induction fuel with
  | zero => intro s c i _ _ _ _ _ _; trivial
  | succ fuel ih =>
    intro s c i hb hsub hnc hv hev hcnt
    have hit := iteration_normal lp (setParams depth parent keyWord k tokenPos valueExcept) s
      hb hsub
    cases hw : walkStep lp s.cursor with
    | stop => simp [walk, hw] at hev
    | undefined => simp [walk, hw] at hev
    | fuel => simp [walk, hw] at hev
    | line ev0 c1 =>
      rw [hw] at hit
      simp only at hit
      simp only [walk, hw] at hev hcnt ⊢
      cases i with
      | zero =>
        simp only [List.getElem?_cons_zero, Option.some.injEq] at hev
        subst hev
        simp only [List.take_zero, List.countP_nil, Nat.add_zero] at hcnt
        rw [set_onLine_target lp depth parent keyWord k tokenPos valueExcept s ev0 c1 c v toks
          hd hw hsub hnc hv hm hcnt ht] at hit
        rw [scanLoop_next fuel hit]
        have hrest : c1.rest = ev0.after := (walkStep_line hw).2.2.1
        have hbr := scanLoop_breaking lp
          (setParams depth parent keyWord k tokenPos valueExcept) fuel _ _ rfl
          (show ({ s.withCursor c1 with
            e := { c1.e with m_breakParsePatch := true },
            newChunk := some (c ++ (ev0.skipped ++
              writtenLine v tokenPos toks (truncLine ev0.line))),
            updates := s.updates + (if isWritten v tokenPos toks = true then 1 else 0),
            occurence := s.occurence + 1 } : Scan).e.m_breakParsePatch = true from rfl) rfl
        refine okThen_imp hbr ?_
        intro sr ⟨h1, h2, h3⟩
        refine ⟨h1, h3, ?_⟩
        rw [h2]
        simp [rebuiltLines, Scan.withCursor, hrest]
      | succ j =>
        simp only [List.getElem?_cons_succ] at hev
        simp only [List.take_succ_cons, List.countP_cons, decide_eq_true_eq] at hcnt
        have hnot : ev0.Matches depth parent keyWord → s.occurence ≠ k := by
          intro h
          simp only [h, if_true] at hcnt
          omega
        rcases set_onLine_other lp depth parent keyWord k tokenPos valueExcept s ev0 c1 c
          hd hw hsub hnc hnot with ho | ho
        · rw [ho] at hit
          simp [scanLoop, hit, Outcome.okThen]
        · rw [ho] at hit
          have hb1 : c1.e.m_breakParsePatch = false := (walkStep_break hw).trans hb
          obtain ⟨s2, hs2⟩ : ∃ s2 : Scan, s2 = { s.withCursor c1 with
              newChunk := some (c ++ (ev0.skipped ++ ev0.copied)),
              occurence := s.occurence +
                (if ev0.Matches depth parent keyWord then 1 else 0) } := ⟨_, rfl⟩
          have hit2 : iteration lp (setParams depth parent keyWord k tokenPos valueExcept) s =
              .next s2 := by rw [hs2]; exact hit
          have hc : s2.cursor = c1 := by rw [hs2]; cases s; rfl
          have hu2 : s2.updates = s.updates := by rw [hs2]; cases s; rfl
          have hv2 : s2.value = some v := by rw [hs2]; cases s; exact hv
          have this := ih s2 (c ++ (ev0.skipped ++ ev0.copied)) j
            (by rw [hs2]; exact hb1) (by rw [hs2]; exact hsub) (by rw [hs2]) hv2
            (by rw [hc]; exact hev)
            (by rw [hc, hs2]; simp only; omega)
          rw [scanLoop_next fuel hit2]
          rw [hc, hu2] at this
          refine okThen_imp this ?_
          intro sr ⟨h1, h2, h3⟩
          refine ⟨h1, h2, ?_⟩
          rw [h3]
          simp [rebuiltLines, List.append_assoc]

theorem set_returnValue (depth : Int) (parent keyWord : CStr) (k : Nat) (tokenPos : Int)
    (valueExcept : Option CStr) (updates occurence : Nat) :
    returnValue (setParams depth parent keyWord k tokenPos valueExcept) updates occurence =
      updates := by
  simp [returnValue, setParams]

/-- What a set of occurence `k` does when line `i` of the Document is that occurence. -/
theorem set_core (lp : LineParser) (e : SNM_ChunkParserPatcher) (depth : Int)
    (parent keyWord : CStr) (k : Nat) (tokenPos : Int) (v : CStr) (valueExcept : Option CStr)
    (i : Nat) (ev : LineEvent) (toks : List CStr)
    (hb : e.m_breakParsePatch = false) (hd : 0 < depth)
    (hev : (documentLines lp e)[i]? = some ev)
    (hm : ev.Matches depth parent keyWord)
    (hcnt : ((documentLines lp e).take i).countP
      (fun ev => decide (ev.Matches depth parent keyWord)) = k)
    (ht : ev.toks = some toks) :
    match e.ParsePatchCore lp (setParams depth parent keyWord k tokenPos valueExcept)
      (some v) with
    | .ok r =>
      (isWritten v tokenPos toks = true → r.ret = 1 ∧ r.engine.m_updates = e.m_updates + 1 ∧
        r.engine.m_chunk = rebuiltLines ((documentLines lp e).take i) ++
          (ev.skipped ++ emitTokens v tokenPos toks 0) ++ keptTail ev.after) ∧
      (isWritten v tokenPos toks = false → r.ret = 0 ∧ r.engine.m_updates = e.m_updates ∧
        r.engine.m_chunk = e.GetChunk.m_chunk)
    | .undefined => True
    | .outOfFuel => False := by
  have hf := scanLoop_facts lp (setParams depth parent keyWord k tokenPos valueExcept)
    (e.GetChunk.m_chunk.length + 1)
    (initScan e.GetChunk (setParams depth parent keyWord k tokenPos valueExcept) (some v))
    (Nat.lt_succ_self _) (initScan_filled e _ (some v))
  have hc := set_scanLoop lp depth parent keyWord k tokenPos valueExcept ev toks v hd hm ht
    (e.GetChunk.m_chunk.length + 1)
    (initScan e.GetChunk (setParams depth parent keyWord k tokenPos valueExcept) (some v))
    [] i ((GetChunk_break e).trans hb) rfl rfl rfl hev (by
      have : (initScan e.GetChunk (setParams depth parent keyWord k tokenPos valueExcept)
        (some v)).occurence = 0 := rfl
      rw [this, Nat.zero_add]
      exact hcnt)
  unfold ParsePatchCore
  simp only
  cases hs : scanLoop lp (setParams depth parent keyWord k tokenPos valueExcept)
      (e.GetChunk.m_chunk.length + 1)
      (initScan e.GetChunk (setParams depth parent keyWord k tokenPos valueExcept)
        (some v)) with
  | ok sr =>
    obtain ⟨s, r⟩ := sr
    rw [hs] at hf hc
    obtain ⟨⟨hst, -, -⟩, -⟩ := hf
    obtain ⟨hr, hupd, hnew⟩ := hc
    simp only at hr hupd hnew
    subst hr
    have hupd0 : s.updates = (if isWritten v tokenPos toks = true then 1 else 0) := by
      rw [hupd]
      show 0 + _ = _
      omega
    have hu : s.e.m_updates = e.m_updates :=
      (congrArg (·.m_updates) hst).trans (GetChunk_m_updates e)
    have hch : s.e.m_chunk = e.GetChunk.m_chunk := congrArg (·.m_chunk) hst
    have hdoc : walk lp (e.GetChunk.m_chunk.length + 1)
        (initScan e.GetChunk (setParams depth parent keyWord k tokenPos valueExcept)
          (some v)).cursor = documentLines lp e := rfl
    rw [hdoc] at hnew
    obtain ⟨t, ts, ht2⟩ := matches_toks hm
    have htoks : toks = t :: ts := by
      rw [ht] at ht2
      exact Option.some.inj ht2
    subst htoks
    simp only [List.nil_append] at hnew
    simp only
    constructor
    · intro hwr
      have hwr2 : gettoken_str (t :: ts) tokenPos ≠ v ∧ 0 ≤ tokenPos ∧
          tokenPos < ((t :: ts).length : Int) := by
        simpa [isWritten] using hwr
      have hwl : writtenLine v tokenPos (t :: ts) (truncLine ev.line) =
          emitTokens v tokenPos (t :: ts) 0 := by
        simp only [writtenLine]
        rw [if_pos hwr2.1, if_pos hwr2.2]
        simp
      rw [hwl] at hnew
      rw [hwr] at hupd0
      simp only [if_true] at hupd0
      have hlen : (rebuiltLines ((documentLines lp e).take i) ++
          (ev.skipped ++ emitTokens v tokenPos (t :: ts) 0) ++
          keptTail ev.after).length ≠ 0 := by
        have := emitTokens_ne_nil v tokenPos t ts 0
        have h2 : 0 < (emitTokens v tokenPos (t :: ts) 0).length := List.length_pos.mpr this
        simp only [List.length_append]
        omega
      refine ⟨?_, ?_, ?_⟩
      · rw [set_returnValue, hupd0]; rfl
      · simp only [updateCache, hnew]
        rw [if_pos ⟨rfl, by omega, hlen⟩]
        simp only [hu, hupd0]
        rfl
      · simp only [updateCache, hnew]
        rw [if_pos ⟨rfl, by omega, hlen⟩]
    · intro hwr
      rw [hwr] at hupd0
      simp only [Bool.false_eq_true, if_false] at hupd0
      refine ⟨?_, ?_, ?_⟩
      · rw [set_returnValue, hupd0]; rfl
      · simp only [updateCache, hnew, hupd0]
        simp [hu]
      · simp only [updateCache, hnew, hupd0]
        simp [hch]
  | undefined => trivial
  | outOfFuel => rw [hs] at hf; exact hf

theorem matches_depth_pos {ev : LineEvent} {depth : Int} {parent keyWord : CStr}
    (hm : ev.Matches depth parent keyWord) : 0 < depth := by
  obtain ⟨-, hlen, hlast⟩ := hm
  cases hp : ev.parents with
  | nil => simp [hp] at hlast
  | cons a l =>
    rw [hp] at hlen
    simp only [List.length_cons] at hlen
    omega

theorem splitLine_isSome_iff : ∀ (s : CStr), (splitLine s).isSome = true ↔ '\n' ∈ s
  | [] => by simp [splitLine]
  | c :: cs => by
    have ih := splitLine_isSome_iff cs
    by_cases h : c = '\n'
    · simp [splitLine, h]
    · have h2 : ¬ ('\n' = c) := fun e => h e.symm
      simp only [splitLine, h, if_false, List.mem_cons, h2, false_or]
      rw [← ih]
      cases splitLine cs with
      | none => simp
      | some lr => simp

/-- C12 (counterexample): on `"<R\n\n<A\nK 1\n>\n>\n"`, setting token 1 of the line
`K` at depth 2 under `A` to `"2"` reports one update and leaves
`"<R\n<A\nK 2\n>\n>\n"`: the empty line in front of the targeted line is gone. -/
theorem c12_counterexample :
    ∃ r, (newFromChunk (some "<R\n\n<A\nK 1\n>\n>\n".toList) true false false
        false).ParsePatch
        wdlLineParser SNM_SET_CHUNK_CHAR 2 (some "A".toList) (some "K".toList) 0 1
        (some "2".toList) none none = .ok r ∧
      r.ret = 1 ∧ r.engine.m_chunk = "<R\n<A\nK 2\n>\n>\n".toList :=
  ⟨_, rfl, rfl, rfl⟩

theorem finishLine_occ (p : Params) (s2 : Scan) (a : Bool) (toks : List CStr)
    (curLine : CStr) (n : Nat) :
    finishLine p { s2 with occurence := n } a toks curLine =
      { finishLine p s2 a toks curLine with occurence := n } := by
  cases s2
  rfl

theorem writtenLine_same (v : CStr) (tokenPos : Int) (toks : List CStr) (curLine : CStr)
    (h : gettoken_str toks tokenPos = v) :
    writtenLine v tokenPos toks curLine = curLine ++ ['\n'] ∧
    isWritten v tokenPos toks = false := by
  simp [writtenLine, isWritten, h]

/-- One line of a set-all-except pass. -/
theorem setAll_onLine (lp : LineParser) (depth : Int) (parent keyWord : CStr) (k : Nat)
    (tokenPos : Int) (valueExcept : Option CStr) (s : Scan) (ev : LineEvent) (c1 : Cursor)
    (c v : CStr) (hd : 0 < depth)
    (hw : walkStep lp s.cursor = .line ev c1) (hsub : s.subChunkKeyword = none)
    (hnc : s.newChunk = some c) (hv : s.value = some v) :
    s.onLine lp (setAllParams depth parent keyWord k tokenPos valueExcept) ev c1 =
      .undefined ∨
    s.onLine lp (setAllParams depth parent keyWord k tokenPos valueExcept) ev c1 =
      .next { s.withCursor c1 with
        newChunk := some (c ++ (ev.skipped ++
          (ev.setAll depth parent keyWord tokenPos
            (setAllValue k v valueExcept s.occurence)).1)),
        updates := s.updates +
          (ev.setAll depth parent keyWord tokenPos
            (setAllValue k v valueExcept s.occurence)).2,
        occurence := s.occurence + (if ev.Matches depth parent keyWord then 1 else 0) } := by
  have hc := onLine_cases lp (setAllParams depth parent keyWord k tokenPos valueExcept) s ev
    c1 parent keyWord rfl rfl rfl (by show SNM_SETALL_CHUNK_CHAR_EXCEPT ≥ 0; decide) hd hw
    hsub
  have hnc1 : (s.atLine (setAllParams depth parent keyWord k tokenPos valueExcept) ev
      c1).newChunk = some (c ++ ev.skipped) := by
    cases s
    simp only at hnc
    subst hnc
    rfl
  have hv1 : (s.atLine (setAllParams depth parent keyWord k tokenPos valueExcept) ev
      c1).value = some v := hv
  have hmode1 : ¬ ((setAllParams depth parent keyWord k tokenPos valueExcept).mode =
      SNM_GET_CHUNK_CHAR) := by
    show ¬ (SNM_SETALL_CHUNK_CHAR_EXCEPT = SNM_GET_CHUNK_CHAR)
    decide
  have hmode2 : ¬ ((setAllParams depth parent keyWord k tokenPos valueExcept).mode =
      SNM_SET_CHUNK_CHAR) := by
    show ¬ (SNM_SETALL_CHUNK_CHAR_EXCEPT = SNM_SET_CHUNK_CHAR)
    decide
  have hmode3 : (setAllParams depth parent keyWord k tokenPos valueExcept).mode =
      SNM_SETALL_CHUNK_CHAR_EXCEPT ∨
      (setAllParams depth parent keyWord k tokenPos valueExcept).mode =
      SNM_TOGGLE_CHUNK_INT_EXCEPT := Or.inl rfl
  have hmode4 : (setAllParams depth parent keyWord k tokenPos valueExcept).mode =
      SNM_SETALL_CHUNK_CHAR_EXCEPT := rfl
  by_cases hm : ev.Matches depth parent keyWord
  · obtain ⟨t, ts, ht⟩ := matches_toks hm
    right
    rw [hc.2 hm (t :: ts) ht]
    simp only [if_pos hm]
    have hcopy := finishLine_copy_occ
      (setAllParams depth parent keyWord k tokenPos valueExcept) s ev c1 c t ts rfl hnc ht
    -- the step for a value `x` handed to `WriteChunkLine`
    have hwrite : ∀ x : CStr,
        (match incOccurence (writeLine
            (setAllParams depth parent keyWord k tokenPos valueExcept)
            (s.atLine (setAllParams depth parent keyWord k tokenPos valueExcept) ev c1) false
            (some x) (t :: ts)) with
          | .cont s2 a => Step.next (finishLine
              (setAllParams depth parent keyWord k tokenPos valueExcept) s2 a (t :: ts)
              (truncLine ev.line))
          | .ret s2 v => .ret s2 v
          | .undefined => .undefined) =
        .next { s.withCursor c1 with
          newChunk := some (c ++ (ev.skipped ++
            writtenLine x tokenPos (t :: ts) (truncLine ev.line))),
          updates := s.updates + (if isWritten x tokenPos (t :: ts) = true then 1 else 0),
          occurence := s.occurence + 1 } := by
      intro x
      obtain ⟨s2, a, hwl, -, ho2, hfin⟩ := writeLine_finish
        (setAllParams depth parent keyWord k tokenPos valueExcept)
        (s.atLine (setAllParams depth parent keyWord k tokenPos valueExcept) ev c1)
        (c ++ ev.skipped) x t ts (truncLine ev.line) rfl hnc1
      rw [hwl]
      simp only [incOccurence]
      rw [finishLine_occ, hfin, ho2]
      cases s
      simp [Scan.atLine, Scan.withCursor, setAllParams, List.append_assoc]
    have hsame : ∀ x : CStr, gettoken_str (t :: ts) tokenPos = x →
        Step.next (finishLine (setAllParams depth parent keyWord k tokenPos valueExcept)
          { s.atLine (setAllParams depth parent keyWord k tokenPos valueExcept) ev c1 with
            occurence := s.occurence + 1 } false (t :: ts) (truncLine ev.line)) =
        .next { s.withCursor c1 with
          newChunk := some (c ++ (ev.skipped ++
            writtenLine x tokenPos (t :: ts) (truncLine ev.line))),
          updates := s.updates + (if isWritten x tokenPos (t :: ts) = true then 1 else 0),
          occurence := s.occurence + 1 } := by
      intro x hx
      rw [hcopy, (writtenLine_same x tokenPos (t :: ts) (truncLine ev.line) hx).1,
        (writtenLine_same x tokenPos (t :: ts) (truncLine ev.line) hx).2, copied_cons ht]
      cases s
      simp [Scan.withCursor]
    by_cases hocc : s.occurence = k
    · have hk2 : (setAllParams depth parent keyWord k tokenPos valueExcept).occurence =
          (s.occurence : Int) ∨
          (setAllParams depth parent keyWord k tokenPos valueExcept).occurence = -1 := by
        left
        show (k : Int) = (s.occurence : Int)
        omega
      rw [if_pos hk2]
      unfold matchingOccurence
      rw [if_neg hmode1, if_neg hmode2, if_pos hmode3]
      have hve : (setAllParams depth parent keyWord k tokenPos valueExcept).valueExcept =
          valueExcept := rfl
      have htp : (setAllParams depth parent keyWord k tokenPos valueExcept).tokenPos =
          tokenPos := rfl
      rw [hve, htp]
      simp only [setAllValue, if_pos hocc, LineEvent.setAll, if_pos hm, ht]
      cases valueExcept with
      | none =>
        simp only [incOccurence]
        refine (congrArg Step.next hcopy).trans ?_
        cases s
        rfl
      | some ve =>
        simp only
        by_cases hne : ve ≠ gettoken_str (t :: ts) tokenPos
        · rw [if_pos hne]
          exact hwrite ve
        · rw [if_neg hne]
          simp only [incOccurence]
          exact hsame ve (not_not.mp hne).symm
    · have hk2 : ¬ ((setAllParams depth parent keyWord k tokenPos valueExcept).occurence =
          (s.occurence : Int) ∨
          (setAllParams depth parent keyWord k tokenPos valueExcept).occurence = -1) := by
        show ¬ ((k : Int) = (s.occurence : Int) ∨ (k : Int) = -1)
        omega
      rw [if_neg hk2]
      unfold otherOccurence
      rw [if_pos hmode4, hv1]
      have htp : (setAllParams depth parent keyWord k tokenPos valueExcept).tokenPos =
          tokenPos := rfl
      rw [htp]
      simp only [setAllValue, if_neg hocc, LineEvent.setAll, if_pos hm, ht]
      by_cases hne : v ≠ gettoken_str (t :: ts) tokenPos
      · rw [if_pos hne]
        exact hwrite v
      · rw [if_neg hne]
        simp only [incOccurence]
        exact hsame v (not_not.mp hne).symm
  · rcases hc.1 hm with h | h
    · left; exact h
    · right
      rw [h, finishLine_copy _ s ev c1 c rfl hnc]
      simp only [LineEvent.setAll, if_neg hm, Nat.add_zero]
      cases s
      rfl

theorem setAll_scanLoop (lp : LineParser) (depth : Int) (parent keyWord : CStr) (k : Nat)
    (tokenPos : Int) (valueExcept : Option CStr) (v : CStr) (hd : 0 < depth) :
    ∀ (fuel : Nat) (s : Scan) (c : CStr), s.e.m_breakParsePatch = false →
      s.subChunkKeyword = none → s.newChunk = some c → s.value = some v →
      (scanLoop lp (setAllParams depth parent keyWord k tokenPos valueExcept) fuel s).okThen
        (fun sr => sr.2 = none ∧
          sr.1.updates = s.updates + setAllCount depth parent keyWord k tokenPos v valueExcept
            (walk lp fuel s.cursor) s.occurence ∧
          sr.1.newChunk = some (c ++ setAllLines depth parent keyWord k tokenPos v valueExcept
            (walk lp fuel s.cursor) s.occurence)) := by
  intro fuel
  induction fuel with
  | zero => intro s c _ _ _ _; trivial
  | succ fuel ih =>
    intro s c hb hsub hnc hv
    have hit := iteration_normal lp
      (setAllParams depth parent keyWord k tokenPos valueExcept) s hb hsub
    cases hw : walkStep lp s.cursor with
    | stop =>
      rw [hw] at hit
      simp only at hit
      simp only [scanLoop, hit, walk, hw, Outcome.okThen, setAllCount, setAllLines,
        Nat.add_zero, List.append_nil]
      exact ⟨trivial, trivial, hnc⟩
    | undefined =>
      rw [hw] at hit
      simp [scanLoop, hit, Outcome.okThen]
    | fuel =>
      rw [hw] at hit
      simp [scanLoop, hit, Outcome.okThen]
    | line ev0 c1 =>
      rw [hw] at hit
      simp only at hit
      simp only [walk, hw]
      rcases setAll_onLine lp depth parent keyWord k tokenPos valueExcept s ev0 c1 c v hd hw
        hsub hnc hv with ho | ho
      · rw [ho] at hit
        simp [scanLoop, hit, Outcome.okThen]
      · rw [ho] at hit
        have hb1 : c1.e.m_breakParsePatch = false := (walkStep_break hw).trans hb
        obtain ⟨s2, hs2⟩ : ∃ s2 : Scan, s2 = { s.withCursor c1 with
            newChunk := some (c ++ (ev0.skipped ++
              (ev0.setAll depth parent keyWord tokenPos
                (setAllValue k v valueExcept s.occurence)).1)),
            updates := s.updates +
              (ev0.setAll depth parent keyWord tokenPos
                (setAllValue k v valueExcept s.occurence)).2,
            occurence := s.occurence +
              (if ev0.Matches depth parent keyWord then 1 else 0) } := ⟨_, rfl⟩
        have hit2 : iteration lp (setAllParams depth parent keyWord k tokenPos valueExcept) s =
            .next s2 := by rw [hs2]; exact hit
        have hc : s2.cursor = c1 := by rw [hs2]; cases s; rfl
        have hu2 : s2.updates = s.updates +
            (ev0.setAll depth parent keyWord tokenPos
              (setAllValue k v valueExcept s.occurence)).2 := by rw [hs2]
        have ho2 : s2.occurence = s.occurence +
            (if ev0.Matches depth parent keyWord then 1 else 0) := by rw [hs2]
        have hv2 : s2.value = some v := by rw [hs2]; cases s; exact hv
        have this := ih s2 _ (by rw [hs2]; exact hb1) (by rw [hs2]; exact hsub)
          (by rw [hs2]) hv2
        rw [scanLoop_next fuel hit2]
        rw [hc, hu2, ho2] at this
        refine okThen_imp this ?_
        intro sr ⟨h1, h2, h3⟩
        refine ⟨h1, ?_, ?_⟩
        · rw [h2]
          simp only [setAllCount]
          omega
        · rw [h3]
          simp [setAllLines, List.append_assoc]

theorem setAll_returnValue (depth : Int) (parent keyWord : CStr) (k : Nat) (tokenPos : Int)
    (valueExcept : Option CStr) (updates occurence : Nat) :
    returnValue (setAllParams depth parent keyWord k tokenPos valueExcept) updates occurence =
      updates := by
  simp [returnValue, setAllParams]

theorem writtenLine_ne_nil (x : CStr) (tokenPos : Int) (toks : List CStr) (curLine : CStr) :
    writtenLine x tokenPos toks curLine ≠ [] ∨ toks = [] := by
  cases toks with
  | nil => right; rfl
  | cons t ts =>
    left
    unfold writtenLine
    split
    · intro h
      have := emitTokens_ne_nil x tokenPos t ts 0
      simp only [List.append_eq_nil] at h
      exact this h.1
    · simp

theorem setAllLines_ne_nil (depth : Int) (parent keyWord : CStr) (k : Nat) (tokenPos : Int)
    (v : CStr) (valueExcept : Option CStr) :
    ∀ (evs : List LineEvent) (occ : Nat),
      setAllCount depth parent keyWord k tokenPos v valueExcept evs occ ≠ 0 →
      setAllLines depth parent keyWord k tokenPos v valueExcept evs occ ≠ []
  | [], _, h => absurd rfl h
  | ev :: evs, occ, h => by
    simp only [setAllCount] at h
    simp only [setAllLines]
    by_cases h0 : (ev.setAll depth parent keyWord tokenPos
        (setAllValue k v valueExcept occ)).2 = 0
    · have := setAllLines_ne_nil depth parent keyWord k tokenPos v valueExcept evs
        (occ + (if ev.Matches depth parent keyWord then 1 else 0)) (by omega)
      simp [this]
    · have hne : (ev.setAll depth parent keyWord tokenPos
          (setAllValue k v valueExcept occ)).1 ≠ [] := by
        revert h0
        unfold LineEvent.setAll
        split
        · rename_i hm
          obtain ⟨t, ts, ht⟩ := matches_toks hm
          rw [ht]
          cases setAllValue k v valueExcept occ with
          | none => simp
          | some x =>
            simp only
            intro _
            rcases writtenLine_ne_nil x tokenPos (t :: ts) (truncLine ev.line) with h1 | h1
            · exact h1
            · simp at h1
        · simp
      simp [hne]

/-- What a set-all-except pass does when the scan runs to the end of the Document. -/
theorem setAll_core (lp : LineParser) (e : SNM_ChunkParserPatcher) (depth : Int)
    (parent keyWord : CStr) (k : Nat) (tokenPos : Int) (v : CStr) (valueExcept : Option CStr)
    (hb : e.m_breakParsePatch = false) (hd : 0 < depth) :
    match e.ParsePatchCore lp (setAllParams depth parent keyWord k tokenPos valueExcept)
      (some v) with
    | .ok r =>
      r.ret = setAllCount depth parent keyWord k tokenPos v valueExcept
        (documentLines lp e) 0 ∧
      (setAllCount depth parent keyWord k tokenPos v valueExcept (documentLines lp e) 0 ≠ 0 →
        r.engine.m_chunk = setAllLines depth parent keyWord k tokenPos v valueExcept
          (documentLines lp e) 0 ∧
        r.engine.m_updates = e.m_updates +
          setAllCount depth parent keyWord k tokenPos v valueExcept (documentLines lp e) 0) ∧
      (setAllCount depth parent keyWord k tokenPos v valueExcept (documentLines lp e) 0 = 0 →
        r.engine.m_chunk = e.GetChunk.m_chunk ∧ r.engine.m_updates = e.m_updates)
    | .undefined => True
    | .outOfFuel => False := by
  have hf := scanLoop_facts lp (setAllParams depth parent keyWord k tokenPos valueExcept)
    (e.GetChunk.m_chunk.length + 1)
    (initScan e.GetChunk (setAllParams depth parent keyWord k tokenPos valueExcept) (some v))
    (Nat.lt_succ_self _) (initScan_filled e _ (some v))
  have hc := setAll_scanLoop lp depth parent keyWord k tokenPos valueExcept v hd
    (e.GetChunk.m_chunk.length + 1)
    (initScan e.GetChunk (setAllParams depth parent keyWord k tokenPos valueExcept) (some v))
    [] ((GetChunk_break e).trans hb) rfl rfl rfl
  unfold ParsePatchCore
  simp only
  cases hs : scanLoop lp (setAllParams depth parent keyWord k tokenPos valueExcept)
      (e.GetChunk.m_chunk.length + 1)
      (initScan e.GetChunk (setAllParams depth parent keyWord k tokenPos valueExcept)
        (some v)) with
  | ok sr =>
    obtain ⟨s, r⟩ := sr
    rw [hs] at hf hc
    obtain ⟨⟨hst, -, -⟩, -⟩ := hf
    obtain ⟨hr, hupd, hnew⟩ := hc
    simp only at hr hupd hnew
    subst hr
    have hdoc : walk lp (e.GetChunk.m_chunk.length + 1)
        (initScan e.GetChunk (setAllParams depth parent keyWord k tokenPos valueExcept)
          (some v)).cursor = documentLines lp e := rfl
    have hocc0 : (initScan e.GetChunk
        (setAllParams depth parent keyWord k tokenPos valueExcept) (some v)).occurence = 0 :=
      rfl
    rw [hdoc, hocc0] at hnew hupd
    have hupd0 : s.updates = setAllCount depth parent keyWord k tokenPos v valueExcept
        (documentLines lp e) 0 := by
      rw [hupd]
      show 0 + _ = _
      omega
    have hu : s.e.m_updates = e.m_updates :=
      (congrArg (·.m_updates) hst).trans (GetChunk_m_updates e)
    have hch : s.e.m_chunk = e.GetChunk.m_chunk := congrArg (·.m_chunk) hst
    simp only [List.nil_append] at hnew
    simp only
    refine ⟨?_, ?_, ?_⟩
    · rw [setAll_returnValue, hupd0]
    · intro hne
      have hlen : (setAllLines depth parent keyWord k tokenPos v valueExcept
          (documentLines lp e) 0).length ≠ 0 := by
        intro h
        exact setAllLines_ne_nil depth parent keyWord k tokenPos v valueExcept _ _ hne
          (List.length_eq_zero.mp h)
      simp only [updateCache, hnew]
      rw [if_pos ⟨rfl, by rw [hupd0]; exact hne, hlen⟩]
      simp only [hu, hupd0]
      exact ⟨trivial, trivial⟩
    · intro h0
      simp only [updateCache, hnew]
      rw [if_neg (by rw [hupd0]; intro h; exact h.2.1 h0)]
      exact ⟨hch, hu⟩
  | undefined => trivial
  | outOfFuel => rw [hs] at hf; exact hf

/-- C13 (counterexample): on `"<A\nK 0\nK 0\n>\n"`, a set-all-except of token 1 of the
lines `K` under `A` with target occurence 0, value `"1"` and exception value `"5"`
reports two updates and leaves `"<A\nK 5\nK 1\n>\n"`: the line at occurence 0 is not
left untouched, its token is set to the exception value. -/
theorem c13_counterexample :
    ∃ r, (newFromChunk (some "<A\nK 0\nK 0\n>\n".toList) true false false false).ParsePatch
        wdlLineParser SNM_SETALL_CHUNK_CHAR_EXCEPT 1 (some "A".toList) (some "K".toList) 0 1
        (some "1".toList) (some "5".toList) none = .ok r ∧
      r.ret = 2 ∧ r.engine.m_chunk = "<A\nK 5\nK 1\n>\n".toList :=
  ⟨_, rfl, rfl, rfl⟩

theorem atLine_read (p : Params) (s : Scan) (ev : LineEvent) (c1 : Cursor)
    (hw : p.write = false) : s.atLine p ev c1 = s.withCursor c1 := by
  cases s
  simp [Scan.atLine, Scan.withCursor, hw]

theorem finishLine_read (p : Params) (s : Scan) (toks : List CStr) (curLine : CStr)
    (hw : p.write = false) : finishLine p s false toks curLine = s := by
  cases s
  simp [finishLine, hw]

theorem getPos_onLine_other (lp : LineParser) (depth : Int) (parent keyWord : CStr) (k : Nat)
    (s : Scan) (ev : LineEvent) (c1 : Cursor) (hd : 0 < depth)
    (hw : walkStep lp s.cursor = .line ev c1) (hsub : s.subChunkKeyword = none)
    (hnot : ev.Matches depth parent keyWord → s.occurence ≠ k) :
    s.onLine lp (getPosParams depth parent keyWord k) ev c1 = .undefined ∨
    s.onLine lp (getPosParams depth parent keyWord k) ev c1 =
      .next { s.withCursor c1 with
        occurence := s.occurence + (if ev.Matches depth parent keyWord then 1 else 0) } := by
  have hc := onLine_cases lp (getPosParams depth parent keyWord k) s ev c1
    parent keyWord rfl rfl rfl (by show SNM_GET_CHUNK_CHAR ≥ 0; decide) hd hw hsub
  have hat := atLine_read (getPosParams depth parent keyWord k) s ev c1 rfl
  by_cases hm : ev.Matches depth parent keyWord
  · right
    obtain ⟨t, ts, ht⟩ := matches_toks hm
    rw [hc.2 hm (t :: ts) ht]
    have hk2 : ¬ ((getPosParams depth parent keyWord k).occurence = (s.occurence : Int) ∨
        (getPosParams depth parent keyWord k).occurence = -1) := by
      show ¬ ((k : Int) = (s.occurence : Int) ∨ (k : Int) = -1)
      have := hnot hm
      omega
    rw [if_neg hk2]
    have ho : otherOccurence lp (getPosParams depth parent keyWord k)
        (s.atLine (getPosParams depth parent keyWord k) ev c1) false (t :: ts) =
        .cont (s.atLine (getPosParams depth parent keyWord k) ev c1) false := by
      simp [otherOccurence, getPosParams]
    rw [ho]
    simp only [incOccurence, if_pos hm]
    rw [finishLine_read _ _ _ _ rfl, hat]
    cases s
    rfl
  · rcases hc.1 hm with h | h
    · left; exact h
    · right
      rw [h, finishLine_read _ _ _ _ rfl, hat]
      simp only [if_neg hm, Nat.add_zero]
      cases s
      rfl

theorem getPos_onLine_target (lp : LineParser) (depth : Int) (parent keyWord : CStr) (k : Nat)
    (s : Scan) (ev : LineEvent) (c1 : Cursor) (hd : 0 < depth)
    (hw : walkStep lp s.cursor = .line ev c1) (hsub : s.subChunkKeyword = none)
    (hv : s.value = none)
    (hm : ev.Matches depth parent keyWord) (hocc : s.occurence = k) :
    s.onLine lp (getPosParams depth parent keyWord k) ev c1 =
      .ret (s.withCursor c1)
        (keywordPos1 (ev.line ++ '\n' :: ev.after) ev.linePos keyWord) := by
  have hc := onLine_cases lp (getPosParams depth parent keyWord k) s ev c1
    parent keyWord rfl rfl rfl (by show SNM_GET_CHUNK_CHAR ≥ 0; decide) hd hw hsub
  have hat := atLine_read (getPosParams depth parent keyWord k) s ev c1 rfl
  obtain ⟨t, ts, ht⟩ := matches_toks hm
  rw [hc.2 hm (t :: ts) ht]
  have hk2 : (getPosParams depth parent keyWord k).occurence = (s.occurence : Int) ∨
      (getPosParams depth parent keyWord k).occurence = -1 := by
    left
    show (k : Int) = (s.occurence : Int)
    omega
  rw [if_pos hk2]
  unfold matchingOccurence
  rw [if_pos (show (getPosParams depth parent keyWord k).mode = SNM_GET_CHUNK_CHAR from rfl)]
  simp only [incOccurence]
  rw [hat]
  cases s
  simp only at hv
  subst hv
  rfl

theorem getPos_scanLoop_found (lp : LineParser) (depth : Int) (parent keyWord : CStr)
    (k : Nat) (ev : LineEvent) (hd : 0 < depth) (hm : ev.Matches depth parent keyWord) :
    ∀ (fuel : Nat) (s : Scan) (i : Nat), s.e.m_breakParsePatch = false →
      s.subChunkKeyword = none → s.value = none →
      (walk lp fuel s.cursor)[i]? = some ev →
      s.occurence + ((walk lp fuel s.cursor).take i).countP
        (fun ev => decide (ev.Matches depth parent keyWord)) = k →
      (scanLoop lp (getPosParams depth parent keyWord k) fuel s).okThen
        (fun sr => sr.2 =
          some (keywordPos1 (ev.line ++ '\n' :: ev.after) ev.linePos keyWord)) := by
  intro fuel
  induction fuel with
  | zero => intro s i _ _ _ _ _; trivial
  | succ fuel ih =>
    intro s i hb hsub hv hev hcnt
    have hit := iteration_normal lp (getPosParams depth parent keyWord k) s hb hsub
    cases hw : walkStep lp s.cursor with
    | stop => simp [walk, hw] at hev
    | undefined => simp [walk, hw] at hev
    | fuel => simp [walk, hw] at hev
    | line ev0 c1 =>
      rw [hw] at hit
      simp only at hit
      simp only [walk, hw] at hev hcnt ⊢
      cases i with
      | zero =>
        simp only [List.getElem?_cons_zero, Option.some.injEq] at hev
        subst hev
        simp only [List.take_zero, List.countP_nil, Nat.add_zero] at hcnt
        rw [getPos_onLine_target lp depth parent keyWord k s ev0 c1 hd hw hsub hv hm hcnt]
          at hit
        simp only [scanLoop, hit, Outcome.okThen]
      | succ j =>
        simp only [List.getElem?_cons_succ] at hev
        simp only [List.take_succ_cons, List.countP_cons, decide_eq_true_eq] at hcnt
        have hnot : ev0.Matches depth parent keyWord → s.occurence ≠ k := by
          intro h
          simp only [h, if_true] at hcnt
          omega
        rcases getPos_onLine_other lp depth parent keyWord k s ev0 c1 hd hw hsub hnot
          with ho | ho
        · rw [ho] at hit
          simp [scanLoop, hit, Outcome.okThen]
        · rw [ho] at hit
          have hb1 : c1.e.m_breakParsePatch = false := (walkStep_break hw).trans hb
          obtain ⟨s2, hs2⟩ : ∃ s2 : Scan, s2 = { s.withCursor c1 with
              occurence := s.occurence +
                (if ev0.Matches depth parent keyWord then 1 else 0) } := ⟨_, rfl⟩
          have hit2 : iteration lp (getPosParams depth parent keyWord k) s = .next s2 := by
            rw [hs2]; exact hit
          have hc : s2.cursor = c1 := by rw [hs2]; cases s; rfl
          have hv2 : s2.value = none := by rw [hs2]; cases s; exact hv
          have this := ih s2 j (by rw [hs2]; exact hb1) (by rw [hs2]; exact hsub) hv2
            (by rw [hc]; exact hev) (by rw [hc, hs2]; simp only; omega)
          rw [scanLoop_next fuel hit2]
          exact this

theorem getPos_scanLoop_none (lp : LineParser) (depth : Int) (parent keyWord : CStr)
    (k : Nat) (hd : 0 < depth) :
    ∀ (fuel : Nat) (s : Scan), s.e.m_breakParsePatch = false →
      s.subChunkKeyword = none →
      s.occurence + (walk lp fuel s.cursor).countP
        (fun ev => decide (ev.Matches depth parent keyWord)) ≤ k →
      (scanLoop lp (getPosParams depth parent keyWord k) fuel s).okThen
        (fun sr => sr.2 = none) := by
  intro fuel
  induction fuel with
  | zero => intro s _ _ _; trivial
  | succ fuel ih =>
    intro s hb hsub hcnt
    have hit := iteration_normal lp (getPosParams depth parent keyWord k) s hb hsub
    cases hw : walkStep lp s.cursor with
    | stop =>
      rw [hw] at hit
      simp [scanLoop, hit, Outcome.okThen]
    | undefined =>
      rw [hw] at hit
      simp [scanLoop, hit, Outcome.okThen]
    | fuel =>
      rw [hw] at hit
      simp [scanLoop, hit, Outcome.okThen]
    | line ev0 c1 =>
      rw [hw] at hit
      simp only at hit
      simp only [walk, hw, List.countP_cons, decide_eq_true_eq] at hcnt
      have hnot : ev0.Matches depth parent keyWord → s.occurence ≠ k := by
        intro h
        simp only [h, if_true] at hcnt
        omega
      rcases getPos_onLine_other lp depth parent keyWord k s ev0 c1 hd hw hsub hnot
        with ho | ho
      · rw [ho] at hit
        simp [scanLoop, hit, Outcome.okThen]
      · rw [ho] at hit
        have hb1 : c1.e.m_breakParsePatch = false := (walkStep_break hw).trans hb
        obtain ⟨s2, hs2⟩ : ∃ s2 : Scan, s2 = { s.withCursor c1 with
            occurence := s.occurence +
              (if ev0.Matches depth parent keyWord then 1 else 0) } := ⟨_, rfl⟩
        have hit2 : iteration lp (getPosParams depth parent keyWord k) s = .next s2 := by
          rw [hs2]; exact hit
        have hc : s2.cursor = c1 := by rw [hs2]; cases s; rfl
        have this := ih s2 (by rw [hs2]; exact hb1) (by rw [hs2]; exact hsub)
          (by rw [hc, hs2]; simp only; omega)
        rw [scanLoop_next fuel hit2]
        exact this

/-- The position query when line `i` of the Document is occurence `k`: the offset of
the keyword in the line, plus one; the cached Document is the one that was scanned. -/
theorem getPos_core_found (lp : LineParser) (e : SNM_ChunkParserPatcher) (depth : Int)
    (parent keyWord : CStr) (k : Nat) (i : Nat) (ev : LineEvent)
    (hb : e.m_breakParsePatch = false)
    (hev : (documentLines lp e)[i]? = some ev)
    (hm : ev.Matches depth parent keyWord)
    (hcnt : ((documentLines lp e).take i).countP
      (fun ev => decide (ev.Matches depth parent keyWord)) = k) :
    match e.ParsePatchCore lp (getPosParams depth parent keyWord k) none with
    | .ok r => r.ret = keywordPos1 (ev.line ++ '\n' :: ev.after) ev.linePos keyWord ∧
        r.engine.m_chunk = e.GetChunk.m_chunk ∧ r.engine.m_updates = e.m_updates
    | .undefined => True
    | .outOfFuel => False := by
  have hf := scanLoop_facts lp (getPosParams depth parent keyWord k)
    (e.GetChunk.m_chunk.length + 1)
    (initScan e.GetChunk (getPosParams depth parent keyWord k) none)
    (Nat.lt_succ_self _) (initScan_filled e _ none)
  have hc := getPos_scanLoop_found lp depth parent keyWord k ev (matches_depth_pos hm) hm
    (e.GetChunk.m_chunk.length + 1)
    (initScan e.GetChunk (getPosParams depth parent keyWord k) none)
    i ((GetChunk_break e).trans hb) rfl rfl hev (by
      have : (initScan e.GetChunk (getPosParams depth parent keyWord k) none).occurence =
        0 := rfl
      rw [this, Nat.zero_add]
      exact hcnt)
  unfold ParsePatchCore
  simp only
  cases hs : scanLoop lp (getPosParams depth parent keyWord k)
      (e.GetChunk.m_chunk.length + 1)
      (initScan e.GetChunk (getPosParams depth parent keyWord k) none) with
  | ok sr =>
    obtain ⟨s, r⟩ := sr
    rw [hs] at hf hc
    obtain ⟨⟨hst, -, -⟩, -⟩ := hf
    simp only [Outcome.okThen] at hc
    subst hc
    simp only
    exact ⟨trivial, congrArg (·.m_chunk) hst,
      (congrArg (·.m_updates) hst).trans (GetChunk_m_updates e)⟩
  | undefined => trivial
  | outOfFuel => rw [hs] at hf; exact hf

/-- The position query when the Document has at most `k` matching lines: 0. -/
theorem getPos_core_none (lp : LineParser) (e : SNM_ChunkParserPatcher) (depth : Int)
    (parent keyWord : CStr) (k : Nat)
    (hb : e.m_breakParsePatch = false) (hd : 0 < depth)
    (hcnt : (documentLines lp e).countP
      (fun ev => decide (ev.Matches depth parent keyWord)) ≤ k) :
    match e.ParsePatchCore lp (getPosParams depth parent keyWord k) none with
    | .ok r => r.ret = 0 ∧
        r.engine.m_chunk = e.GetChunk.m_chunk ∧ r.engine.m_updates = e.m_updates
    | .undefined => True
    | .outOfFuel => False := by
  have hf := scanLoop_facts lp (getPosParams depth parent keyWord k)
    (e.GetChunk.m_chunk.length + 1)
    (initScan e.GetChunk (getPosParams depth parent keyWord k) none)
    (Nat.lt_succ_self _) (initScan_filled e _ none)
  have hc := getPos_scanLoop_none lp depth parent keyWord k hd
    (e.GetChunk.m_chunk.length + 1)
    (initScan e.GetChunk (getPosParams depth parent keyWord k) none)
    ((GetChunk_break e).trans hb) rfl (by
      have : (initScan e.GetChunk (getPosParams depth parent keyWord k) none).occurence =
        0 := rfl
      rw [this, Nat.zero_add]
      exact hcnt)
  unfold ParsePatchCore
  simp only
  cases hs : scanLoop lp (getPosParams depth parent keyWord k)
      (e.GetChunk.m_chunk.length + 1)
      (initScan e.GetChunk (getPosParams depth parent keyWord k) none) with
  | ok sr =>
    obtain ⟨s, r⟩ := sr
    rw [hs] at hf hc
    obtain ⟨⟨hst, -, -⟩, -⟩ := hf
    simp only [Outcome.okThen] at hc
    subst hc
    simp only
    refine ⟨by simp [returnValue, getPosParams], ?_, ?_⟩
    · simp only [updateCache, initScan]
      cases hn : s.newChunk with
      | none => exact congrArg (·.m_chunk) hst
      | some c =>
        simp only
        rw [if_neg (fun h => Bool.noConfusion (h.1 : false = true))]
        exact congrArg (·.m_chunk) hst
    · simp only [updateCache]
      cases hn : s.newChunk with
      | none => exact (congrArg (·.m_updates) hst).trans (GetChunk_m_updates e)
      | some c =>
        simp only
        rw [if_neg (fun h => Bool.noConfusion (h.1 : false = true))]
        exact (congrArg (·.m_updates) hst).trans (GetChunk_m_updates e)
  | undefined => trivial
  | outOfFuel => rw [hs] at hf; exact hf

theorem nextLine_noNewline {s : Scan} {line after : CStr} {e1 : SNM_ChunkParserPatcher}
    {k : Option Nat} {line1 after1 : CStr} (hsp : splitLine s.rest = some (line, after))
    (h : nextLine s line after = .ok (e1, k, line1, after1)) : '\n' ∉ line1 := by
  unfold nextLine at h
  split at h
  · simp at h
  · simp at h
  · simp at h
    obtain ⟨-, -, rfl, -⟩ := h
    exact splitLine_no_newline hsp
  · split at h
    · simp at h
    · rename_i l2 a2 hsp2
      simp at h
      obtain ⟨-, -, rfl, -⟩ := h
      exact splitLine_no_newline hsp2

theorem walkStep_noNewline {lp : LineParser} {c c1 : Cursor} {ev : LineEvent}
    (h : walkStep lp c = .line ev c1) : '\n' ∉ ev.line := by
  obtain ⟨line, after, e1, k, hsp, hn, -⟩ := walkStep_inv h
  exact nextLine_noNewline (s := c.scan) hsp hn

/-- Where a line of the walk lies in the text: `X` is what precedes it. -/
theorem walk_at (lp : LineParser) :
    ∀ (n : Nat) (c : Cursor) (j : Nat) (ev : LineEvent), (walk lp n c)[j]? = some ev →
      '\n' ∉ ev.line ∧
      ∃ X, c.rest = X ++ (ev.line ++ '\n' :: ev.after) ∧ ev.linePos = c.pos + X.length := by
  intro n
  induction n with
  | zero => intro c j ev h; simp [walk] at h
  | succ n ih =>
    intro c j ev h
    cases hw : walkStep lp c with
    | stop => simp [walk, hw] at h
    | undefined => simp [walk, hw] at h
    | fuel => simp [walk, hw] at h
    | line ev0 c1 =>
      obtain ⟨hrest, hpos, hc1, hp1, -⟩ := walkStep_line hw
      simp only [walk, hw] at h
      cases j with
      | zero =>
        simp only [List.getElem?_cons_zero, Option.some.injEq] at h
        subst h
        refine ⟨walkStep_noNewline hw, ev0.skipped, ?_, hpos⟩
        rw [hrest, List.append_assoc]
      | succ j =>
        simp only [List.getElem?_cons_succ] at h
        obtain ⟨hnl, X, hX, hl⟩ := ih c1 j ev h
        refine ⟨hnl, ev0.skipped ++ ev0.line ++ '\n' :: X, ?_, ?_⟩
        · rw [hrest, ← hc1, hX]
          simp
        · rw [hl, hp1, hpos]
          simp only [List.length_append, List.length_cons]
          omega

theorem documentLines_at (lp : LineParser) (e : SNM_ChunkParserPatcher) (i : Nat)
    (ev : LineEvent) (h : (documentLines lp e)[i]? = some ev) :
    '\n' ∉ ev.line ∧
    ∃ X, e.GetChunk.m_chunk = X ++ (ev.line ++ '\n' :: ev.after) ∧ X.length = ev.linePos := by
  obtain ⟨hnl, X, hX, hl⟩ := walk_at lp _ _ i ev h
  refine ⟨hnl, X, hX, ?_⟩
  rw [hl]
  show X.length = 0 + X.length
  omega

theorem keywordPos1_start (line rest keyWord : CStr) (linePos : Nat)
    (h : startsWith line keyWord = true) :
    keywordPos1 (line ++ rest) linePos keyWord = ((linePos + 1 : Nat) : Int) := by
  obtain ⟨t, rfl⟩ := startsWith_iff.mp h
  have hs : startsWith (keyWord ++ t ++ rest) keyWord = true :=
    startsWith_iff.mpr ⟨t ++ rest, by simp⟩
  have h2 : strstr (keyWord ++ t ++ rest) keyWord = some 0 := by
    unfold strstr
    rw [if_pos hs]
  simp only [keywordPos1, h2, Nat.add_zero]

theorem scanForwardFrom_line : ∀ (line rest : CStr) (pos : Nat), '\n' ∉ line →
    scanForwardFrom (line ++ '\n' :: rest) pos = pos + line.length
  | [], rest, pos, _ => by simp [scanForwardFrom]
  | c :: cs, rest, pos, h => by
    have hc : c ≠ '\n' := fun e => h (by simp [e])
    have hcs : '\n' ∉ cs := fun m => h (List.mem_cons_of_mem _ m)
    have ih := scanForwardFrom_line cs rest (pos + 1) hcs
    show scanForwardFrom (c :: (cs ++ '\n' :: rest)) pos = _
    simp only [scanForwardFrom, hc, if_false]
    rw [ih]
    simp only [List.length_cons]
    omega

theorem scanForward_line (X line rest : CStr) (h : '\n' ∉ line) :
    scanForward (X ++ (line ++ '\n' :: rest)) X.length = X.length + line.length := by
  unfold scanForward
  rw [List.drop_left]
  exact scanForwardFrom_line line rest X.length h

theorem lineStartBehind_newline (X line rest : CStr) :
    lineStartBehind (X ++ (line ++ '\n' :: rest)) (X.length + line.length) =
      if rest = [] then -1 else ((X.length + line.length + 1 : Nat) : Int) := by
  have h1 : (X ++ (line ++ '\n' :: rest))[X.length + line.length]? = some '\n' := by
    rw [← List.append_assoc, List.getElem?_append_right (by simp)]
    simp
  have h2 : (X ++ (line ++ '\n' :: rest))[X.length + line.length + 1]? = rest[0]? := by
    rw [← List.append_assoc, List.getElem?_append_right (by simp)]
    simp
  unfold lineStartBehind
  rw [h1, h2]
  cases rest with
  | nil => simp
  | cons a l => simp

theorem scanBackward_line (pre rest : CStr) :
    ∀ (prev : CStr) (n : Nat), '\n' ∉ prev → n ≤ prev.length →
      scanBackward (pre ++ '\n' :: (prev ++ rest)) (pre.length + n) = .ok pre.length := by
  intro prev n hnl
  induction n with
  | zero =>
    intro _
    have h1 : (pre ++ '\n' :: (prev ++ rest))[pre.length]? = some '\n' := by
      rw [List.getElem?_append_right (Nat.le_refl _)]
      simp
    cases hp : pre.length with
    | zero =>
      rw [hp] at h1
      simp only [Nat.add_zero, scanBackward, h1, if_true]
    | succ m =>
      rw [hp] at h1
      simp only [Nat.add_zero, scanBackward, h1, if_true]
  | succ n ih =>
    intro hle
    have hlt : n < prev.length := by omega
    have h1 : (pre ++ '\n' :: (prev ++ rest))[pre.length + n + 1]? = some (prev.get ⟨n, hlt⟩) := by
      rw [List.getElem?_append_right (by omega)]
      have : pre.length + n + 1 - pre.length = n + 1 := by omega
      rw [this, List.getElem?_cons_succ, List.getElem?_append_left hlt]
      simp
    have hc : prev.get ⟨n, hlt⟩ ≠ '\n' := fun e => hnl (e ▸ List.get_mem prev n hlt)
    have : pre.length + (n + 1) = (pre.length + n) + 1 := by omega
    rw [this]
    simp only [scanBackward, h1, hc, if_false]
    exact ih (by omega)

theorem scanBackward_first (rest : CStr) :
    ∀ (prev : CStr) (n : Nat), '\n' ∉ prev → n < prev.length →
      scanBackward (prev ++ rest) n = .undefined := by
  intro prev n hnl
  induction n with
  | zero =>
    intro hlt
    have h1 : (prev ++ rest)[0]? = some (prev.get ⟨0, hlt⟩) := by
      rw [List.getElem?_append_left hlt]
      simp
    have hc : prev.get ⟨0, hlt⟩ ≠ '\n' := fun e => hnl (e ▸ List.get_mem prev 0 hlt)
    simp only [scanBackward, h1, hc, if_false]
  | succ n ih =>
    intro hlt
    have h1 : (prev ++ rest)[n + 1]? = some (prev.get ⟨n + 1, hlt⟩) := by
      rw [List.getElem?_append_left hlt]
      simp
    have hc : prev.get ⟨n + 1, hlt⟩ ≠ '\n' := fun e => hnl (e ▸ List.get_mem prev (n + 1) hlt)
    simp only [scanBackward, h1, hc, if_false]
    exact ih (by omega)

theorem lineStartBehind_some (pre rest : CStr) (c : Char) :
    lineStartBehind (pre ++ '\n' :: c :: rest) pre.length = ((pre.length + 1 : Nat) : Int) := by
  have h1 : (pre ++ '\n' :: c :: rest)[pre.length]? = some '\n' := by
    rw [List.getElem?_append_right (Nat.le_refl _)]
    simp
  have h2 : (pre ++ '\n' :: c :: rest)[pre.length + 1]? = some c := by
    rw [List.getElem?_append_right (by omega)]
    simp
  simp [lineStartBehind, h1, h2]

theorem GetLinePos_eq (lp : LineParser) (e : SNM_ChunkParserPatcher) (dir depth : Int)
    (parent keyWord : CStr) (k : Nat) :
    e.GetLinePos lp dir (some parent) (some keyWord) depth (k : Int) none =
      (match e.ParsePatchCore lp (getPosParams depth parent keyWord k) none with
      | .undefined => .undefined
      | .outOfFuel => .outOfFuel
      | .ok r =>
        if r.ret > 0 then
          if dir = -1 ∨ dir = 1 then
            if dir = -1 then
              match scanBackward r.engine.m_chunk
                (if (r.ret - 1).toNat ≥ 2 then (r.ret - 1).toNat - 2 else (r.ret - 1).toNat)
                with
              | .ok q => .ok (r.engine, lineStartBehind r.engine.m_chunk q)
              | .undefined => .undefined
              | .outOfFuel => .outOfFuel
            else
              .ok (r.engine, lineStartBehind r.engine.m_chunk
                (scanForward r.engine.m_chunk (r.ret - 1).toNat))
          else .ok (r.engine, (((r.ret - 1).toNat : Nat) : Int))
        else .ok (r.engine, -1)) := rfl

/-- What `GetLinePos` does after a position query that found the keyword at the start
of a line at offset `X.length` of the cached Document. -/
theorem GetLinePos_found (lp : LineParser) (e : SNM_ChunkParserPatcher) (depth : Int)
    (parent keyWord : CStr) (k : Nat) (i : Nat) (ev : LineEvent)
    (hb : e.m_breakParsePatch = false)
    (hev : (documentLines lp e)[i]? = some ev)
    (hm : ev.Matches depth parent keyWord)
    (hcnt : ((documentLines lp e).take i).countP
      (fun ev => decide (ev.Matches depth parent keyWord)) = k)
    (hstart : startsWith ev.line keyWord = true) (dir : Int) :
    match e.ParsePatchCore lp (getPosParams depth parent keyWord k) none with
    | .ok r =>
      e.GetLinePos lp dir (some parent) (some keyWord) depth (k : Int) none =
        (if dir = -1 ∨ dir = 1 then
          if dir = -1 then
            match scanBackward e.GetChunk.m_chunk
              (if ev.linePos ≥ 2 then ev.linePos - 2 else ev.linePos) with
            | .ok q => .ok (r.engine, lineStartBehind e.GetChunk.m_chunk q)
            | .undefined => .undefined
            | .outOfFuel => .outOfFuel
          else
            .ok (r.engine, lineStartBehind e.GetChunk.m_chunk
              (scanForward e.GetChunk.m_chunk ev.linePos))
        else .ok (r.engine, ((ev.linePos : Nat) : Int)))
    | .undefined =>
      e.GetLinePos lp dir (some parent) (some keyWord) depth (k : Int) none = .undefined
    | .outOfFuel => False := by
  have hc := getPos_core_found lp e depth parent keyWord k i ev hb hev hm hcnt
  rw [GetLinePos_eq]
  revert hc
  generalize e.ParsePatchCore lp (getPosParams depth parent keyWord k) none = res
  intro hc
  cases res with
  | ok r =>
    simp only at hc ⊢
    obtain ⟨hret, hch, -⟩ := hc
    rw [keywordPos1_start ev.line ('\n' :: ev.after) keyWord ev.linePos hstart] at hret
    have hpos : r.ret > 0 := by rw [hret]; omega
    have hnat : (r.ret - 1).toNat = ev.linePos := by rw [hret]; omega
    rw [if_pos hpos, hnat, hch]
  | undefined => trivial
  | outOfFuel => exact hc

theorem scanBackward_ne_fuel (chunk : CStr) : ∀ n, scanBackward chunk n ≠ .outOfFuel
  | 0 => by
    unfold scanBackward
    split
    · simp
    · split <;> simp
  | n + 1 => by
    unfold scanBackward
    split
    · simp
    · split
      · simp
      · exact scanBackward_ne_fuel chunk n

theorem GetLinePos_ne_fuel (lp : LineParser) (e : SNM_ChunkParserPatcher) (depth : Int)
    (parent keyWord : CStr) (k : Nat) (dir : Int)
    (h : e.ParsePatchCore lp (getPosParams depth parent keyWord k) none ≠ .outOfFuel) :
    e.GetLinePos lp dir (some parent) (some keyWord) depth (k : Int) none ≠ .outOfFuel := by
  rw [GetLinePos_eq]
  revert h
  generalize e.ParsePatchCore lp (getPosParams depth parent keyWord k) none = res
  intro h
  cases res with
  | outOfFuel => exact absurd rfl h
  | undefined => simp
  | ok r =>
    simp only
    split
    · split
      · split
        · have := scanBackward_ne_fuel r.engine.m_chunk
            (if (r.ret - 1).toNat ≥ 2 then (r.ret - 1).toNat - 2 else (r.ret - 1).toNat)
          revert this
          generalize scanBackward r.engine.m_chunk
            (if (r.ret - 1).toNat ≥ 2 then (r.ret - 1).toNat - 2 else (r.ret - 1).toNat) = sb
          intro this
          cases sb with
          | ok q => simp
          | undefined => simp
          | outOfFuel => exact absurd rfl this
        · simp
      · simp
    · simp

/-- The backward scan of `GetLinePos` for direction -1 looks for the newline in front
of the preceding line: it passes the start of the buffer when the preceding line is the
first line of the Document and is not empty. -/
theorem GetLinePos_backward_first (lp : LineParser) (e : SNM_ChunkParserPatcher)
    (depth : Int) (parent keyWord : CStr) (k : Nat) (i : Nat) (ev : LineEvent)
    (hb : e.m_breakParsePatch = false)
    (hev : (documentLines lp e)[i]? = some ev) (hm : ev.Matches depth parent keyWord)
    (hcnt : ((documentLines lp e).take i).countP
      (fun ev => decide (ev.Matches depth parent keyWord)) = k)
    (hstart : startsWith ev.line keyWord = true) (prev : CStr) (hne : prev ≠ [])
    (hch : e.GetChunk.m_chunk = prev ++ '\n' :: (ev.line ++ '\n' :: ev.after))
    (hnp : '\n' ∉ prev) :
    e.GetLinePos lp (-1) (some parent) (some keyWord) depth (k : Int) none = .undefined := by
  obtain ⟨-, X, hX, hXl⟩ := documentLines_at lp e i ev hev
  have hf := GetLinePos_found lp e depth parent keyWord k i ev hb hev hm hcnt hstart (-1)
  revert hf
  generalize e.ParsePatchCore lp (getPosParams depth parent keyWord k) none = res
  intro hf
  cases res with
  | outOfFuel => exact hf.elim
  | undefined => exact hf
  | ok r =>
    simp only at hf
    rw [hf]
    simp only [if_true, true_or]
    have hlen : ev.linePos = prev.length + 1 := by
      have := congrArg List.length (hX.symm.trans hch)
      simp only [List.length_append, List.length_cons] at this
      omega
    have hp : 0 < prev.length := List.length_pos.mpr hne
    have h2 : ev.linePos ≥ 2 := by omega
    rw [if_pos h2, hch, scanBackward_first _ prev (ev.linePos - 2) hnp (by omega)]

theorem sameDoc_refl (e : SNM_ChunkParserPatcher) : SameDoc e e := ⟨rfl, rfl⟩

theorem sameDoc_GetChunk (e : SNM_ChunkParserPatcher) : SameDoc e e.GetChunk :=
  ⟨by rw [GetChunk_GetChunk], GetChunk_m_updates e⟩

theorem sameDoc_stable (e e1 : SNM_ChunkParserPatcher)
    (h : stablePart e1 = stablePart e.GetChunk) : SameDoc e e1 := by
  constructor
  · have h1 : stablePart e1.GetChunk = stablePart e.GetChunk.GetChunk := by
      rw [stablePart_GetChunk, stablePart_GetChunk e.GetChunk, h]
    rw [GetChunk_GetChunk] at h1
    exact congrArg (·.m_chunk) h1
  · exact (congrArg (·.m_updates) h).trans (GetChunk_m_updates e)

theorem ParsePatchCore_grows (lp : LineParser) (e : SNM_ChunkParserPatcher) (p : Params)
    (value : Option CStr) (r : Result) (h : e.ParsePatchCore lp p value = .ok r) :
    Grows e r.engine ∧ (p.write = false → SameDoc e r.engine) := by
  have hf := scanLoop_facts lp p (e.GetChunk.m_chunk.length + 1) (initScan e.GetChunk p value)
    (Nat.lt_succ_self _) (initScan_filled e _ value)
  unfold ParsePatchCore at h
  simp only at h
  cases hs : scanLoop lp p (e.GetChunk.m_chunk.length + 1) (initScan e.GetChunk p value) with
  | ok sr =>
    obtain ⟨s, rv⟩ := sr
    rw [hs] at hf h
    obtain ⟨⟨hst, -, -⟩, -⟩ := hf
    have hst2 : stablePart s.e = stablePart e.GetChunk := hst
    have hu : s.e.m_updates = e.m_updates :=
      (congrArg (·.m_updates) hst).trans (GetChunk_m_updates e)
    have hsd : SameDoc e s.e := sameDoc_stable e s.e hst2
    have hsd2 : SameDoc e { s.e with m_breakParsePatch := false } :=
      sameDoc_stable e _ hst2
    cases rv with
    | some v =>
      simp only [Outcome.ok.injEq] at h
      subst h
      exact ⟨Or.inl hsd, fun _ => hsd⟩
    | none =>
      simp only [Outcome.ok.injEq] at h
      subst h
      simp only [updateCache]
      cases hn : s.newChunk with
      | none => exact ⟨Or.inl hsd2, fun _ => hsd2⟩
      | some c =>
        simp only
        by_cases hc : p.write = true ∧ s.updates ≠ 0 ∧ c.length ≠ 0
        · rw [if_pos hc]
          refine ⟨Or.inr ?_, ?_⟩
          · simp only
            rw [hu]
            have := hc.2.1
            omega
          · intro hw
            rw [hw] at hc
            exact absurd hc.1 (by decide)
        · rw [if_neg hc]
          exact ⟨Or.inl hsd2, fun _ => hsd2⟩
  | undefined => rw [hs] at h; simp at h
  | outOfFuel => rw [hs] at h; simp at h

theorem GetLinePos_engine (lp : LineParser) (e : SNM_ChunkParserPatcher) (dir : Int)
    (parent keyword : Option CStr) (depth occurence : Int) (breakKeyword : Option CStr)
    (e1 : SNM_ChunkParserPatcher) (pos : Int)
    (h : e.GetLinePos lp dir parent keyword depth occurence breakKeyword = .ok (e1, pos)) :
    SameDoc e e1 := by
  unfold GetLinePos Parse at h
  cases hP : e.ParsePatchCore lp
      { write := false, mode := SNM_GET_CHUNK_CHAR, depth := depth, expectedParent := parent,
        keyWord := keyword, occurence := occurence, tokenPos := 0, valueExcept := none,
        breakKeyword := breakKeyword } none with
  | ok r =>
    have hg := (ParsePatchCore_grows lp e _ none r hP).2 rfl
    rw [hP] at h
    simp only at h
    have he : e1 = r.engine := by
      revert h
      split
      · split
        · split
          · cases scanBackward r.engine.m_chunk _ with
            | ok q => simp only [Outcome.ok.injEq, Prod.mk.injEq]; intro h; exact h.1.symm
            | undefined => simp
            | outOfFuel => simp
          · simp only [Outcome.ok.injEq, Prod.mk.injEq]; intro h; exact h.1.symm
        · simp only [Outcome.ok.injEq, Prod.mk.injEq]; intro h; exact h.1.symm
      · simp only [Outcome.ok.injEq, Prod.mk.injEq]; intro h; exact h.1.symm
    rw [he]
    exact hg
  | undefined => rw [hP] at h; simp at h
  | outOfFuel => rw [hP] at h; simp at h

theorem Edit.apply_grows (lp : LineParser) (ed : Edit) (e e1 : SNM_ChunkParserPatcher)
    (hr : ed.isRemoveLines = false) (h : ed.apply lp e = .ok e1) : Grows e e1 := by
  cases ed with
  | removeLines fuel kw b c => simp [Edit.isRemoveLines] at hr
  | parsePatch mode depth expectedParent keyWord occurence tokenPos value valueExcept
      breakKeyword =>
    simp only [Edit.apply, ParsePatch] at h
    split at h
    · rename_i r hP
      simp only [Outcome.ok.injEq] at h
      subst h
      exact (ParsePatchCore_grows lp e _ value r hP).1
    · simp at h
    · simp at h
  | replaceLineAt pos str =>
    simp only [Edit.apply, Outcome.ok.injEq] at h
    subst h
    unfold ReplaceLineAt
    split
    · simp only
      split
      · split
        · right
          simp only
          rw [GetChunk_m_updates]
          omega
        · exact Or.inl (sameDoc_GetChunk e)
      · exact Or.inl (sameDoc_GetChunk e)
    · exact Or.inl (sameDoc_refl e)
  | replaceLine parent keyword depth occurence newSubChunk breakKeyword =>
    simp only [Edit.apply, ReplaceLine, ParsePatch] at h
    cases keyword with
    | none =>
      simp only [Outcome.ok.injEq] at h
      subst h
      exact Or.inl (sameDoc_refl e)
    | some kw =>
      simp only at h
      by_cases hd : depth ≥ 0
      · rw [if_pos hd] at h
        split at h
        · rename_i r1 hP
          split at hP
          · rename_i r hP2
            simp only [Outcome.ok.injEq] at hP h
            subst hP
            subst h
            exact (ParsePatchCore_grows lp e _ newSubChunk r hP2).1
          · simp at hP
          · simp at hP
        · simp at h
        · simp at h
      · rw [if_neg hd] at h
        simp only [Outcome.ok.injEq] at h
        subst h
        exact Or.inl (sameDoc_refl e)
  | insertAfterBefore dir str parent keyword depth occurence breakKeyword =>
    simp only [Edit.apply] at h
    split at h
    · rename_i r hI
      simp only [Outcome.ok.injEq] at h
      subst h
      unfold InsertAfterBefore at hI
      split at hI
      · rename_i s kw
        by_cases hs : s ≠ []
        · rw [if_pos hs] at hI
          split at hI
          · rename_i e1 pos hG
            have hsd := GetLinePos_engine lp e dir parent (some kw) depth occurence
              breakKeyword e1 pos hG
            by_cases hp : pos ≥ 0
            · rw [if_pos hp] at hI
              simp only [Outcome.ok.injEq] at hI
              subst hI
              right
              simp only
              rw [hsd.2]
              omega
            · rw [if_neg hp] at hI
              simp only [Outcome.ok.injEq] at hI
              subst hI
              exact Or.inl hsd
          · simp at hI
          · simp at hI
        · rw [if_neg hs] at hI
          simp only [Outcome.ok.injEq] at hI
          subst hI
          exact Or.inl (sameDoc_refl e)
      · simp only [Outcome.ok.injEq] at hI
        subst hI
        exact Or.inl (sameDoc_refl e)
    · simp at h
    · simp at h

theorem applyEdits_grows (lp : LineParser) :
    ∀ (es : List Edit) (e e2 : SNM_ChunkParserPatcher) (m : Bool),
      (∀ ed ∈ es, ed.isRemoveLines = false) → applyEdits lp es e = .ok (e2, m) →
      e.m_updates ≤ e2.m_updates ∧ (m = true → e.m_updates < e2.m_updates)
  | [], e, e2, m, _, h => by
    simp only [applyEdits, Outcome.ok.injEq, Prod.mk.injEq] at h
    obtain ⟨rfl, rfl⟩ := h
    exact ⟨Int.le_refl _, fun h => absurd h (by decide)⟩
  | ed :: rest, e, e2, m, hall, h => by
    simp only [applyEdits] at h
    split at h
    · rename_i e1 hA
      split at h
      · rename_i e3 m1 hR
        simp only [Outcome.ok.injEq, Prod.mk.injEq] at h
        obtain ⟨rfl, rfl⟩ := h
        have hg := Edit.apply_grows lp ed e e1 (hall ed (List.mem_cons_self _ _)) hA
        have ih := applyEdits_grows lp rest e1 e3 m1
          (fun ed2 hm => hall ed2 (List.mem_cons_of_mem _ hm)) hR
        rcases hg with hs | hlt
        · have hch : decide (e1.GetChunk.m_chunk ≠ e.GetChunk.m_chunk) = false := by
            simp [hs.1]
          rw [hch, Bool.or_false]
          rw [← hs.2]
          exact ih
        · refine ⟨by omega, fun _ => by omega⟩
      · simp at h
      · simp at h
    · simp at h
    · simp at h

/-- C19 (failing input): on an engine attached to `"<A\nK 1\n>\n"`, replacing the line
at offset 3 by `"K 2\n"` sets the counter to 1 and changes the cached Document; a
following `RemoveLines("Z")`, which finds no line to remove, sets the counter to 0.
The counter has decreased, it is zero although the Document was modified, and a
non-forced Commit returns false and leaves the origin as it was. -/
theorem c19_remove_lines_resets_counter :
    ((newFromChunk (some "<A\nK 1\n>\n".toList) false false false false).ReplaceLineAt 3
      (some "K 2\n".toList)).1.m_updates = 1 ∧
    ∃ e2, applyEdits wdlLineParser
        [Edit.replaceLineAt 3 (some "K 2\n".toList),
         Edit.removeLines 10 (some "Z".toList) true 0]
        (newFromChunk (some "<A\nK 1\n>\n".toList) false false false false) = .ok (e2, true) ∧
      e2.m_chunk = "<A\nK 2\n>\n".toList ∧ e2.m_updates = 0 ∧
      (e2.Commit false).2 = false ∧
      (e2.Commit false).1.m_originalChunk = some "<A\nK 1\n>\n".toList := by
  refine ⟨by decide, _, rfl, by decide, by decide, by decide, by decide⟩

/-- Along a sequence of editing operations other than `RemoveLines` (`ParsePatch` in
any mode, both `ReplaceLine`, `InsertAfterBefore`) the update counter never decreases,
and if one of the operations changed the cached Document the counter is greater at the
end than at the start, hence not zero if it was not negative at the start. `RemoveLines`
sets the counter to the number of lines it blanked, whatever the counter was. -/
theorem update_counter_grows (lp : LineParser) (es : List Edit)
    (e e2 : SNM_ChunkParserPatcher) (m : Bool)
    (hes : ∀ ed ∈ es, ed.isRemoveLines = false)
    (hrun : applyEdits lp es e = .ok (e2, m)) :
    e.m_updates ≤ e2.m_updates ∧ (m = true → e.m_updates < e2.m_updates) ∧
    (m = true → 0 ≤ e.m_updates → e2.m_updates ≠ 0) ∧
    (∀ fuel removedKeyword checkBOL checkEOLChar e3 n,
      e2.RemoveLines fuel removedKeyword checkBOL checkEOLChar = .ok (e3, n) →
      e3.m_updates = n ∧ 0 ≤ n) := by
  have h := applyEdits_grows lp es e e2 m hes hrun
  refine ⟨h.1, h.2, ?_, ?_⟩
  · intro hm h0
    have := h.2 hm
    omega
  · intro fuel kw b c e3 n hR
    unfold RemoveLines at hR
    split at hR
    · rename_i k ch hk
      simp only [Outcome.ok.injEq, Prod.mk.injEq] at hR
      obtain ⟨rfl, rfl⟩ := hR
      exact ⟨rfl, Int.ofNat_nonneg k⟩
    · simp at hR
    · simp at hR

/-- Two replacements of the line at offset 3 of `"<A\nK 1\n>\n"` leave a counter
of 2. -/
theorem update_counter_grows_example :
    ∃ e2, applyEdits wdlLineParser
        [Edit.replaceLineAt 3 (some "K 2\n".toList), Edit.replaceLineAt 3 (some "K 3\n".toList)]
        (newFromChunk (some "<A\nK 1\n>\n".toList) false false false false) = .ok (e2, true) ∧
      e2.m_chunk = "<A\nK 3\n>\n".toList ∧ e2.m_updates = 2 ∧
      (newFromChunk (some "<A\nK 1\n>\n".toList) false false false false).m_updates <
        e2.m_updates := by
  obtain ⟨e2, hrun, hch, hupd⟩ : ∃ e2, applyEdits wdlLineParser
      [Edit.replaceLineAt 3 (some "K 2\n".toList), Edit.replaceLineAt 3 (some "K 3\n".toList)]
      (newFromChunk (some "<A\nK 1\n>\n".toList) false false false false) = .ok (e2, true) ∧
      e2.m_chunk = "<A\nK 3\n>\n".toList ∧ e2.m_updates = 2 :=
    ⟨_, rfl, by decide, by decide⟩
  exact ⟨e2, hrun, hch, hupd,
    (update_counter_grows wdlLineParser _ _ e2 true (by decide) hrun).2.1 rfl⟩

theorem getSub_scanLoop_none (lp : LineParser) (depth : Int) (keyword : CStr) (k : Nat)
    (hd : 0 < depth) :
    ∀ (fuel : Nat) (s : Scan) (v : CStr), s.e.m_breakParsePatch = false →
      s.subChunkKeyword = none → s.value = some v →
      s.occurence + (walk lp fuel s.cursor).countP
        (fun ev => decide (ev.Matches depth keyword ('<' :: keyword))) ≤ k →
      (scanLoop lp (getSubParams depth keyword (k : Int)) fuel s).okThen
        (fun sr => sr.2 = none ∧ sr.1.value = some v) := by
  intro fuel
  induction fuel with
  | zero => intro s v _ _ _ _; trivial
  | succ fuel ih =>
    intro s v hb hsub hv hcnt
    have hit := iteration_normal lp (getSubParams depth keyword (k : Int)) s hb hsub
    cases hw : walkStep lp s.cursor with
    | stop =>
      rw [hw] at hit
      simp only at hit
      simp only [scanLoop, hit, Outcome.okThen]
      exact ⟨trivial, hv⟩
    | undefined =>
      rw [hw] at hit
      simp [scanLoop, hit, Outcome.okThen]
    | fuel =>
      rw [hw] at hit
      simp [scanLoop, hit, Outcome.okThen]
    | line ev0 c1 =>
      rw [hw] at hit
      simp only at hit
      simp only [walk, hw, List.countP_cons, decide_eq_true_eq] at hcnt
      have hnot : ev0.Matches depth keyword ('<' :: keyword) →
          ¬ (((k : Nat) : Int) = (s.occurence : Int) ∨ ((k : Nat) : Int) = -1) := by
        intro h
        simp only [h, if_true] at hcnt
        omega
      rcases get_onLine lp depth keyword (k : Int) s ev0 c1 v hd hw hsub hv with ho | ho
      · rw [ho] at hit
        simp [scanLoop, hit, Outcome.okThen]
      · rw [ho] at hit
        have hb1 : c1.e.m_breakParsePatch = false := (walkStep_break hw).trans hb
        obtain ⟨s2, hs2⟩ : ∃ s2 : Scan, s2 = { s.withCursor c1 with
            occurence := s.occurence +
              (if ev0.Matches depth keyword ('<' :: keyword) then 1 else 0) } := ⟨_, rfl⟩
        have hit2 : iteration lp (getSubParams depth keyword (k : Int)) s = .next s2 := by
          rw [hit, hs2]
          by_cases hm : ev0.Matches depth keyword ('<' :: keyword)
          · rw [if_pos hm, if_neg (hnot hm), if_pos hm]
          · rw [if_neg hm, if_neg hm]
            cases s
            rfl
        have hc : s2.cursor = c1 := by rw [hs2]; cases s; rfl
        have hv2 : s2.value = some v := by rw [hs2]; cases s; exact hv
        have this := ih s2 v (by rw [hs2]; exact hb1) (by rw [hs2]; exact hsub) hv2
          (by rw [hc, hs2]; simp only; omega)
        rw [scanLoop_next fuel hit2]
        exact this

/-- The fetch of a sub-chunk when the Document has at most `k` elements of that name at
that depth: 0 is returned and nothing is accumulated. -/
theorem get_core_none (lp : LineParser) (e : SNM_ChunkParserPatcher) (depth : Int)
    (keyword : CStr) (k : Nat)
    (hb : e.m_breakParsePatch = false) (hd : 0 < depth)
    (hcnt : (documentLines lp e).countP
      (fun ev => decide (ev.Matches depth keyword ('<' :: keyword))) ≤ k) :
    match e.ParsePatchCore lp (getSubParams depth keyword (k : Int)) (some []) with
    | .ok r => r.ret = 0 ∧ r.value = some []
    | .undefined => True
    | .outOfFuel => False := by
  have hf := scanLoop_facts lp (getSubParams depth keyword (k : Int))
    (e.GetChunk.m_chunk.length + 1)
    (initScan e.GetChunk (getSubParams depth keyword (k : Int)) (some []))
    (Nat.lt_succ_self _) (initScan_filled e _ (some []))
  have hc := getSub_scanLoop_none lp depth keyword k hd
    (e.GetChunk.m_chunk.length + 1)
    (initScan e.GetChunk (getSubParams depth keyword (k : Int)) (some [])) []
    ((GetChunk_break e).trans hb) rfl rfl (by
      have : (initScan e.GetChunk (getSubParams depth keyword (k : Int))
        (some [])).occurence = 0 := rfl
      rw [this, Nat.zero_add]
      exact hcnt)
  unfold ParsePatchCore
  simp only
  cases hs : scanLoop lp (getSubParams depth keyword (k : Int))
      (e.GetChunk.m_chunk.length + 1)
      (initScan e.GetChunk (getSubParams depth keyword (k : Int)) (some [])) with
  | ok sr =>
    obtain ⟨s, r⟩ := sr
    rw [hs] at hf hc
    simp only [Outcome.okThen] at hc
    obtain ⟨hr, hv⟩ := hc
    subst hr
    simp only
    exact ⟨by simp [returnValue, getSubParams], hv⟩
  | undefined => trivial
  | outOfFuel => rw [hs] at hf; exact hf

/-- The text of the Document from the start of line `i` through the newline of line
`i + 1 + n`. -/
theorem documentLines_span (lp : LineParser) (e : SNM_ChunkParserPatcher) (i n : Nat)
    (evi evj : LineEvent) (hev : (documentLines lp e)[i]? = some evi)
    (hevj : ((documentLines lp e).drop (i + 1))[n]? = some evj) :
    ∃ X, X.length = evi.linePos ∧
      e.GetChunk.m_chunk = X ++ (evi.line ++ '\n' ::
        verbatimLines (((documentLines lp e).drop (i + 1)).take n ++ [evj])) ++ evj.after := by
  obtain ⟨-, X, hX, hXl⟩ := documentLines_at lp e i evi hev
  obtain ⟨hjx, htake⟩ := take_through_close (documentLines lp e) i n evi evj hev hevj
  have h1 : e.GetChunk.m_chunk =
      verbatimLines ((documentLines lp e).take (i + 1 + n + 1)) ++ evj.after :=
    walk_text lp (e.GetChunk.m_chunk.length + 1) (startCursor e.GetChunk) (i + 1 + n) evj hjx
  have h0 : e.GetChunk.m_chunk =
      verbatimLines ((documentLines lp e).take (i + 1)) ++ evi.after :=
    walk_text lp (e.GetChunk.m_chunk.length + 1) (startCursor e.GetChunk) i evi hev
  have hti : (documentLines lp e).take (i + 1) = (documentLines lp e).take i ++ [evi] := by
    rw [List.take_succ, hev]
    rfl
  have hafter : evi.after =
      verbatimLines (((documentLines lp e).drop (i + 1)).take n ++ [evj]) ++ evj.after := by
    have h2 := h0.symm.trans h1
    rw [htake, hti] at h2
    have h3 : (documentLines lp e).take i ++
        evi :: (((documentLines lp e).drop (i + 1)).take n ++ [evj]) =
        ((documentLines lp e).take i ++ [evi]) ++
          (((documentLines lp e).drop (i + 1)).take n ++ [evj]) := by simp
    rw [h3] at h2
    simp only [verbatimLines_append, List.append_assoc] at h2
    have h4 := List.append_cancel_left (List.append_cancel_left h2)
    rw [h4, verbatimLines_append, List.append_assoc]
  refine ⟨X, hXl, ?_⟩
  rw [hX, hafter]
  simp

theorem longLine_length : longLine.length = 8193 := by
  simp only [longLine, List.length_cons, List.length_replicate]

theorem longLine_noNewline : '\n' ∉ longLine := by
  intro h
  simp only [longLine, List.mem_cons, List.mem_replicate] at h
  rcases h with h | h | h
  · exact absurd h (by decide)
  · exact absurd h (by decide)
  · exact absurd h.2 (by decide)

theorem truncLine_long (line : CStr) (h : line.length ≥ 8192) :
    truncLine line = line.take 8191 := by
  unfold truncLine
  rw [if_pos h]
  rfl

theorem take_two {α : Type} (n : Nat) (a b : α) (l : List α) :
    List.take (n + 2) (a :: b :: l) = a :: b :: List.take n l := rfl

theorem longLine_take : longLine.take 8191 = longLineCut := by
  have h : (8191 : Nat) = 8189 + 2 := by decide
  rw [h]
  unfold longLine longLineCut
  rw [take_two, List.take_replicate]
  rfl

theorem truncLine_longLine : truncLine longLine = longLineCut := by
  rw [truncLine_long longLine (by rw [longLine_length]; decide), longLine_take]

theorem wdlTokenizeGo_run (c : Char) (hc : ¬ (c = ' ' ∨ c = '\t')) :
    ∀ (n : Nat) (acc : CStr),
      wdlTokenizeGo (List.replicate n c) (some (none, acc)) =
        some [acc.reverse ++ List.replicate n c]
  | 0, acc => by
    simp only [List.replicate_zero, wdlTokenizeGo, List.append_nil]
  | n + 1, acc => by
    rw [List.replicate_succ]
    simp only [wdlTokenizeGo, hc, if_false]
    rw [wdlTokenizeGo_run c hc n (c :: acc)]
    simp only [List.reverse_cons, List.append_assoc, List.singleton_append]

theorem wdlTokenize_run (n : Nat) :
    wdlTokenize ('X' :: ' ' :: List.replicate (n + 1) 'y') =
      some [['X'], List.replicate (n + 1) 'y'] := by
  unfold wdlTokenize
  rw [List.replicate_succ]
  have h1 : ¬ ('X' = ' ' ∨ 'X' = '\t') := by decide
  have h2 : ¬ ('X' = '"' ∨ 'X' = '\'' ∨ 'X' = '`') := by decide
  have h3 : (' ' = ' ' ∨ ' ' = '\t') := by decide
  have h4 : ¬ ('y' = ' ' ∨ 'y' = '\t') := by decide
  have h5 : ¬ ('y' = '"' ∨ 'y' = '\'' ∨ 'y' = '`') := by decide
  simp only [wdlTokenizeGo, h1, h2, h3, h4, h5, if_true, if_false]
  rw [wdlTokenizeGo_run 'y' h4 n ['y']]
  rfl

theorem wdlTokenize_longLineCut :
    wdlTokenize longLineCut = some [['X'], List.replicate 8189 'y'] :=
  wdlTokenize_run 8188

theorem splitLine_longLineRest :
    splitLine longLineRest = some (longLine, "K 0\n>\n".toList) :=
  splitLine_append longLine_noNewline

theorem dispatch_defined (lp : LineParser) (p : Params) (s : Scan) (alter : Bool)
    (t : CStr) (ts : List CStr) (curLine lineText : CStr) (linePos : Nat) (eolPos1 : Int)
    (parent keyWord : CStr) (hP : p.expectedParent = some parent)
    (hK : p.keyWord = some keyWord) (hbk : p.breakKeyword = none) (hmode : p.mode ≥ 0)
    (hd : 0 < p.depth)
    (hns : ¬ ((t :: ts).head? = some keyWord ∧ (s.parents.length : Int) = p.depth ∧
        s.parents.getLast?.map Prod.snd = some parent)) :
    dispatch lp p s alter (t :: ts) curLine lineText linePos eolPos1 ≠ .undefined := by
  have hm : ¬ (p.mode < 0) := by omega
  have h1 : ¬ (p.depth = -1) := by omega
  unfold dispatch
  cases hl : s.parents.getLast? with
  | none => simp
  | some cp =>
    rw [hl] at hns
    simp only [List.head?_cons, Option.some.injEq, Option.map_some'] at hns
    simp only [IsMatchingParsedLine, hP, hK, hbk, h1, if_false, List.head?_cons]
    by_cases hdp : p.depth = (s.parents.length : Int)
    · by_cases hpp : cp.2 = parent
      · by_cases htk : t = keyWord
        · exact absurd ⟨htk, hdp.symm, hpp⟩ hns
        · simp only [hdp, hpp, htk, if_true, if_false]
          simp [hm]
          split <;> simp
      · simp only [hdp, hpp, if_true, if_false]
        simp [hm]
        split <;> simp
    · simp only [hdp, if_false]
      simp [hm]
      split <;> simp

theorem onLine_defined (lp : LineParser) (p : Params) (s : Scan) (ev : LineEvent) (c1 : Cursor)
    (parent keyWord : CStr) (hP : p.expectedParent = some parent)
    (hK : p.keyWord = some keyWord) (hbk : p.breakKeyword = none) (hmode : p.mode ≥ 0)
    (hd : 0 < p.depth) (hw : walkStep lp s.cursor = .line ev c1)
    (hnm : ¬ ev.Matches p.depth parent keyWord) (hne : ev.toks ≠ some []) :
    s.onLine lp p ev c1 ≠ .undefined := by
  unfold Scan.onLine
  cases ht : ev.toks with
  | none => simp
  | some toks =>
    cases toks with
    | nil => exact absurd ht hne
    | cons t ts =>
      have hiff := matches_iff hw ht p.depth parent keyWord
      have hpar : (s.atLine p ev c1).parents = c1.parents := rfl
      have hdd := dispatch_defined lp p (s.atLine p ev c1) false t ts (truncLine ev.line)
        (ev.line ++ '\n' :: ev.after) ev.linePos
        ((ev.linePos + ev.line.length + 1 : Nat) : Int) parent keyWord hP hK hbk hmode hd
        (by rw [hpar]; exact fun h => hnm (hiff.mp h))
      simp only
      split
      · simp
      · simp
      · rename_i h
        exact absurd h hdd

theorem set_onLine_defined (lp : LineParser) (depth : Int) (parent keyWord : CStr) (k : Nat)
    (tokenPos : Int) (valueExcept : Option CStr) (s : Scan) (ev : LineEvent) (c1 : Cursor)
    (c : CStr) (hd : 0 < depth)
    (hw : walkStep lp s.cursor = .line ev c1) (hsub : s.subChunkKeyword = none)
    (hnc : s.newChunk = some c)
    (hnot : ev.Matches depth parent keyWord → s.occurence ≠ k)
    (hne : ev.toks ≠ some []) :
    s.onLine lp (setParams depth parent keyWord k tokenPos valueExcept) ev c1 =
      .next { s.withCursor c1 with
        newChunk := some (c ++ (ev.skipped ++ ev.copied)),
        occurence := s.occurence + (if ev.Matches depth parent keyWord then 1 else 0) } := by
  have hc := onLine_cases lp (setParams depth parent keyWord k tokenPos valueExcept) s ev c1
    parent keyWord rfl rfl rfl (by show SNM_SET_CHUNK_CHAR ≥ 0; decide) hd hw hsub
  by_cases hm : ev.Matches depth parent keyWord
  · obtain ⟨t, ts, ht⟩ := matches_toks hm
    rw [hc.2 hm (t :: ts) ht]
    have hk : ¬ (((k : Int) = (s.occurence : Int)) ∨ (k : Int) = -1) := by
      have := hnot hm
      omega
    have hk2 : ¬ ((setParams depth parent keyWord k tokenPos valueExcept).occurence =
        (s.occurence : Int) ∨
        (setParams depth parent keyWord k tokenPos valueExcept).occurence = -1) := hk
    rw [if_neg hk2]
    have ho : otherOccurence lp (setParams depth parent keyWord k tokenPos valueExcept)
        (s.atLine (setParams depth parent keyWord k tokenPos valueExcept) ev c1) false
        (t :: ts) =
        .cont (s.atLine (setParams depth parent keyWord k tokenPos valueExcept) ev c1)
          false := by
      simp [otherOccurence, setParams]
    rw [ho]
    simp only [incOccurence, if_pos hm]
    have := finishLine_copy_occ (setParams depth parent keyWord k tokenPos valueExcept) s ev
      c1 c t ts rfl hnc ht
    exact congrArg Step.next this
  · have hdef := onLine_defined lp (setParams depth parent keyWord k tokenPos valueExcept) s
      ev c1 parent keyWord rfl rfl rfl (by show SNM_SET_CHUNK_CHAR ≥ 0; decide) hd hw hm hne
    rcases hc.1 hm with h | h
    · exact absurd h hdef
    · rw [h, finishLine_copy _ s ev c1 c rfl hnc]
      simp only [if_neg hm, Nat.add_zero]
      cases s
      rfl

theorem set_scanLoop_defined (lp : LineParser) (depth : Int) (parent keyWord : CStr) (k : Nat)
    (tokenPos : Int) (valueExcept : Option CStr) (ev : LineEvent) (toks : List CStr)
    (v : CStr) (hd : 0 < depth)
    (hm : ev.Matches depth parent keyWord) (ht : ev.toks = some toks) :
    ∀ (fuel : Nat) (s : Scan) (c : CStr) (i : Nat), s.e.m_breakParsePatch = false →
      s.subChunkKeyword = none → s.newChunk = some c → s.value = some v →
      (walk lp fuel s.cursor)[i]? = some ev →
      s.occurence + ((walk lp fuel s.cursor).take i).countP
        (fun ev => decide (ev.Matches depth parent keyWord)) = k →
      (∀ evl ∈ (walk lp fuel s.cursor).take i, evl.toks ≠ some []) →
      scanLoop lp (setParams depth parent keyWord k tokenPos valueExcept) fuel s ≠
        .undefined := by
  intro fuel
  induction fuel with
  | zero => intro s c i _ _ _ _ _ _ _; simp [scanLoop]
  | succ fuel ih =>
    intro s c i hb hsub hnc hv hev hcnt hall
    have hit := iteration_normal lp (setParams depth parent keyWord k tokenPos valueExcept) s
      hb hsub
    cases hw : walkStep lp s.cursor with
    | stop => simp [walk, hw] at hev
    | undefined => simp [walk, hw] at hev
    | fuel => simp [walk, hw] at hev
    | line ev0 c1 =>
      rw [hw] at hit
      simp only at hit
      simp only [walk, hw] at hev hcnt hall
      cases i with
      | zero =>
        simp only [List.getElem?_cons_zero, Option.some.injEq] at hev
        subst hev
        simp only [List.take_zero, List.countP_nil, Nat.add_zero] at hcnt
        rw [set_onLine_target lp depth parent keyWord k tokenPos valueExcept s ev0 c1 c v toks
          hd hw hsub hnc hv hm hcnt ht] at hit
        rw [scanLoop_next fuel hit]
        cases fuel with
        | zero => simp [scanLoop]
        | succ fuel =>
          simp only [scanLoop, iteration_breaking lp
            (setParams depth parent keyWord k tokenPos valueExcept) _ _ rfl
            (show ({ s.withCursor c1 with
              e := { c1.e with m_breakParsePatch := true },
              newChunk := some (c ++ (ev0.skipped ++
                writtenLine v tokenPos toks (truncLine ev0.line))),
              updates := s.updates + (if isWritten v tokenPos toks = true then 1 else 0),
              occurence := s.occurence + 1 } : Scan).e.m_breakParsePatch = true from rfl) rfl]
          simp
      | succ j =>
        simp only [List.getElem?_cons_succ] at hev
        simp only [List.take_succ_cons, List.countP_cons, decide_eq_true_eq] at hcnt
        simp only [List.take_succ_cons, List.mem_cons, forall_eq_or_imp] at hall
        have hnot : ev0.Matches depth parent keyWord → s.occurence ≠ k := by
          intro h
          simp only [h, if_true] at hcnt
          omega
        have ho := set_onLine_defined lp depth parent keyWord k tokenPos valueExcept s ev0 c1 c
          hd hw hsub hnc hnot hall.1
        rw [ho] at hit
        have hb1 : c1.e.m_breakParsePatch = false := (walkStep_break hw).trans hb
        obtain ⟨s2, hs2⟩ : ∃ s2 : Scan, s2 = { s.withCursor c1 with
            newChunk := some (c ++ (ev0.skipped ++ ev0.copied)),
            occurence := s.occurence +
              (if ev0.Matches depth parent keyWord then 1 else 0) } := ⟨_, rfl⟩
        have hit2 : iteration lp (setParams depth parent keyWord k tokenPos valueExcept) s =
            .next s2 := by rw [hs2]; exact hit
        have hc : s2.cursor = c1 := by rw [hs2]; cases s; rfl
        have hv2 : s2.value = some v := by rw [hs2]; cases s; exact hv
        rw [scanLoop_next fuel hit2]
        exact ih s2 (c ++ (ev0.skipped ++ ev0.copied)) j
          (by rw [hs2]; exact hb1) (by rw [hs2]; exact hsub) (by rw [hs2]) hv2
          (by rw [hc]; exact hev)
          (by rw [hc, hs2]; simp only; omega)
          (by rw [hc]; exact hall.2)

/-- A set of occurence `k` returns when no line in front of the target line is without
token: what it leaves then. -/
theorem set_core_ok (lp : LineParser) (e : SNM_ChunkParserPatcher) (depth : Int)
    (parent keyWord : CStr) (k : Nat) (tokenPos : Int) (v : CStr) (valueExcept : Option CStr)
    (i : Nat) (ev : LineEvent) (toks : List CStr)
    (hb : e.m_breakParsePatch = false) (hd : 0 < depth)
    (hev : (documentLines lp e)[i]? = some ev)
    (hm : ev.Matches depth parent keyWord)
    (hcnt : ((documentLines lp e).take i).countP
      (fun ev => decide (ev.Matches depth parent keyWord)) = k)
    (ht : ev.toks = some toks)
    (hall : ∀ evl ∈ (documentLines lp e).take i, evl.toks ≠ some [])
    (hwr : isWritten v tokenPos toks = true) :
    ∃ r, e.ParsePatchCore lp (setParams depth parent keyWord k tokenPos valueExcept)
        (some v) = .ok r ∧
      r.ret = 1 ∧ r.engine.m_updates = e.m_updates + 1 ∧
      r.engine.m_chunk = rebuiltLines ((documentLines lp e).take i) ++
        (ev.skipped ++ emitTokens v tokenPos toks 0) ++ keptTail ev.after := by
  have hc := set_core lp e depth parent keyWord k tokenPos v valueExcept i ev toks hb hd hev hm
    hcnt ht
  have hdef : e.ParsePatchCore lp (setParams depth parent keyWord k tokenPos valueExcept)
      (some v) ≠ .undefined := by
    have h := set_scanLoop_defined lp depth parent keyWord k tokenPos valueExcept ev toks v hd
      hm ht (e.GetChunk.m_chunk.length + 1)
      (initScan e.GetChunk (setParams depth parent keyWord k tokenPos valueExcept) (some v))
      [] i ((GetChunk_break e).trans hb) rfl rfl rfl hev (by
        have : (initScan e.GetChunk (setParams depth parent keyWord k tokenPos valueExcept)
          (some v)).occurence = 0 := rfl
        rw [this, Nat.zero_add]
        exact hcnt) hall
    unfold ParsePatchCore
    simp only
    cases hs : scanLoop lp (setParams depth parent keyWord k tokenPos valueExcept)
        (e.GetChunk.m_chunk.length + 1)
        (initScan e.GetChunk (setParams depth parent keyWord k tokenPos valueExcept)
          (some v)) with
    | ok sr =>
      obtain ⟨s, r⟩ := sr
      cases r <;> simp
    | undefined => exact absurd hs h
    | outOfFuel => simp
  cases hr : e.ParsePatchCore lp (setParams depth parent keyWord k tokenPos valueExcept)
      (some v) with
  | ok r =>
    rw [hr] at hc
    exact ⟨r, rfl, hc.1 hwr⟩
  | undefined => exact absurd hr hdef
  | outOfFuel => rw [hr] at hc; exact hc.elim

theorem detectSkip_all (s : Scan) (line : CStr) (h1 : s.e.m_processBase64 = true)
    (h2 : s.e.m_processInProjectMIDI = true) (h3 : s.e.m_processFreeze = true) :
    detectSkip s line = .ok (s.e, none) := by
  simp [detectSkip, h1, h2, h3]

theorem walkStep_plain (lp : LineParser) (c : Cursor) (line after : CStr) (toks : List CStr)
    (hsp : splitLine c.rest = some (line, after))
    (h1 : c.e.m_processBase64 = true) (h2 : c.e.m_processInProjectMIDI = true)
    (h3 : c.e.m_processFreeze = true) (hp : lp.parse (truncLine line) = some toks) :
    walkStep lp c =
      .line { skipped := [], linePos := c.pos, line := line, after := after,
              toks := some toks,
              parents := (applyParents { c with rest := after, pos := c.pos + line.length + 1 }
                toks line.length).parents.map Prod.snd }
        (applyParents { c with rest := after, pos := c.pos + line.length + 1 }
          toks line.length) := by
  have hd : detectSkip c.scan line = .ok (c.e, none) := detectSkip_all c.scan line h1 h2 h3
  simp only [walkStep, hsp, nextLine, hd, hp, Option.getD_none, Nat.add_zero, List.take_zero]

theorem wdlLineParser_parse (l : CStr) : wdlLineParser.parse l = wdlTokenize l := rfl

theorem walk_line {lp : LineParser} {c c1 : Cursor} {ev : LineEvent} (n : Nat)
    (h : walkStep lp c = .line ev c1) : walk lp (n + 1) c = ev :: walk lp n c1 := by
  simp only [walk, h]

theorem longEngine_GetChunk : longEngine.GetChunk = { longEngine with m_chunk := longLineDoc } :=
  rfl

theorem longWalk1 :
    walkStep wdlLineParser (startCursor longEngine.GetChunk) = .line longEvent1 longCursor1 := by
  rw [walkStep_plain wdlLineParser (startCursor longEngine.GetChunk) "<A".toList longLineRest
    ["<A".toList]
    (show splitLine ("<A".toList ++ '\n' :: longLineRest) = _ from
      splitLine_append (by decide)) rfl rfl rfl (by decide)]
  rfl

theorem longWalk2 : walkStep wdlLineParser longCursor1 = .line longEvent2 longCursor2 := by
  rw [walkStep_plain wdlLineParser longCursor1 longLine "K 0\n>\n".toList
    [['X'], List.replicate 8189 'y'] splitLine_longLineRest rfl rfl rfl
    (by rw [truncLine_longLine, wdlLineParser_parse, wdlTokenize_longLineCut])]
  have hl : longCursor1.pos + longLine.length + 1 = 8197 := by
    rw [longLine_length]
    rfl
  rw [hl]
  rfl

theorem longWalk3 : walkStep wdlLineParser longCursor2 = .line longEvent3 longCursor3 := by
  rw [walkStep_plain wdlLineParser longCursor2 "K 0".toList ">\n".toList
    ["K".toList, "0".toList] (by decide) rfl rfl rfl (by decide)]
  rfl

theorem longLineDoc_length : longLineDoc.length = 8203 := by
  simp only [longLineDoc, longLineRest, List.length_cons, List.length_append,
    longLine_length, String.toList, String.length]
  rfl

theorem truncLine_short (line : CStr) (h : line.length < 8192) : truncLine line = line := by
  unfold truncLine
  rw [if_neg (by show ¬ (line.length ≥ 8192); omega)]
  exact List.take_length line

theorem longLines :
    documentLines wdlLineParser longEngine =
      longEvent1 :: longEvent2 :: longEvent3 :: walk wdlLineParser 8201 longCursor3 := by
  have hlen : longEngine.GetChunk.m_chunk.length + 1 = 8201 + 1 + 1 + 1 := by
    rw [longEngine_GetChunk]
    show longLineDoc.length + 1 = _
    rw [longLineDoc_length]
  unfold documentLines
  rw [hlen, walk_line _ longWalk1, walk_line _ longWalk2, walk_line _ longWalk3]

theorem longLines_target : (documentLines wdlLineParser longEngine)[2]? = some longEvent3 := by
  rw [longLines]
  rfl

theorem longLines_front :
    (documentLines wdlLineParser longEngine).take 2 = [longEvent1, longEvent2] := by
  rw [longLines]
  rfl

theorem longEvent3_matches : longEvent3.Matches 1 "A".toList "K".toList := by
  decide

theorem longLines_count :
    ((documentLines wdlLineParser longEngine).take 2).countP
      (fun ev => decide (ev.Matches 1 "A".toList "K".toList)) = 0 := by
  rw [longLines_front]
  have h1 : ¬ longEvent1.Matches 1 "A".toList "K".toList := by
    intro h
    exact absurd h.1 (by decide)
  have h2 : ¬ longEvent2.Matches 1 "A".toList "K".toList := by
    intro h
    exact absurd h.1 (by decide)
  simp only [List.countP_cons, List.countP_nil, decide_eq_true_eq, if_neg h1, if_neg h2]

theorem longLines_tokens :
    ∀ evl ∈ (documentLines wdlLineParser longEngine).take 2, evl.toks ≠ some [] := by
  rw [longLines_front]
  intro evl h
  simp only [List.mem_cons, List.mem_singleton, List.not_mem_nil, or_false] at h
  rcases h with rfl | rfl
  · exact fun h => List.noConfusion (Option.some.inj h)
  · exact fun h => List.noConfusion (Option.some.inj h)

theorem longEvent2_copied : longEvent2.copied = longLineCut ++ ['\n'] := by
  show truncLine longLine ++ ['\n'] = _
  rw [truncLine_longLine]

theorem longLines_rebuilt :
    rebuiltLines ((documentLines wdlLineParser longEngine).take 2) =
      "<A\n".toList ++ (longLineCut ++ ['\n']) := by
  rw [longLines_front]
  show (longEvent1.skipped ++ longEvent1.copied) ++
    ((longEvent2.skipped ++ longEvent2.copied) ++ []) = _
  rw [longEvent2_copied, List.append_nil]
  rfl

theorem count_longLine : List.count 'y' longLine = 8191 := by
  unfold longLine
  rw [List.count_cons_of_ne (by decide), List.count_cons_of_ne (by decide),
    List.count_replicate_self]

theorem count_longLineCut : List.count 'y' longLineCut = 8189 := by
  unfold longLineCut
  rw [List.count_cons_of_ne (by decide), List.count_cons_of_ne (by decide),
    List.count_replicate_self]

theorem longLineCut_length : longLineCut.length = 8191 := by
  simp only [longLineCut, List.length_cons, List.length_replicate]

/-- C17 (counterexample): `longLineDoc` is `"<A\n"`, a line of 8193 bytes (`X`, a blank
and 8191 times `y`), and `"K 0\n>\n"`. A set of token 1 of its line `K` to `"1"` returns 1
and leaves `"<A\n"`, the first 8191 bytes of the long line, and `"\nK 1\n>\n"`: the long
line, which the set does not target, has lost its last two bytes, and the rebuilt
Document does not hold it any more. -/
theorem c17_counterexample :
    ∃ r, longEngine.ParsePatch wdlLineParser SNM_SET_CHUNK_CHAR 1 (some "A".toList)
        (some "K".toList) 0 1 (some "1".toList) none none = .ok r ∧
      r.ret = 1 ∧
      r.engine.m_chunk = "<A\n".toList ++ (longLineCut ++ "\nK 1\n>\n".toList) ∧
      longLine.length = 8193 ∧ longLineCut.length = 8191 ∧
      longLineDoc = "<A\n".toList ++ (longLine ++ "\nK 0\n>\n".toList) ∧
      ¬ (longLine <:+: r.engine.m_chunk) := by
  obtain ⟨r, hr, h1, -, h3⟩ := set_core_ok wdlLineParser longEngine 1 "A".toList "K".toList 0
    1 "1".toList none 2 longEvent3 ["K".toList, "0".toList] rfl (by decide) longLines_target
    longEvent3_matches longLines_count rfl longLines_tokens (by decide)
  have hch : r.engine.m_chunk = "<A\n".toList ++ (longLineCut ++ "\nK 1\n>\n".toList) := by
    rw [h3, longLines_rebuilt]
    have h4 : longEvent3.skipped ++ emitTokens "1".toList 1 ["K".toList, "0".toList] 0 =
        "K 1\n".toList := by decide
    have h5 : keptTail longEvent3.after = ">\n".toList := by decide
    rw [h4, h5]
    simp only [List.append_assoc]
    rfl
  refine ⟨r, hr, h1, hch, longLine_length, longLineCut_length, rfl, ?_⟩
  intro hin
  have hle := hin.sublist.count_le 'y'
  rw [hch, count_longLine] at hle
  simp only [List.count_append, count_longLineCut] at hle
  have h6 : List.count 'y' "<A\n".toList = 0 := by decide
  have h7 : List.count 'y' "\nK 1\n>\n".toList = 0 := by decide
  rw [h6, h7] at hle
  omega

/-- C17 (amended): a rebuild copies a line that the pass does not alter from `curLine`,
the buffer that the tokenizer reads: a line of 8192 bytes or more is copied cut to its
first 8191 bytes, a shorter line with a token is copied whole, and a line without token
is dropped. So, for a set of a token (`SNM_SET_CHUNK_CHAR`) that alters its target line,
line `i` of the Document, when no line in front of it is without token: the call returns
1 and the cached Document becomes the rebuild of the lines in front of the target (each
opaque region kept, each line copied as said), the re-emitted target line, and the text
behind it, which is kept byte for byte if it holds a newline. In any write pass with a
parent and a keyword, no early-stop keyword, a mode that is not negative and a positive
depth, a line that does not match strictly and is not without token is appended to the
new chunk as that copy. -/
theorem c17_long_line_cut (lp : LineParser) (e : SNM_ChunkParserPatcher) (depth : Int)
    (parent keyWord : CStr) (k : Nat) (tokenPos : Int) (v : CStr) (valueExcept : Option CStr)
    (i : Nat) (ev : LineEvent) (toks : List CStr)
    (hb : e.m_breakParsePatch = false)
    (hev : (documentLines lp e)[i]? = some ev)
    (hm : ev.Matches depth parent keyWord)
    (hcnt : ((documentLines lp e).take i).countP
      (fun ev => decide (ev.Matches depth parent keyWord)) = k)
    (ht : ev.toks = some toks)
    (hall : ∀ evl ∈ (documentLines lp e).take i, evl.toks ≠ some [])
    (hwr : gettoken_str toks tokenPos ≠ v ∧ 0 ≤ tokenPos ∧ tokenPos < toks.length) :
    (∃ r, e.ParsePatch lp SNM_SET_CHUNK_CHAR depth (some parent) (some keyWord) (k : Int)
        tokenPos (some v) valueExcept none = .ok r ∧
      r.ret = 1 ∧
      r.engine.m_chunk = rebuiltLines ((documentLines lp e).take i) ++
        (ev.skipped ++ emitTokens v tokenPos toks 0) ++ keptTail ev.after) ∧
    (∀ evl : LineEvent, ∀ t ts, evl.toks = some (t :: ts) →
      (8192 ≤ evl.line.length →
        evl.copied = evl.line.take 8191 ++ ['\n'] ∧ evl.copied.length = 8192) ∧
      (evl.line.length < 8192 → evl.copied = evl.line ++ ['\n'])) ∧
    (∀ evl : LineEvent, evl.toks = some [] ∨ evl.toks = none → evl.copied = []) ∧
    ('\n' ∈ ev.after → keptTail ev.after = ev.after) ∧
    (∀ (p : Params) (s : Scan) (evl : LineEvent) (c1 : Cursor) (c par kw : CStr),
      p.write = true → p.expectedParent = some par → p.keyWord = some kw →
      p.breakKeyword = none → p.mode ≥ 0 → 0 < p.depth →
      walkStep lp s.cursor = .line evl c1 → s.subChunkKeyword = none →
      s.newChunk = some c → ¬ evl.Matches p.depth par kw → evl.toks ≠ some [] →
      s.onLine lp p evl c1 =
        .next { s.withCursor c1 with newChunk := some (c ++ (evl.skipped ++ evl.copied)) }) := by
  refine ⟨?_, ?_, ?_, ?_, ?_⟩
  · obtain ⟨r, hr, h1, -, h3⟩ := set_core_ok lp e depth parent keyWord k tokenPos v valueExcept
      i ev toks hb (matches_depth_pos hm) hev hm hcnt ht hall (by simpa [isWritten] using hwr)
    exact ⟨r, hr, h1, h3⟩
  · intro evl t ts htk
    have hcp : evl.copied = truncLine evl.line ++ ['\n'] := copied_cons htk
    constructor
    · intro hl
      rw [hcp, truncLine_long evl.line hl]
      refine ⟨rfl, ?_⟩
      simp only [List.length_append, List.length_take, List.length_singleton]
      omega
    · intro hl
      rw [hcp, truncLine_short evl.line hl]
  · intro evl h
    rcases h with h | h <;> simp [LineEvent.copied, h]
  · intro hin
    unfold keptTail
    rw [if_pos ((splitLine_isSome_iff ev.after).mpr hin)]
  · intro p s evl c1 c par kw hw hP hK hbk hmode hd hws hsub hnc hnm hne
    have hc := onLine_cases lp p s evl c1 par kw hP hK hbk hmode hd hws hsub
    have hdef := onLine_defined lp p s evl c1 par kw hP hK hbk hmode hd hws hnm hne
    rcases hc.1 hnm with h | h
    · exact absurd h hdef
    · rw [h, finishLine_copy p s evl c1 c hw hnc]

/-- C17 (witness): on `longLineDoc`, whose second line has 8193 bytes, a set of token 1
of the line `K` to `"2"` returns 1 and leaves the long line cut to 8191 bytes. -/
theorem c17_long_line_cut_witness :
    (∃ r, longEngine.ParsePatch wdlLineParser SNM_SET_CHUNK_CHAR 1 (some "A".toList)
        (some "K".toList) 0 1 (some "2".toList) none none = .ok r ∧
      r.ret = 1 ∧
      r.engine.m_chunk = "<A\n".toList ++ (longLineCut ++ "\nK 2\n>\n".toList)) ∧
    longEvent2.copied = longLine.take 8191 ++ ['\n'] ∧ longEvent2.copied.length = 8192 := by
  have hc := c17_long_line_cut wdlLineParser longEngine 1 "A".toList "K".toList 0 1
    "2".toList none 2 longEvent3 ["K".toList, "0".toList] rfl longLines_target
    longEvent3_matches longLines_count rfl longLines_tokens (by decide)
  obtain ⟨⟨r, hr, h1, h3⟩, hcut, -⟩ := hc
  refine ⟨⟨r, hr, h1, ?_⟩, (hcut longEvent2 ['X'] [List.replicate 8189 'y'] rfl).1
    (by show 8192 ≤ longLine.length; rw [longLine_length]; decide)⟩
  rw [h3, longLines_rebuilt]
  have h4 : longEvent3.skipped ++ emitTokens "2".toList 1 ["K".toList, "0".toList] 0 =
      "K 2\n".toList := by decide
  have h5 : keptTail longEvent3.after = ">\n".toList := by decide
  rw [h4, h5]
  simp only [List.append_assoc]
  rfl

theorem strstr_first {h n : CStr} {i : Nat} (hs : strstr h n = some i) :
    ∀ j, j < i → startsWith (h.drop j) n = false := by
  induction h generalizing i with
  | nil =>
    unfold strstr at hs
    split at hs
    · simp at hs; subst hs
      intro j hj; omega
    · simp at hs
  | cons c cs ih =>
    unfold strstr at hs
    split at hs
    · simp at hs; subst hs
      intro j hj; omega
    · rename_i h0
      simp only [Option.map_eq_some'] at hs
      obtain ⟨k, hk, rfl⟩ := hs
      intro j hj
      cases j with
      | zero => simpa using h0
      | succ j => exact ih hk j (by omega)

theorem strstr_none {h n : CStr} (hs : strstr h n = none) :
    ∀ j, startsWith (h.drop j) n = false := by
  induction h with
  | nil =>
    unfold strstr at hs
    split at hs
    · simp at hs
    · rename_i h0
      intro j
      simpa using h0
  | cons c cs ih =>
    unfold strstr at hs
    split at hs
    · simp at hs
    · rename_i h0
      simp only [Option.map_eq_none'] at hs
      intro j
      cases j with
      | zero => simpa using h0
      | succ j => exact ih hs j

theorem strstr_of_first {h n : CStr} {i : Nat} (hi : startsWith (h.drop i) n = true)
    (hfirst : ∀ j, j < i → startsWith (h.drop j) n = false) :
    strstr h n = some i := by
  cases hs : strstr h n with
  | none =>
    have := strstr_none hs i
    rw [hi] at this
    cases this
  | some k =>
    rcases Nat.lt_trichotomy k i with hlt | heq | hgt
    · have h1 := (strstr_spec hs).2
      rw [hfirst k hlt] at h1
      cases h1
    · rw [heq]
    · have h1 := strstr_first hs i hgt
      rw [hi] at h1
      cases h1

theorem strstrFrom_first {chunk n : CStr} {start i : Nat}
    (hs : strstrFrom chunk start n = some i) :
    ∀ j, start ≤ j → j < i → startsWith (chunk.drop j) n = false := by
  unfold strstrFrom at hs
  simp only [Option.map_eq_some'] at hs
  obtain ⟨k, hk, rfl⟩ := hs
  intro j h1 h2
  have := strstr_first hk (j - start) (by omega)
  rw [List.drop_drop] at this
  have he : start + (j - start) = j := by omega
  rw [he] at this
  exact this

theorem strstrFrom_none {chunk n : CStr} {start : Nat}
    (hs : strstrFrom chunk start n = none) :
    ∀ j, start ≤ j → startsWith (chunk.drop j) n = false := by
  unfold strstrFrom at hs
  simp only [Option.map_eq_none'] at hs
  intro j h1
  have := strstr_none hs (j - start)
  rw [List.drop_drop] at this
  have he : start + (j - start) = j := by omega
  rw [he] at this
  exact this

theorem strstrFrom_of_first {chunk n : CStr} {start i : Nat}
    (hi : startsWith (chunk.drop i) n = true) (hsi : start ≤ i)
    (hfirst : ∀ j, start ≤ j → j < i → startsWith (chunk.drop j) n = false) :
    strstrFrom chunk start n = some i := by
  unfold strstrFrom
  have h1 : strstr (chunk.drop start) n = some (i - start) := by
    apply strstr_of_first
    · rw [List.drop_drop]
      have he : start + (i - start) = i := by omega
      rw [he]
      exact hi
    · intro j hj
      rw [List.drop_drop]
      exact hfirst (start + j) (by omega) (by omega)
  rw [h1]
  simp only [Option.map_some', Option.some.injEq]
  omega

/-- C21 (counterexample): with the expected depth unset (-1), the expected parent `A`
and the expected keyword `K`, a line with keyword `X` under the parent `B` is reported
as a tolerant match although neither the parent filter nor the keyword filter is
satisfied; so is, at the expected depth and with no expected parent, a line whose
keyword is not the expected one. -/
theorem c21_counterexample :
    IsMatchingParsedLine (-1) 1 (some "A".toList) "B".toList (some "K".toList)
      (some "X".toList) = some (true, false) ∧
    IsMatchingParsedLine 1 1 none "B".toList (some "K".toList) (some "X".toList) =
      some (true, false) :=
  ⟨rfl, rfl⟩

/-- C21 (amended): the filters of `IsMatchingParsedLine` are nested. The match is
tolerant if and only if the expected depth is -1 (whatever the parent and the keyword
are), or it equals the parsed depth and the expected parent is null (whatever the
keyword is), or it equals the parsed depth, the expected parent equals the parsed
parent and the expected keyword is null or equals the parsed keyword. The match is
strict if and only if the expected depth is not -1 and equals the parsed depth, the
expected parent is given and equals the parsed parent, and the expected keyword is given
and equals the parsed keyword. The keywords are compared, with a null parsed keyword
(a line without token) as an invalid argument of `strcmp`, exactly when the depth and
the parent are given and match and an expected keyword is given. -/
theorem c21_tolerant_match (expectedDepth parsedDepth : Int) (expectedParent : Option CStr)
    (parsedParent : CStr) (expectedKeyword parsedKeyword : Option CStr) :
    (∀ t s, IsMatchingParsedLine expectedDepth parsedDepth expectedParent parsedParent
        expectedKeyword parsedKeyword = some (t, s) →
      (t = true ↔
        (expectedDepth = -1 ∨
         (expectedDepth = parsedDepth ∧
          (expectedParent = none ∨
           (expectedParent = some parsedParent ∧
            (expectedKeyword = none ∨ expectedKeyword = parsedKeyword)))))) ∧
      (s = true ↔
        (expectedDepth ≠ -1 ∧ expectedDepth = parsedDepth ∧
         expectedParent = some parsedParent ∧
         expectedKeyword.isSome = true ∧ expectedKeyword = parsedKeyword))) ∧
    (IsMatchingParsedLine expectedDepth parsedDepth expectedParent parsedParent
        expectedKeyword parsedKeyword = none ↔
      (expectedDepth ≠ -1 ∧ expectedDepth = parsedDepth ∧
       expectedParent = some parsedParent ∧
       expectedKeyword.isSome = true ∧ parsedKeyword = none)) := by
  unfold IsMatchingParsedLine
  by_cases h1 : expectedDepth = -1
  · simp [h1]
  · by_cases h2 : expectedDepth = parsedDepth
    · subst h2
      cases expectedParent with
      | none => simp [h1]
      | some ep =>
        by_cases h3 : parsedParent = ep
        · cases expectedKeyword with
          | none => simp [h1, h3]
          | some ek =>
            cases parsedKeyword with
            | none => simp [h1, h3]
            | some pk =>
              by_cases h4 : pk = ek
              · simp [h1, h3, h4]
              · have h5 : ¬ ek = pk := fun h => h4 h.symm
                simp [h1, h3, h4, h5]
        · have h5 : ¬ ep = parsedParent := fun h => h3 h.symm
          simp [h1, h3, h5]
    · simp [h1, h2]

/-- C21 (witness): at depth 1 under `A`, the keyword `K` is a tolerant and a strict
match for the filters depth 1, parent `A`, keyword `K`. -/
theorem c21_tolerant_match_witness :
    IsMatchingParsedLine 1 1 (some "A".toList) "A".toList (some "K".toList)
      (some "K".toList) = some (true, true) ∧
    (true = true ↔
      ((1 : Int) = -1 ∨
       ((1 : Int) = 1 ∧
        ((some "A".toList : Option CStr) = none ∨
         (some "A".toList = some "A".toList ∧
          ((some "K".toList : Option CStr) = none ∨
            some "K".toList = some "K".toList)))))) :=
  ⟨rfl, ((c21_tolerant_match 1 1 (some "A".toList) "A".toList (some "K".toList)
    (some "K".toList)).1 true true rfl).1⟩

/-- C22 (counterexample): in `"<A\nabcd==\nNAME x>\n>\n"`, scanned with encoded-blob
processing disabled, the region that starts at the blob line `abcd==` (offset 3) ends at
offset 16, the `>` that ends the line `NAME x>`: the byte in front of it is `x`, not a
newline, so the region does not end at the start of a line, and the line tokenized after
the region is the last byte of `NAME x>`, not the close-marker line at offset 18. -/
theorem c22_counterexample :
    (documentLines wdlLineParser (newFromChunk (some blobTailDoc) true false false false))[1]? =
      some { skipped := "abcd==\nNAME x".toList, linePos := 16, line := ">".toList,
             after := ">\n".toList, toks := some [">".toList], parents := [] } ∧
    blobTailDoc[15]? = some 'x' ∧ blobTailDoc.drop 17 = "\n>\n".toList :=
  ⟨rfl, rfl, rfl⟩

/-- C22 (amended): with encoded-blob processing disabled, when the scan arrives at a
line longer than 2 characters that ends in `==`, the region ends at the first
occurrence of the two bytes `>` and newline from the start of that line on, wherever it
lies in a line: the occurrence lies behind the blob line, no `>` followed by a newline
lies in front of it, the whole region up to it is copied through, and the line parsed
and dispatched in that iteration is `>`, the text from there to the newline. If there is
no such occurrence, nothing is skipped and the blob line itself is parsed. -/
theorem c22_blob_region (lp : LineParser) (p : Params) (s : Scan) (line after : CStr)
    (hsp : splitLine s.rest = some (line, after))
    (hbrk : s.e.m_breakParsePatch = false) (hb64 : s.e.m_processBase64 = false)
    (hlen : line.length > 2) (heq : line.drop (line.length - 2) = "==".toList) :
    (∀ k, strstr s.rest ">\n".toList = some k →
      line.length < k ∧
      (∀ j, j < k → startsWith (s.rest.drop j) ">\n".toList = false) ∧
      startsWith (s.rest.drop k) ">\n".toList = true ∧
      iteration lp p s =
        processLine lp p (copySkipped p s k) k ['>'] (s.rest.drop (k + 2))) ∧
    (strstr s.rest ">\n".toList = none →
      (∀ j, startsWith (s.rest.drop j) ">\n".toList = false) ∧
      iteration lp p s = processLine lp p s 0 line after) := by
  constructor
  · intro k hk
    refine ⟨blob_line_before_marker hsp hlen heq hk, strstr_first hk, (strstr_spec hk).2, ?_⟩
    obtain ⟨-, hsw⟩ := strstr_spec hk
    obtain ⟨t, ht⟩ := startsWith_iff.mp hsw
    have hd2 : s.rest.drop (k + 2) = t := by
      have : s.rest.drop (k + 2) = (s.rest.drop k).drop 2 := by
        rw [List.drop_drop, Nat.add_comm]
      rw [this, ht]; rfl
    have hsp2 : splitLine (s.rest.drop k) = some (['>'], t) := by
      rw [ht]; rfl
    have hds : detectSkip s line = .ok (s.e, some k) := by
      unfold detectSkip
      simp only [hb64, hk]
      rw [if_pos ⟨trivial, hlen, heq⟩]
    have hnl : nextLine s line after = .ok (s.e, some k, ['>'], t) := by
      unfold nextLine
      rw [hds]
      simp only [hsp2]
    unfold iteration
    simp only [hsp, hbrk, hnl, hd2]
    cases s
    rfl
  · intro hk
    refine ⟨strstr_none hk, ?_⟩
    have hds : detectSkip s line = .ok (s.e, none) := by
      unfold detectSkip
      simp only [hb64, hk]
      rw [if_pos ⟨trivial, hlen, heq⟩]
    have hnl : nextLine s line after = .ok (s.e, none, line, after) := by
      unfold nextLine
      rw [hds]
    unfold iteration
    simp only [hsp, hbrk, hnl]
    cases s
    rfl

/-- C22 (witness): at the start of `"abcd==\n>\n"` the region ends at offset 7, the
first `>` followed by a newline, and the line dispatched is `>`. -/
theorem c22_blob_region_witness :
    strstr blobScan.rest ">\n".toList = some 7 ∧
    ("abcd==".toList).length < 7 ∧
    startsWith (blobScan.rest.drop 7) ">\n".toList = true ∧
    iteration wdlLineParser (countParams 1 "A".toList "abcd==".toList (-1) none) blobScan =
      processLine wdlLineParser (countParams 1 "A".toList "abcd==".toList (-1) none)
        (copySkipped (countParams 1 "A".toList "abcd==".toList (-1) none) blobScan 7) 7 ['>']
        (blobScan.rest.drop (7 + 2)) :=
  have h := (c22_blob_region wdlLineParser (countParams 1 "A".toList "abcd==".toList (-1) none)
    blobScan "abcd==".toList ">\n".toList rfl rfl rfl (by decide) rfl).1 7 rfl
  ⟨rfl, h.1, h.2.2.1, h.2.2.2⟩

theorem anyDepth_dispatch (lp : LineParser) (p : Params) (s : Scan) (alter : Bool)
    (toks : List CStr) (curLine lineText : CStr) (linePos : Nat) (eolPos1 : Int)
    (hd : p.depth = -1) (hm : 0 ≤ p.mode) (hsub : s.subChunkKeyword = none) :
    dispatch lp p s alter toks curLine lineText linePos eolPos1 = .undefined ∨
    dispatch lp p s alter toks curLine lineText linePos eolPos1 = .cont s alter ∨
    dispatch lp p s alter toks curLine lineText linePos eolPos1 =
      .cont { s with e := { s.e with m_breakParsePatch := true } } alter := by
  have hm2 : ¬ (p.mode < 0) := by omega
  unfold dispatch
  cases hl : s.parents.getLast? with
  | none => right; left; rfl
  | some cp =>
    simp only [IsMatchingParsedLine, hd, if_true, hm2, and_false, if_false, hsub,
      Option.isSome_none, Bool.false_eq_true, true_and, false_and]
    by_cases hk : p.keyWord.isSome = true ∧ p.breakKeyword.isSome = true
    · rw [if_pos hk]
      cases hh : toks.head? with
      | none => left; rfl
      | some keyword =>
        simp only
        by_cases hbk : some keyword = p.breakKeyword
        · rw [if_pos hbk]
          right; right; rfl
        · rw [if_neg hbk]
          right; left; rfl
    · rw [if_neg hk]
      right; left; rfl

theorem anyDepth_onLine (lp : LineParser) (p : Params) (s : Scan) (ev : LineEvent)
    (c1 : Cursor) (hd : p.depth = -1) (hm : 0 ≤ p.mode) (hsub : s.subChunkKeyword = none) :
    s.onLine lp p ev c1 = .undefined ∨
    ∃ s1, s.onLine lp p ev c1 = .next s1 ∧ Untouched s s1 := by
  unfold Scan.onLine
  cases ht : ev.toks with
  | none =>
    right
    exact ⟨_, rfl, hsub, rfl, rfl, rfl⟩
  | some toks =>
    simp only
    rcases anyDepth_dispatch lp p (s.atLine p ev c1) false toks (truncLine ev.line)
      (ev.line ++ '\n' :: ev.after) ev.linePos
      ((ev.linePos + ev.line.length + 1 : Nat) : Int) hd hm hsub with h | h | h
    · left
      rw [h]
    · right
      rw [h]
      refine ⟨_, rfl, hsub, ?_, rfl, rfl⟩
      simp [finishLine, Scan.atLine, Scan.withCursor]
    · right
      rw [h]
      refine ⟨_, rfl, hsub, ?_, rfl, rfl⟩
      simp [finishLine, Scan.atLine, Scan.withCursor]

theorem anyDepth_iteration (lp : LineParser) (p : Params) (s : Scan)
    (hd : p.depth = -1) (hm : 0 ≤ p.mode) (hsub : s.subChunkKeyword = none) :
    match iteration lp p s with
    | .next s1 => Untouched s s1
    | .brk s1 => Untouched s s1
    | .ret _ _ => False
    | .undefined => True
    | .fuel => True := by
  by_cases hb : s.e.m_breakParsePatch = false
  · rw [iteration_normal lp p s hb hsub]
    cases hw : walkStep lp s.cursor with
    | stop => exact ⟨hsub, rfl, rfl, rfl⟩
    | undefined => trivial
    | fuel => trivial
    | line ev c1 =>
      simp only
      rcases anyDepth_onLine lp p s ev c1 hd hm hsub with h | ⟨s1, h, hu⟩
      · rw [h]
        trivial
      · rw [h]
        exact hu
  · have hb1 : s.e.m_breakParsePatch = true := by simpa using hb
    unfold iteration
    cases hsp : splitLine s.rest with
    | none => exact ⟨hsub, rfl, rfl, rfl⟩
    | some la =>
      simp only [hb1, if_true]
      split <;> exact ⟨hsub, rfl, rfl, rfl⟩

theorem anyDepth_scanLoop (lp : LineParser) (p : Params) (hd : p.depth = -1)
    (hm : 0 ≤ p.mode) :
    ∀ (fuel : Nat) (s : Scan), s.subChunkKeyword = none →
      (scanLoop lp p fuel s).okThen (fun sr => sr.2 = none ∧ Untouched s sr.1) := by
  intro fuel
  induction fuel with
  | zero => intro s _; trivial
  | succ fuel ih =>
    intro s hsub
    have hit := anyDepth_iteration lp p s hd hm hsub
    cases hi : iteration lp p s with
    | next s1 =>
      rw [hi] at hit
      simp only [scanLoop, hi]
      refine okThen_imp (ih s1 hit.1) ?_
      intro sr ⟨h1, h2, h3, h4, h5⟩
      exact ⟨h1, h2, h3.trans hit.2.1, h4.trans hit.2.2.1, h5.trans hit.2.2.2⟩
    | brk s1 =>
      rw [hi] at hit
      simp only [scanLoop, hi]
      exact ⟨rfl, hit⟩
    | ret s1 v =>
      rw [hi] at hit
      exact hit.elim
    | undefined =>
      simp only [scanLoop, hi]
      trivial
    | fuel =>
      simp only [scanLoop, hi]
      trivial

theorem anyDepth_core (lp : LineParser) (e : SNM_ChunkParserPatcher) (p : Params)
    (value : Option CStr) (hd : p.depth = -1) (hm : 0 ≤ p.mode) :
    match e.ParsePatchCore lp p value with
    | .ok r =>
      r.ret = returnValue p 0 0 ∧ r.engine.m_chunk = e.GetChunk.m_chunk ∧
      r.engine.m_updates = e.m_updates ∧ r.value = value
    | .undefined => True
    | .outOfFuel => False := by
  have hf := scanLoop_facts lp p (e.GetChunk.m_chunk.length + 1) (initScan e.GetChunk p value)
    (Nat.lt_succ_self _) (initScan_filled e p value)
  have hc := anyDepth_scanLoop lp p hd hm (e.GetChunk.m_chunk.length + 1)
    (initScan e.GetChunk p value) rfl
  unfold ParsePatchCore
  simp only
  cases hs : scanLoop lp p (e.GetChunk.m_chunk.length + 1) (initScan e.GetChunk p value) with
  | ok sr =>
    obtain ⟨s, r⟩ := sr
    rw [hs] at hf hc
    obtain ⟨⟨hst, -, -⟩, -⟩ := hf
    obtain ⟨hr, -, hupd, hocc, hval⟩ := hc
    simp only at hr hupd hocc hval
    subst hr
    have hchunk : s.e.m_chunk = e.GetChunk.m_chunk := congrArg (·.m_chunk) hst
    have hu : s.e.m_updates = e.m_updates :=
      (congrArg (·.m_updates) hst).trans (GetChunk_m_updates e)
    have hupd0 : s.updates = 0 := hupd
    have hocc0 : s.occurence = 0 := hocc
    simp only
    refine ⟨by rw [hupd0, hocc0], ?_, ?_, hval⟩
    · unfold updateCache
      simp only [hupd0]
      split <;> simp [hchunk]
    · unfold updateCache
      simp only [hupd0]
      split <;> simp [hu]
  | undefined => trivial
  | outOfFuel => rw [hs] at hf; exact hf

theorem eol_finishLine (depth : Int) (keyword : CStr) (k : Int) (s : Scan) (alter : Bool)
    (toks : List CStr) (curLine : CStr) :
    finishLine (getEolParams depth keyword k) s alter toks curLine = s := by
  cases s
  simp [finishLine, getEolParams]

theorem eol_onLine (lp : LineParser) (depth : Int) (keyword : CStr) (k : Int)
    (s : Scan) (ev : LineEvent) (c1 : Cursor) (v : CStr) (hd : 0 < depth)
    (hw : walkStep lp s.cursor = .line ev c1) (hsub : s.subChunkKeyword = none)
    (hv : s.value = some v) :
    s.onLine lp (getEolParams depth keyword k) ev c1 = .undefined ∨
    s.onLine lp (getEolParams depth keyword k) ev c1 = .next
      (if ev.Matches depth keyword ('<' :: keyword) then
        if k = s.occurence ∨ k = -1 then
          { s.withCursor c1 with
            value := some (v ++ (truncLine ev.line ++ ['\n'])),
            subChunkKeyword := some ((c1.parents.getLast?.map Prod.fst).getD 0),
            occurence := s.occurence + 1 }
        else { s.withCursor c1 with occurence := s.occurence + 1 }
      else s.withCursor c1) := by
  unfold Scan.onLine
  have hat : s.atLine (getEolParams depth keyword k) ev c1 = s.withCursor c1 := by
    cases s; rfl
  rw [hat]
  cases ht : ev.toks with
  | none =>
    right
    have : ¬ ev.Matches depth keyword ('<' :: keyword) := by simp [LineEvent.Matches, ht]
    simp only [this, if_false]
  | some toks =>
    simp only
    have hmode : (getEolParams depth keyword k).mode ≥ 0 := by
      show SNM_GET_SUBCHUNK_OR_LINE_EOL ≥ 0
      decide
    have hdc := dispatch_cases lp (getEolParams depth keyword k)
      (s.withCursor c1) false toks
      (truncLine ev.line) (ev.line ++ '\n' :: ev.after) ev.linePos
      ((ev.linePos + ev.line.length + 1 : Nat) : Int) keyword ('<' :: keyword) rfl rfl rfl
      hmode hd
    have hiff := matches_iff hw ht depth keyword ('<' :: keyword)
    have hpar : (s.withCursor c1).parents = c1.parents := rfl
    have hdep : (getEolParams depth keyword k).depth = depth := rfl
    rw [hpar, hdep, hiff] at hdc
    obtain ⟨hnil, hnon, hmat⟩ := hdc
    have hsub1 : (s.withCursor c1).subChunkKeyword = none := hsub
    by_cases hm : ev.Matches depth keyword ('<' :: keyword)
    · right
      rw [hmat hm]
      have hocc : (s.withCursor c1).occurence = s.occurence := rfl
      have hkk : (getEolParams depth keyword k).occurence = k := rfl
      rw [hocc, hkk]
      simp only [hm, if_true]
      by_cases hk : k = s.occurence ∨ k = -1
      · simp only [hk, if_true]
        cases s
        simp only at hv
        simp [matchingOccurence, incOccurence, finishLine, getEolParams,
          Scan.withCursor, hv, currentParentId]
      · simp only [hk, if_false]
        cases s
        simp [otherOccurence, incOccurence, finishLine, getEolParams, Scan.withCursor]
    · simp only [hm, if_false]
      by_cases hpn : c1.parents = []
      · right
        rw [hnil hpn]
        simp only [eol_finishLine]
      · rcases hnon hpn hm with h | h
        · left; rw [h]
        · right
          rw [h]
          simp only [nonStrictFlow, hsub1, eol_finishLine]
          rfl

theorem eol_skipState (depth : Int) (keyword : CStr) (k : Int) (s : Scan)
    (e1 : SNM_ChunkParserPatcher) (k1 : Option Nat) (id : Nat) (v : CStr)
    (hsub : s.subChunkKeyword = some id) (hv : s.value = some v) :
    skipState (getEolParams depth keyword k) s e1 k1 =
      { s with e := e1, value := some (v ++ s.rest.take (k1.getD 0)) } := by
  cases k1 with
  | none =>
    cases s
    simp only at hv
    simp [skipState, hv]
  | some n =>
    cases s
    simp only at hv hsub
    simp [skipState, copySkipped, getEolParams, hsub, hv]

theorem eol_inside (lp : LineParser) (depth : Int) (keyword : CStr) (k : Int)
    (s : Scan) (ev : LineEvent) (c1 : Cursor) (id : Nat) (v : CStr) (hd : 0 < depth)
    (hb : s.e.m_breakParsePatch = false) (hw : walkStep lp s.cursor = .line ev c1)
    (hsub : s.subChunkKeyword = some id) (hlen : depth ≤ (s.parents.length : Int))
    (hid : (s.parents.get? (depth - 1).toNat).map Prod.fst = some id)
    (hv : s.value = some v) :
    ((c1.parents.length : Int) < depth →
      ∃ s2, iteration lp (getEolParams depth keyword k) s =
          .ret s2 ((ev.linePos + ev.line.length + 1 : Nat) : Int) ∧
        s2.value = some (v ++ (ev.skipped ++ ">\n".toList)) ∧
        s2.e.m_breakParsePatch = false ∧ (s2.e = s.e ∨ s2.e = s.e.GetChunkType.1)) ∧
    (depth ≤ (c1.parents.length : Int) →
      (iteration lp (getEolParams depth keyword k) s = .undefined ∨
       iteration lp (getEolParams depth keyword k) s = .next
        { s.withCursor c1 with value := some (v ++ (ev.skipped ++ ev.fetched)) }) ∧
      (c1.parents.get? (depth - 1).toNat).map Prod.fst = some id) := by
  obtain ⟨e1, k1, hit, hsk, hpos, hparse, hc1, hb1, heng, hdrop⟩ :=
    iteration_line lp (getEolParams depth keyword k) s ev c1 hb hw
  rw [hit, eol_skipState depth keyword k s e1 k1 id v hsub hv, ← hsk]
  have hmode : (getEolParams depth keyword k).mode ≥ 0 := by
    show SNM_GET_SUBCHUNK_OR_LINE_EOL ≥ 0
    decide
  unfold processLine
  simp only [hparse]
  cases ht : ev.toks with
  | none =>
    rw [ht] at hc1
    simp only at hc1
    subst hc1
    have hge : depth ≤ (((s.cursor.behind e1 ev).parents.length : Nat) : Int) := hlen
    refine ⟨fun h => absurd h (by omega), fun _ => ⟨Or.inr ?_, hid⟩⟩
    cases s
    simp [Scan.withCursor, Cursor.behind, Scan.cursor, hpos, LineEvent.fetched, ht]
  | some toks =>
    rw [ht] at hc1
    simp only at hc1
    simp only
    obtain ⟨s0, hs0⟩ : ∃ s0 : Scan, s0 =
      { ({ s with e := e1, value := some (v ++ ev.skipped) } : Scan) with
        rest := ev.after, pos := s.pos + k1.getD 0 + ev.line.length + 1 } := ⟨_, rfl⟩
    have hs0c : s0.cursor = s.cursor.behind e1 ev := by
      rw [hs0]
      simp [Scan.cursor, Cursor.behind, hpos]
    have hc1a : applyParents s0.cursor toks ev.line.length = c1 := by rw [hs0c, hc1]
    have hs0p : s0.parents = s.parents := by rw [hs0]
    have hs0s : s0.subChunkKeyword = some id := by rw [hs0]; exact hsub
    have hs0w : s0.withCursor c1 =
        { s.withCursor c1 with value := some (v ++ ev.skipped) } := by
      rw [hs0]; cases s; rfl
    rw [← hs0]
    have hshape := applyParents_shape s0.cursor toks ev.line.length
    rw [hc1a] at hshape
    have hcp : s0.cursor.parents = s.parents := hs0p
    rw [hcp] at hshape
    by_cases hcl : closesSub (getEolParams depth keyword k) s0 toks
    · -- the line closes the sub-chunk
      obtain ⟨hgt, -, hdl, -⟩ := hcl
      have hdl2 : depth = (s.parents.length : Int) := by rw [← hs0p]; exact hdl
      have hpar : c1.parents = s.parents.dropLast := by
        rcases hshape with ⟨name, hh, -⟩ | ⟨-, hp⟩ | ⟨-, hh, -⟩
        · rw [hh] at hgt; simp at hgt
        · exact hp
        · exact absurd hgt hh
      have hlt : (c1.parents.length : Int) < depth := by
        rw [hpar, List.length_dropLast]; omega
      refine ⟨fun _ => ?_, fun h => absurd hlt (by omega)⟩
      rw [updateParents_close _ _ _ _ _ ⟨hgt, by rw [hs0s]; rfl, hdl, by
        show s0.subChunkKeyword = (s0.parents.get? (depth - 1).toNat).map Prod.fst
        rw [hs0s, hs0p, hid]⟩]
      have hmr : (getEolParams depth keyword k).mode = SNM_GET_SUBCHUNK_OR_LINE_EOL := rfl
      have hmn : ¬ (SNM_GET_SUBCHUNK_OR_LINE_EOL = SNM_REPLACE_SUBCHUNK_OR_LINE) := by decide
      have hmg : ¬ (SNM_GET_SUBCHUNK_OR_LINE_EOL = SNM_GET_SUBCHUNK_OR_LINE) := by decide
      simp only [hmr, hmn, hmg, if_false, or_true, if_true]
      refine ⟨{ s0 with
        subChunkKeyword := none,
        value := s0.value.map (· ++ ">\n".toList) }, ?_, ?_, ?_, ?_⟩
      · rw [hpos]
      · rw [hs0]
        simp
      · rw [hs0]
        exact hb1
      · rw [hs0]
        exact heng
    · -- any other line of the sub-chunk
      rw [updateParents_open _ _ _ _ _ hcl, hc1a]
      have hfacts : depth ≤ (c1.parents.length : Int) ∧
          (c1.parents.get? (depth - 1).toNat).map Prod.fst = some id ∧
          ¬ (toks.head? = some ('<' :: keyword) ∧ (c1.parents.length : Int) = depth ∧
            c1.parents.getLast?.map Prod.snd = some keyword) := by
        rcases hshape with ⟨name, hh, hp⟩ | ⟨hgt, hp⟩ | ⟨hlt1, hgt1, hp⟩
        · obtain ⟨h1, h2, h3⟩ := parents_push_inv s.parents (s0.cursor.allocs, name) depth hd hlen
          rw [hp]
          exact ⟨h2, by rw [h3]; exact hid, fun hM => h1 hM.2.1⟩
        · have hlt2 : depth < (s.parents.length : Int) := by
            rcases lt_or_ge depth (s.parents.length : Int) with h | h
            · exact h
            · exfalso
              apply hcl
              exact ⟨hgt, by rw [hs0s]; rfl, by
                show depth = (s0.parents.length : Int)
                rw [hs0p]; omega, by
                show s0.subChunkKeyword = (s0.parents.get? (depth - 1).toNat).map Prod.fst
                rw [hs0s, hs0p, hid]⟩
          obtain ⟨h2, h3⟩ := parents_pop_inv s.parents depth hd hlt2
          rw [hp]
          refine ⟨h2, by rw [h3]; exact hid, fun hM => ?_⟩
          rw [hM.1] at hgt
          simp at hgt
        · rw [hp]
          refine ⟨hlen, hid, fun hM => ?_⟩
          rw [hM.1] at hlt1
          simp at hlt1
      obtain ⟨hge, hidc, hnM⟩ := hfacts
      refine ⟨fun h => absurd h (by omega), fun _ => ⟨?_, hidc⟩⟩
      have hwp : (s0.withCursor c1).parents = c1.parents := rfl
      have hne : (s0.withCursor c1).parents ≠ [] := by
        rw [hwp]
        intro h
        rw [h] at hge
        simp at hge
        omega
      have hdc : ∀ (lineText : CStr) (linePos : Nat) (eolPos1 : Int),
          dispatch lp (getEolParams depth keyword k) (s0.withCursor c1) false toks
            (truncLine ev.line) lineText linePos eolPos1 = .undefined ∨
          dispatch lp (getEolParams depth keyword k) (s0.withCursor c1) false toks
            (truncLine ev.line) lineText linePos eolPos1 =
            nonStrictFlow (getEolParams depth keyword k) (s0.withCursor c1) false
              (truncLine ev.line) := by
        intro lineText linePos eolPos1
        exact (dispatch_cases lp (getEolParams depth keyword k) (s0.withCursor c1) false
          toks (truncLine ev.line) lineText linePos eolPos1
          keyword ('<' :: keyword) rfl rfl rfl hmode hd).2.1 hne (by rw [hwp]; exact hnM)
      dsimp only
      have hdc := hdc (List.drop (k1.getD 0) s.rest) (s.pos + k1.getD 0)
        ((s.pos + k1.getD 0 + ev.line.length + 1 : Nat) : Int)
      rcases hdc with h | h
      · left; rw [h]
      · right
        rw [h]
        have hsw : (s0.withCursor c1).subChunkKeyword = some id := hs0s
        simp only [nonStrictFlow, hsw, Option.isSome_some, if_true, eol_finishLine]
        rw [hs0w]
        cases s
        simp only at hsub
        simp [getEolParams, Scan.withCursor, hsub, LineEvent.fetched, ht]

theorem eol_scanLoop_inside (lp : LineParser) (depth : Int) (keyword : CStr) (k : Int)
    (hd : 0 < depth) (evj : LineEvent) (hj : (evj.parents.length : Int) < depth) :
    ∀ (fuel : Nat) (s : Scan) (v : CStr) (n : Nat),
      s.e.m_breakParsePatch = false → InsideSub depth s → s.value = some v →
      (walk lp fuel s.cursor)[n]? = some evj →
      (∀ m ev, m < n → (walk lp fuel s.cursor)[m]? = some ev →
        depth ≤ (ev.parents.length : Int)) →
      (scanLoop lp (getEolParams depth keyword k) fuel s).okThen (fun sr =>
        sr.2 = some ((evj.linePos + evj.line.length + 1 : Nat) : Int) ∧
        sr.1.value = some (v ++ innerText ((walk lp fuel s.cursor).take n) ++
          (evj.skipped ++ ">\n".toList)) ∧
        sr.1.e.m_breakParsePatch = false ∧ chunkTypeOf sr.1.e = chunkTypeOf s.e) := by
  intro fuel
  induction fuel with
  | zero => intro s v n _ _ _ _ _; trivial
  | succ fuel ih =>
    intro s v n hb hin hv hev hall
    cases hw : walkStep lp s.cursor with
    | stop => simp [walk, hw] at hev
    | undefined => simp [walk, hw] at hev
    | fuel => simp [walk, hw] at hev
    | line ev c1 =>
      have hb1 : c1.e.m_breakParsePatch = false := (walkStep_break hw).trans hb
      have hevp : ev.parents.length = c1.parents.length := by
        rw [(walkStep_line hw).2.2.2.2, List.length_map]
      simp only [walk, hw] at hev hall ⊢
      obtain ⟨id, hsub, hlen, hid⟩ := hin
      obtain ⟨hclose, hopen⟩ := eol_inside lp depth keyword k s ev c1 id v hd hb hw hsub hlen
        hid hv
      cases n with
      | zero =>
        simp only [List.getElem?_cons_zero, Option.some.injEq] at hev
        subst hev
        obtain ⟨s2, hit, hval, hbr, heng⟩ := hclose (by rw [← hevp]; exact hj)
        simp only [scanLoop, hit]
        refine (show (_ ∧ _ ∧ _ ∧ _) from ⟨rfl, ?_, hbr, ?_⟩)
        · rw [hval]
          simp [innerText]
        · rcases heng with h | h
          · rw [h]
          · rw [h]; exact chunkTypeOf_cached _
      | succ n =>
        simp only [List.getElem?_cons_succ] at hev
        have hge : depth ≤ (c1.parents.length : Int) := by
          rw [← hevp]
          exact hall 0 ev (by omega) (by simp)
        obtain ⟨hstep, hinv⟩ := hopen hge
        rcases hstep with ho | ho
        · simp only [scanLoop, ho]
          trivial
        · obtain ⟨s2, hs2⟩ : ∃ s2 : Scan, s2 = { s.withCursor c1 with
              value := some (v ++ (ev.skipped ++ ev.fetched)) } := ⟨_, rfl⟩
          have hit2 : iteration lp (getEolParams depth keyword k) s = .next s2 := by
            rw [hs2]; exact ho
          have f1 : s2.cursor = c1 := by rw [hs2]; cases s; rfl
          have f5 : s2.value = some (v ++ (ev.skipped ++ ev.fetched)) := by rw [hs2]
          have f6 : s2.e.m_breakParsePatch = false := by rw [hs2]; exact hb1
          have f7 : s2.subChunkKeyword = some id := by rw [hs2]; exact hsub
          have f8 : s2.parents = c1.parents := by rw [hs2]; rfl
          have f9 : s2.e = c1.e := by rw [hs2]; rfl
          rw [scanLoop_next fuel hit2]
          refine okThen_imp (ih s2 (v ++ (ev.skipped ++ ev.fetched)) n f6
            ⟨id, f7, by rw [f8]; exact hge, by rw [f8]; exact hinv⟩ f5
            (by rw [f1]; exact hev)
            (fun m ev' hm' h' => hall (m + 1) ev' (by omega) (by
              rw [f1] at h'
              simpa using h'))) ?_
          intro sr h
          rw [f1, f9] at h
          refine ⟨h.1, ?_, h.2.2.1, ?_⟩
          · rw [h.2.1]
            simp [innerText, List.append_assoc]
          · rw [h.2.2.2]
            have : chunkTypeOf c1.e = chunkTypeOf s.cursor.e := walkStep_chunkType hw
            exact this

theorem eol_scanLoop (lp : LineParser) (depth : Int) (keyword : CStr) (k : Nat)
    (hd : 0 < depth) (evi evj : LineEvent)
    (hm : evi.Matches depth keyword ('<' :: keyword))
    (hj : (evj.parents.length : Int) < depth) :
    ∀ (fuel : Nat) (s : Scan) (v : CStr) (i n : Nat),
      s.e.m_breakParsePatch = false → s.subChunkKeyword = none → s.value = some v →
      (walk lp fuel s.cursor)[i]? = some evi →
      s.occurence + ((walk lp fuel s.cursor).take i).countP
        (fun ev => decide (ev.Matches depth keyword ('<' :: keyword))) = k →
      ((walk lp fuel s.cursor).drop (i + 1))[n]? = some evj →
      (∀ m ev, m < n → ((walk lp fuel s.cursor).drop (i + 1))[m]? = some ev →
        depth ≤ (ev.parents.length : Int)) →
      (scanLoop lp (getEolParams depth keyword k) fuel s).okThen (fun sr =>
        sr.2 = some ((evj.linePos + evj.line.length + 1 : Nat) : Int) ∧
        sr.1.value = some (v ++ (truncLine evi.line ++ ['\n']) ++
          innerText (((walk lp fuel s.cursor).drop (i + 1)).take n) ++
          (evj.skipped ++ ">\n".toList)) ∧
        sr.1.e.m_breakParsePatch = false ∧ chunkTypeOf sr.1.e = chunkTypeOf s.e) := by
  intro fuel
  induction fuel with
  | zero => intro s v i n _ _ _ _ _ _ _; trivial
  | succ fuel ih =>
    intro s v i n hb hsub hv hev hcnt hevj hall
    have hit := iteration_normal lp (getEolParams depth keyword k) s hb hsub
    cases hw : walkStep lp s.cursor with
    | stop => simp [walk, hw] at hev
    | undefined => simp [walk, hw] at hev
    | fuel => simp [walk, hw] at hev
    | line ev c1 =>
      have hb1 : c1.e.m_breakParsePatch = false := (walkStep_break hw).trans hb
      have hevp : ev.parents.length = c1.parents.length := by
        rw [(walkStep_line hw).2.2.2.2, List.length_map]
      have hct : chunkTypeOf c1.e = chunkTypeOf s.e := walkStep_chunkType hw
      rw [hw] at hit
      simp only at hit
      simp only [walk, hw] at hev hcnt hevj hall ⊢
      rcases eol_onLine lp depth keyword k s ev c1 v hd hw hsub hv with ho | ho
      · rw [ho] at hit
        simp only [scanLoop, hit]
        trivial
      · rw [ho] at hit
        cases i with
        | zero =>
          simp only [List.getElem?_cons_zero, Option.some.injEq] at hev
          subst hev
          simp only [List.take_zero, List.countP_nil, Nat.add_zero] at hcnt
          have hk : (k : Int) = (s.occurence : Int) ∨ (k : Int) = -1 := by
            left; rw [hcnt]
          simp only [hm, hk, if_true] at hit
          simp only [Nat.zero_add, List.drop_succ_cons, List.drop_zero] at hevj hall ⊢
          obtain ⟨s2, hs2⟩ : ∃ s2 : Scan, s2 = { s.withCursor c1 with
              value := some (v ++ (truncLine ev.line ++ ['\n'])),
              subChunkKeyword := some ((c1.parents.getLast?.map Prod.fst).getD 0),
              occurence := s.occurence + 1 } := ⟨_, rfl⟩
          have hit2 : iteration lp (getEolParams depth keyword k) s = .next s2 := by
            rw [hs2]; exact hit
          have f1 : s2.cursor = c1 := by rw [hs2]; cases s; rfl
          have f5 : s2.value = some (v ++ (truncLine ev.line ++ ['\n'])) := by rw [hs2]
          have f6 : s2.e.m_breakParsePatch = false := by rw [hs2]; exact hb1
          have f7 : s2.subChunkKeyword =
              some ((c1.parents.getLast?.map Prod.fst).getD 0) := by rw [hs2]
          have f8 : s2.parents = c1.parents := by rw [hs2]; rfl
          have f9 : s2.e = c1.e := by rw [hs2]; rfl
          have hlen : (c1.parents.length : Int) = depth := by
            rw [← hevp]; exact hm.2.1
          rw [scanLoop_next fuel hit2]
          refine okThen_imp (eol_scanLoop_inside lp depth keyword k hd evj hj fuel s2
            (v ++ (truncLine ev.line ++ ['\n'])) n f6
            ⟨_, f7, by rw [f8]; omega, by
              rw [f8]; exact opened_insideSub depth c1.parents hd hlen⟩ f5
            (by rw [f1]; exact hevj)
            (fun m ev' hm' h' => hall m ev' hm' (by rw [f1] at h'; exact h'))) ?_
          intro sr h
          rw [f1, f9] at h
          refine ⟨h.1, ?_, h.2.2.1, by rw [h.2.2.2]; exact hct⟩
          rw [h.2.1]
        | succ i =>
          simp only [List.getElem?_cons_succ] at hev
          simp only [List.take_succ_cons, List.countP_cons, decide_eq_true_eq] at hcnt
          simp only [List.drop_succ_cons] at hevj hall ⊢
          obtain ⟨s2, hs2⟩ : ∃ s2 : Scan, s2 = { s.withCursor c1 with
              occurence := s.occurence +
                (if ev.Matches depth keyword ('<' :: keyword) then 1 else 0) } := ⟨_, rfl⟩
          have hit2 : iteration lp (getEolParams depth keyword k) s = .next s2 := by
            rw [hs2, hit]
            by_cases hm0 : ev.Matches depth keyword ('<' :: keyword)
            · have hk : ¬ ((k : Int) = (s.occurence : Int) ∨ (k : Int) = -1) := by
                simp only [hm0, if_true] at hcnt
                omega
              simp only [hm0, hk, if_true, if_false]
            · simp only [hm0, if_false, Nat.add_zero]
              cases s; rfl
          have f1 : s2.cursor = c1 := by rw [hs2]; cases s; rfl
          have f3 : s2.occurence = s.occurence +
              (if ev.Matches depth keyword ('<' :: keyword) then 1 else 0) := by rw [hs2]
          have f5 : s2.value = some v := by rw [hs2]; exact hv
          have f6 : s2.e.m_breakParsePatch = false := by rw [hs2]; exact hb1
          have f7 : s2.subChunkKeyword = none := by rw [hs2]; exact hsub
          have f9 : s2.e = c1.e := by rw [hs2]; rfl
          rw [scanLoop_next fuel hit2]
          refine okThen_imp (ih s2 v i n f6 f7 f5 (by rw [f1]; exact hev)
            (by rw [f1, f3]; omega) (by rw [f1]; exact hevj)
            (fun m ev' hm' h' => hall m ev' hm' (by rw [f1] at h'; exact h'))) ?_
          intro sr h
          rw [f1, f9] at h
          exact ⟨h.1, h.2.1, h.2.2.1, by rw [h.2.2.2]; exact hct⟩

theorem eol_core (lp : LineParser) (e : SNM_ChunkParserPatcher) (depth : Int)
    (keyword : CStr) (k : Nat) (i n : Nat) (evi evj : LineEvent)
    (hb : e.m_breakParsePatch = false) (hd : 0 < depth)
    (hev : (documentLines lp e)[i]? = some evi)
    (hm : evi.Matches depth keyword ('<' :: keyword))
    (hcnt : ((documentLines lp e).take i).countP
      (fun ev => decide (ev.Matches depth keyword ('<' :: keyword))) = k)
    (hevj : ((documentLines lp e).drop (i + 1))[n]? = some evj)
    (hj : (evj.parents.length : Int) < depth)
    (hall : ∀ m ev, m < n → ((documentLines lp e).drop (i + 1))[m]? = some ev →
      depth ≤ (ev.parents.length : Int)) :
    match e.ParsePatchCore lp (getEolParams depth keyword k) (some []) with
    | .ok r =>
      r.ret = ((evj.linePos + evj.line.length + 1 : Nat) : Int) ∧
      r.value = some (fetchedText evi (((documentLines lp e).drop (i + 1)).take n) evj) ∧
      r.engine.m_breakParsePatch = false ∧
      chunkTypeOf r.engine = chunkTypeOf e.GetChunk ∧
      stablePart r.engine = stablePart e.GetChunk
    | .undefined => True
    | .outOfFuel => False := by
  have hf := scanLoop_facts lp (getEolParams depth keyword k)
    (e.GetChunk.m_chunk.length + 1)
    (initScan e.GetChunk (getEolParams depth keyword k) (some []))
    (Nat.lt_succ_self _) (initScan_filled e _ _)
  have hc := eol_scanLoop lp depth keyword k hd evi evj hm hj
    (e.GetChunk.m_chunk.length + 1)
    (initScan e.GetChunk (getEolParams depth keyword k) (some []))
    [] i n ((GetChunk_break e).trans hb) rfl rfl hev (by
      have : (initScan e.GetChunk (getEolParams depth keyword k) (some [])).occurence = 0 :=
        rfl
      rw [this, Nat.zero_add]
      exact hcnt) hevj hall
  unfold ParsePatchCore
  simp only
  cases hs : scanLoop lp (getEolParams depth keyword k) (e.GetChunk.m_chunk.length + 1)
      (initScan e.GetChunk (getEolParams depth keyword k) (some [])) with
  | ok sr =>
    obtain ⟨s, r⟩ := sr
    rw [hs] at hf hc
    obtain ⟨⟨hst, -, -⟩, -⟩ := hf
    obtain ⟨hr, hval, hbr, hct⟩ := hc
    simp only at hr hval hbr hct
    subst hr
    simp only
    refine ⟨trivial, ?_, hbr, ?_, hst⟩
    · rw [hval]
      simp only [List.nil_append, fetchedText]
      rfl
    · rw [hct]
      exact chunkTypeOf_isParsingSource _ _
  | undefined => trivial
  | outOfFuel => rw [hs] at hf; exact hf

/-- C24 (counterexample): in `"<T\n<FX a\n>\n<FX b\nP 1\n>\n>\n"`, a fetch in the
end-of-line variant of the second element `FX` at depth 2 (keyword `<FX`) accumulates
the whole element `"<FX b\nP 1\n>\n"`, not only its opening line `"<FX b\n"`, and returns
23, the offset + 1 of the newline of the closing line, not 17, that of the opening
line. -/
theorem c24_counterexample :
    ∃ r, (newFromChunk (some twoFxDoc) true false false false).Parse wdlLineParser
        SNM_GET_SUBCHUNK_OR_LINE_EOL 2 (some "FX".toList) (some "<FX".toList) 1 (-1)
        (some []) none none = .ok r ∧
      r.value = some "<FX b\nP 1\n>\n".toList ∧ r.ret = 23 ∧
      (twoFxDoc.drop 11).take 6 = "<FX b\n".toList :=
  ⟨_, rfl, rfl, rfl, rfl⟩

theorem stack_refl (s : Scan) : SameStack s s := ⟨rfl, rfl⟩

theorem writeLine_stack (p : Params) (s : Scan) (alter : Bool) (v : Option CStr)
    (toks : List CStr) : FlowStack s (writeLine p s alter v toks) := by
  unfold writeLine
  split
  · trivial
  · exact ⟨rfl, rfl⟩

theorem setBreak_stack (p : Params) (s : Scan) (f : Flow) (h : FlowStack s f) :
    FlowStack s (setBreak p f) := by
  cases f with
  | cont s1 a => exact ⟨h.1, h.2⟩
  | ret s1 v => exact h
  | undefined => trivial

theorem incOccurence_stack (s : Scan) (f : Flow) (h : FlowStack s f) :
    FlowStack s (incOccurence f) := by
  cases f with
  | cont s1 a => exact ⟨h.1, h.2⟩
  | ret s1 v => exact h
  | undefined => trivial

theorem matchingOccurence_stack (lp : LineParser) (p : Params) (s : Scan) (alter : Bool)
    (toks : List CStr) (curLine lineText : CStr) (linePos : Nat) (eolPos1 : Int)
    (currentParent : Nat) (keyWord : CStr) :
    FlowStack s (matchingOccurence lp p s alter toks curLine lineText linePos eolPos1
      currentParent keyWord) := by
  unfold matchingOccurence
  split
  · exact ⟨rfl, rfl⟩
  split
  · exact setBreak_stack _ _ _ (writeLine_stack _ _ _ _ _)
  split
  · split
    · split
      · exact writeLine_stack _ _ _ _ _
      · exact stack_refl s
    · exact stack_refl s
  split
  · exact setBreak_stack _ _ _ (stack_refl s)
  split
  · exact setBreak_stack _ _ _ (writeLine_stack _ _ _ _ _)
  split
  · split
    · exact ⟨rfl, rfl⟩
    · trivial
  split
  · simp only
    split
    · exact ⟨rfl, rfl⟩
    · exact ⟨rfl, rfl⟩
  split
  · simp only
    split
    · exact ⟨rfl, rfl⟩
    · exact ⟨rfl, rfl⟩
  · exact stack_refl s

theorem otherOccurence_stack (lp : LineParser) (p : Params) (s : Scan) (alter : Bool)
    (toks : List CStr) : FlowStack s (otherOccurence lp p s alter toks) := by
  unfold otherOccurence
  split
  · split
    · trivial
    · split
      · exact writeLine_stack _ _ _ _ _
      · exact stack_refl s
  split
  · split
    · trivial
    · split
      · exact stack_refl s
      · exact stack_refl s
  split
  · exact writeLine_stack _ _ _ _ _
  · exact stack_refl s

theorem dispatch_stack (lp : LineParser) (p : Params) (s : Scan) (alter : Bool)
    (toks : List CStr) (curLine lineText : CStr) (linePos : Nat) (eolPos1 : Int) :
    FlowStack s (dispatch lp p s alter toks curLine lineText linePos eolPos1) := by
  unfold dispatch
  split
  · exact stack_refl s
  · split
    · trivial
    · split
      · exact ⟨rfl, rfl⟩
      split
      · split
        · exact incOccurence_stack _ _ (matchingOccurence_stack _ _ _ _ _ _ _ _ _ _ _)
        · exact incOccurence_stack _ _ (otherOccurence_stack _ _ _ _ _)
      split
      · split
        · trivial
        · split
          · exact ⟨rfl, rfl⟩
          · exact stack_refl s
      split
      · exact ⟨rfl, rfl⟩
      · exact stack_refl s

theorem sourceInv_of_stack {s s1 : Scan} (h : SameStack s s1) (hs : SourceInv s) :
    SourceInv s1 := by
  intro hf
  rw [h.2] at hf
  rw [h.1]
  exact hs hf

theorem getParent_source {parents : List (Nat × CStr)}
    (h : GetParent parents ≠ "SOURCE".toList)
    (hq : ∃ q ∈ parents, q.2 = "SOURCE".toList) :
    ∃ q ∈ parents.dropLast, q.2 = "SOURCE".toList := by
  obtain ⟨q, hq1, hq2⟩ := hq
  rcases List.eq_nil_or_concat parents with hnil | ⟨l, a, hl⟩
  · rw [hnil] at hq1
    cases hq1
  · subst hl
    rw [List.concat_eq_append] at h hq1 ⊢
    rw [List.dropLast_concat]
    simp only [List.mem_append, List.mem_singleton] at hq1
    rcases hq1 with h1 | h1
    · exact ⟨q, h1, hq2⟩
    · exfalso
      apply h
      subst h1
      simp [GetParent]
      exact hq2

theorem closeElement_source (s s1 : Scan) (alter : Bool) (h : SameStack s s1)
    (hs : SourceInv s) : FlowSource (closeElement s1 alter) := by
  have hs1 : SourceInv s1 := sourceInv_of_stack h hs
  unfold closeElement
  intro hf
  simp only at hf ⊢
  by_cases hsrc : s1.e.m_isParsingSource = true
  · simp only [hsrc, if_true, decide_eq_true_eq] at hf
    exact getParent_source hf (hs1 hsrc)
  · simp [hsrc] at hf

theorem updateParents_source (p : Params) (s : Scan) (toks : List CStr) (curLineLen : Nat)
    (eolPos1 : Int) (hs : SourceInv s) :
    FlowSource (updateParents p s toks curLineLen eolPos1) := by
  unfold updateParents
  split
  · exact hs
  · split
    · rename_i name
      intro hf
      simp only [Bool.or_eq_true, decide_eq_true_eq] at hf
      simp only [List.mem_append, List.mem_singleton]
      rcases hf with hf | hf
      · obtain ⟨q, hq1, hq2⟩ := hs hf
        exact ⟨q, Or.inl hq1, hq2⟩
      · exact ⟨_, Or.inr rfl, hf.2.2⟩
    · split
      · simp only
        split
        · exact closeElement_source s _ true ⟨rfl, rfl⟩ hs
        · split
          · exact hs
          · exact closeElement_source s _ false ⟨rfl, rfl⟩ hs
      · exact closeElement_source s _ false ⟨rfl, rfl⟩ hs
    · exact hs

theorem processLine_source (lp : LineParser) (p : Params) (s : Scan) (off : Nat)
    (line after : CStr) (hs : SourceInv s) :
    StepSource (processLine lp p s off line after) := by
  unfold processLine
  simp only
  split
  · exact hs
  · rename_i toks hp
    have h0 : SourceInv { s with rest := after, pos := s.pos + off + line.length + 1 } := hs
    have hu := updateParents_source p
      { s with rest := after, pos := s.pos + off + line.length + 1 } toks line.length
      ((s.pos + off + line.length + 1 : Nat) : Int) h0
    split
    · rename_i s1 v hup
      rw [hup] at hu
      exact hu
    · trivial
    · rename_i s1 alter1 hup
      rw [hup] at hu
      have hd := dispatch_stack lp p s1 alter1 toks (truncLine line) (s.rest.drop off)
        (s.pos + off) ((s.pos + off + line.length + 1 : Nat) : Int)
      split
      · rename_i s2 v hdp
        rw [hdp] at hd
        exact sourceInv_of_stack hd hu
      · trivial
      · rename_i s2 alter2 hdp
        rw [hdp] at hd
        have h2 : SourceInv s2 := sourceInv_of_stack hd hu
        exact h2

theorem GetChunk_source (e : SNM_ChunkParserPatcher) :
    e.GetChunk.m_isParsingSource = e.m_isParsingSource := by
  unfold GetChunk
  split
  · split
    · split <;> rfl
    · split <;> rfl
  · rfl

theorem GetChunkType_source (e : SNM_ChunkParserPatcher) :
    e.GetChunkType.1.m_isParsingSource = e.m_isParsingSource := by
  unfold GetChunkType
  split
  · exact GetChunk_source e
  · rfl

theorem nextLine_source {s : Scan} {line after : CStr} {e1 : SNM_ChunkParserPatcher}
    {k : Option Nat} {line1 after1 : CStr}
    (h : nextLine s line after = .ok (e1, k, line1, after1)) (hs : SourceInv s) :
    SourceInv { s with e := e1 } := by
  have he : e1.m_isParsingSource = s.e.m_isParsingSource := by
    rcases nextLine_engine h with h1 | h1
    · rw [h1]
    · rw [h1]
      exact GetChunkType_source s.e
  intro hf
  exact hs (he ▸ hf)

theorem iteration_source (lp : LineParser) (p : Params) (s : Scan) (hs : SourceInv s) :
    StepSource (iteration lp p s) := by
  unfold iteration
  split
  · exact hs
  · rename_i line after hsp
    split
    · split
      · exact hs
      · exact hs
    · split
      · trivial
      · trivial
      · rename_i e1 line1 after1 hn
        exact processLine_source lp p _ 0 line1 after1 (nextLine_source hn hs)
      · rename_i e1 k line1 after1 hn
        have h1 : SourceInv { s with e := e1 } := nextLine_source hn hs
        have h2 : SourceInv (copySkipped p { s with e := e1 } k) := h1
        exact processLine_source lp p _ k line1 after1 h2

theorem scanState_source (lp : LineParser) (p : Params) :
    ∀ (n : Nat) (s s1 : Scan), SourceInv s → scanState lp p n s = some s1 → SourceInv s1 := by
  intro n
  induction n with
  | zero =>
    intro s s1 hs h
    simp only [scanState, Option.some.injEq] at h
    rw [← h]
    exact hs
  | succ n ih =>
    intro s s1 hs h
    have hit := iteration_source lp p s hs
    simp only [scanState] at h
    split at h
    · rename_i s2 hi
      rw [hi] at hit
      exact ih s2 s1 hit h
    · cases h

theorem eventRule_detectSkip (s : Scan) (line : CStr) (h : eventRuleApplies s line) :
    detectSkip s line = .ok (s.e, strstr s.rest "GUID \x7b".toList) := by
  unfold detectSkip
  simp only
  rw [if_neg h.1, if_pos ⟨h.2.1, h.2.2.1, h.2.2.2⟩]

/-- C25: in every scan, of every Document and in every mode, at the start of each
iteration of the loop the is-parsing-source flag is set only if an open element on the
stack is named `SOURCE`. The embedded-event rule (the line begins with `E ` or `Em `,
in-project MIDI processing is disabled, the flag is set; it then skips up to the next
`GUID` marker) therefore applies to a line only when an element named `SOURCE` is
open. -/
theorem c25_source_flag (lp : LineParser) (e : SNM_ChunkParserPatcher) (p : Params)
    (value : Option CStr) (n : Nat) (s : Scan)
    (h : scanState lp p n (initScan e.GetChunk p value) = some s) :
    (s.e.m_isParsingSource = true → ∃ q ∈ s.parents, q.2 = "SOURCE".toList) ∧
    (∀ line, eventRuleApplies s line →
      detectSkip s line = .ok (s.e, strstr s.rest "GUID \x7b".toList) ∧
      ∃ q ∈ s.parents, q.2 = "SOURCE".toList) ∧
    ((∀ q ∈ s.parents, q.2 ≠ "SOURCE".toList) → ∀ line, ¬ eventRuleApplies s line) := by
  have h0 : SourceInv (initScan e.GetChunk p value) := by
    intro hf
    simp [initScan] at hf
  have hs : SourceInv s := scanState_source lp p n _ s h0 h
  refine ⟨hs, ?_, ?_⟩
  · intro line hl
    exact ⟨eventRule_detectSkip s line hl, hs hl.2.2.1⟩
  · intro hno line hl
    obtain ⟨q, hq1, hq2⟩ := hs hl.2.2.1
    exact hno q hq1 hq2

/-- C25 (witness): after the first line of `"<SOURCE MIDI\nE 1\n>\n"` the flag is set
and the element `SOURCE` is open. -/
theorem c25_source_flag_witness :
    ∃ s, scanState wdlLineParser (countParams 1 "A".toList "K".toList (-1) none) 1
        (initScan (newFromChunk (some "<SOURCE MIDI\nE 1\n>\n".toList) true false false
          false).GetChunk (countParams 1 "A".toList "K".toList (-1) none) none) = some s ∧
      s.e.m_isParsingSource = true ∧ ∃ q ∈ s.parents, q.2 = "SOURCE".toList := by
  obtain ⟨s, hs, hf⟩ : ∃ s, scanState wdlLineParser
      (countParams 1 "A".toList "K".toList (-1) none) 1
      (initScan (newFromChunk (some "<SOURCE MIDI\nE 1\n>\n".toList) true false false
        false).GetChunk (countParams 1 "A".toList "K".toList (-1) none) none) = some s ∧
      s.e.m_isParsingSource = true := ⟨_, rfl, rfl⟩
  exact ⟨s, hs, hf, (c25_source_flag wdlLineParser _ _ none 1 s hs).1 hf⟩

theorem linesGo_split : ∀ (s acc : CStr),
    linesGo s acc =
      match splitLine s with
      | none => []
      | some (l, r) => (acc.reverse ++ l) :: linesGo r []
  | [], acc => by simp [linesGo, splitLine]
  | c :: cs, acc => by
    by_cases h : c = '\n'
    · simp [linesGo, splitLine, h]
    · have ih := linesGo_split cs (c :: acc)
      simp only [linesGo, splitLine, h, if_false]
      rw [ih]
      cases splitLine cs with
      | none => rfl
      | some lr => simp

theorem linesOf_split {s l r : CStr} (h : splitLine s = some (l, r)) :
    linesOf s = l :: linesOf r := by
  unfold linesOf
  rw [linesGo_split, h]
  simp

theorem linesOf_none {s : CStr} (h : splitLine s = none) : linesOf s = [] := by
  unfold linesOf
  rw [linesGo_split, h]

theorem stackStep_length (stack : List CStr) (t : Option (List CStr)) :
    (specStackStep stack t).length + (if closesElement t = true ∧ stack ≠ [] then 1 else 0) =
      stack.length + (if opensElement t = true then 1 else 0) := by
  unfold specStackStep
  split
  · simp [opensElement, closesElement]
  · cases stack with
    | nil => simp [opensElement, closesElement]
    | cons a l => simp [opensElement, closesElement]
  · rename_i h1 h2
    have ho : opensElement t = false := by
      unfold opensElement
      split
      · rename_i name tl
        exact absurd rfl (h1 name tl)
      · rfl
    have hc : closesElement t = false := by
      unfold closesElement
      split
      · rename_i name tl
        exact absurd rfl (h2 name tl)
      · rfl
    simp [ho, hc]

theorem closes_not_opens {t : Option (List CStr)} (h : closesElement t = true) :
    opensElement t = false := by
  unfold closesElement at h
  split at h
  · rfl
  · cases h

theorem openElements_snoc (ts : List (Option (List CStr))) (t : Option (List CStr)) :
    specOpenElements (ts ++ [t]) = specStackStep (specOpenElements ts) t := by
  simp [specOpenElements, List.foldl_append]

/-- In a run of lines of which no prefix closes more than it opens, the length of the
stack is the number of lines that open minus the number of lines that close. -/
theorem openElements_depth (ts : List (Option (List CStr)))
    (h : ∀ n, (ts.take n).countP closesElement ≤ (ts.take n).countP opensElement) :
    ∀ n, (specOpenElements (ts.take n)).length + (ts.take n).countP closesElement =
      (ts.take n).countP opensElement := by
  intro n
  induction n with
  | zero => simp [specOpenElements]
  | succ n ih =>
    rcases Nat.lt_or_ge n ts.length with hlt | hge
    · obtain ⟨t, htk⟩ : ∃ t, ts.take (n + 1) = ts.take n ++ [t] := by
        refine ⟨ts.get ⟨n, hlt⟩, ?_⟩
        rw [List.take_succ, List.getElem?_eq_getElem hlt]
        rfl
      have hn1 := h (n + 1)
      rw [htk] at hn1 ⊢
      rw [openElements_snoc]
      rw [List.countP_append] at hn1 ⊢
      rw [List.countP_append] at hn1 ⊢
      have hl := stackStep_length (specOpenElements (ts.take n)) t
      by_cases hc : closesElement t = true
      · have ho := closes_not_opens hc
        have hcc : List.countP closesElement [t] = 1 := by simp [hc]
        have hoo : List.countP opensElement [t] = 0 := by simp [ho]
        rw [hcc, hoo] at hn1 ⊢
        have hne : specOpenElements (ts.take n) ≠ [] := by
          intro he
          rw [he] at ih
          simp only [List.length_nil, Nat.zero_add] at ih
          omega
        rw [if_pos ⟨hc, hne⟩, if_neg (by rw [ho]; decide)] at hl
        omega
      · have hcc : List.countP closesElement [t] = 0 := by simp [hc]
        rw [hcc] at hn1 ⊢
        rw [if_neg (fun hh => hc hh.1)] at hl
        by_cases ho : opensElement t = true
        · have hoo : List.countP opensElement [t] = 1 := by simp [ho]
          rw [hoo] at hn1 ⊢
          rw [if_pos ho] at hl
          omega
        · have hoo : List.countP opensElement [t] = 0 := by simp [ho]
          rw [hoo] at hn1 ⊢
          rw [if_neg ho] at hl
          omega
    · have h1 : ts.take (n + 1) = ts := List.take_of_length_le (by omega)
      have h2 : ts.take n = ts := List.take_of_length_le hge
      rw [h1]
      rw [h2] at ih
      exact ih

theorem wellFormed_empty {ts : List (Option (List CStr))} (h : SpecWellFormed ts) :
    specOpenElements ts = [] := by
  have h1 := openElements_depth ts h.1 ts.length
  rw [List.take_length] at h1
  have h2 := h.2
  apply List.eq_nil_of_length_eq_zero
  omega

theorem closeElement_stack {s0 s1 : Scan} {a b : Bool}
    (hc : closeElement s0 b = .cont s1 a) :
    s1.parents.map Prod.snd = (s0.parents.map Prod.snd).dropLast := by
  unfold closeElement at hc
  simp only [Flow.cont.injEq] at hc
  rw [← hc.1]
  simp only [List.map_dropLast]

theorem updateParents_stack (p : Params) (s s1 : Scan) (toks : List CStr) (curLineLen : Nat)
    (eolPos1 : Int) (a : Bool) (h : updateParents p s toks curLineLen eolPos1 = .cont s1 a) :
    s1.parents.map Prod.snd = specStackStep (s.parents.map Prod.snd) (some toks) := by
  match toks, h with
  | [], h =>
    simp only [updateParents, Flow.cont.injEq] at h
    rw [← h.1]
    rfl
  | [] :: tail, h =>
    simp only [updateParents, Flow.cont.injEq] at h
    rw [← h.1]
    rfl
  | (ch :: name) :: tail, h =>
    by_cases h1 : ch = '<'
    · subst h1
      simp only [updateParents, Flow.cont.injEq] at h
      rw [← h.1]
      simp [specStackStep]
    · by_cases h2 : ch = '>'
      · subst h2
        have hgoal : specStackStep (s.parents.map Prod.snd) (some (('>' :: name) :: tail)) =
            (s.parents.map Prod.snd).dropLast := rfl
        rw [hgoal]
        simp only [updateParents] at h
        split at h
        · split at h
          · (have hce := closeElement_stack h; exact hce)
          · split at h
            · cases h
            · (have hce := closeElement_stack h; exact hce)
        · (have hce := closeElement_stack h; exact hce)
      · have hgoal : specStackStep (s.parents.map Prod.snd) (some ((ch :: name) :: tail)) =
            s.parents.map Prod.snd := by
          unfold specStackStep
          split
          · rename_i heq
            simp only [Option.some.injEq, List.cons.injEq] at heq
            exact absurd heq.1.1 h1
          · rename_i heq
            simp only [Option.some.injEq, List.cons.injEq] at heq
            exact absurd heq.1.1 h2
          · rfl
        rw [hgoal]
        unfold updateParents at h
        split at h
        · rename_i heq
          cases heq
        · split at h
          · rename_i heq
            simp only [List.cons.injEq] at heq
            exact absurd heq.1.1 h1
          · rename_i heq
            simp only [List.cons.injEq] at heq
            exact absurd heq.1.1 h2
          · simp only [Flow.cont.injEq] at h
            rw [← h.1]

theorem processLine_stk (lp : LineParser) (p : Params) (s s1 : Scan) (off : Nat)
    (line after : CStr) (h : processLine lp p s off line after = .next s1) :
    s1.rest = after ∧
    s1.parents.map Prod.snd =
      specStackStep (s.parents.map Prod.snd) (lp.parse (truncLine line)) ∧
    stablePart s1.e = stablePart s.e := by
  unfold processLine at h
  simp only at h
  split at h
  · rename_i hp
    simp only [Step.next.injEq] at h
    rw [← h, hp]
    exact ⟨rfl, rfl, rfl⟩
  · rename_i toks hp
    rw [hp]
    split at h
    · cases h
    · cases h
    · rename_i su alter1 hup
      have hk := updateParents_kept p
        { s with rest := after, pos := s.pos + off + line.length + 1 } toks line.length
        ((s.pos + off + line.length + 1 : Nat) : Int)
      rw [hup] at hk
      have hst := updateParents_stack p _ su toks line.length _ alter1 hup
      split at h
      · cases h
      · cases h
      · rename_i s2 alter2 hdp
        have hk2 := dispatch_kept lp p su alter1 toks (truncLine line) (s.rest.drop off)
          (s.pos + off) ((s.pos + off + line.length + 1 : Nat) : Int)
        have hs2 := dispatch_stack lp p su alter1 toks (truncLine line) (s.rest.drop off)
          (s.pos + off) ((s.pos + off + line.length + 1 : Nat) : Int)
        rw [hdp] at hk2 hs2
        simp only [Step.next.injEq] at h
        rw [← h]
        refine ⟨?_, ?_, ?_⟩
        · show s2.rest = after
          rw [hk2.1, hk.1]
        · show s2.parents.map Prod.snd = _
          rw [hs2.1, hst]
        · show stablePart s2.e = stablePart s.e
          rw [hk2.2.2.2.1, hk.2.2.2.1]

theorem processesAll_stable {e e1 : SNM_ChunkParserPatcher}
    (h : stablePart e1 = stablePart e) (ha : ProcessesAll e) : ProcessesAll e1 := by
  have h1 : e1.m_processBase64 = e.m_processBase64 := congrArg (·.m_processBase64) h
  have h2 : e1.m_processInProjectMIDI = e.m_processInProjectMIDI :=
    congrArg (·.m_processInProjectMIDI) h
  have h3 : e1.m_processFreeze = e.m_processFreeze := congrArg (·.m_processFreeze) h
  exact ⟨h1.trans ha.1, h2.trans ha.2.1, h3.trans ha.2.2⟩

theorem iteration_stk (lp : LineParser) (p : Params) (s s1 : Scan)
    (ha : ProcessesAll s.e) (h : iteration lp p s = .next s1) :
    ∃ line after, splitLine s.rest = some (line, after) ∧ s1.rest = after ∧
      s1.parents.map Prod.snd =
        specStackStep (s.parents.map Prod.snd) (lp.parse (truncLine line)) ∧
      ProcessesAll s1.e := by
  unfold iteration at h
  split at h
  · cases h
  · rename_i line after hsp
    split at h
    · cases h
    · have hd : detectSkip s line = .ok (s.e, none) := by
        simp [detectSkip, ha.1, ha.2.1, ha.2.2]
      have hn : nextLine s line after = .ok (s.e, none, line, after) := by
        unfold nextLine
        rw [hd]
      rw [hn] at h
      simp only at h
      obtain ⟨h1, h2, h3⟩ := processLine_stk lp p _ s1 0 line after h
      exact ⟨line, after, hsp, h1, h2, processesAll_stable h3 ha⟩

theorem scanState_stk (lp : LineParser) (p : Params) :
    ∀ (n : Nat) (s s1 : Scan), ProcessesAll s.e → scanState lp p n s = some s1 →
      n ≤ (linesOf s.rest).length ∧ s1.rest = dropLines n s.rest ∧
      s1.parents.map Prod.snd =
        (lineTokens lp ((linesOf s.rest).take n)).foldl specStackStep (s.parents.map Prod.snd) := by
  intro n
  induction n with
  | zero =>
    intro s s1 _ h
    simp only [scanState, Option.some.injEq] at h
    rw [← h]
    exact ⟨Nat.zero_le _, rfl, rfl⟩
  | succ n ih =>
    intro s s1 ha h
    simp only [scanState] at h
    split at h
    · rename_i s2 hi
      obtain ⟨line, after, hsp, hr, hpar, ha2⟩ := iteration_stk lp p s s2 ha hi
      obtain ⟨h1, h2, h3⟩ := ih s2 s1 ha2 h
      rw [hr] at h1 h2 h3
      rw [linesOf_split hsp]
      refine ⟨by simp only [List.length_cons]; omega, ?_, ?_⟩
      · rw [h2]
        simp only [dropLines, hsp]
      · rw [h3, hpar]
        simp only [List.take_succ_cons, lineTokens, List.map_cons, List.foldl_cons]
    · cases h

theorem GetChunk_processesAll (e : SNM_ChunkParserPatcher) (h : ProcessesAll e) :
    ProcessesAll e.GetChunk := by
  unfold GetChunk
  split
  · split
    · split <;> exact h
    · split <;> exact h
  · exact h

theorem lineTokens_take (lp : LineParser) (lines : List CStr) (n : Nat) :
    lineTokens lp (lines.take n) = (lineTokens lp lines).take n := by
  simp [lineTokens, List.map_take]

/-- C30 (failing input): on `"<A\nK 0\nK\n>\n"`, a set of token 1 of every line `K`
under `A` to `"1"` (occurence -1) reports one update and leaves
`"<A\nK 1\nK\nK\n>\n"`: the line `K`, which has no token 1, appears twice.
`WriteChunkLine` appends its tokens and returns false, and the line is then copied as
a line that was not altered. A toggle of token 1 does the same. -/
theorem c30_short_line_twice :
    (∃ r, (newFromChunk (some "<A\nK 0\nK\n>\n".toList) true false false false).ParsePatch
        wdlLineParser SNM_SET_CHUNK_CHAR 1 (some "A".toList) (some "K".toList) (-1) 1
        (some "1".toList) none none = .ok r ∧
      r.ret = 1 ∧ r.engine.m_chunk = "<A\nK 1\nK\nK\n>\n".toList) ∧
    (∃ r, (newFromChunk (some "<A\nK 0\nK\n>\n".toList) true false false false).ParsePatch
        wdlLineParser SNM_TOGGLE_CHUNK_INT 1 (some "A".toList) (some "K".toList) (-1) 1
        none none none = .ok r ∧
      r.ret = 1 ∧ r.engine.m_chunk = "<A\nK 1\nK\nK\n>\n".toList) :=
  ⟨⟨_, rfl, rfl, rfl⟩, ⟨_, rfl, rfl, rfl⟩⟩

/-! ## Reading one token of a line -/

theorem getTok_onLine_other (lp : LineParser) (depth : Int) (parent keyWord : CStr) (k : Nat)
    (tokenPos : Int) (s : Scan) (ev : LineEvent) (c1 : Cursor) (hd : 0 < depth)
    (hw : walkStep lp s.cursor = .line ev c1) (hsub : s.subChunkKeyword = none)
    (hnot : ev.Matches depth parent keyWord → s.occurence ≠ k)
    (hne : ev.toks ≠ some []) :
    s.onLine lp (getTokParams depth parent keyWord k tokenPos) ev c1 =
      .next { s.withCursor c1 with
        occurence := s.occurence + (if ev.Matches depth parent keyWord then 1 else 0) } := by
  have hc := onLine_cases lp (getTokParams depth parent keyWord k tokenPos) s ev c1
    parent keyWord rfl rfl rfl (by show SNM_GET_CHUNK_CHAR ≥ 0; decide) hd hw hsub
  have hat := atLine_read (getTokParams depth parent keyWord k tokenPos) s ev c1 rfl
  by_cases hm : ev.Matches depth parent keyWord
  · obtain ⟨t, ts, ht⟩ := matches_toks hm
    rw [hc.2 hm (t :: ts) ht]
    have hk2 : ¬ ((getTokParams depth parent keyWord k tokenPos).occurence =
        (s.occurence : Int) ∨
        (getTokParams depth parent keyWord k tokenPos).occurence = -1) := by
      show ¬ ((k : Int) = (s.occurence : Int) ∨ (k : Int) = -1)
      have := hnot hm
      omega
    rw [if_neg hk2]
    have ho : otherOccurence lp (getTokParams depth parent keyWord k tokenPos)
        (s.atLine (getTokParams depth parent keyWord k tokenPos) ev c1) false (t :: ts) =
        .cont (s.atLine (getTokParams depth parent keyWord k tokenPos) ev c1) false := by
      simp [otherOccurence, getTokParams]
    rw [ho]
    simp only [incOccurence, if_pos hm]
    rw [finishLine_read _ _ _ _ rfl, hat]
    cases s
    rfl
  · have hdef := onLine_defined lp (getTokParams depth parent keyWord k tokenPos) s
      ev c1 parent keyWord rfl rfl rfl (by show SNM_GET_CHUNK_CHAR ≥ 0; decide) hd hw hm hne
    rcases hc.1 hm with h | h
    · exact absurd h hdef
    · rw [h, finishLine_read _ _ _ _ rfl, hat]
      simp only [if_neg hm, Nat.add_zero]
      cases s
      rfl

theorem getTok_onLine_target (lp : LineParser) (depth : Int) (parent keyWord : CStr) (k : Nat)
    (tokenPos : Int) (s : Scan) (ev : LineEvent) (c1 : Cursor) (out : CStr)
    (toks : List CStr) (hd : 0 < depth)
    (hw : walkStep lp s.cursor = .line ev c1) (hsub : s.subChunkKeyword = none)
    (hv : s.value = some out)
    (hm : ev.Matches depth parent keyWord) (hocc : s.occurence = k)
    (ht : ev.toks = some toks) :
    s.onLine lp (getTokParams depth parent keyWord k tokenPos) ev c1 =
      .ret { s.withCursor c1 with value := some (gettoken_str toks tokenPos) }
        (keywordPos1 (ev.line ++ '\n' :: ev.after) ev.linePos keyWord) := by
  have hc := onLine_cases lp (getTokParams depth parent keyWord k tokenPos) s ev c1
    parent keyWord rfl rfl rfl (by show SNM_GET_CHUNK_CHAR ≥ 0; decide) hd hw hsub
  have hat := atLine_read (getTokParams depth parent keyWord k tokenPos) s ev c1 rfl
  rw [hc.2 hm toks ht]
  have hk2 : (getTokParams depth parent keyWord k tokenPos).occurence = (s.occurence : Int) ∨
      (getTokParams depth parent keyWord k tokenPos).occurence = -1 := by
    left
    show (k : Int) = (s.occurence : Int)
    omega
  rw [if_pos hk2]
  unfold matchingOccurence
  rw [if_pos (show (getTokParams depth parent keyWord k tokenPos).mode = SNM_GET_CHUNK_CHAR
    from rfl)]
  simp only [incOccurence]
  rw [hat]
  cases s
  simp only at hv
  subst hv
  rfl

theorem getTok_scanLoop (lp : LineParser) (depth : Int) (parent keyWord : CStr)
    (k : Nat) (tokenPos : Int) (ev : LineEvent) (toks : List CStr) (out : CStr)
    (hd : 0 < depth) (hm : ev.Matches depth parent keyWord) (ht : ev.toks = some toks) :
    ∀ (fuel : Nat) (s : Scan) (i : Nat), s.e.m_breakParsePatch = false →
      s.subChunkKeyword = none → s.value = some out →
      (walk lp fuel s.cursor)[i]? = some ev →
      s.occurence + ((walk lp fuel s.cursor).take i).countP
        (fun ev => decide (ev.Matches depth parent keyWord)) = k →
      (∀ evl ∈ (walk lp fuel s.cursor).take i, evl.toks ≠ some []) →
      ∃ s2, scanLoop lp (getTokParams depth parent keyWord k tokenPos) fuel s =
          .ok (s2, some (keywordPos1 (ev.line ++ '\n' :: ev.after) ev.linePos keyWord)) ∧
        s2.value = some (gettoken_str toks tokenPos) := by
  intro fuel
  induction fuel with
  | zero => intro s i _ _ _ hev _ _; simp [walk] at hev
  | succ fuel ih =>
    intro s i hb hsub hv hev hcnt hall
    have hit := iteration_normal lp (getTokParams depth parent keyWord k tokenPos) s hb hsub
    cases hw : walkStep lp s.cursor with
    | stop => simp [walk, hw] at hev
    | undefined => simp [walk, hw] at hev
    | fuel => simp [walk, hw] at hev
    | line ev0 c1 =>
      rw [hw] at hit
      simp only at hit
      simp only [walk, hw] at hev hcnt hall
      cases i with
      | zero =>
        simp only [List.getElem?_cons_zero, Option.some.injEq] at hev
        subst hev
        simp only [List.take_zero, List.countP_nil, Nat.add_zero] at hcnt
        rw [getTok_onLine_target lp depth parent keyWord k tokenPos s ev0 c1 out toks hd hw
          hsub hv hm hcnt ht] at hit
        exact ⟨{ s.withCursor c1 with value := some (gettoken_str toks tokenPos) },
          by simp only [scanLoop, hit], rfl⟩
      | succ j =>
        simp only [List.getElem?_cons_succ] at hev
        simp only [List.take_succ_cons, List.countP_cons, decide_eq_true_eq] at hcnt
        simp only [List.take_succ_cons, List.mem_cons, forall_eq_or_imp] at hall
        have hnot : ev0.Matches depth parent keyWord → s.occurence ≠ k := by
          intro h
          simp only [h, if_true] at hcnt
          omega
        have ho := getTok_onLine_other lp depth parent keyWord k tokenPos s ev0 c1 hd hw hsub
          hnot hall.1
        rw [ho] at hit
        have hb1 : c1.e.m_breakParsePatch = false := (walkStep_break hw).trans hb
        obtain ⟨s2, hs2⟩ : ∃ s2 : Scan, s2 = { s.withCursor c1 with
            occurence := s.occurence +
              (if ev0.Matches depth parent keyWord then 1 else 0) } := ⟨_, rfl⟩
        have hit2 : iteration lp (getTokParams depth parent keyWord k tokenPos) s =
            .next s2 := by
          rw [hs2]; exact hit
        have hc : s2.cursor = c1 := by rw [hs2]; cases s; rfl
        have hv2 : s2.value = some out := by rw [hs2]; cases s; exact hv
        rw [scanLoop_next fuel hit2]
        exact ih s2 j (by rw [hs2]; exact hb1) (by rw [hs2]; exact hsub) hv2
          (by rw [hc]; exact hev) (by rw [hc, hs2]; simp only; omega)
          (by rw [hc]; exact hall.2)

/-- A read of token `tokenPos` of occurence `k` returns when no line in front of the
target line is without token: the position of the keyword plus one, and the token. -/
theorem getTok_core_ok (lp : LineParser) (e : SNM_ChunkParserPatcher) (depth : Int)
    (parent keyWord : CStr) (k : Nat) (tokenPos : Int) (out : CStr)
    (i : Nat) (ev : LineEvent) (toks : List CStr)
    (hb : e.m_breakParsePatch = false) (hd : 0 < depth)
    (hev : (documentLines lp e)[i]? = some ev)
    (hm : ev.Matches depth parent keyWord)
    (hcnt : ((documentLines lp e).take i).countP
      (fun ev => decide (ev.Matches depth parent keyWord)) = k)
    (ht : ev.toks = some toks)
    (hall : ∀ evl ∈ (documentLines lp e).take i, evl.toks ≠ some []) :
    ∃ r, e.ParsePatchCore lp (getTokParams depth parent keyWord k tokenPos) (some out) =
        .ok r ∧
      r.ret = keywordPos1 (ev.line ++ '\n' :: ev.after) ev.linePos keyWord ∧
      r.value = some (gettoken_str toks tokenPos) := by
  obtain ⟨s2, hs2, hv2⟩ := getTok_scanLoop lp depth parent keyWord k tokenPos ev toks out hd
    hm ht (e.GetChunk.m_chunk.length + 1)
    (initScan e.GetChunk (getTokParams depth parent keyWord k tokenPos) (some out))
    i ((GetChunk_break e).trans hb) rfl rfl hev (by
      have : (initScan e.GetChunk (getTokParams depth parent keyWord k tokenPos)
        (some out)).occurence = 0 := rfl
      rw [this, Nat.zero_add]
      exact hcnt) hall
  unfold ParsePatchCore
  simp only [hs2]
  exact ⟨_, rfl, rfl, hv2⟩

theorem keywordPos1_ne_zero (lineText : CStr) (linePos : Nat) (keyWord : CStr) :
    keywordPos1 lineText linePos keyWord ≠ 0 := by
  unfold keywordPos1
  cases strstr lineText keyWord with
  | none => simp
  | some i => simp only; omega

/-! ## The lines of a rebuilt Document, when no region is skipped -/

theorem truncLine_idem (line : CStr) : truncLine (truncLine line) = truncLine line := by
  by_cases h : line.length < 8192
  · rw [truncLine_short line h]
    exact truncLine_short line h
  · rw [truncLine_long line (by omega)]
    exact truncLine_short _ (by rw [List.length_take]; omega)

theorem truncLine_no_newline {l : CStr} (h : '\n' ∉ l) : '\n' ∉ truncLine l :=
  fun hm => h (List.mem_of_mem_take hm)

theorem applyParents_names {c c' : Cursor} {toks toks' : List CStr} (n n' : Nat)
    (hp : c'.parents.map Prod.snd = c.parents.map Prod.snd)
    (hh : toks'.head? = toks.head?) :
    (applyParents c' toks' n').parents.map Prod.snd =
      (applyParents c toks n).parents.map Prod.snd := by
  rcases applyParents_shape c toks n with ⟨name, h1, h2⟩ | ⟨h1, h2⟩ | ⟨h1, h1', h2⟩
  · rcases applyParents_shape c' toks' n' with ⟨name', g1, g2⟩ | ⟨g1, g2⟩ | ⟨g1, g1', g2⟩
    · rw [hh, h1] at g1
      have hname : name = name' := by
        have := Option.some.inj g1
        exact (List.cons.inj this).2
      rw [h2, g2, List.map_append, List.map_append, hp, hname]
      rfl
    · rw [hh, h1] at g1
      simp at g1
    · rw [hh, h1] at g1
      simp at g1
  · rcases applyParents_shape c' toks' n' with ⟨name', g1, g2⟩ | ⟨g1, g2⟩ | ⟨g1, g1', g2⟩
    · rw [hh] at g1
      rw [g1] at h1
      simp at h1
    · rw [h2, g2, List.map_dropLast, List.map_dropLast, hp]
    · rw [hh] at g1'
      exact absurd h1 g1'
  · rcases applyParents_shape c' toks' n' with ⟨name', g1, g2⟩ | ⟨g1, g2⟩ | ⟨g1, g1', g2⟩
    · rw [hh] at g1
      rw [g1] at h1
      simp at h1
    · rw [hh] at g1
      exact absurd g1 h1'
    · rw [h2, g2, hp]

theorem matches_congr {ev ev' : LineEvent}
    (ht : ev'.toks.bind List.head? = ev.toks.bind List.head?)
    (hp : ev'.parents = ev.parents) (depth : Int) (parent keyWord : CStr) :
    ev'.Matches depth parent keyWord ↔ ev.Matches depth parent keyWord := by
  simp only [LineEvent.Matches, ht, hp]

theorem not_matches_none {ev : LineEvent} (ht : ev.toks = none) (depth : Int)
    (parent keyWord : CStr) : ¬ ev.Matches depth parent keyWord := by
  simp [LineEvent.Matches, ht]

/-! ## A set followed by a get -/

theorem tokensLine_spaced : ∀ (toks : List CStr), toks ≠ [] →
    tokensLine toks = spacedLine toks ++ ['\n']
  | [], h => absurd rfl h
  | [t], _ => by
    simp [spacedLine, tokensLine]
  | t :: t2 :: ts, _ => by
    have ih := tokensLine_spaced (t2 :: ts) (by simp)
    have hne : tokensLine (t2 :: ts) ≠ [] := by
      rw [ih]
      simp
    unfold spacedLine at ih ⊢
    have h1 : tokensLine (t :: t2 :: ts) = (t ++ [' ']) ++ tokensLine (t2 :: ts) := by
      simp [tokensLine]
    rw [h1, List.dropLast_append_of_ne_nil _ hne]
    conv_lhs => rw [ih]
    simp only [List.append_assoc]

theorem set_head (toks : List CStr) (n : Nat) (v : CStr) (h : 1 ≤ n) :
    (toks.set n v).head? = toks.head? := by
  cases toks with
  | nil => rfl
  | cons t ts =>
    obtain ⟨m, rfl⟩ : ∃ m, n = m + 1 := ⟨n - 1, by omega⟩
    rfl

theorem gettoken_str_set (toks : List CStr) (tokenPos : Int) (v : CStr)
    (h0 : 0 ≤ tokenPos) (hlt : tokenPos < toks.length) :
    gettoken_str (toks.set tokenPos.toNat v) tokenPos = v := by
  have hn : tokenPos.toNat < toks.length := by omega
  simp [gettoken_str, h0, hn]

/-! ## The balanced marker count of `FindEndOfSubChunk` -/

theorem markersIn_succ (chunk marker : CStr) (s q : Nat) :
    markersIn chunk marker s (q + 1) =
      markersIn chunk marker s q +
        (if s < q + 1 ∧ markerAt chunk marker (q + 1) = true then 1 else 0) := by
  unfold markersIn
  rw [List.range_succ, List.countP_append]
  simp only [List.countP_cons, List.countP_nil, Bool.and_eq_true, decide_eq_true_eq,
    Nat.zero_add]

theorem markersIn_const (chunk marker : CStr) (s a : Nat) :
    ∀ (n : Nat), (∀ j, a < j → j ≤ a + n → markerAt chunk marker j = false) →
      markersIn chunk marker s (a + n) = markersIn chunk marker s a := by
  intro n
  induction n with
  | zero => intro _; rfl
  | succ n ih =>
    intro h
    have h1 := ih (fun j h1 h2 => h j h1 (by omega))
    have h2 := h (a + n + 1) (by omega) (by omega)
    rw [show a + (n + 1) = (a + n) + 1 from rfl, markersIn_succ, h1, h2]
    simp

theorem markersIn_same (chunk marker : CStr) (s a b : Nat) (hab : a ≤ b)
    (h : ∀ j, a < j → j ≤ b → markerAt chunk marker j = false) :
    markersIn chunk marker s b = markersIn chunk marker s a := by
  have := markersIn_const chunk marker s a (b - a) (fun j h1 h2 => h j h1 (by omega))
  rw [show a + (b - a) = b by omega] at this
  exact this

theorem markersIn_hit (chunk marker : CStr) (s a b : Nat) (hab : a < b) (hsb : s < b)
    (h : ∀ j, a < j → j < b → markerAt chunk marker j = false)
    (hb : markerAt chunk marker b = true) :
    markersIn chunk marker s b = markersIn chunk marker s a + 1 := by
  obtain ⟨c, rfl⟩ : ∃ c, b = c + 1 := ⟨b - 1, by omega⟩
  rw [markersIn_succ, if_pos ⟨hsb, hb⟩,
    markersIn_same chunk marker s a c (by omega) (fun j h1 h2 => h j h1 (by omega))]

theorem markersIn_mono (chunk marker : CStr) (s a : Nat) :
    ∀ (n : Nat), markersIn chunk marker s a ≤ markersIn chunk marker s (a + n) := by
  intro n
  induction n with
  | zero => exact Nat.le_refl _
  | succ n ih =>
    rw [show a + (n + 1) = (a + n) + 1 from rfl, markersIn_succ]
    omega

theorem markersIn_le (chunk marker : CStr) (s a b : Nat) (hab : a ≤ b) :
    markersIn chunk marker s a ≤ markersIn chunk marker s b := by
  have := markersIn_mono chunk marker s a (b - a)
  rw [show a + (b - a) = b by omega] at this
  exact this

/-- A search that starts further on, with no occurrence in between, finds the same. -/
theorem strstrFrom_shift {chunk n : CStr} {p p' : Nat} (hpp : p ≤ p')
    (hlen : p' ≤ chunk.length)
    (h : ∀ j, p ≤ j → j < p' → startsWith (chunk.drop j) n = false) :
    strstrFrom chunk p' n = strstrFrom chunk p n := by
  cases hs : strstrFrom chunk p n with
  | none =>
    cases hs' : strstrFrom chunk p' n with
    | none => rfl
    | some k =>
      obtain ⟨h1, -, h3⟩ := strstrFrom_spec hlen hs'
      have := strstrFrom_none hs k (by omega)
      rw [h3] at this
      cases this
  | some e =>
    obtain ⟨h1, -, h3⟩ := strstrFrom_spec (by omega) hs
    have hpe : p' ≤ e := by
      by_contra hc
      have := h e h1 (by omega)
      rw [h3] at this
      cases this
    exact strstrFrom_of_first h3 hpe (fun j hj1 hj2 => strstrFrom_first hs j (by omega) hj2)

theorem open_not_close (chunk : CStr) (j : Nat)
    (h1 : markerAt chunk "\n<".toList j = true) :
    markerAt chunk "\n>\n".toList j = false := by
  cases h2 : markerAt chunk "\n>\n".toList j with
  | false => rfl
  | true =>
    obtain ⟨t1, ht1⟩ := startsWith_iff.mp h1
    obtain ⟨t2, ht2⟩ := startsWith_iff.mp h2
    rw [ht1] at ht2
    simp at ht2

theorem markersIn_self (chunk marker : CStr) (s : Nat) : markersIn chunk marker s s = 0 := by
  unfold markersIn
  rw [List.countP_eq_zero]
  intro j hj
  have : j < s + 1 := List.mem_range.mp hj
  simp only [Bool.and_eq_true, decide_eq_true_eq, not_and]
  intro h
  omega

/-- No marker starts between the start of a search and what it finds. -/
theorem before_found {chunk n : CStr} {p : Nat} {o : Option Nat}
    (ho : strstrFrom chunk p n = o) (m : Nat) (hm : ∀ x, o = some x → m < x) :
    ∀ j, p ≤ j → j ≤ m → markerAt chunk n j = false := by
  intro j h1 h2
  cases o with
  | none => exact strstrFrom_none ho j h1
  | some x =>
    have := hm x rfl
    exact strstrFrom_first ho j h1 (by omega)

theorem noExceed_between (chunk : CStr) (s a m : Nat)
    (hco : markersIn chunk "\n>\n".toList s a ≤ markersIn chunk "\n<".toList s a)
    (hnc : ∀ j, a + 1 ≤ j → j ≤ m → markerAt chunk "\n>\n".toList j = false) :
    ∀ j, a < j → j ≤ m → ¬ SpecClosesExceed chunk s j := by
  intro j h1 h2
  unfold SpecClosesExceed
  have hc := markersIn_same chunk "\n>\n".toList s a j (by omega)
    (fun x hx1 hx2 => hnc x (by omega) (by omega))
  have ho := markersIn_le chunk "\n<".toList s a j (by omega)
  omega

/-- The step of the loop on an open marker. -/
theorem open_step (chunk : CStr) (s a b depth : Nat) (eoc : Option Nat)
    (hsa : s ≤ a) (hlen : a + 1 ≤ chunk.length)
    (hbo : strstrFrom chunk (a + 1) "\n<".toList = some b)
    (heo : strstrFrom chunk (a + 1) "\n>\n".toList = eoc)
    (hlt : ∀ e, eoc = some e → b < e)
    (hd : depth + markersIn chunk "\n>\n".toList s a =
      1 + markersIn chunk "\n<".toList s a)
    (hpos : 0 < depth)
    (hinv : ∀ j, s < j → j ≤ a → ¬ SpecClosesExceed chunk s j) :
    s ≤ b ∧ b + 1 ≤ chunk.length ∧ eoc = strstrFrom chunk (b + 1) "\n>\n".toList ∧
    (depth + 1) + markersIn chunk "\n>\n".toList s b =
      1 + markersIn chunk "\n<".toList s b ∧
    (∀ j, s < j → j ≤ b → ¬ SpecClosesExceed chunk s j) := by
  obtain ⟨hab, hbl, hob⟩ := strstrFrom_spec hlen hbo
  have hbl2 : b + 2 ≤ chunk.length := hbl
  have hnc : ∀ j, a + 1 ≤ j → j ≤ b → markerAt chunk "\n>\n".toList j = false :=
    before_found heo b hlt
  have hno : ∀ j, a + 1 ≤ j → j < b → markerAt chunk "\n<".toList j = false :=
    fun j h1 h2 => strstrFrom_first hbo j h1 h2
  have hc := markersIn_same chunk "\n>\n".toList s a b (by omega)
    (fun x hx1 hx2 => hnc x (by omega) hx2)
  have ho := markersIn_hit chunk "\n<".toList s a b (by omega) (by omega)
    (fun x hx1 hx2 => hno x (by omega) hx2) hob
  refine ⟨by omega, by omega, ?_, by omega, ?_⟩
  · rw [← heo]
    exact (strstrFrom_shift (by omega) (by omega)
      (fun j h1 h2 => hnc j h1 (by omega))).symm
  · intro j h1 h2
    by_cases hja : j ≤ a
    · exact hinv j h1 hja
    · exact noExceed_between chunk s a b (by omega) hnc j (by omega) h2

/-- The step of the loop on a close marker. -/
theorem close_step (chunk : CStr) (s a e depth : Nat) (boc : Option Nat)
    (hsa : s ≤ a) (hlen : a + 1 ≤ chunk.length)
    (heo : strstrFrom chunk (a + 1) "\n>\n".toList = some e)
    (hbo : strstrFrom chunk (a + 1) "\n<".toList = boc)
    (hlt : ∀ b, boc = some b → e < b)
    (hd : depth + markersIn chunk "\n>\n".toList s a =
      1 + markersIn chunk "\n<".toList s a)
    (hpos : 0 < depth)
    (hinv : ∀ j, s < j → j ≤ a → ¬ SpecClosesExceed chunk s j) :
    s < e ∧ e + 3 ≤ chunk.length ∧ (chunk.drop e).take 3 = "\n>\n".toList ∧
    boc = strstrFrom chunk (e + 1) "\n<".toList ∧
    markersIn chunk "\n>\n".toList s e = markersIn chunk "\n>\n".toList s a + 1 ∧
    markersIn chunk "\n<".toList s e = markersIn chunk "\n<".toList s a ∧
    (∀ j, s < j → j < e → ¬ SpecClosesExceed chunk s j) := by
  obtain ⟨hae, hel, hce⟩ := strstrFrom_spec hlen heo
  have hel3 : e + 3 ≤ chunk.length := hel
  have hno1 : ∀ j, a + 1 ≤ j → j < e → markerAt chunk "\n<".toList j = false :=
    fun j h1 h2 => before_found hbo e hlt j h1 (by omega)
  have hno : ∀ j, a + 1 ≤ j → j ≤ e → markerAt chunk "\n<".toList j = false :=
    before_found hbo e hlt
  have hnc : ∀ j, a + 1 ≤ j → j < e → markerAt chunk "\n>\n".toList j = false :=
    fun j h1 h2 => strstrFrom_first heo j h1 h2
  have ho := markersIn_same chunk "\n<".toList s a e (by omega)
    (fun x hx1 hx2 => hno x (by omega) hx2)
  have hc := markersIn_hit chunk "\n>\n".toList s a e (by omega) (by omega)
    (fun x hx1 hx2 => hnc x (by omega) hx2) hce
  refine ⟨by omega, hel3, ?_, ?_, hc, ho, ?_⟩
  · obtain ⟨t, ht⟩ := startsWith_iff.mp hce
    rw [ht]
    rfl
  · rw [← hbo]
    exact (strstrFrom_shift (by omega) (by omega)
      (fun j h1 h2 => hno j h1 (by omega))).symm
  · intro j h1 h2
    by_cases hja : j ≤ a
    · exact hinv j h1 hja
    · exact noExceed_between chunk s a (e - 1) (by omega)
        (fun x hx1 hx2 => hnc x hx1 (by omega)) j (by omega) (by omega)

/-- The loop of `FindEndOfSubChunk` refines the balanced count: `a` is the last offset
whose markers are counted, `depth` is one more than the open markers counted minus the
close markers counted. -/
theorem FindEndOfSubChunkLoop_balanced (chunk : CStr) (s : Nat) :
    ∀ (fuel a : Nat) (boc eoc : Option Nat) (depth : Nat),
      s ≤ a → a + 1 ≤ chunk.length →
      strstrFrom chunk (a + 1) "\n<".toList = boc →
      strstrFrom chunk (a + 1) "\n>\n".toList = eoc →
      depth + markersIn chunk "\n>\n".toList s a = 1 + markersIn chunk "\n<".toList s a →
      0 < depth →
      (∀ j, s < j → j ≤ a → ¬ SpecClosesExceed chunk s j) →
      ∀ r, FindEndOfSubChunkLoop chunk fuel boc eoc depth = .ok r →
        SpecBalancedEnd chunk s r := by
  intro fuel
  induction fuel with
  | zero =>
    intro a boc eoc depth _ _ _ _ _ _ _ r hr
    simp [FindEndOfSubChunkLoop] at hr
  | succ fuel ih =>
    intro a boc eoc depth hsa hlen hbo heo hd hpos hinv r hr
    have hclose : ∀ e, eoc = some e → (∀ b, boc = some b → e < b) →
        FindEndOfSubChunkLoop chunk (fuel + 1) boc eoc depth =
          (if depth - 1 = 0 then .ok ((e : Int) + 3)
           else FindEndOfSubChunkLoop chunk fuel boc
            (strstrFrom chunk (e + 1) "\n>\n".toList) (depth - 1)) →
        SpecBalancedEnd chunk s r := by
      intro e he hlt hloop
      subst he
      obtain ⟨h1, h2, h3, h4, h5, h6, h7⟩ := close_step chunk s a e depth boc hsa hlen heo hbo
        hlt hd hpos hinv
      rw [hloop] at hr
      by_cases hd1 : depth - 1 = 0
      · rw [if_pos hd1] at hr
        simp only [Outcome.ok.injEq] at hr
        right
        refine ⟨e, hr.symm, h1, h2, h3, ?_, h7⟩
        unfold SpecClosesExceed
        omega
      · rw [if_neg hd1] at hr
        refine ih e boc _ (depth - 1) (by omega) (by omega) h4.symm rfl (by omega) (by omega)
          ?_ r hr
        intro j hj1 hj2
        by_cases hje : j < e
        · exact h7 j hj1 hje
        · have : j = e := by omega
          subst this
          unfold SpecClosesExceed
          omega
    have hopen : ∀ b, boc = some b → (∀ e, eoc = some e → b < e) →
        FindEndOfSubChunkLoop chunk (fuel + 1) boc eoc depth =
          FindEndOfSubChunkLoop chunk fuel (strstrFrom chunk (b + 1) "\n<".toList) eoc
            (depth + 1) →
        SpecBalancedEnd chunk s r := by
      intro b hb hlt hloop
      subst hb
      obtain ⟨h1, h2, h3, h4, h5⟩ := open_step chunk s a b depth eoc hsa hlen hbo heo hlt hd
        hpos hinv
      rw [hloop] at hr
      exact ih b _ eoc (depth + 1) h1 h2 rfl h3.symm h4 (by omega) h5 r hr
    match boc, eoc with
    | some b, none =>
      refine hopen b rfl (fun e he => by cases he) ?_
      simp [FindEndOfSubChunkLoop, hpos]
    | some b, some e =>
      rcases Nat.lt_trichotomy b e with hlt | heq | hgt
      · refine hopen b rfl (fun e1 he => by cases he; exact hlt) ?_
        simp [FindEndOfSubChunkLoop, hpos, hlt]
      · subst heq
        have h1 := (strstrFrom_spec hlen hbo).2.2
        have h2 := (strstrFrom_spec hlen heo).2.2
        have := open_not_close chunk b h1
        unfold markerAt at this
        rw [h2] at this
        cases this
      · refine hclose e rfl (fun b1 hb => by cases hb; exact hgt) ?_
        have hn : ¬ b < e := by omega
        simp only [FindEndOfSubChunkLoop, Option.isSome_some, or_self, hpos, gt_iff_lt,
          and_self, if_true, hn, if_false, hgt]
    | none, some e =>
      refine hclose e rfl (fun b1 hb => by cases hb) ?_
      simp only [FindEndOfSubChunkLoop, Option.isSome_none, Option.isSome_some, hpos,
        gt_iff_lt, if_true]
      simp
    | none, none =>
      simp [FindEndOfSubChunkLoop] at hr
      left
      refine ⟨hr.symm, ?_⟩
      intro q hq
      by_cases hqa : q ≤ a
      · exact hinv q hq hqa
      · exact noExceed_between chunk s a q (by omega)
          (fun j h1 _ => strstrFrom_none heo j h1) q (by omega) (Nat.le_refl _)

theorem FindEndOfSubChunkLoop_defined (chunk : CStr) :
    ∀ (fuel : Nat) (boc eoc : Option Nat) (depth : Nat),
      FindEndOfSubChunkLoop chunk fuel boc eoc depth ≠ .undefined := by
  intro fuel
  induction fuel with
  | zero => intro boc eoc depth; simp [FindEndOfSubChunkLoop]
  | succ fuel ih =>
    intro boc eoc depth
    unfold FindEndOfSubChunkLoop
    split
    · match boc, eoc with
      | some b, none => exact ih _ _ _
      | some b, some e =>
        simp only
        split
        · exact ih _ _ _
        · split
          · split
            · simp
            · exact ih _ _ _
          · exact ih _ _ _
      | none, some e =>
        simp only
        split
        · simp
        · exact ih _ _ _
      | none, none => simp
    · simp

/-- C23: for a start offset inside the buffer, `FindEndOfSubChunk` returns (it ends
within its fuel and meets no undefined step). For a negative start offset it returns
-1. For a start offset `s ≥ 0` it returns -1 when, counting the markers that start
behind `s`, the close markers `"\n>\n"` never outnumber the open markers `"\n<"`;
otherwise it returns `q + 3` for the first offset `q` behind `s` at which they do, and
the three bytes that end at `q + 3` are `"\n>\n"`. -/
theorem c23_balanced_end (chunk : CStr) (startPos : Int)
    (hlt : startPos < (chunk.length : Int)) :
    ∃ r : Int, FindEndOfSubChunk chunk startPos = .ok r ∧
      (startPos < 0 → r = -1) ∧
      (0 ≤ startPos → SpecBalancedEnd chunk startPos.toNat r) := by
  by_cases h0 : 0 ≤ startPos
  · have hlen : startPos.toNat + 1 ≤ chunk.length := by omega
    have hloop : FindEndOfSubChunk chunk startPos =
        FindEndOfSubChunkLoop chunk (2 * chunk.length + 2)
          (strstrFrom chunk (startPos.toNat + 1) "\n<".toList)
          (strstrFrom chunk (startPos.toNat + 1) "\n>\n".toList) 1 := by
      simp only [FindEndOfSubChunk, h0, hlen, if_true]
    rcases FindEndOfSubChunk_total chunk startPos with hu | ⟨n, hn, -⟩
    · rw [hloop] at hu
      exact absurd hu (FindEndOfSubChunkLoop_defined chunk _ _ _ _)
    · refine ⟨n, hn, fun h => by omega, fun _ => ?_⟩
      rw [hloop] at hn
      exact FindEndOfSubChunkLoop_balanced chunk startPos.toNat _ startPos.toNat _ _ 1
        (Nat.le_refl _) hlen rfl rfl (by rw [markersIn_self, markersIn_self]) (by omega)
        (fun j h1 h2 => by omega) n hn
  · refine ⟨-1, by simp [FindEndOfSubChunk, h0], fun _ => rfl, fun h => absurd h h0⟩

/-- C23 (witness): in `"<A\n<B\n>\n>\nX\n"` the sub-chunk that starts at offset 0 ends at
offset 10, behind the second `"\n>\n"`. -/
theorem c23_balanced_end_witness :
    FindEndOfSubChunk "<A\n<B\n>\n>\nX\n".toList 0 = .ok 10 ∧
    ∃ r : Int, FindEndOfSubChunk "<A\n<B\n>\n>\nX\n".toList 0 = .ok r ∧
      ((0 : Int) < 0 → r = -1) ∧
      ((0 : Int) ≤ 0 → SpecBalancedEnd "<A\n<B\n>\n>\nX\n".toList (0 : Int).toNat r) :=
  ⟨by decide, c23_balanced_end "<A\n<B\n>\n>\nX\n".toList 0 (by decide)⟩

/-! ## `RemoveChunkLines` returns when the search string holds a character that is
not a blank -/

theorem strchrNL_spec : ∀ {l : CStr} {k : Nat}, strchrNL l = some k →
    k < l.length ∧ l.drop k = '\n' :: l.drop (k + 1)
  | [], k, h => by simp [strchrNL] at h
  | c :: cs, k, h => by
    unfold strchrNL at h
    by_cases hc : c = '\n'
    · rw [if_pos hc] at h
      simp only [Option.some.injEq] at h
      subst h
      subst hc
      exact ⟨by simp, rfl⟩
    · rw [if_neg hc] at h
      simp only [Option.map_eq_some'] at h
      obtain ⟨k', hk', rfl⟩ := h
      obtain ⟨h1, h2⟩ := strchrNL_spec hk'
      exact ⟨by simp; omega, by simpa using h2⟩

theorem walkToBOL_spec (chunk : CStr) : ∀ (i : Nat), i < chunk.length →
    walkToBOL chunk i ≤ i ∧
    (walkToBOL chunk i = 0 ∨ chunk.get? (walkToBOL chunk i) = some '\n') := by
  intro i
  induction i with
  | zero => intro _; exact ⟨Nat.le_refl _, Or.inl rfl⟩
  | succ b ih =>
    intro hlt
    unfold walkToBOL
    cases hg : chunk.get? (b + 1) with
    | none =>
      rw [List.get?_eq_none] at hg
      omega
    | some c =>
      simp only
      by_cases hc : c = '\n'
      · rw [if_pos hc]
        exact ⟨Nat.le_refl _, Or.inr (by rw [hg, hc])⟩
      · rw [if_neg hc]
        obtain ⟨h1, h2⟩ := ih (by omega)
        exact ⟨by omega, h2⟩

theorem memsetSpaces_length (chunk : CStr) (start len : Nat)
    (h : start + len ≤ chunk.length) : (memsetSpaces chunk start len).length = chunk.length := by
  unfold memsetSpaces
  simp only [List.length_append, List.length_take, List.length_replicate, List.length_drop]
  omega

/-- The text from inside a blanked range on: blanks up to the end of the range, then
the text as it was. -/
theorem memsetSpaces_drop (chunk : CStr) (b e j : Nat) (hbj : b ≤ j) (hje : j ≤ e)
    (hel : e ≤ chunk.length) :
    (memsetSpaces chunk b (e - b)).drop j = List.replicate (e - j) ' ' ++ chunk.drop e := by
  unfold memsetSpaces
  have hbe : b + (e - b) = e := by omega
  have htl : (chunk.take b).length = b := by
    rw [List.length_take]
    omega
  rw [hbe, List.append_assoc, List.drop_append_eq_append_drop, htl,
    List.drop_eq_nil_of_le (by rw [htl]; exact hbj), List.nil_append,
    List.drop_append_eq_append_drop, List.drop_replicate, List.length_replicate]
  have h1 : e - b - (j - b) = e - j := by omega
  have h2 : j - b - (e - b) = 0 := by omega
  rw [h1, h2, List.drop_zero]

theorem memsetSpaces_drop_behind (chunk : CStr) (b e j : Nat) (hbe : b ≤ e) (hej : e ≤ j)
    (hel : e ≤ chunk.length) :
    (memsetSpaces chunk b (e - b)).drop j = chunk.drop j := by
  have h := memsetSpaces_drop chunk b e e hbe (Nat.le_refl _) hel
  rw [Nat.sub_self, List.replicate_zero, List.nil_append] at h
  have hj : j = e + (j - e) := by omega
  rw [hj, ← List.drop_drop, h, List.drop_drop]

/-- A search string that holds a character that is not a blank, and no newline, does
not start in a run of blanks that ends at a newline. -/
theorem startsWith_blanks (rest : CStr) : ∀ (s : CStr) (k : Nat),
    (∃ ch ∈ s, ch ≠ ' ') → '\n' ∉ s →
    startsWith (List.replicate k ' ' ++ '\n' :: rest) s = false
  | [], _, h, _ => by
    obtain ⟨ch, hch, -⟩ := h
    cases hch
  | a :: s', 0, _, hnl => by
    have ha : ¬ ('\n' = a) := fun h => hnl (by rw [← h]; exact List.mem_cons_self _ _)
    simp [startsWith, ha]
  | a :: s', k + 1, h, hnl => by
    by_cases ha : a = ' '
    · obtain ⟨ch, hch, hne⟩ := h
      have hch' : ch ∈ s' := by
        rcases List.mem_cons.mp hch with h1 | h1
        · exact absurd (h1.trans ha) hne
        · exact h1
      have ih := startsWith_blanks rest s' k ⟨ch, hch', hne⟩
        (fun hm => hnl (List.mem_cons_of_mem _ hm))
      simp [List.replicate_succ, startsWith, ih]
    · have ha' : ¬ (' ' = a) := fun h => ha h.symm
      simp [List.replicate_succ, startsWith, ha']

theorem count_drop_le (l : CStr) (a b : Nat) (hab : a ≤ b) :
    (l.drop b).count '\n' ≤ (l.drop a).count '\n' := by
  have hb : l.drop b = (l.drop a).drop (b - a) := by
    rw [List.drop_drop]
    congr 1
    omega
  rw [hb]
  exact (List.drop_sublist _ _).count_le _

/-- The character at a position where a non-empty search string starts. -/
theorem startsWith_head {chunk s : CStr} {i : Nat} {a : Char} {s' : CStr}
    (hs : s = a :: s') (h : startsWith (chunk.drop i) s = true) :
    i < chunk.length ∧ chunk.get? i = some a := by
  obtain ⟨t, ht⟩ := startsWith_iff.mp h
  subst hs
  have hlt : i < chunk.length := by
    by_contra hc
    rw [List.drop_eq_nil_of_le (by omega)] at ht
    cases ht
  refine ⟨hlt, ?_⟩
  have h0 : (chunk.drop i)[0]? = some a := by rw [ht]; simp
  rw [List.getElem?_drop] at h0
  rw [List.get?_eq_getElem?]
  exact h0

/-- What a search from a position gives to the next iteration: a found position is a
match, inside the text and not in front of the start of the search. -/
theorem search_next (chunk s : CStr) (p : Nat) (hp : p ≤ chunk.length) (hs : s ≠ []) :
    (∀ i, strstrFrom chunk p s = some i →
      p ≤ i ∧ i < chunk.length ∧ startsWith (chunk.drop i) s = true) := by
  intro i hi
  obtain ⟨h1, h2, h3⟩ := strstrFrom_spec hp hi
  have hpos : 0 < s.length := List.length_pos.mpr hs
  exact ⟨h1, by omega, h3⟩

/-- The loop of `RemoveChunkLines` returns when the search string holds no newline and
a character that is not a blank: every iteration moves the search position forward, and
every blanked line uses up a newline of its own. -/
theorem RemoveChunkLinesLoop_returns (s : CStr) (checkBOL : Bool) (c : Nat)
    (hne : ∃ ch ∈ s, ch ≠ ' ') (hnl : '\n' ∉ s) :
    ∀ (fuel : Nat) (chunk : CStr) (idStr : Option Nat) (updates : Nat),
      (∀ i, idStr = some i → startsWith (chunk.drop i) s = true) →
      searchRoom chunk idStr < fuel →
      ∃ n chunk', RemoveChunkLinesLoop s checkBOL c fuel chunk idStr updates =
          .ok (n, chunk') ∧
        chunk'.length = chunk.length ∧ n ≤ updates + newlinesFrom chunk idStr := by
  obtain ⟨a, s', hs⟩ : ∃ a s', s = a :: s' := by
    obtain ⟨ch, hch, -⟩ := hne
    cases s with
    | nil => cases hch
    | cons a s' => exact ⟨a, s', rfl⟩
  have hsne : s ≠ [] := by rw [hs]; simp
  have ha : a ≠ '\n' := by
    intro h
    apply hnl
    rw [hs, h]
    exact List.mem_cons_self _ _
  intro fuel
  induction fuel with
  | zero => intro chunk idStr updates _ h; omega
  | succ fuel ih =>
    intro chunk idStr updates hfound hroom
    cases idStr with
    | none =>
      exact ⟨updates, chunk, RemoveChunkLinesLoop_none _ _ _ _ _ _, rfl, Nat.le_add_right _ _⟩
    | some i =>
      have hm := hfound i rfl
      obtain ⟨hil, hgi⟩ := startsWith_head hs hm
      have hroom' : chunk.length - i < fuel + 1 := hroom
      have hadv : ∃ n chunk', RemoveChunkLinesLoop s checkBOL c fuel chunk
          (strstrFrom chunk (i + 1) s) updates = .ok (n, chunk') ∧
          chunk'.length = chunk.length ∧ n ≤ updates + newlinesFrom chunk (some i) := by
        have hnext := search_next chunk s (i + 1) (by omega) hsne
        have hr : searchRoom chunk (strstrFrom chunk (i + 1) s) < fuel := by
          cases ho : strstrFrom chunk (i + 1) s with
          | none => show 0 < fuel; omega
          | some i' =>
            have := (hnext i' ho).1
            show chunk.length - i' < fuel
            omega
        have hc : newlinesFrom chunk (strstrFrom chunk (i + 1) s) ≤
            newlinesFrom chunk (some i) := by
          cases ho : strstrFrom chunk (i + 1) s with
          | none => exact Nat.zero_le _
          | some i' =>
            have := (hnext i' ho).1
            exact count_drop_le chunk i i' (by omega)
        obtain ⟨n, chunk', h1, h2, h3⟩ := ih chunk (strstrFrom chunk (i + 1) s) updates
          (fun i' hi' => (hnext i' hi').2.2) hr
        exact ⟨n, chunk', h1, h2, by omega⟩
      unfold RemoveChunkLinesLoop
      simp only
      cases hk : strchrNL (chunk.drop i) with
      | none =>
        simp only [Option.map_none', if_pos (show i + 1 ≤ chunk.length by omega)]
        exact hadv
      | some k =>
        simp only [Option.map_some']
        obtain ⟨hk1, hk2⟩ := strchrNL_spec hk
        rw [List.length_drop] at hk1
        rw [List.drop_drop] at hk2
        have hie : i + k = k + i := Nat.add_comm _ _
        rw [List.drop_drop, hie] at hk2
        have hel : k + i < chunk.length := by omega
        have hde : chunk.drop (k + i) = '\n' :: chunk.drop (k + i + 1) := by
          rw [hk2]
          congr 2
          omega
        have hcnt1 : (chunk.drop (k + i)).count '\n' =
            (chunk.drop (k + i + 1)).count '\n' + 1 := by
          rw [hde, List.count_cons_self]
        have hcnt2 := count_drop_le chunk i (k + i) (by omega)
        obtain ⟨hbi, hbz⟩ := walkToBOL_spec chunk i hil
        obtain ⟨b1, hb1def⟩ : ∃ b1, b1 =
            (if walkToBOL chunk i ≠ 0 then walkToBOL chunk i + 1 else walkToBOL chunk i) :=
          ⟨_, rfl⟩
        rw [← hb1def]
        have hb1 : b1 ≤ k + i := by
          rw [hb1def]
          by_cases hz : walkToBOL chunk i = 0
          · rw [if_neg (by simpa using hz)]
            omega
          · rw [if_pos hz]
            rcases hbz with h | h
            · exact absurd h hz
            · have : walkToBOL chunk i ≠ i := by
                intro heq
                rw [heq, hgi] at h
                exact ha (Option.some.inj h)
              omega
        by_cases h1 : chunk.get? (walkToBOL chunk i) = some '\n' ∨ walkToBOL chunk i = 0
        · rw [if_pos h1]
          have h2 : ¬ (c ≠ 0 ∧ k + i = 0) := by
            intro ⟨_, h⟩
            have hi0 : i = 0 := by omega
            have hk0 : k = 0 := by omega
            subst hi0 hk0
            have hg : chunk.get? 0 = some '\n' := by
              rw [List.get?_eq_getElem?, ← List.head?_eq_getElem?]
              have : chunk = '\n' :: chunk.drop 1 := by simpa using hde
              rw [this]
              rfl
            rw [hgi] at hg
            exact ha (Option.some.inj hg)
          rw [if_neg h2]
          by_cases h3 : (c = 0 ∨ Option.map Char.toNat (chunk.get? (k + i - 1)) = some c) ∧
              (checkBOL = false ∨
                i = walkToBOL chunk i + if walkToBOL chunk i = 0 then 0 else 1)
          · rw [if_pos h3, if_pos hb1]
            have hlen1 : (memsetSpaces chunk b1 (k + i - b1)).length = chunk.length :=
              memsetSpaces_length chunk b1 (k + i - b1) (by omega)
            have hnext := search_next (memsetSpaces chunk b1 (k + i - b1)) s b1
              (by omega) hsne
            have hbehind : ∀ i', strstrFrom (memsetSpaces chunk b1 (k + i - b1)) b1 s =
                some i' → k + i < i' := by
              intro i' hi'
              obtain ⟨g1, g2, g3⟩ := hnext i' hi'
              by_contra hc
              rw [memsetSpaces_drop chunk b1 (k + i) i' g1 (by omega) (by omega), hde,
                startsWith_blanks _ s _ hne hnl] at g3
              cases g3
            have hr : searchRoom (memsetSpaces chunk b1 (k + i - b1))
                (strstrFrom (memsetSpaces chunk b1 (k + i - b1)) b1 s) < fuel := by
              cases ho : strstrFrom (memsetSpaces chunk b1 (k + i - b1)) b1 s with
              | none => show 0 < fuel; omega
              | some i' =>
                have := hbehind i' ho
                show (memsetSpaces chunk b1 (k + i - b1)).length - i' < fuel
                omega
            have hc : newlinesFrom (memsetSpaces chunk b1 (k + i - b1))
                (strstrFrom (memsetSpaces chunk b1 (k + i - b1)) b1 s) + 1 ≤
                newlinesFrom chunk (some i) := by
              show _ ≤ (chunk.drop i).count '\n'
              cases ho : strstrFrom (memsetSpaces chunk b1 (k + i - b1)) b1 s with
              | none =>
                show 0 + 1 ≤ _
                omega
              | some i' =>
                have hb := hbehind i' ho
                show ((memsetSpaces chunk b1 (k + i - b1)).drop i').count '\n' + 1 ≤ _
                rw [memsetSpaces_drop_behind chunk b1 (k + i) i' hb1 (by omega) (by omega)]
                have := count_drop_le chunk (k + i + 1) i' (by omega)
                omega
            obtain ⟨n, chunk', g1, g2, g3⟩ := ih (memsetSpaces chunk b1 (k + i - b1))
              (strstrFrom (memsetSpaces chunk b1 (k + i - b1)) b1 s) (updates + 1)
              (fun i' hi' => (hnext i' hi').2.2) hr
            exact ⟨n, chunk', g1, g2.trans hlen1, by omega⟩
          · rw [if_neg h3]
            exact hadv
        · rw [if_neg h1]
          exact hadv

/-- `RemoveChunkLines` returns when the search string holds no newline and a character
that is not a blank, given one unit of fuel per byte of the chunk and one more: the
chunk keeps its length and the update count is at most the number of newlines of the
chunk, that is the number of its newline-terminated lines. -/
theorem RemoveChunkLines_returns (chunk s : CStr) (checkBOL : Bool) (c fuel : Nat)
    (hne : ∃ ch ∈ s, ch ≠ ' ') (hnl : '\n' ∉ s) (hf : chunk.length < fuel) :
    ∃ n chunk', RemoveChunkLines fuel chunk (some s) checkBOL c = .ok (n, chunk') ∧
      chunk'.length = chunk.length ∧ n ≤ chunk.count '\n' := by
  have hr : searchRoom chunk (strstr chunk s) < fuel := by
    cases strstr chunk s with
    | none => show 0 < fuel; omega
    | some i => show chunk.length - i < fuel; omega
  have hc : newlinesFrom chunk (strstr chunk s) ≤ chunk.count '\n' := by
    cases strstr chunk s with
    | none => exact Nat.zero_le _
    | some i => exact (List.drop_sublist _ _).count_le _
  obtain ⟨n, chunk', h1, h2, h3⟩ := RemoveChunkLinesLoop_returns s checkBOL c hne hnl fuel chunk
    (strstr chunk s) 0 (fun i hi => (strstr_spec hi).2) hr
  exact ⟨n, chunk', h1, h2, by omega⟩

/-- On a blanked line the search string `" "` is found again at the start of the line:
the loop of `RemoveChunkLines` blanks the line again, and so on without end. -/
theorem RemoveChunkLinesLoop_blank :
    ∀ (fuel updates : Nat),
      RemoveChunkLinesLoop " ".toList false 0 fuel "   \n".toList (some 0) updates =
        .outOfFuel := by
  intro fuel
  induction fuel with
  | zero => intro updates; rfl
  | succ fuel ih =>
    intro updates
    have h : RemoveChunkLinesLoop " ".toList false 0 (fuel + 1) "   \n".toList (some 0)
        updates =
        RemoveChunkLinesLoop " ".toList false 0 fuel "   \n".toList (some 0)
          (updates + 1) := rfl
    rw [h]
    exact ih (updates + 1)

/-- C27 (failing input): on the chunk `"a b\n"`, whose only line contains the search
string `" "`, `RemoveChunkLines` without beginning-of-line and end-of-line check does
not return, whatever the fuel: after the line is blanked the search starts again at the
beginning of the line (`idStr = strstr(bol, _searchStr)`), finds the search string in
the blanks and blanks the line again. The first iteration leaves `"   \n"`. -/
theorem c27_space_search_no_return :
    (∀ fuel, RemoveChunkLines fuel "a b\n".toList (some " ".toList) false 0 = .outOfFuel) ∧
    (∀ fuel, RemoveChunkLines (fuel + 1) "a b\n".toList (some " ".toList) false 0 =
      RemoveChunkLinesLoop " ".toList false 0 fuel "   \n".toList (some 0) 1) := by
  have h : ∀ fuel, RemoveChunkLines (fuel + 1) "a b\n".toList (some " ".toList) false 0 =
      RemoveChunkLinesLoop " ".toList false 0 fuel "   \n".toList (some 0) 1 :=
    fun _ => rfl
  refine ⟨fun fuel => ?_, h⟩
  cases fuel with
  | zero => rfl
  | succ fuel =>
    rw [h]
    exact RemoveChunkLinesLoop_blank fuel 1

/-- With the empty search string, an iteration of the loop of `RemoveChunkLines` on the
blanked line `" \n"` blanks it again and finds the search string again at its start:
`n` iterations later the loop stands at the same place with `n` more updates. -/
theorem RemoveChunkLinesLoop_empty_again :
    ∀ (n fuel updates : Nat),
      RemoveChunkLinesLoop [] true 0 (fuel + n) " \n".toList (some 0) updates =
        RemoveChunkLinesLoop [] true 0 fuel " \n".toList (some 0) (updates + n) := by
  intro n
  induction n with
  | zero => intro fuel updates; rfl
  | succ n ih =>
    intro fuel updates
    have h : RemoveChunkLinesLoop [] true 0 (fuel + n + 1) " \n".toList (some 0) updates =
        RemoveChunkLinesLoop [] true 0 (fuel + n) " \n".toList (some 0) (updates + 1) := rfl
    rw [show fuel + (n + 1) = fuel + n + 1 from rfl, h, ih fuel (updates + 1)]
    rw [show updates + 1 + n = updates + (n + 1) by omega]

/-- C31 (failing input): on the chunk `"a\n"`, which has one newline-terminated line,
`RemoveChunkLines` with the empty search string (beginning-of-line check on, no
end-of-line character) does not return, whatever the fuel, and neither does
`RemoveLines("")` on an engine that holds this chunk. `strstr` finds the empty string
at the start of the chunk, the line is blanked, and the search that starts again at the
beginning of the line (`idStr = strstr(bol, _searchStr)`) finds it there again: after
the first iteration the chunk is `" \n"`, and `n` iterations later the loop stands at
the same place with `n + 1` updates counted, more than the chunk has lines. -/
theorem c31_empty_search_no_return :
    (∀ fuel, RemoveChunkLines fuel "a\n".toList (some []) true 0 = .outOfFuel) ∧
    (∀ fuel, (newFromChunk (some "a\n".toList) true false false false).RemoveLines fuel
      (some []) true 0 = .outOfFuel) ∧
    (∀ fuel n, RemoveChunkLines (fuel + n + 1) "a\n".toList (some []) true 0 =
      RemoveChunkLinesLoop [] true 0 fuel " \n".toList (some 0) (n + 1)) := by
  have hstep : ∀ fuel, RemoveChunkLines (fuel + 1) "a\n".toList (some []) true 0 =
      RemoveChunkLinesLoop [] true 0 fuel " \n".toList (some 0) 1 :=
    fun _ => rfl
  have hnone : ∀ fuel, RemoveChunkLines fuel "a\n".toList (some []) true 0 = .outOfFuel := by
    intro fuel
    cases fuel with
    | zero => rfl
    | succ fuel =>
      rw [hstep]
      have h := RemoveChunkLinesLoop_empty_again fuel 0 1
      rw [Nat.zero_add] at h
      rw [h]
      rfl
  refine ⟨hnone, fun fuel => ?_, fun fuel n => ?_⟩
  · have hc : (newFromChunk (some "a\n".toList) true false false false).GetChunk.m_chunk =
        "a\n".toList := rfl
    unfold RemoveLines
    rw [hc, hnone fuel]
  · rw [hstep (fuel + n), RemoveChunkLinesLoop_empty_again n fuel 1]
    rw [show 1 + n = n + 1 by omega]

/-! ## Where the scan is defined -/

theorem tracks_refl (s : Scan) : s.Tracks s := ⟨rfl, rfl, rfl, rfl, rfl, rfl, rfl⟩

theorem quiet_refl (s : Scan) : s.Quiet s := ⟨rfl, rfl, rfl⟩

theorem tracks_trans {a b c : Scan} (h1 : a.Tracks b) (h2 : b.Tracks c) : a.Tracks c :=
  ⟨h2.1.trans h1.1, h2.2.1.trans h1.2.1, h2.2.2.1.trans h1.2.2.1,
    h2.2.2.2.1.trans h1.2.2.2.1, h2.2.2.2.2.1.trans h1.2.2.2.2.1,
    h2.2.2.2.2.2.1.trans h1.2.2.2.2.2.1, h2.2.2.2.2.2.2.trans h1.2.2.2.2.2.2⟩

theorem ready_of_tracks {p : Params} {s s1 : Scan} (h : s.Tracks s1) (hr : s.Ready p) :
    s1.Ready p :=
  ⟨fun ha => by rw [h.2.2.2.2.2.1]; exact hr.1 ha,
   fun hv => by rw [h.2.2.2.2.2.2]; exact hr.2 hv⟩

theorem flowDef_imp {P Q : Scan → Prop} {R R1 : Prop} {f : Flow} (h : FlowDef P R f)
    (hPQ : ∀ s, P s → Q s) (hR : R → R1) : FlowDef Q R1 f := by
  cases f with
  | cont s1 a => exact hPQ s1 h
  | ret s1 v => exact hR h
  | undefined => exact h

theorem writeLine_def (p : Params) (s : Scan) (alter : Bool) (v : CStr) (toks : List CStr)
    (hnc : s.newChunk.isSome = true) :
    FlowDef (fun s1 => s.Tracks s1 ∧ s.Quiet s1) False
      (writeLine p s alter (some v) toks) := by
  obtain ⟨c, hc⟩ := Option.isSome_iff_exists.mp hnc
  unfold writeLine WriteChunkLine
  simp only [hc]
  by_cases h1 : gettoken_str toks p.tokenPos ≠ v
  · rw [if_pos h1]
    by_cases h2 : toks = []
    · rw [if_pos h2]
      refine ⟨⟨rfl, rfl, rfl, rfl, rfl, ?_, rfl⟩, rfl, rfl, rfl⟩
      simp [hc]
    · rw [if_neg h2]
      refine ⟨⟨rfl, rfl, rfl, rfl, rfl, ?_, rfl⟩, rfl, rfl, rfl⟩
      simp [hc]
  · rw [if_neg h1]
    refine ⟨⟨rfl, rfl, rfl, rfl, rfl, ?_, rfl⟩, rfl, rfl, rfl⟩
    simp [hc]

theorem otherOccurence_def (lp : LineParser) (p : Params) (s : Scan) (alter : Bool)
    (toks : List CStr) (hr : s.Ready p) :
    FlowDef (fun s1 => s.Tracks s1 ∧ s.Quiet s1) (p.mode = SNM_GETALL_CHUNK_CHAR_EXCEPT)
      (otherOccurence lp p s alter toks) := by
  unfold otherOccurence
  split
  · rename_i hm
    have hv := hr.2 (Or.inr (Or.inl hm))
    have hn := hr.1 (Or.inr (Or.inl hm))
    obtain ⟨v, hv⟩ := Option.isSome_iff_exists.mp hv
    simp only [hv]
    split
    · exact flowDef_imp (writeLine_def p s alter v toks hn) (fun _ h => h) False.elim
    · exact ⟨tracks_refl s, quiet_refl s⟩
  split
  · rename_i hm
    have hv := hr.2 (Or.inr (Or.inr (Or.inl hm)))
    obtain ⟨v, hv⟩ := Option.isSome_iff_exists.mp hv
    simp only [hv]
    split
    · exact hm
    · exact ⟨tracks_refl s, quiet_refl s⟩
  split
  · rename_i hm
    exact flowDef_imp (writeLine_def p s alter _ toks
      (hr.1 (Or.inr (Or.inr (Or.inr (Or.inl hm)))))) (fun _ h => h) False.elim
  · exact ⟨tracks_refl s, quiet_refl s⟩

theorem setBreak_def (p : Params) (s : Scan) (f : Flow)
    (h : FlowDef (fun s1 => s.Tracks s1 ∧ s1.occurence = s.occurence) True f) :
    FlowDef (fun s1 => s.Tracks s1 ∧ s1.occurence = s.occurence) True (setBreak p f) := by
  cases f with
  | cont s1 a =>
    obtain ⟨⟨h1, h2, h3, h4, h5, h6, h7⟩, h8⟩ := h
    exact ⟨⟨h1, h2, h3, h4, h5, h6, h7⟩, h8⟩
  | ret s1 v => trivial
  | undefined => exact h

theorem matchingOccurence_def (lp : LineParser) (p : Params) (s : Scan) (alter : Bool)
    (toks : List CStr) (curLine lineText : CStr) (linePos : Nat) (eolPos1 : Int)
    (currentParent : Nat) (keyWord : CStr) (hr : s.Ready p) :
    FlowDef (fun s1 => s.Tracks s1 ∧ s1.occurence = s.occurence) True
      (matchingOccurence lp p s alter toks curLine lineText linePos eolPos1
        currentParent keyWord) := by
  have hq : ∀ f, FlowDef (fun s1 => s.Tracks s1 ∧ s.Quiet s1) False f →
      FlowDef (fun s1 => s.Tracks s1 ∧ s1.occurence = s.occurence) True f :=
    fun f h => flowDef_imp h (fun _ hh => ⟨hh.1, hh.2.1⟩) False.elim
  unfold matchingOccurence
  split
  · trivial
  split
  · rename_i hm
    have hv := hr.2 (Or.inl hm)
    have hn := hr.1 (Or.inl hm)
    obtain ⟨v, hv⟩ := Option.isSome_iff_exists.mp hv
    rw [hv]
    exact setBreak_def p s _ (hq _ (writeLine_def p s alter v toks hn))
  split
  · rename_i hm
    have hn : s.newChunk.isSome = true := by
      rcases hm with h | h
      · exact hr.1 (Or.inr (Or.inl h))
      · exact hr.1 (Or.inr (Or.inr (Or.inr (Or.inl h))))
    split
    · split
      · exact hq _ (writeLine_def p s alter _ toks hn)
      · exact ⟨tracks_refl s, rfl⟩
    · exact ⟨tracks_refl s, rfl⟩
  split
  · exact setBreak_def p s _ ⟨tracks_refl s, rfl⟩
  split
  · rename_i hm
    exact setBreak_def p s _ (hq _ (writeLine_def p s alter _ toks
      (hr.1 (Or.inr (Or.inr (Or.inl hm))))))
  split
  · rename_i hm
    have hv := hr.2 (Or.inr (Or.inr (Or.inr hm)))
    have hn := hr.1 (Or.inr (Or.inr (Or.inr (Or.inr hm))))
    obtain ⟨v, hv⟩ := Option.isSome_iff_exists.mp hv
    obtain ⟨c, hc⟩ := Option.isSome_iff_exists.mp hn
    simp only [hv, hc]
    exact ⟨⟨rfl, rfl, rfl, rfl, rfl, by simp [hc], by simp [hv]⟩, rfl⟩
  split
  · simp only
    split
    · exact ⟨⟨rfl, rfl, rfl, rfl, rfl, rfl, by simp⟩, rfl⟩
    · trivial
  split
  · simp only
    split
    · exact ⟨⟨rfl, rfl, rfl, rfl, rfl, rfl, by simp⟩, rfl⟩
    · trivial
  · exact ⟨tracks_refl s, rfl⟩

theorem incOccurence_def (f : Flow) (P : Scan → Prop) (Q : Scan → Prop) (R R1 : Prop)
    (h : FlowDef P R f)
    (hPQ : ∀ s1, P s1 → Q { s1 with occurence := s1.occurence + 1 }) (hR : R → R1) :
    FlowDef Q R1 (incOccurence f) := by
  cases f with
  | cont s1 a => exact hPQ s1 h
  | ret s1 v => exact hR h
  | undefined => exact h

/-- A line that is no strict match and does not make the scan compare a NULL keyword
takes the path of lines 953-962. -/
theorem dispatch_nonstrict (lp : LineParser) (p : Params) (s : Scan) (alter : Bool)
    (toks : List CStr) (curLine lineText : CStr) (linePos : Nat) (eolPos1 : Int)
    (parent keyWord : CStr) (hP : p.expectedParent = some parent)
    (hK : p.keyWord = some keyWord) (hbk : p.breakKeyword = none) (hmode : p.mode ≥ 0)
    (hd : 0 < p.depth) (hne : s.parents ≠ [])
    (hM : ¬ (toks.head? = some keyWord ∧ (s.parents.length : Int) = p.depth ∧
        s.parents.getLast?.map Prod.snd = some parent))
    (hnt : ¬ (toks = [] ∧ (s.parents.length : Int) = p.depth ∧
        s.parents.getLast?.map Prod.snd = some parent)) :
    dispatch lp p s alter toks curLine lineText linePos eolPos1 =
      nonStrictFlow p s alter curLine := by
  rcases (dispatch_cases lp p s alter toks curLine lineText linePos eolPos1 parent keyWord
    hP hK hbk hmode hd).2.1 hne hM with h | h
  · exfalso
    cases toks with
    | nil =>
      by_cases h2 : (s.parents.length : Int) = p.depth
      · by_cases h3 : s.parents.getLast?.map Prod.snd = some parent
        · exact hnt ⟨rfl, h2, h3⟩
        · have hm : ¬ (p.mode < 0) := by omega
          have h1 : ¬ (p.depth = -1) := by omega
          unfold dispatch at h
          cases hl : s.parents.getLast? with
          | none => rw [hl] at h; simp at h
          | some cp =>
            rw [hl] at h h3
            have h3' : ¬ (cp.2 = parent) := by simpa using h3
            simp [IsMatchingParsedLine, hP, hK, hbk, h1, h2.symm, h3', hm] at h
            split at h <;> simp at h
      · have := dispatch_other_depth lp p s alter [] curLine lineText linePos eolPos1 hbk
          hmode hd hne h2
        rw [this] at h
        unfold nonStrictFlow at h
        split at h <;> simp at h
    | cons t ts =>
      exact dispatch_defined lp p s alter t ts curLine lineText linePos eolPos1 parent keyWord
        hP hK hbk hmode hd hM h
  · exact h

/-- The dispatch of a line is defined when the line does not make the scan compare a
NULL keyword; what it leaves when it goes on. -/
theorem dispatch_def_pos (lp : LineParser) (p : Params) (s : Scan) (alter : Bool)
    (toks : List CStr) (curLine lineText : CStr) (linePos : Nat) (eolPos1 : Int)
    (parent keyWord : CStr) (hP : p.expectedParent = some parent)
    (hK : p.keyWord = some keyWord) (hbk : p.breakKeyword = none) (hmode : p.mode ≥ 0)
    (hd : 0 < p.depth) (hr : s.Ready p)
    (hnt : ¬ (toks = [] ∧ (s.parents.length : Int) = p.depth ∧
        s.parents.getLast?.map Prod.snd = some parent)) :
    FlowDef (fun s1 => s.Tracks s1 ∧
      s1.occurence = s.occurence +
        (if (toks.head? = some keyWord ∧ (s.parents.length : Int) = p.depth ∧
          s.parents.getLast?.map Prod.snd = some parent) then 1 else 0) ∧
      (¬ ((toks.head? = some keyWord ∧ (s.parents.length : Int) = p.depth ∧
          s.parents.getLast?.map Prod.snd = some parent) ∧
          (p.occurence = s.occurence ∨ p.occurence = -1)) →
        s1.subChunkKeyword = s.subChunkKeyword ∧ s1.e = s.e))
      (((toks.head? = some keyWord ∧ (s.parents.length : Int) = p.depth ∧
          s.parents.getLast?.map Prod.snd = some parent) ∧
          (p.occurence = s.occurence ∨ p.occurence = -1)) ∨
        p.mode = SNM_GETALL_CHUNK_CHAR_EXCEPT)
      (dispatch lp p s alter toks curLine lineText linePos eolPos1) := by
  obtain ⟨h1, -, h3⟩ := dispatch_cases lp p s alter toks curLine lineText linePos eolPos1
    parent keyWord hP hK hbk hmode hd
  by_cases hM : (toks.head? = some keyWord ∧ (s.parents.length : Int) = p.depth ∧
      s.parents.getLast?.map Prod.snd = some parent)
  · rw [h3 hM]
    simp only [hM, if_true, true_and]
    by_cases hit : p.occurence = s.occurence ∨ p.occurence = -1
    · rw [if_pos hit]
      refine incOccurence_def _ _ _ _ _ (matchingOccurence_def lp p s alter toks curLine
        lineText linePos eolPos1 (currentParentId s) keyWord hr) ?_ (fun _ => Or.inl hit)
      intro s1 hs1
      exact ⟨⟨hs1.1.1, hs1.1.2.1, hs1.1.2.2.1, hs1.1.2.2.2.1, hs1.1.2.2.2.2.1,
        hs1.1.2.2.2.2.2.1, hs1.1.2.2.2.2.2.2⟩, by simp only; rw [hs1.2],
        fun hn => absurd hit hn⟩
    · rw [if_neg hit]
      refine incOccurence_def _ _ _ _ _ (otherOccurence_def lp p s alter toks hr) ?_
        (fun h => Or.inr h)
      intro s1 hs1
      exact ⟨⟨hs1.1.1, hs1.1.2.1, hs1.1.2.2.1, hs1.1.2.2.2.1, hs1.1.2.2.2.2.1,
        hs1.1.2.2.2.2.2.1, hs1.1.2.2.2.2.2.2⟩, by simp only; rw [hs1.2.1],
        fun _ => ⟨hs1.2.2.1, hs1.2.2.2⟩⟩
  · simp only [hM, if_false, Nat.add_zero, false_and, not_false_eq_true, true_implies]
    by_cases hne : s.parents = []
    · rw [h1 hne]
      exact ⟨tracks_refl s, rfl, rfl, rfl⟩
    · rw [dispatch_nonstrict lp p s alter toks curLine lineText linePos eolPos1 parent keyWord
        hP hK hbk hmode hd hne hM hnt]
      unfold nonStrictFlow
      split
      · refine ⟨⟨rfl, rfl, rfl, rfl, rfl, rfl, ?_⟩, rfl, rfl, rfl⟩
        simp only
        split
        · simp
        · rfl
      · exact ⟨tracks_refl s, rfl, rfl, rfl⟩

/-- At a depth that no line has (zero or negative) every line takes the path of lines
953-962. -/
theorem dispatch_low (lp : LineParser) (p : Params) (s : Scan) (alter : Bool)
    (toks : List CStr) (curLine lineText : CStr) (linePos : Nat) (eolPos1 : Int)
    (hbk : p.breakKeyword = none) (hmode : p.mode ≥ 0) (hd : p.depth ≤ 0)
    (hne : s.parents ≠ []) :
    dispatch lp p s alter toks curLine lineText linePos eolPos1 =
      nonStrictFlow p s alter curLine := by
  have hm : ¬ (p.mode < 0) := by omega
  have hlen : 0 < s.parents.length := List.length_pos.mpr hne
  have h2 : ¬ (p.depth = (s.parents.length : Int)) := by omega
  unfold dispatch
  cases hl : s.parents.getLast? with
  | none => exact absurd (List.getLast?_eq_none_iff.mp hl) hne
  | some cp =>
    by_cases h1 : p.depth = -1
    · simp [IsMatchingParsedLine, h1, hm, hbk, nonStrictFlow]
    · simp [IsMatchingParsedLine, h1, h2, hm, hbk, nonStrictFlow]

/-- The dispatch of a line is defined when the line does not make the scan compare a
NULL keyword, at every searched depth. -/
theorem dispatch_def (lp : LineParser) (p : Params) (s : Scan) (alter : Bool)
    (toks : List CStr) (curLine lineText : CStr) (linePos : Nat) (eolPos1 : Int)
    (parent keyWord : CStr) (hP : p.expectedParent = some parent)
    (hK : p.keyWord = some keyWord) (hbk : p.breakKeyword = none) (hmode : p.mode ≥ 0)
    (hr : s.Ready p)
    (hnt : ¬ (toks = [] ∧ (s.parents.length : Int) = p.depth ∧
        s.parents.getLast?.map Prod.snd = some parent)) :
    FlowDef (fun s1 => s.Tracks s1 ∧
      s1.occurence = s.occurence +
        (if (toks.head? = some keyWord ∧ (s.parents.length : Int) = p.depth ∧
          s.parents.getLast?.map Prod.snd = some parent) then 1 else 0) ∧
      (¬ ((toks.head? = some keyWord ∧ (s.parents.length : Int) = p.depth ∧
          s.parents.getLast?.map Prod.snd = some parent) ∧
          (p.occurence = s.occurence ∨ p.occurence = -1)) →
        s1.subChunkKeyword = s.subChunkKeyword ∧ s1.e = s.e))
      (((toks.head? = some keyWord ∧ (s.parents.length : Int) = p.depth ∧
          s.parents.getLast?.map Prod.snd = some parent) ∧
          (p.occurence = s.occurence ∨ p.occurence = -1)) ∨
        p.mode = SNM_GETALL_CHUNK_CHAR_EXCEPT)
      (dispatch lp p s alter toks curLine lineText linePos eolPos1) := by
  by_cases hd : 0 < p.depth
  · exact dispatch_def_pos lp p s alter toks curLine lineText linePos eolPos1 parent keyWord
      hP hK hbk hmode hd hr hnt
  · have hd : p.depth ≤ 0 := by omega
    have hM : ¬ (toks.head? = some keyWord ∧ (s.parents.length : Int) = p.depth ∧
        s.parents.getLast?.map Prod.snd = some parent) := by
      rintro ⟨-, h2, h3⟩
      have : s.parents = [] := by
        apply List.eq_nil_of_length_eq_zero
        omega
      rw [this] at h3
      simp at h3
    simp only [hM, if_false, Nat.add_zero, false_and, not_false_eq_true, true_implies]
    by_cases hne : s.parents = []
    · have : dispatch lp p s alter toks curLine lineText linePos eolPos1 = .cont s alter := by
        unfold dispatch
        rw [hne]
        rfl
      rw [this]
      exact ⟨tracks_refl s, rfl, rfl, rfl⟩
    · rw [dispatch_low lp p s alter toks curLine lineText linePos eolPos1 hbk hmode hd hne]
      unfold nonStrictFlow
      split
      · refine ⟨⟨rfl, rfl, rfl, rfl, rfl, rfl, ?_⟩, rfl, rfl, rfl⟩
        simp only
        split
        · simp
        · rfl
      · exact ⟨tracks_refl s, rfl, rfl, rfl⟩

theorem updateParents_def (p : Params) (s : Scan) (toks : List CStr) (n : Nat)
    (eolPos1 : Int) :
    FlowDef (fun s1 =>
      s1.rest = s.rest ∧ s1.pos = s.pos ∧
      s1.parents = (applyParents s.cursor toks n).parents ∧
      s1.allocs = (applyParents s.cursor toks n).allocs ∧
      noBreak s1.e = noBreak (applyParents s.cursor toks n).e ∧
      s1.newChunk = s.newChunk ∧ s1.value = s.value ∧ s1.occurence = s.occurence ∧
      (s.subChunkKeyword = none →
        s1.subChunkKeyword = none ∧ s1.e = (applyParents s.cursor toks n).e))
      (s.subChunkKeyword ≠ none)
      (updateParents p s toks n eolPos1) := by
  by_cases hc : closesSub p s toks
  · rw [updateParents_close p s toks n eolPos1 hc]
    obtain ⟨hh, hsome, -, -⟩ := hc
    have hsub : ¬ (s.subChunkKeyword = none) := by
      intro h
      rw [h] at hsome
      simp at hsome
    match toks with
    | [] => simp at hh
    | [] :: tail => simp at hh
    | (ch :: name) :: tail =>
      simp at hh
      subst hh
      split
      · exact ⟨rfl, rfl, rfl, rfl, rfl, rfl, rfl, rfl, fun h => absurd h hsub⟩
      · split
        · exact hsub
        · exact ⟨rfl, rfl, rfl, rfl, rfl, rfl, rfl, rfl, fun h => absurd h hsub⟩
  · rw [updateParents_open p s toks n eolPos1 hc]
    exact ⟨(applyParents_rest _ _ _).1, (applyParents_rest _ _ _).2, rfl, rfl, rfl, rfl, rfl,
      rfl, fun h => ⟨h, rfl⟩⟩

theorem skipState_facts (p : Params) (s : Scan) (e1 : SNM_ChunkParserPatcher)
    (k : Option Nat) :
    (skipState p s e1 k).e = e1 ∧ (skipState p s e1 k).rest = s.rest ∧
    (skipState p s e1 k).pos = s.pos ∧ (skipState p s e1 k).parents = s.parents ∧
    (skipState p s e1 k).allocs = s.allocs ∧
    (skipState p s e1 k).occurence = s.occurence ∧
    (skipState p s e1 k).subChunkKeyword = s.subChunkKeyword ∧
    (skipState p s e1 k).newChunk.isSome = s.newChunk.isSome ∧
    (skipState p s e1 k).value.isSome = s.value.isSome := by
  cases k with
  | none => exact ⟨rfl, rfl, rfl, rfl, rfl, rfl, rfl, rfl, rfl⟩
  | some n =>
    refine ⟨rfl, rfl, rfl, rfl, rfl, rfl, rfl, ?_, ?_⟩
    · simp only [skipState, copySkipped]
      split <;> simp
    · simp only [skipState, copySkipped]
      split <;> simp

theorem finishLine_keeps (p : Params) (s : Scan) (alter : Bool) (toks : List CStr)
    (curLine : CStr) :
    s.Tracks (finishLine p s alter toks curLine) ∧
    (finishLine p s alter toks curLine).occurence = s.occurence ∧
    (finishLine p s alter toks curLine).subChunkKeyword = s.subChunkKeyword ∧
    (finishLine p s alter toks curLine).e = s.e := by
  refine ⟨⟨rfl, rfl, rfl, rfl, rfl, ?_, rfl⟩, rfl, rfl, rfl⟩
  simp only [finishLine]
  split <;> simp

/-- One iteration on a line that does not make the scan compare a NULL keyword is
defined, whatever the mode and whether or not a sub-chunk is being processed. -/
theorem iteration_defined (lp : LineParser) (p : Params) (s : Scan) (ev : LineEvent)
    (c1 : Cursor) (parent keyWord : CStr) (hP : p.expectedParent = some parent)
    (hK : p.keyWord = some keyWord) (hbk : p.breakKeyword = none) (hmode : p.mode ≥ 0)
    (hb : s.e.m_breakParsePatch = false)
    (hw : walkStep lp s.cursor = .line ev c1) (hr : s.Ready p)
    (hnt : ¬ ev.Tokenless p.depth parent) :
    match iteration lp p s with
    | .next s1 => s.After p parent keyWord ev c1 s1
    | .ret _ _ => s.subChunkKeyword = none →
        (ev.Matches p.depth parent keyWord ∧
          (p.occurence = s.occurence ∨ p.occurence = -1)) ∨
        p.mode = SNM_GETALL_CHUNK_CHAR_EXCEPT
    | _ => False := by
  obtain ⟨e1, k, hit, hsk, hpos, hparse, hc1, hb1, heng, hdrop⟩ :=
    iteration_line lp p s ev c1 hb hw
  obtain ⟨f1, f2, f3, f4, f5, f6, f7, f8, f9⟩ := skipState_facts p s e1 k
  have hpar : ev.parents = c1.parents.map Prod.snd := (walkStep_line hw).2.2.2.2
  rw [hit]
  unfold processLine
  simp only [hparse]
  cases ht : ev.toks with
  | none =>
    rw [ht] at hc1
    simp only at hc1
    have hnm : ¬ ev.Matches p.depth parent keyWord := by simp [LineEvent.Matches, ht]
    simp only
    refine ⟨by rw [hc1]; rfl, by rw [hc1]; simp [Cursor.behind, f3, hpos], by rw [hc1]; exact f4,
      by rw [hc1]; exact f5, by rw [hc1]; simp [Cursor.behind, f1], ?_, ?_, ?_, f8, f9⟩
    · exact ⟨fun ha => by
        show (skipState p s e1 k).newChunk.isSome = true
        rw [f8]; exact hr.1 ha, fun hv => by
        show (skipState p s e1 k).value.isSome = true
        rw [f9]; exact hr.2 hv⟩
    · simp only [hnm, if_false, Nat.add_zero]
      exact f6
    · intro hsub _
      exact ⟨f7.trans hsub, by rw [hc1]; simp [Cursor.behind, f1]⟩
  | some toks =>
    rw [ht] at hc1
    simp only at hc1
    simp only
    obtain ⟨s0, hs0⟩ : ∃ s0 : Scan, s0 = { skipState p s e1 k with
        rest := ev.after,
        pos := (skipState p s e1 k).pos + k.getD 0 + ev.line.length + 1 } := ⟨_, rfl⟩
    have hcur : s0.cursor = s.cursor.behind e1 ev := by
      rw [hs0]
      simp [Scan.cursor, Cursor.behind, f1, f3, f4, f5, hpos]
    have hr0 : s0.Ready p := by
      rw [hs0]
      exact ⟨fun ha => by
        show (skipState p s e1 k).newChunk.isSome = true
        rw [f8]; exact hr.1 ha, fun hv => by
        show (skipState p s e1 k).value.isSome = true
        rw [f9]; exact hr.2 hv⟩
    have hu := updateParents_def p s0 toks ev.line.length
      (((skipState p s e1 k).pos + k.getD 0 + ev.line.length + 1 : Nat) : Int)
    rw [hcur, ← hc1] at hu
    rw [← hs0]
    cases hup : updateParents p s0 toks ev.line.length
        (((skipState p s e1 k).pos + k.getD 0 + ev.line.length + 1 : Nat) : Int) with
    | ret s1 v =>
      rw [hup] at hu
      simp only
      intro hsub
      exact absurd ((by rw [hs0]; exact f7 : s0.subChunkKeyword = s.subChunkKeyword).trans hsub)
        hu
    | undefined => rw [hup] at hu; exact hu
    | cont s1 a1 =>
      rw [hup] at hu
      obtain ⟨u1, u2, u3, u4, u5, u6, u7, u8, u9⟩ := hu
      have hr1 : s1.Ready p :=
        ⟨fun ha => by rw [u6]; exact hr0.1 ha, fun hv => by rw [u7]; exact hr0.2 hv⟩
      have hiff := matches_iff hw ht p.depth parent keyWord
      have hnt1 : ¬ (toks = [] ∧ (s1.parents.length : Int) = p.depth ∧
          s1.parents.getLast?.map Prod.snd = some parent) := by
        rintro ⟨h1, h2, h3⟩
        apply hnt
        refine ⟨by rw [ht, h1], ?_, ?_⟩
        · rw [hpar, List.length_map, ← u3]; exact h2
        · rw [hpar, getLast?_map_snd, ← u3]; exact h3
      have hdp := dispatch_def lp p s1 a1 toks (truncLine ev.line)
        ((skipState p s e1 k).rest.drop (k.getD 0)) ((skipState p s e1 k).pos + k.getD 0)
        (((skipState p s e1 k).pos + k.getD 0 + ev.line.length + 1 : Nat) : Int)
        parent keyWord hP hK hbk hmode hr1 hnt1
      simp only
      cases hdi : dispatch lp p s1 a1 toks (truncLine ev.line)
          ((skipState p s e1 k).rest.drop (k.getD 0)) ((skipState p s e1 k).pos + k.getD 0)
          (((skipState p s e1 k).pos + k.getD 0 + ev.line.length + 1 : Nat) : Int) with
      | ret s2 v =>
        rw [hdi] at hdp
        rw [u3] at hdp
        simp only
        intro _
        rcases hdp with h | h
        · left
          refine ⟨hiff.mp h.1, ?_⟩
          have h2 := h.2
          rw [u8] at h2
          have : s0.occurence = s.occurence := by rw [hs0]; exact f6
          rw [this] at h2
          exact h2
        · exact Or.inr h
      | undefined => rw [hdi] at hdp; exact hdp
      | cont s2 a2 =>
        rw [hdi] at hdp
        obtain ⟨⟨d1, d2, d3, d4, d5, d6, d7⟩, d8, d9⟩ := hdp
        obtain ⟨⟨g1, g2, g3, g4, g5, g6, g7⟩, g8, g9, g10⟩ :=
          finishLine_keeps p s2 a2 toks (truncLine ev.line)
        have hc1r : c1.rest = ev.after := (walkStep_line hw).2.2.1
        have hc1p : c1.pos = ev.linePos + ev.line.length + 1 := (walkStep_line hw).2.2.2.1
        have hs0r : s0.rest = ev.after := by rw [hs0]
        have hs0p : s0.pos = ev.linePos + ev.line.length + 1 := by
          rw [hs0]
          simp only [f3, hpos]
        have hs0o : s0.occurence = s.occurence := by rw [hs0]; exact f6
        have hs0s : s0.subChunkKeyword = s.subChunkKeyword := by rw [hs0]; exact f7
        rw [u3] at d8 d9
        simp only
        refine ⟨by rw [g1, d1, u1, hs0r, hc1r], by rw [g2, d2, u2, hs0p, hc1p],
          by rw [g3, d3, u3], by rw [g4, d4, u4], by rw [g5, d5, u5],
          ready_of_tracks ⟨g1, g2, g3, g4, g5, g6, g7⟩
            (ready_of_tracks ⟨d1, d2, d3, d4, d5, d6, d7⟩ hr1), ?_, ?_,
          by rw [g6, d6, u6, hs0]; exact f8, by rw [g7, d7, u7, hs0]; exact f9⟩
        · rw [g8, d8, u8, hs0o]
          by_cases hm : ev.Matches p.depth parent keyWord
          · rw [if_pos (hiff.mpr hm), if_pos hm]
          · rw [if_neg (fun h => hm (hiff.mp h)), if_neg hm]
        · intro hsub hnh
          have hs0n : s0.subChunkKeyword = none := hs0s.trans hsub
          obtain ⟨v1, v2⟩ := u9 hs0n
          have := d9 (by
            rintro ⟨h1, h2⟩
            apply hnh
            refine ⟨hiff.mp h1, ?_⟩
            rw [u8, hs0o] at h2
            exact h2)
          exact ⟨by rw [g9, this.1, v1], by rw [g10, this.2, v2]⟩

theorem noBreak_eq {e e1 : SNM_ChunkParserPatcher} (h : noBreak e = noBreak e1)
    (hb : e.m_breakParsePatch = false) (hb1 : e1.m_breakParsePatch = false) : e = e1 := by
  cases e
  cases e1
  simp only [noBreak, SNM_ChunkParserPatcher.mk.injEq] at h
  simp only at hb hb1
  simp only [SNM_ChunkParserPatcher.mk.injEq]
  simp [h, hb, hb1]

theorem after_cursor {p : Params} {parent keyWord : CStr} {s s1 : Scan} {ev : LineEvent}
    {c1 : Cursor} (h : s.After p parent keyWord ev c1 s1)
    (hb1 : c1.e.m_breakParsePatch = false) (hb : s1.e.m_breakParsePatch = false) :
    s1.cursor = c1 := by
  obtain ⟨h1, h2, h3, h4, h5, -⟩ := h
  have he := noBreak_eq h5 hb hb1
  cases c1
  cases s1
  simp only at h1 h2 h3 h4 he
  simp [Scan.cursor, h1, h2, h3, h4, he]

/-- With the early-exit flag up the loop ends at its next iteration. -/
theorem iteration_flagged (lp : LineParser) (p : Params) (s : Scan)
    (hb : s.e.m_breakParsePatch = true) : ∃ s1, iteration lp p s = .brk s1 := by
  unfold iteration
  cases hsp : splitLine s.rest with
  | none => exact ⟨_, rfl⟩
  | some la =>
    simp only [hb, if_true]
    exact ⟨_, rfl⟩

/-- A scan over a Document whose walk comes to the end of the text, none of whose lines
makes the scan compare a NULL keyword, returns: whatever the built-in mode. -/
theorem scanLoop_defined (lp : LineParser) (p : Params) (parent keyWord : CStr)
    (hP : p.expectedParent = some parent) (hK : p.keyWord = some keyWord)
    (hbk : p.breakKeyword = none) (hmode : p.mode ≥ 0) :
    ∀ (fuel : Nat) (s : Scan) (c : Cursor), s.Ready p →
      c.e.m_breakParsePatch = false →
      (s.e.m_breakParsePatch = false → s.cursor = c) →
      walkEnds lp fuel c = true →
      (∀ ev ∈ walk lp fuel c, ¬ ev.Tokenless p.depth parent) →
      ∃ r, scanLoop lp p fuel s = .ok r := by
  intro fuel
  induction fuel with
  | zero => intro s c _ _ _ he _; simp [walkEnds] at he
  | succ fuel ih =>
    intro s c hr hcb hc he hall
    by_cases hb : s.e.m_breakParsePatch = true
    · obtain ⟨s1, hs1⟩ := iteration_flagged lp p s hb
      exact ⟨(s1, none), by simp only [scanLoop, hs1]⟩
    · have hb : s.e.m_breakParsePatch = false := by simpa using hb
      have hcur := hc hb
      subst hcur
      cases hw : walkStep lp s.cursor with
      | stop =>
        have := (iteration_noLine lp p s hb).1 hw
        exact ⟨(s, none), by simp only [scanLoop, this]⟩
      | undefined => simp [walkEnds, hw] at he
      | fuel => simp [walkEnds, hw] at he
      | line ev c1 =>
        simp only [walkEnds, hw] at he
        simp only [walk, hw, List.mem_cons, forall_eq_or_imp] at hall
        have hb1 : c1.e.m_breakParsePatch = false := (walkStep_break hw).trans hb
        have hdef := iteration_defined lp p s ev c1 parent keyWord hP hK hbk hmode hb hw hr
          hall.1
        cases hit : iteration lp p s with
        | next s1 =>
          rw [hit] at hdef
          rw [scanLoop_next fuel hit]
          exact ih s1 c1 hdef.2.2.2.2.2.1 hb1 (fun h => after_cursor hdef hb1 h) he hall.2
        | brk s1 => rw [hit] at hdef; exact hdef.elim
        | ret s1 v => exact ⟨(s1, some v), by simp only [scanLoop, hit]⟩
        | undefined => rw [hit] at hdef; exact hdef.elim
        | fuel => rw [hit] at hdef; exact hdef.elim

/-- The scan up to the line of the requested occurence: when no line in front of it
makes the scan compare a NULL keyword, the scan reaches that line outside a sub-chunk,
with the early-exit flag down and the occurence counter at the requested occurence. -/
theorem scanLoop_upto (lp : LineParser) (p : Params) (parent keyWord : CStr) (k : Nat)
    (hP : p.expectedParent = some parent) (hK : p.keyWord = some keyWord)
    (hbk : p.breakKeyword = none) (hmode : p.mode ≥ 0)
    (hk : p.occurence = (k : Int)) (hga : p.mode ≠ SNM_GETALL_CHUNK_CHAR_EXCEPT)
    (ev : LineEvent) :
    ∀ (fuel : Nat) (s : Scan) (i : Nat), s.Ready p → s.e.m_breakParsePatch = false →
      s.subChunkKeyword = none →
      (walk lp fuel s.cursor)[i]? = some ev →
      s.occurence + ((walk lp fuel s.cursor).take i).countP
        (fun ev => decide (ev.Matches p.depth parent keyWord)) = k →
      (∀ evl ∈ (walk lp fuel s.cursor).take i, ¬ evl.Tokenless p.depth parent) →
      ∃ (f : Nat) (s1 : Scan) (c1 : Cursor), fuel = i + (f + 1) ∧
        scanLoop lp p fuel s = scanLoop lp p (f + 1) s1 ∧ s1.Ready p ∧
        s1.e.m_breakParsePatch = false ∧ s1.subChunkKeyword = none ∧ s1.occurence = k ∧
        walkStep lp s1.cursor = .line ev c1 ∧
        walk lp f c1 = (walk lp fuel s.cursor).drop (i + 1) ∧
        s1.newChunk.isSome = s.newChunk.isSome ∧ s1.value.isSome = s.value.isSome := by
  intro fuel
  induction fuel with
  | zero => intro s i _ _ _ hev _ _; simp [walk] at hev
  | succ fuel ih =>
    intro s i hr hb hsub hev hcnt hall
    cases hw : walkStep lp s.cursor with
    | stop => simp [walk, hw] at hev
    | undefined => simp [walk, hw] at hev
    | fuel => simp [walk, hw] at hev
    | line ev0 c1 =>
      simp only [walk, hw] at hev hcnt hall ⊢
      cases i with
      | zero =>
        simp only [List.getElem?_cons_zero, Option.some.injEq] at hev
        subst hev
        simp only [List.take_zero, List.countP_nil, Nat.add_zero] at hcnt
        exact ⟨fuel, s, c1, by omega, rfl, hr, hb, hsub, hcnt, hw, by simp, rfl, rfl⟩
      | succ j =>
        simp only [List.getElem?_cons_succ] at hev
        simp only [List.take_succ_cons, List.countP_cons, decide_eq_true_eq] at hcnt
        simp only [List.take_succ_cons, List.mem_cons, forall_eq_or_imp] at hall
        have hb1 : c1.e.m_breakParsePatch = false := (walkStep_break hw).trans hb
        have hdef := iteration_defined lp p s ev0 c1 parent keyWord hP hK hbk hmode hb hw hr
          hall.1
        have hnh : ¬ (ev0.Matches p.depth parent keyWord ∧
            (p.occurence = s.occurence ∨ p.occurence = -1)) := by
          rintro ⟨hm, ho⟩
          simp only [hm, if_true] at hcnt
          rw [hk] at ho
          omega
        cases hit : iteration lp p s with
        | next s1 =>
          rw [hit] at hdef
          obtain ⟨g1, g2⟩ := hdef.2.2.2.2.2.2.2.1 hsub hnh
          have hbs : s1.e.m_breakParsePatch = false := by rw [g2]; exact hb1
          have hcur : s1.cursor = c1 := after_cursor hdef hb1 hbs
          obtain ⟨f, s2, c2, hf, hs2, h3, h4, h5, h6, h7, h8, h9, h10⟩ :=
            ih s1 j hdef.2.2.2.2.2.1 hbs g1
            (by rw [hcur]; exact hev)
            (by rw [hcur, hdef.2.2.2.2.2.2.1]; omega)
            (by rw [hcur]; exact hall.2)
          refine ⟨f, s2, c2, by omega, ?_, h3, h4, h5, h6, h7, ?_,
            h9.trans hdef.2.2.2.2.2.2.2.2.1, h10.trans hdef.2.2.2.2.2.2.2.2.2⟩
          · rw [scanLoop_next fuel hit]
            exact hs2
          · rw [h8, hcur]
            simp
        | brk s1 => rw [hit] at hdef; exact hdef.elim
        | ret s1 v =>
          rw [hit] at hdef
          rcases hdef hsub with h | h
          · exact absurd h hnh
          · exact absurd h hga
        | undefined => rw [hit] at hdef; exact hdef.elim
        | fuel => rw [hit] at hdef; exact hdef.elim

theorem initScan_cursor (e : SNM_ChunkParserPatcher) (p : Params) (value : Option CStr) :
    (initScan e p value).cursor = startCursor e := rfl

theorem initScan_ready (e : SNM_ChunkParserPatcher) (p : Params) (value : Option CStr)
    (h : (AltersLines p.mode → p.write = true) ∧
      ((p.mode = SNM_SET_CHUNK_CHAR ∨ p.mode = SNM_SETALL_CHUNK_CHAR_EXCEPT ∨
        p.mode = SNM_GETALL_CHUNK_CHAR_EXCEPT ∨ p.mode = SNM_REPLACE_SUBCHUNK_OR_LINE) →
        value.isSome = true)) :
    (initScan e p value).Ready p := by
  refine ⟨fun ha => ?_, h.2⟩
  simp [initScan, h.1 ha]

/-- Once an iteration has raised the early-exit flag, the scan returns. -/
theorem scanLoop_flagged (lp : LineParser) (p : Params) (fuel : Nat) (s : Scan)
    (hb : s.e.m_breakParsePatch = true) : scanLoop lp p fuel s ≠ .undefined := by
  cases fuel with
  | zero => simp [scanLoop]
  | succ fuel =>
    obtain ⟨s1, hs1⟩ := iteration_flagged lp p s hb
    simp [scanLoop, hs1]

/-- `ParsePatchCore` is defined when its loop is. -/
theorem ParsePatchCore_defined (lp : LineParser) (e : SNM_ChunkParserPatcher) (p : Params)
    (value : Option CStr)
    (h : scanLoop lp p (e.GetChunk.m_chunk.length + 1) (initScan e.GetChunk p value) ≠
      .undefined) :
    e.ParsePatchCore lp p value ≠ .undefined := by
  unfold ParsePatchCore
  simp only
  cases hs : scanLoop lp p (e.GetChunk.m_chunk.length + 1) (initScan e.GetChunk p value) with
  | ok sr =>
    obtain ⟨s, r⟩ := sr
    cases r <;> simp
  | undefined => exact absurd hs h
  | outOfFuel => simp

theorem ParsePatchCore_brk (lp : LineParser) (e : SNM_ChunkParserPatcher) (p : Params)
    (value : Option CStr) (s : Scan)
    (h : scanLoop lp p (e.GetChunk.m_chunk.length + 1) (initScan e.GetChunk p value) =
      .ok (s, none)) :
    e.ParsePatchCore lp p value =
      .ok { engine := updateCache p s, ret := returnValue p s.updates s.occurence,
            value := s.value } := by
  unfold ParsePatchCore
  simp only [h]

theorem ParsePatchCore_ret (lp : LineParser) (e : SNM_ChunkParserPatcher) (p : Params)
    (value : Option CStr) (s : Scan) (v : Int)
    (h : scanLoop lp p (e.GetChunk.m_chunk.length + 1) (initScan e.GetChunk p value) =
      .ok (s, some v)) :
    e.ParsePatchCore lp p value = .ok { engine := s.e, ret := v, value := s.value } := by
  unfold ParsePatchCore
  simp only [h]

theorem toggle_scanLoop_defined (lp : LineParser) (depth : Int) (parent keyWord : CStr)
    (k : Nat) (tokenPos : Int) (valueExcept : Option CStr) (ev : LineEvent)
    (toks : List CStr) (hm : ev.Matches depth parent keyWord) (ht : ev.toks = some toks)
    (hne : gettoken_str toks tokenPos ≠ toggleValue lp toks tokenPos)
    (hin : 0 ≤ tokenPos ∧ tokenPos < toks.length)
    (fuel : Nat) (s : Scan) (i : Nat)
    (hr : s.Ready (toggleParams depth parent keyWord k tokenPos valueExcept))
    (hb : s.e.m_breakParsePatch = false) (hsub : s.subChunkKeyword = none)
    (hev : (walk lp fuel s.cursor)[i]? = some ev)
    (hcnt : s.occurence + ((walk lp fuel s.cursor).take i).countP
      (fun ev => decide (ev.Matches depth parent keyWord)) = k)
    (hall : ∀ evl ∈ (walk lp fuel s.cursor).take i, ¬ evl.Tokenless depth parent) :
    scanLoop lp (toggleParams depth parent keyWord k tokenPos valueExcept) fuel s ≠
      .undefined := by
  obtain ⟨f, s1, c1, -, hs, hr1, hb1, hsub1, hocc, hw, -, -, -⟩ :=
    scanLoop_upto lp (toggleParams depth parent keyWord k tokenPos valueExcept) parent keyWord
      k rfl rfl rfl (by show SNM_TOGGLE_CHUNK_INT ≥ 0; decide) rfl
      (by show SNM_TOGGLE_CHUNK_INT ≠ SNM_GETALL_CHUNK_CHAR_EXCEPT; decide) ev fuel s i hr hb
      hsub hev hcnt hall
  rw [hs]
  obtain ⟨c, hc⟩ := Option.isSome_iff_exists.mp
    (hr1.1 (Or.inr (Or.inr (Or.inl rfl))))
  have hit := iteration_normal lp (toggleParams depth parent keyWord k tokenPos valueExcept) s1
    hb1 hsub1
  rw [hw] at hit
  simp only at hit
  rw [toggle_onLine_target lp depth parent keyWord k tokenPos valueExcept s1 ev c1 c toks hw
    hsub1 hc hm hocc ht hne hin] at hit
  rw [scanLoop_next f hit]
  exact scanLoop_flagged lp _ f _ rfl

/-- A toggle of occurence `k` returns when no line in front of the target line makes
the scan compare a NULL keyword: what it leaves then. -/
theorem toggle_core_ok (lp : LineParser) (e : SNM_ChunkParserPatcher) (depth : Int)
    (parent keyWord : CStr) (k : Nat) (tokenPos : Int) (value valueExcept : Option CStr)
    (i : Nat) (ev : LineEvent) (toks : List CStr)
    (hb : e.m_breakParsePatch = false)
    (hev : (documentLines lp e)[i]? = some ev)
    (hm : ev.Matches depth parent keyWord)
    (hcnt : ((documentLines lp e).take i).countP
      (fun ev => decide (ev.Matches depth parent keyWord)) = k)
    (ht : ev.toks = some toks)
    (hne : gettoken_str toks tokenPos ≠ toggleValue lp toks tokenPos)
    (hin : 0 ≤ tokenPos ∧ tokenPos < toks.length)
    (hall : ∀ evl ∈ (documentLines lp e).take i, ¬ evl.Tokenless depth parent) :
    ∃ r, e.ParsePatchCore lp (toggleParams depth parent keyWord k tokenPos valueExcept)
        value = .ok r ∧
      r.ret = 1 ∧ r.engine.m_updates = e.m_updates + 1 ∧
      r.engine.m_chunk = rebuiltLines ((documentLines lp e).take i) ++
        (ev.skipped ++ emitTokens (toggleValue lp toks tokenPos) tokenPos toks 0) ++
        keptTail ev.after ∧
      r.engine.m_breakParsePatch = false := by
  have hc := toggle_core lp e depth parent keyWord k tokenPos value valueExcept i ev toks hb
    hev hm hcnt ht hne hin
  have hdef := ParsePatchCore_defined lp e
    (toggleParams depth parent keyWord k tokenPos valueExcept) value
    (toggle_scanLoop_defined lp depth parent keyWord k tokenPos valueExcept ev toks hm ht hne
      hin _ _ i (initScan_ready _ _ _ ⟨fun _ => rfl, fun h =>
        absurd (show SNM_TOGGLE_CHUNK_INT = SNM_SET_CHUNK_CHAR ∨
          SNM_TOGGLE_CHUNK_INT = SNM_SETALL_CHUNK_CHAR_EXCEPT ∨
          SNM_TOGGLE_CHUNK_INT = SNM_GETALL_CHUNK_CHAR_EXCEPT ∨
          SNM_TOGGLE_CHUNK_INT = SNM_REPLACE_SUBCHUNK_OR_LINE from h) (by decide)⟩)
      ((GetChunk_break e).trans hb) rfl hev (by
        have : (initScan e.GetChunk (toggleParams depth parent keyWord k tokenPos valueExcept)
          value).occurence = 0 := rfl
        rw [this, Nat.zero_add]
        exact hcnt) hall)
  cases hr : e.ParsePatchCore lp (toggleParams depth parent keyWord k tokenPos valueExcept)
      value with
  | ok r =>
    rw [hr] at hc
    exact ⟨r, rfl, hc⟩
  | undefined => exact absurd hr hdef
  | outOfFuel => rw [hr] at hc; exact hc.elim

theorem documentEnds_iff (lp : LineParser) (e : SNM_ChunkParserPatcher) :
    documentEnds lp e = walkEnds lp (e.GetChunk.m_chunk.length + 1) (startCursor e.GetChunk) :=
  rfl

/-- At depth -1 the dispatch is defined unless a keyword and an early-stop keyword are
given and the line, inside an element, has no token (l.949 compares its NULL keyword
with the early-stop keyword). -/
theorem anyDepth_dispatch_def (lp : LineParser) (p : Params) (s : Scan) (alter : Bool)
    (toks : List CStr) (curLine lineText : CStr) (linePos : Nat) (eolPos1 : Int)
    (hd : p.depth = -1) (hm : 0 ≤ p.mode) (hsub : s.subChunkKeyword = none)
    (hnt : ¬ (toks = [] ∧ s.parents ≠ [] ∧ p.keyWord.isSome = true ∧
      p.breakKeyword.isSome = true)) :
    dispatch lp p s alter toks curLine lineText linePos eolPos1 = .cont s alter ∨
    dispatch lp p s alter toks curLine lineText linePos eolPos1 =
      .cont { s with e := { s.e with m_breakParsePatch := true } } alter := by
  rcases anyDepth_dispatch lp p s alter toks curLine lineText linePos eolPos1 hd hm hsub
    with h | h | h
  · exfalso
    have hm2 : ¬ (p.mode < 0) := by omega
    unfold dispatch at h
    cases hl : s.parents.getLast? with
    | none => rw [hl] at h; simp at h
    | some cp =>
      have hne : s.parents ≠ [] := by
        intro h0
        rw [h0] at hl
        simp at hl
      rw [hl] at h
      simp only [IsMatchingParsedLine, hd, if_true, hm2, and_false, if_false, hsub,
        Option.isSome_none, Bool.false_eq_true, true_and, false_and] at h
      by_cases hk : p.keyWord.isSome = true ∧ p.breakKeyword.isSome = true
      · rw [if_pos hk] at h
        cases toks with
        | nil => exact hnt ⟨rfl, hne, hk.1, hk.2⟩
        | cons t ts =>
          simp only [List.head?_cons] at h
          split at h <;> simp at h
      · rw [if_neg hk] at h
        simp at h
  · exact Or.inl h
  · exact Or.inr h

/-- A scan at depth -1 returns when the walk comes to the end of the text and, if a
keyword and an early-stop keyword are given, no line inside an element is without
token. -/
theorem anyDepth_scanLoop_defined (lp : LineParser) (p : Params) (hd : p.depth = -1)
    (hm : 0 ≤ p.mode) :
    ∀ (fuel : Nat) (s : Scan) (c : Cursor), s.subChunkKeyword = none →
      (s.e.m_breakParsePatch = false → s.cursor = c) →
      walkEnds lp fuel c = true →
      (p.keyWord.isSome = true → p.breakKeyword.isSome = true →
        ∀ ev ∈ walk lp fuel c, ev.toks = some [] → ev.parents = []) →
      ∃ r, scanLoop lp p fuel s = .ok r := by
  intro fuel
  induction fuel with
  | zero => intro s c _ _ he _; simp [walkEnds] at he
  | succ fuel ih =>
    intro s c hsub hc he hall
    by_cases hb : s.e.m_breakParsePatch = true
    · obtain ⟨s1, hs1⟩ := iteration_flagged lp p s hb
      exact ⟨(s1, none), by simp only [scanLoop, hs1]⟩
    · have hb : s.e.m_breakParsePatch = false := by simpa using hb
      have hcur := hc hb
      subst hcur
      have hit := iteration_normal lp p s hb hsub
      cases hw : walkStep lp s.cursor with
      | stop =>
        rw [hw] at hit
        exact ⟨(s, none), by simp only [scanLoop, hit]⟩
      | undefined => simp [walkEnds, hw] at he
      | fuel => simp [walkEnds, hw] at he
      | line ev c1 =>
        rw [hw] at hit
        simp only at hit
        simp only [walkEnds, hw] at he
        have hall1 : p.keyWord.isSome = true → p.breakKeyword.isSome = true →
            ∀ ev ∈ walk lp fuel c1, ev.toks = some [] → ev.parents = [] := by
          intro h1 h2 ev' hev'
          exact hall h1 h2 ev' (by simp only [walk, hw]; exact List.mem_cons_of_mem _ hev')
        have hev0 : p.keyWord.isSome = true → p.breakKeyword.isSome = true →
            ev.toks = some [] → ev.parents = [] := by
          intro h1 h2
          exact hall h1 h2 ev (by simp only [walk, hw]; exact List.mem_cons_self _ _)
        have hpar : ev.parents = c1.parents.map Prod.snd := (walkStep_line hw).2.2.2.2
        unfold Scan.onLine at hit
        cases ht : ev.toks with
        | none =>
          rw [ht] at hit
          simp only at hit
          rw [scanLoop_next fuel hit]
          exact ih _ c1 hsub (fun _ => by cases s; rfl) he hall1
        | some toks =>
          rw [ht] at hit
          simp only at hit
          have hnt : ¬ (toks = [] ∧ (s.atLine p ev c1).parents ≠ [] ∧
              p.keyWord.isSome = true ∧ p.breakKeyword.isSome = true) := by
            rintro ⟨h1, h2, h3, h4⟩
            have := hev0 h3 h4 (by rw [ht, h1])
            rw [hpar] at this
            have h5 : c1.parents = [] := by simpa using this
            exact h2 h5
          rcases anyDepth_dispatch_def lp p (s.atLine p ev c1) false toks (truncLine ev.line)
            (ev.line ++ '\n' :: ev.after) ev.linePos
            ((ev.linePos + ev.line.length + 1 : Nat) : Int) hd hm hsub hnt with h | h
          · rw [h] at hit
            simp only at hit
            rw [scanLoop_next fuel hit]
            exact ih _ c1 hsub (fun _ => by cases s; rfl) he hall1
          · rw [h] at hit
            simp only at hit
            rw [scanLoop_next fuel hit]
            exact ih _ c1 hsub (fun hf => by
              have : (finishLine p { s.atLine p ev c1 with
                e := { (s.atLine p ev c1).e with m_breakParsePatch := true } } false toks
                (truncLine ev.line)).e.m_breakParsePatch = true := rfl
              rw [this] at hf
              cases hf) he hall1

theorem set_scanLoop_returns (lp : LineParser) (depth : Int) (parent keyWord : CStr)
    (k : Nat) (tokenPos : Int) (valueExcept : Option CStr) (ev : LineEvent)
    (toks : List CStr) (hm : ev.Matches depth parent keyWord) (ht : ev.toks = some toks)
    (fuel : Nat) (s : Scan) (i : Nat)
    (hr : s.Ready (setParams depth parent keyWord k tokenPos valueExcept))
    (hb : s.e.m_breakParsePatch = false) (hsub : s.subChunkKeyword = none)
    (hev : (walk lp fuel s.cursor)[i]? = some ev)
    (hcnt : s.occurence + ((walk lp fuel s.cursor).take i).countP
      (fun ev => decide (ev.Matches depth parent keyWord)) = k)
    (hall : ∀ evl ∈ (walk lp fuel s.cursor).take i, ¬ evl.Tokenless depth parent) :
    scanLoop lp (setParams depth parent keyWord k tokenPos valueExcept) fuel s ≠
      .undefined := by
  have hd : 0 < depth := matches_depth_pos hm
  obtain ⟨f, s1, c1, -, hs, hr1, hb1, hsub1, hocc, hw, -, -, -⟩ :=
    scanLoop_upto lp (setParams depth parent keyWord k tokenPos valueExcept) parent keyWord
      k rfl rfl rfl (by show SNM_SET_CHUNK_CHAR ≥ 0; decide) rfl
      (by show SNM_SET_CHUNK_CHAR ≠ SNM_GETALL_CHUNK_CHAR_EXCEPT; decide) ev fuel s i hr hb
      hsub hev hcnt hall
  rw [hs]
  obtain ⟨c, hc⟩ := Option.isSome_iff_exists.mp (hr1.1 (Or.inl rfl))
  obtain ⟨v, hv⟩ := Option.isSome_iff_exists.mp (hr1.2 (Or.inl rfl))
  have hit := iteration_normal lp (setParams depth parent keyWord k tokenPos valueExcept) s1
    hb1 hsub1
  rw [hw] at hit
  simp only at hit
  rw [set_onLine_target lp depth parent keyWord k tokenPos valueExcept s1 ev c1 c v toks hd hw
    hsub1 hc hv hm hocc ht] at hit
  rw [scanLoop_next f hit]
  exact scanLoop_flagged lp _ f _ rfl

/-- A set of occurence `k` returns when no line in front of the target line makes the
scan compare a NULL keyword: what it leaves then. -/
theorem set_core_returns (lp : LineParser) (e : SNM_ChunkParserPatcher) (depth : Int)
    (parent keyWord : CStr) (k : Nat) (tokenPos : Int) (v : CStr) (valueExcept : Option CStr)
    (i : Nat) (ev : LineEvent) (toks : List CStr)
    (hb : e.m_breakParsePatch = false)
    (hev : (documentLines lp e)[i]? = some ev)
    (hm : ev.Matches depth parent keyWord)
    (hcnt : ((documentLines lp e).take i).countP
      (fun ev => decide (ev.Matches depth parent keyWord)) = k)
    (ht : ev.toks = some toks)
    (hall : ∀ evl ∈ (documentLines lp e).take i, ¬ evl.Tokenless depth parent) :
    ∃ r, e.ParsePatchCore lp (setParams depth parent keyWord k tokenPos valueExcept)
        (some v) = .ok r ∧
      (isWritten v tokenPos toks = true → r.ret = 1 ∧ r.engine.m_updates = e.m_updates + 1 ∧
        r.engine.m_chunk = rebuiltLines ((documentLines lp e).take i) ++
          (ev.skipped ++ emitTokens v tokenPos toks 0) ++ keptTail ev.after) ∧
      (isWritten v tokenPos toks = false → r.ret = 0 ∧ r.engine.m_updates = e.m_updates ∧
        r.engine.m_chunk = e.GetChunk.m_chunk) := by
  have hc := set_core lp e depth parent keyWord k tokenPos v valueExcept i ev toks hb
    (matches_depth_pos hm) hev hm hcnt ht
  have hdef := ParsePatchCore_defined lp e
    (setParams depth parent keyWord k tokenPos valueExcept) (some v)
    (set_scanLoop_returns lp depth parent keyWord k tokenPos valueExcept ev toks hm ht
      _ _ i (initScan_ready _ _ _ ⟨fun _ => rfl, fun _ => rfl⟩)
      ((GetChunk_break e).trans hb) rfl hev (by
        have : (initScan e.GetChunk (setParams depth parent keyWord k tokenPos valueExcept)
          (some v)).occurence = 0 := rfl
        rw [this, Nat.zero_add]
        exact hcnt) hall)
  cases hr : e.ParsePatchCore lp (setParams depth parent keyWord k tokenPos valueExcept)
      (some v) with
  | ok r =>
    rw [hr] at hc
    exact ⟨r, rfl, hc⟩
  | undefined => exact absurd hr hdef
  | outOfFuel => rw [hr] at hc; exact hc.elim

/-- C12 (amended): when line `i` of the Document (the lines outside the opaque regions,
in order) is occurence `k` of the lines with keyword `keyWord` at depth `depth` under
`parent`, and no line in front of it is a line without token at that depth under that
parent, a set of token `tokenPos` to `v` (`SNM_SET_CHUNK_CHAR`) returns and does this.
If `v` differs from the token and the index is in range, it returns 1, adds one to the
update counter and leaves as cached Document: the rebuild of the lines before (each
opaque region kept; each line with a token copied, cut to 8191 bytes; the other lines
dropped), the targeted line as its tokens re-emitted with only the target token
replaced, and the text behind the line if it still holds a newline. If `v` equals the
token, or the index is out of range, it returns 0 and the cached Document and the
counter are unchanged. -/
theorem c12_set_returns (lp : LineParser) (e : SNM_ChunkParserPatcher) (depth : Int)
    (parent keyWord : CStr) (k : Nat) (tokenPos : Int) (v : CStr) (valueExcept : Option CStr)
    (i : Nat) (ev : LineEvent) (toks : List CStr)
    (hb : e.m_breakParsePatch = false)
    (hev : (documentLines lp e)[i]? = some ev)
    (hm : ev.Matches depth parent keyWord)
    (hcnt : ((documentLines lp e).take i).countP
      (fun ev => decide (ev.Matches depth parent keyWord)) = k)
    (ht : ev.toks = some toks)
    (hall : ∀ evl ∈ (documentLines lp e).take i, ¬ evl.Tokenless depth parent) :
    ∃ r, e.ParsePatch lp SNM_SET_CHUNK_CHAR depth (some parent) (some keyWord) (k : Int)
        tokenPos (some v) valueExcept none = .ok r ∧
      (gettoken_str toks tokenPos ≠ v ∧ 0 ≤ tokenPos ∧ tokenPos < toks.length →
        r.ret = 1 ∧ r.engine.m_updates = e.m_updates + 1 ∧
        r.engine.m_chunk = rebuiltLines ((documentLines lp e).take i) ++
          (ev.skipped ++ tokensLine (toks.set tokenPos.toNat v)) ++ keptTail ev.after) ∧
      (gettoken_str toks tokenPos = v ∨ ¬ (0 ≤ tokenPos ∧ tokenPos < toks.length) →
        r.ret = 0 ∧ r.engine.m_updates = e.m_updates ∧
        r.engine.m_chunk = e.GetChunk.m_chunk) := by
  obtain ⟨r, hr, h1, h2⟩ := set_core_returns lp e depth parent keyWord k tokenPos v valueExcept
    i ev toks hb hev hm hcnt ht hall
  refine ⟨r, hr, ?_, ?_⟩
  · intro hw
    have hw2 : isWritten v tokenPos toks = true := by
      simp only [isWritten, decide_eq_true_eq]
      exact hw
    have := h1 hw2
    rw [emitTokens_set _ _ _ hw.2.1] at this
    exact this
  · intro hw
    have hw2 : isWritten v tokenPos toks = false := by
      simp only [isWritten, decide_eq_false_iff_not]
      rintro ⟨h1, h2⟩
      rcases hw with h | h
      · exact h1 h
      · exact h h2
    exact h2 hw2

/-- C12 (witness): on `"<R\n\n<A\nK 1\n>\n>\n"`, where an empty line stands at another
depth in front of the targeted line, setting token 1 of the line `K` at depth 2 under `A`
to `"2"` returns. -/
theorem c12_set_returns_witness :
    ∃ r, (newFromChunk (some "<R\n\n<A\nK 1\n>\n>\n".toList) true false false
        false).ParsePatch wdlLineParser SNM_SET_CHUNK_CHAR 2 (some "A".toList)
        (some "K".toList) 0 1 (some "2".toList) none none = .ok r ∧
      ("1".toList ≠ "2".toList ∧ (0 : Int) ≤ 1 ∧ (1 : Int) < 2 →
        r.ret = 1 ∧ r.engine.m_updates = 1 ∧
        r.engine.m_chunk = "<R\n<A\nK 2\n>\n>\n".toList) ∧
      ("1".toList = "2".toList ∨ ¬ ((0 : Int) ≤ 1 ∧ (1 : Int) < 2) →
        r.ret = 0 ∧ r.engine.m_updates = 0 ∧
        r.engine.m_chunk = "<R\n\n<A\nK 1\n>\n>\n".toList) :=
  c12_set_returns wdlLineParser
    (newFromChunk (some "<R\n\n<A\nK 1\n>\n>\n".toList) true false false false)
    2 "A".toList "K".toList 0 1 "2".toList none 3
    { skipped := [], linePos := 7, line := "K 1".toList, after := ">\n>\n".toList,
      toks := some ["K".toList, "1".toList], parents := ["R".toList, "A".toList] }
    ["K".toList, "1".toList] rfl rfl (by decide) (by decide) rfl (by decide)

/-- C13 (amended): on an engine that is not breaking, for a Document whose scan comes to
the end of the text and that has no line without token at the depth under the parent, a
set-all-except pass (`SNM_SETALL_CHUNK_CHAR_EXCEPT`) with target occurence `k`, value
`v` and exception value `valueExcept` returns. It hands to `WriteChunkLine`, on each
strictly matching line, `v` if the occurence index of the line differs from `k`, and
`valueExcept` on occurence `k`, which is left as it is only if `valueExcept` is NULL (or
equals its token). A line handed a value that differs from its token at an index in
range becomes its tokens re-emitted with that token replaced, and counts for one
update. The call returns the number of updates; if it is not zero the cached Document
becomes the rebuild `setAllLines` of the lines and the counter grows by that number,
otherwise both are unchanged. -/
theorem c13_set_all_returns (lp : LineParser) (e : SNM_ChunkParserPatcher) (depth : Int)
    (parent keyWord : CStr) (k : Nat) (tokenPos : Int) (v : CStr) (valueExcept : Option CStr)
    (hb : e.m_breakParsePatch = false) (hd : 0 < depth)
    (hends : documentEnds lp e = true)
    (hall : ∀ ev ∈ documentLines lp e, ¬ ev.Tokenless depth parent) :
    (∃ r, e.ParsePatch lp SNM_SETALL_CHUNK_CHAR_EXCEPT depth (some parent) (some keyWord)
        (k : Int) tokenPos (some v) valueExcept none = .ok r ∧
      r.ret = setAllCount depth parent keyWord k tokenPos v valueExcept
        (documentLines lp e) 0 ∧
      (setAllCount depth parent keyWord k tokenPos v valueExcept (documentLines lp e) 0 ≠ 0 →
        r.engine.m_chunk = setAllLines depth parent keyWord k tokenPos v valueExcept
          (documentLines lp e) 0 ∧
        r.engine.m_updates = e.m_updates +
          setAllCount depth parent keyWord k tokenPos v valueExcept (documentLines lp e) 0) ∧
      (setAllCount depth parent keyWord k tokenPos v valueExcept (documentLines lp e) 0 = 0 →
        r.engine.m_chunk = e.GetChunk.m_chunk ∧ r.engine.m_updates = e.m_updates)) ∧
    setAllValue k v valueExcept k = valueExcept ∧
    (∀ occ, occ ≠ k → setAllValue k v valueExcept occ = some v) ∧
    (∀ (ev : LineEvent) (toks : List CStr) (x : CStr), ev.Matches depth parent keyWord →
      ev.toks = some toks → gettoken_str toks tokenPos ≠ x →
      0 ≤ tokenPos ∧ tokenPos < toks.length →
      ev.setAll depth parent keyWord tokenPos (some x) =
        (tokensLine (toks.set tokenPos.toNat x), 1)) ∧
    (∀ (ev : LineEvent) (toks : List CStr) (x : CStr), ev.Matches depth parent keyWord →
      ev.toks = some toks → gettoken_str toks tokenPos = x →
      ev.setAll depth parent keyWord tokenPos (some x) = (truncLine ev.line ++ ['\n'], 0)) ∧
    (∀ (ev : LineEvent), ev.setAll depth parent keyWord tokenPos none = (ev.copied, 0)) ∧
    (∀ (ev : LineEvent) (x : Option CStr), ¬ ev.Matches depth parent keyWord →
      ev.setAll depth parent keyWord tokenPos x = (ev.copied, 0)) := by
  refine ⟨?_, ?_, ?_, ?_, ?_, ?_, ?_⟩
  · have hc := setAll_core lp e depth parent keyWord k tokenPos v valueExcept hb hd
    obtain ⟨sr, hs⟩ := scanLoop_defined lp
      (setAllParams depth parent keyWord k tokenPos valueExcept) parent keyWord rfl rfl rfl
      (by show SNM_SETALL_CHUNK_CHAR_EXCEPT ≥ 0; decide) (e.GetChunk.m_chunk.length + 1)
      (initScan e.GetChunk (setAllParams depth parent keyWord k tokenPos valueExcept)
        (some v))
      (startCursor e.GetChunk) (initScan_ready _ _ _ ⟨fun _ => rfl, fun _ => rfl⟩)
      ((GetChunk_break e).trans hb) (fun _ => rfl) hends hall
    have hdef := ParsePatchCore_defined lp e
      (setAllParams depth parent keyWord k tokenPos valueExcept) (some v) (by rw [hs]; simp)
    cases hr : e.ParsePatchCore lp (setAllParams depth parent keyWord k tokenPos valueExcept)
        (some v) with
    | ok r =>
      rw [hr] at hc
      exact ⟨r, hr, hc⟩
    | undefined => exact absurd hr hdef
    | outOfFuel => rw [hr] at hc; exact hc.elim
  · simp [setAllValue]
  · intro occ h
    simp [setAllValue, h]
  · intro ev toks x hm ht hne hin
    simp only [LineEvent.setAll, if_pos hm, ht, writtenLine, isWritten]
    rw [if_pos hne, if_pos hin, emitTokens_set _ _ _ hin.1]
    simp [hne, hin]
  · intro ev toks x hm ht heq
    simp only [LineEvent.setAll, if_pos hm, ht]
    rw [(writtenLine_same x tokenPos toks (truncLine ev.line) heq).1,
      (writtenLine_same x tokenPos toks (truncLine ev.line) heq).2]
    simp
  · intro ev
    unfold LineEvent.setAll
    split <;> rfl
  · intro ev x hm
    simp [LineEvent.setAll, hm]

/-- C13 (witness): on `"<A\nK 0\nK 0\n>\n"`, with target occurence 0, value `"1"` and no
exception value, the pass returns 1: it sets the second line `K` and leaves the first
one. -/
theorem c13_set_all_returns_witness :
    ∃ r, (newFromChunk (some "<A\nK 0\nK 0\n>\n".toList) true false false false).ParsePatch
        wdlLineParser SNM_SETALL_CHUNK_CHAR_EXCEPT 1 (some "A".toList) (some "K".toList) 0 1
        (some "1".toList) none none = .ok r ∧
      r.ret = 1 ∧
      ((1 : Nat) ≠ 0 → r.engine.m_chunk = "<A\nK 0\nK 1\n>\n".toList ∧
        r.engine.m_updates = 0 + 1) ∧
      ((1 : Nat) = 0 → r.engine.m_chunk = "<A\nK 0\nK 0\n>\n".toList ∧
        r.engine.m_updates = 0) :=
  (c13_set_all_returns wdlLineParser
    (newFromChunk (some "<A\nK 0\nK 0\n>\n".toList) true false false false) 1 "A".toList
    "K".toList 0 1 "1".toList none rfl (by decide) rfl (by decide)).1

/-! ## Fetches of a sub-chunk return -/

theorem get_ready (depth : Int) (keyword : CStr) (k : Int) (s : Scan) :
    s.Ready (getSubParams depth keyword k) :=
  ⟨fun h => absurd (show AltersLines SNM_GET_SUBCHUNK_OR_LINE from h) (by unfold AltersLines; decide),
   fun h => absurd (show SNM_GET_SUBCHUNK_OR_LINE = SNM_SET_CHUNK_CHAR ∨
      SNM_GET_SUBCHUNK_OR_LINE = SNM_SETALL_CHUNK_CHAR_EXCEPT ∨
      SNM_GET_SUBCHUNK_OR_LINE = SNM_GETALL_CHUNK_CHAR_EXCEPT ∨
      SNM_GET_SUBCHUNK_OR_LINE = SNM_REPLACE_SUBCHUNK_OR_LINE from h) (by decide)⟩

theorem get_scanLoop_inside_defined (lp : LineParser) (depth : Int) (keyword : CStr)
    (k : Int) (hd : 0 < depth) (evj : LineEvent)
    (hj : (evj.parents.length : Int) < depth) :
    ∀ (fuel : Nat) (s : Scan) (v : CStr) (n : Nat),
      s.e.m_breakParsePatch = false → InsideSub depth s → s.value = some v →
      (walk lp fuel s.cursor)[n]? = some evj →
      (∀ m ev, m < n → (walk lp fuel s.cursor)[m]? = some ev →
        depth ≤ (ev.parents.length : Int)) →
      (∀ ev ∈ (walk lp fuel s.cursor).take n, ¬ ev.Tokenless depth keyword) →
      scanLoop lp (getSubParams depth keyword k) fuel s ≠ .undefined := by
  intro fuel
  induction fuel with
  | zero => intro s v n _ _ _ _ _ _; simp [scanLoop]
  | succ fuel ih =>
    intro s v n hb hin hv hev hall hnt
    cases hw : walkStep lp s.cursor with
    | stop => simp [walk, hw] at hev
    | undefined => simp [walk, hw] at hev
    | fuel => simp [walk, hw] at hev
    | line ev c1 =>
      have hb1 : c1.e.m_breakParsePatch = false := (walkStep_break hw).trans hb
      have hevp : ev.parents.length = c1.parents.length := by
        rw [(walkStep_line hw).2.2.2.2, List.length_map]
      simp only [walk, hw] at hev hall hnt
      obtain ⟨id, hsub, hlen, hid⟩ := hin
      obtain ⟨hclose, hopen⟩ := get_inside lp depth keyword k s ev c1 id v hd hb hw hsub hlen
        hid hv
      cases n with
      | zero =>
        simp only [List.getElem?_cons_zero, Option.some.injEq] at hev
        subst hev
        obtain ⟨s2, hit, -⟩ := hclose (by rw [← hevp]; exact hj)
        simp [scanLoop, hit]
      | succ n =>
        simp only [List.getElem?_cons_succ] at hev
        simp only [List.take_succ_cons, List.mem_cons, forall_eq_or_imp] at hnt
        have hge : depth ≤ (c1.parents.length : Int) := by
          rw [← hevp]
          exact hall 0 ev (by omega) (by simp)
        obtain ⟨hstep, hinv⟩ := hopen hge
        have hdef := iteration_defined lp (getSubParams depth keyword k) s ev c1 keyword
          ('<' :: keyword) rfl rfl rfl (by show SNM_GET_SUBCHUNK_OR_LINE ≥ 0; decide) hb hw
          (get_ready depth keyword k s) hnt.1
        rcases hstep with ho | ho
        · rw [ho] at hdef
          exact hdef.elim
        · obtain ⟨s2, hs2⟩ : ∃ s2 : Scan, s2 = { s.withCursor c1 with
              value := some (v ++ (ev.skipped ++ ev.fetched)) } := ⟨_, rfl⟩
          have hit2 : iteration lp (getSubParams depth keyword k) s = .next s2 := by
            rw [hs2]; exact ho
          have f1 : s2.cursor = c1 := by rw [hs2]; cases s; rfl
          have f5 : s2.value = some (v ++ (ev.skipped ++ ev.fetched)) := by rw [hs2]
          have f6 : s2.e.m_breakParsePatch = false := by rw [hs2]; exact hb1
          have f7 : s2.subChunkKeyword = some id := by rw [hs2]; exact hsub
          have f8 : s2.parents = c1.parents := by rw [hs2]; rfl
          rw [scanLoop_next fuel hit2]
          exact ih s2 (v ++ (ev.skipped ++ ev.fetched)) n f6
            ⟨id, f7, by rw [f8]; exact hge, by rw [f8]; exact hinv⟩ f5
            (by rw [f1]; exact hev)
            (fun m ev' hm' h' => hall (m + 1) ev' (by omega) (by
              rw [f1] at h'
              simpa using h'))
            (by rw [f1]; exact hnt.2)

theorem get_scanLoop_defined (lp : LineParser) (depth : Int) (keyword : CStr) (k : Nat)
    (hd : 0 < depth) (evi evj : LineEvent)
    (hm : evi.Matches depth keyword ('<' :: keyword))
    (hj : (evj.parents.length : Int) < depth)
    (fuel : Nat) (s : Scan) (v : CStr) (i n : Nat)
    (hb : s.e.m_breakParsePatch = false) (hsub : s.subChunkKeyword = none)
    (hv : s.value = some v)
    (hev : (walk lp fuel s.cursor)[i]? = some evi)
    (hcnt : s.occurence + ((walk lp fuel s.cursor).take i).countP
      (fun ev => decide (ev.Matches depth keyword ('<' :: keyword))) = k)
    (hevj : ((walk lp fuel s.cursor).drop (i + 1))[n]? = some evj)
    (hall : ∀ m ev, m < n → ((walk lp fuel s.cursor).drop (i + 1))[m]? = some ev →
      depth ≤ (ev.parents.length : Int))
    (hnt : ∀ ev ∈ (walk lp fuel s.cursor).take (i + 1 + n), ¬ ev.Tokenless depth keyword) :
    scanLoop lp (getSubParams depth keyword k) fuel s ≠ .undefined := by
  have hnt1 : ∀ ev ∈ (walk lp fuel s.cursor).take i, ¬ ev.Tokenless depth keyword := by
    intro ev hmem
    apply hnt ev
    have : (walk lp fuel s.cursor).take i =
        ((walk lp fuel s.cursor).take (i + 1 + n)).take i := by
      rw [List.take_take]
      congr 1
      omega
    rw [this] at hmem
    exact List.mem_of_mem_take hmem
  have hnt2 : ∀ ev ∈ ((walk lp fuel s.cursor).drop (i + 1)).take n,
      ¬ ev.Tokenless depth keyword := by
    intro ev hmem
    apply hnt ev
    have h1 : (walk lp fuel s.cursor).take (i + 1 + n) =
        (walk lp fuel s.cursor).take (i + 1) ++
          ((walk lp fuel s.cursor).drop (i + 1)).take n := by
      rw [List.take_add]
    rw [h1]
    exact List.mem_append_right _ hmem
  obtain ⟨f, s1, c1, -, hs, -, hb1, hsub1, hocc, hw, hwalk, -, hval⟩ :=
    scanLoop_upto lp (getSubParams depth keyword k) keyword ('<' :: keyword)
      k rfl rfl rfl (by show SNM_GET_SUBCHUNK_OR_LINE ≥ 0; decide) rfl
      (by show SNM_GET_SUBCHUNK_OR_LINE ≠ SNM_GETALL_CHUNK_CHAR_EXCEPT; decide) evi fuel s i
      (get_ready depth keyword k s) hb hsub hev hcnt hnt1
  have hv1 : ∃ v1, s1.value = some v1 := by
    apply Option.isSome_iff_exists.mp
    rw [hval, hv]
    rfl
  obtain ⟨v1, hv1⟩ := hv1
  rw [hs]
  have hit := iteration_normal lp (getSubParams depth keyword k) s1 hb1 hsub1
  rw [hw] at hit
  simp only at hit
  have hdef := iteration_defined lp (getSubParams depth keyword k) s1 evi c1 keyword
    ('<' :: keyword) rfl rfl rfl (by show SNM_GET_SUBCHUNK_OR_LINE ≥ 0; decide) hb1 hw
    (get_ready depth keyword k s1) (by
      rintro ⟨h1, -⟩
      obtain ⟨t, ts, ht⟩ := matches_toks hm
      rw [ht] at h1
      cases h1)
  have hb2 : c1.e.m_breakParsePatch = false := (walkStep_break hw).trans hb1
  have hevp : evi.parents.length = c1.parents.length := by
    rw [(walkStep_line hw).2.2.2.2, List.length_map]
  rcases get_onLine lp depth keyword k s1 evi c1 v1 hd hw hsub1 hv1 with ho | ho
  · rw [ho] at hit
    rw [hit] at hdef
    exact hdef.elim
  · rw [ho] at hit
    have hk : ((k : Nat) : Int) = (s1.occurence : Int) ∨ ((k : Nat) : Int) = -1 := by
      left; rw [hocc]
    simp only [hm, hk, if_true] at hit
    rw [scanLoop_next f hit]
    have hlen : (c1.parents.length : Int) = depth := by
      rw [← hevp]; exact hm.2.1
    refine get_scanLoop_inside_defined lp depth keyword k hd evj hj f _
      (v1 ++ (truncLine evi.line ++ ['\n'])) n hb2
      ⟨_, rfl, by show depth ≤ (c1.parents.length : Int); omega,
        opened_insideSub depth c1.parents hd hlen⟩ rfl ?_ ?_ ?_
    · have : ({ s1.withCursor c1 with
          value := some (v1 ++ (truncLine evi.line ++ ['\n'])),
          posStartOfSubchunk :=
            keywordPos1 (evi.line ++ '\n' :: evi.after) evi.linePos ('<' :: keyword),
          subChunkKeyword := some ((c1.parents.getLast?.map Prod.fst).getD 0),
          occurence := s1.occurence + 1 } : Scan).cursor = c1 := by cases s1; rfl
      rw [this, hwalk]
      exact hevj
    · intro m ev hm' h'
      have : ({ s1.withCursor c1 with
          value := some (v1 ++ (truncLine evi.line ++ ['\n'])),
          posStartOfSubchunk :=
            keywordPos1 (evi.line ++ '\n' :: evi.after) evi.linePos ('<' :: keyword),
          subChunkKeyword := some ((c1.parents.getLast?.map Prod.fst).getD 0),
          occurence := s1.occurence + 1 } : Scan).cursor = c1 := by cases s1; rfl
      rw [this, hwalk] at h'
      exact hall m ev hm' h'
    · have : ({ s1.withCursor c1 with
          value := some (v1 ++ (truncLine evi.line ++ ['\n'])),
          posStartOfSubchunk :=
            keywordPos1 (evi.line ++ '\n' :: evi.after) evi.linePos ('<' :: keyword),
          subChunkKeyword := some ((c1.parents.getLast?.map Prod.fst).getD 0),
          occurence := s1.occurence + 1 } : Scan).cursor = c1 := by cases s1; rfl
      rw [this, hwalk]
      exact hnt2

theorem eol_ready (depth : Int) (keyword : CStr) (k : Int) (s : Scan) :
    s.Ready (getEolParams depth keyword k) :=
  ⟨fun h => absurd (show AltersLines SNM_GET_SUBCHUNK_OR_LINE_EOL from h) (by unfold AltersLines; decide),
   fun h => absurd (show SNM_GET_SUBCHUNK_OR_LINE_EOL = SNM_SET_CHUNK_CHAR ∨
      SNM_GET_SUBCHUNK_OR_LINE_EOL = SNM_SETALL_CHUNK_CHAR_EXCEPT ∨
      SNM_GET_SUBCHUNK_OR_LINE_EOL = SNM_GETALL_CHUNK_CHAR_EXCEPT ∨
      SNM_GET_SUBCHUNK_OR_LINE_EOL = SNM_REPLACE_SUBCHUNK_OR_LINE from h) (by decide)⟩

theorem eol_scanLoop_inside_defined (lp : LineParser) (depth : Int) (keyword : CStr)
    (k : Int) (hd : 0 < depth) (evj : LineEvent)
    (hj : (evj.parents.length : Int) < depth) :
    ∀ (fuel : Nat) (s : Scan) (v : CStr) (n : Nat),
      s.e.m_breakParsePatch = false → InsideSub depth s → s.value = some v →
      (walk lp fuel s.cursor)[n]? = some evj →
      (∀ m ev, m < n → (walk lp fuel s.cursor)[m]? = some ev →
        depth ≤ (ev.parents.length : Int)) →
      (∀ ev ∈ (walk lp fuel s.cursor).take n, ¬ ev.Tokenless depth keyword) →
      scanLoop lp (getEolParams depth keyword k) fuel s ≠ .undefined := by
  intro fuel
  induction fuel with
  | zero => intro s v n _ _ _ _ _ _; simp [scanLoop]
  | succ fuel ih =>
    intro s v n hb hin hv hev hall hnt
    cases hw : walkStep lp s.cursor with
    | stop => simp [walk, hw] at hev
    | undefined => simp [walk, hw] at hev
    | fuel => simp [walk, hw] at hev
    | line ev c1 =>
      have hb1 : c1.e.m_breakParsePatch = false := (walkStep_break hw).trans hb
      have hevp : ev.parents.length = c1.parents.length := by
        rw [(walkStep_line hw).2.2.2.2, List.length_map]
      simp only [walk, hw] at hev hall hnt
      obtain ⟨id, hsub, hlen, hid⟩ := hin
      obtain ⟨hclose, hopen⟩ := eol_inside lp depth keyword k s ev c1 id v hd hb hw hsub hlen
        hid hv
      cases n with
      | zero =>
        simp only [List.getElem?_cons_zero, Option.some.injEq] at hev
        subst hev
        obtain ⟨s2, hit, -⟩ := hclose (by rw [← hevp]; exact hj)
        simp [scanLoop, hit]
      | succ n =>
        simp only [List.getElem?_cons_succ] at hev
        simp only [List.take_succ_cons, List.mem_cons, forall_eq_or_imp] at hnt
        have hge : depth ≤ (c1.parents.length : Int) := by
          rw [← hevp]
          exact hall 0 ev (by omega) (by simp)
        obtain ⟨hstep, hinv⟩ := hopen hge
        have hdef := iteration_defined lp (getEolParams depth keyword k) s ev c1 keyword
          ('<' :: keyword) rfl rfl rfl (by show SNM_GET_SUBCHUNK_OR_LINE_EOL ≥ 0; decide) hb hw
          (eol_ready depth keyword k s) hnt.1
        rcases hstep with ho | ho
        · rw [ho] at hdef
          exact hdef.elim
        · obtain ⟨s2, hs2⟩ : ∃ s2 : Scan, s2 = { s.withCursor c1 with
              value := some (v ++ (ev.skipped ++ ev.fetched)) } := ⟨_, rfl⟩
          have hit2 : iteration lp (getEolParams depth keyword k) s = .next s2 := by
            rw [hs2]; exact ho
          have f1 : s2.cursor = c1 := by rw [hs2]; cases s; rfl
          have f5 : s2.value = some (v ++ (ev.skipped ++ ev.fetched)) := by rw [hs2]
          have f6 : s2.e.m_breakParsePatch = false := by rw [hs2]; exact hb1
          have f7 : s2.subChunkKeyword = some id := by rw [hs2]; exact hsub
          have f8 : s2.parents = c1.parents := by rw [hs2]; rfl
          rw [scanLoop_next fuel hit2]
          exact ih s2 (v ++ (ev.skipped ++ ev.fetched)) n f6
            ⟨id, f7, by rw [f8]; exact hge, by rw [f8]; exact hinv⟩ f5
            (by rw [f1]; exact hev)
            (fun m ev' hm' h' => hall (m + 1) ev' (by omega) (by
              rw [f1] at h'
              simpa using h'))
            (by rw [f1]; exact hnt.2)

theorem eol_scanLoop_defined (lp : LineParser) (depth : Int) (keyword : CStr) (k : Nat)
    (hd : 0 < depth) (evi evj : LineEvent)
    (hm : evi.Matches depth keyword ('<' :: keyword))
    (hj : (evj.parents.length : Int) < depth)
    (fuel : Nat) (s : Scan) (v : CStr) (i n : Nat)
    (hb : s.e.m_breakParsePatch = false) (hsub : s.subChunkKeyword = none)
    (hv : s.value = some v)
    (hev : (walk lp fuel s.cursor)[i]? = some evi)
    (hcnt : s.occurence + ((walk lp fuel s.cursor).take i).countP
      (fun ev => decide (ev.Matches depth keyword ('<' :: keyword))) = k)
    (hevj : ((walk lp fuel s.cursor).drop (i + 1))[n]? = some evj)
    (hall : ∀ m ev, m < n → ((walk lp fuel s.cursor).drop (i + 1))[m]? = some ev →
      depth ≤ (ev.parents.length : Int))
    (hnt : ∀ ev ∈ (walk lp fuel s.cursor).take (i + 1 + n), ¬ ev.Tokenless depth keyword) :
    scanLoop lp (getEolParams depth keyword k) fuel s ≠ .undefined := by
  have hnt1 : ∀ ev ∈ (walk lp fuel s.cursor).take i, ¬ ev.Tokenless depth keyword := by
    intro ev hmem
    apply hnt ev
    have : (walk lp fuel s.cursor).take i =
        ((walk lp fuel s.cursor).take (i + 1 + n)).take i := by
      rw [List.take_take]
      congr 1
      omega
    rw [this] at hmem
    exact List.mem_of_mem_take hmem
  have hnt2 : ∀ ev ∈ ((walk lp fuel s.cursor).drop (i + 1)).take n,
      ¬ ev.Tokenless depth keyword := by
    intro ev hmem
    apply hnt ev
    have h1 : (walk lp fuel s.cursor).take (i + 1 + n) =
        (walk lp fuel s.cursor).take (i + 1) ++
          ((walk lp fuel s.cursor).drop (i + 1)).take n := by
      rw [List.take_add]
    rw [h1]
    exact List.mem_append_right _ hmem
  obtain ⟨f, s1, c1, -, hs, -, hb1, hsub1, hocc, hw, hwalk, -, hval⟩ :=
    scanLoop_upto lp (getEolParams depth keyword k) keyword ('<' :: keyword)
      k rfl rfl rfl (by show SNM_GET_SUBCHUNK_OR_LINE_EOL ≥ 0; decide) rfl
      (by show SNM_GET_SUBCHUNK_OR_LINE_EOL ≠ SNM_GETALL_CHUNK_CHAR_EXCEPT; decide) evi fuel s i
      (eol_ready depth keyword k s) hb hsub hev hcnt hnt1
  have hv1 : ∃ v1, s1.value = some v1 := by
    apply Option.isSome_iff_exists.mp
    rw [hval, hv]
    rfl
  obtain ⟨v1, hv1⟩ := hv1
  rw [hs]
  have hit := iteration_normal lp (getEolParams depth keyword k) s1 hb1 hsub1
  rw [hw] at hit
  simp only at hit
  have hdef := iteration_defined lp (getEolParams depth keyword k) s1 evi c1 keyword
    ('<' :: keyword) rfl rfl rfl (by show SNM_GET_SUBCHUNK_OR_LINE_EOL ≥ 0; decide) hb1 hw
    (eol_ready depth keyword k s1) (by
      rintro ⟨h1, -⟩
      obtain ⟨t, ts, ht⟩ := matches_toks hm
      rw [ht] at h1
      cases h1)
  have hb2 : c1.e.m_breakParsePatch = false := (walkStep_break hw).trans hb1
  have hevp : evi.parents.length = c1.parents.length := by
    rw [(walkStep_line hw).2.2.2.2, List.length_map]
  rcases eol_onLine lp depth keyword k s1 evi c1 v1 hd hw hsub1 hv1 with ho | ho
  · rw [ho] at hit
    rw [hit] at hdef
    exact hdef.elim
  · rw [ho] at hit
    have hk : ((k : Nat) : Int) = (s1.occurence : Int) ∨ ((k : Nat) : Int) = -1 := by
      left; rw [hocc]
    simp only [hm, hk, if_true] at hit
    rw [scanLoop_next f hit]
    have hlen : (c1.parents.length : Int) = depth := by
      rw [← hevp]; exact hm.2.1
    refine eol_scanLoop_inside_defined lp depth keyword k hd evj hj f _
      (v1 ++ (truncLine evi.line ++ ['\n'])) n hb2
      ⟨_, rfl, by show depth ≤ (c1.parents.length : Int); omega,
        opened_insideSub depth c1.parents hd hlen⟩ rfl ?_ ?_ ?_
    · have : ({ s1.withCursor c1 with
          value := some (v1 ++ (truncLine evi.line ++ ['\n'])),
          subChunkKeyword := some ((c1.parents.getLast?.map Prod.fst).getD 0),
          occurence := s1.occurence + 1 } : Scan).cursor = c1 := by cases s1; rfl
      rw [this, hwalk]
      exact hevj
    · intro m ev hm' h'
      have : ({ s1.withCursor c1 with
          value := some (v1 ++ (truncLine evi.line ++ ['\n'])),
          subChunkKeyword := some ((c1.parents.getLast?.map Prod.fst).getD 0),
          occurence := s1.occurence + 1 } : Scan).cursor = c1 := by cases s1; rfl
      rw [this, hwalk] at h'
      exact hall m ev hm' h'
    · have : ({ s1.withCursor c1 with
          value := some (v1 ++ (truncLine evi.line ++ ['\n'])),
          subChunkKeyword := some ((c1.parents.getLast?.map Prod.fst).getD 0),
          occurence := s1.occurence + 1 } : Scan).cursor = c1 := by cases s1; rfl
      rw [this, hwalk]
      exact hnt2

/-- A fetch of the (k+1)-th element returns when no line in front of the element or
directly inside it makes the scan compare a NULL keyword: what it returns. -/
theorem get_core_returns (lp : LineParser) (e : SNM_ChunkParserPatcher) (depth : Int)
    (keyword : CStr) (k : Nat) (i n : Nat) (evi evj : LineEvent)
    (hb : e.m_breakParsePatch = false) (hd : 0 < depth)
    (hev : (documentLines lp e)[i]? = some evi)
    (hm : evi.Matches depth keyword ('<' :: keyword))
    (hcnt : ((documentLines lp e).take i).countP
      (fun ev => decide (ev.Matches depth keyword ('<' :: keyword))) = k)
    (hevj : ((documentLines lp e).drop (i + 1))[n]? = some evj)
    (hj : (evj.parents.length : Int) < depth)
    (hall : ∀ m ev, m < n → ((documentLines lp e).drop (i + 1))[m]? = some ev →
      depth ≤ (ev.parents.length : Int))
    (hnt : ∀ ev ∈ (documentLines lp e).take (i + 1 + n), ¬ ev.Tokenless depth keyword) :
    ∃ r, e.ParsePatchCore lp (getSubParams depth keyword k) (some []) = .ok r ∧
      r.ret = keywordPos1 (evi.line ++ '\n' :: evi.after) evi.linePos ('<' :: keyword) ∧
      r.value = some (fetchedText evi (((documentLines lp e).drop (i + 1)).take n) evj) ∧
      r.engine.m_breakParsePatch = false ∧
      chunkTypeOf r.engine = chunkTypeOf e.GetChunk ∧
      stablePart r.engine = stablePart e.GetChunk := by
  have hc := get_core lp e depth keyword k i n evi evj hb hd hev hm hcnt hevj hj hall
  have hdef := ParsePatchCore_defined lp e (getSubParams depth keyword k) (some [])
    (get_scanLoop_defined lp depth keyword k hd evi evj hm hj _ _ [] i n
      ((GetChunk_break e).trans hb) rfl rfl hev (by
        have : (initScan e.GetChunk (getSubParams depth keyword k) (some [])).occurence = 0 :=
          rfl
        rw [this, Nat.zero_add]
        exact hcnt) hevj hall hnt)
  cases hr : e.ParsePatchCore lp (getSubParams depth keyword k) (some []) with
  | ok r =>
    rw [hr] at hc
    exact ⟨r, rfl, hc⟩
  | undefined => exact absurd hr hdef
  | outOfFuel => rw [hr] at hc; exact hc.elim

/-- The same for the end-of-line variant. -/
theorem eol_core_returns (lp : LineParser) (e : SNM_ChunkParserPatcher) (depth : Int)
    (keyword : CStr) (k : Nat) (i n : Nat) (evi evj : LineEvent)
    (hb : e.m_breakParsePatch = false) (hd : 0 < depth)
    (hev : (documentLines lp e)[i]? = some evi)
    (hm : evi.Matches depth keyword ('<' :: keyword))
    (hcnt : ((documentLines lp e).take i).countP
      (fun ev => decide (ev.Matches depth keyword ('<' :: keyword))) = k)
    (hevj : ((documentLines lp e).drop (i + 1))[n]? = some evj)
    (hj : (evj.parents.length : Int) < depth)
    (hall : ∀ m ev, m < n → ((documentLines lp e).drop (i + 1))[m]? = some ev →
      depth ≤ (ev.parents.length : Int))
    (hnt : ∀ ev ∈ (documentLines lp e).take (i + 1 + n), ¬ ev.Tokenless depth keyword) :
    ∃ r, e.ParsePatchCore lp (getEolParams depth keyword k) (some []) = .ok r ∧
      r.ret = ((evj.linePos + evj.line.length + 1 : Nat) : Int) ∧
      r.value = some (fetchedText evi (((documentLines lp e).drop (i + 1)).take n) evj) ∧
      r.engine.m_breakParsePatch = false ∧
      chunkTypeOf r.engine = chunkTypeOf e.GetChunk ∧
      stablePart r.engine = stablePart e.GetChunk := by
  have hc := eol_core lp e depth keyword k i n evi evj hb hd hev hm hcnt hevj hj hall
  have hdef := ParsePatchCore_defined lp e (getEolParams depth keyword k) (some [])
    (eol_scanLoop_defined lp depth keyword k hd evi evj hm hj _ _ [] i n
      ((GetChunk_break e).trans hb) rfl rfl hev (by
        have : (initScan e.GetChunk (getEolParams depth keyword k) (some [])).occurence = 0 :=
          rfl
        rw [this, Nat.zero_add]
        exact hcnt) hevj hall hnt)
  cases hr : e.ParsePatchCore lp (getEolParams depth keyword k) (some []) with
  | ok r =>
    rw [hr] at hc
    exact ⟨r, rfl, hc⟩
  | undefined => exact absurd hr hdef
  | outOfFuel => rw [hr] at hc; exact hc.elim

/-- A fetch on a Document with at most `k` elements of the name at the depth returns 0
when the scan comes to the end of the text and no line makes it compare a NULL
keyword. -/
theorem get_core_none_returns (lp : LineParser) (e : SNM_ChunkParserPatcher) (depth : Int)
    (keyword : CStr) (k : Nat)
    (hb : e.m_breakParsePatch = false) (hd : 0 < depth)
    (hcnt : (documentLines lp e).countP
      (fun ev => decide (ev.Matches depth keyword ('<' :: keyword))) ≤ k)
    (hends : documentEnds lp e = true)
    (hnt : ∀ ev ∈ documentLines lp e, ¬ ev.Tokenless depth keyword) :
    ∃ r, e.ParsePatchCore lp (getSubParams depth keyword (k : Int)) (some []) = .ok r ∧
      r.ret = 0 ∧ r.value = some [] := by
  have hc := get_core_none lp e depth keyword k hb hd hcnt
  obtain ⟨sr, hs⟩ := scanLoop_defined lp (getSubParams depth keyword (k : Int)) keyword
    ('<' :: keyword) rfl rfl rfl (by show SNM_GET_SUBCHUNK_OR_LINE ≥ 0; decide)
    (e.GetChunk.m_chunk.length + 1)
    (initScan e.GetChunk (getSubParams depth keyword (k : Int)) (some []))
    (startCursor e.GetChunk) (get_ready depth keyword k _)
    ((GetChunk_break e).trans hb) (fun _ => rfl) hends hnt
  have hdef := ParsePatchCore_defined lp e (getSubParams depth keyword (k : Int)) (some [])
    (by rw [hs]; simp)
  cases hr : e.ParsePatchCore lp (getSubParams depth keyword (k : Int)) (some []) with
  | ok r =>
    rw [hr] at hc
    exact ⟨r, rfl, hc⟩
  | undefined => exact absurd hr hdef
  | outOfFuel => rw [hr] at hc; exact hc.elim

theorem longWalk4 : walkStep wdlLineParser longCursor3 = .line longEvent4 longCursor4 := by
  rw [walkStep_plain wdlLineParser longCursor3 ">".toList []
    [">".toList] (by decide) rfl rfl rfl (by decide)]
  rfl

theorem longLines_all :
    documentLines wdlLineParser longEngine =
      longEvent1 :: longEvent2 :: longEvent3 :: longEvent4 ::
        walk wdlLineParser 8200 longCursor4 := by
  rw [longLines, show (8201 : Nat) = 8200 + 1 from rfl, walk_line _ longWalk4]

/-- C14 (counterexample): `longLineDoc` is `"<A\n"`, a line of 8193 bytes (`X`, a blank
and 8191 times `y`), and `"K 0\n>\n"`: a Document with one element `A`, whose lines all
begin at their first byte. `GetSubChunk("A", 1, 0)` returns the offset 0 and, in the
output buffer, `"<A\n"`, the first 8191 bytes of the long line, and `"\nK 0\n>\n"`: 8201
bytes, not the 8203 bytes of the Document from offset 0 through the newline of the
close marker. -/
theorem c14_counterexample_cut :
    (∃ e1, longEngine.GetSubChunk wdlLineParser (some "A".toList) 1 0 (some []) none =
      .ok (e1, 0, some ("<A\n".toList ++ (longLineCut ++ "\nK 0\n>\n".toList)))) ∧
    longLineDoc = "<A\n".toList ++ (longLine ++ "\nK 0\n>\n".toList) ∧
    longLine.length = 8193 ∧ longLineCut.length = 8191 ∧
    "<A\n".toList ++ (longLineCut ++ "\nK 0\n>\n".toList) ≠ longLineDoc := by
  have hnt : ∀ ev ∈ (documentLines wdlLineParser longEngine).take (0 + 1 + 2),
      ¬ ev.Tokenless 1 "A".toList := by
    rw [longLines_all]
    intro ev h
    simp only [List.take_succ_cons, List.take_zero, List.mem_cons, List.mem_singleton,
      List.not_mem_nil, or_false] at h
    rcases h with rfl | rfl | rfl <;>
      exact fun h => List.noConfusion (Option.some.inj h.1)
  obtain ⟨r, hP, hret, hval, -⟩ := get_core_returns wdlLineParser longEngine 1 "A".toList 0 0 2
    longEvent1 longEvent4 rfl (by decide) (by rw [longLines_all]; rfl) (by decide) rfl
    (by rw [longLines_all]; rfl) (by decide)
    (by
      rw [longLines_all]
      intro m ev hm hm2
      have hm01 : m = 0 ∨ m = 1 := by omega
      rcases hm01 with rfl | rfl
      · simp only [List.drop_succ_cons, List.drop_zero, List.getElem?_cons_zero,
          Option.some.injEq] at hm2
        subst hm2
        decide
      · simp only [List.drop_succ_cons, List.drop_zero, List.getElem?_cons_succ,
          List.getElem?_cons_zero, Option.some.injEq] at hm2
        subst hm2
        decide)
    hnt
  have hG := GetSubChunk_found wdlLineParser longEngine 1 "A".toList ((0 : Nat) : Int) []
    (by decide) r 0 hP (by rw [hret]; rfl)
  have hG2 : longEngine.GetSubChunk wdlLineParser (some "A".toList) 1 0 (some []) none =
      .ok (r.engine, 0, r.value) := hG
  have hv : r.value = some ("<A\n".toList ++ (longLineCut ++ "\nK 0\n>\n".toList)) := by
    rw [hval, longLines_all]
    show some (truncLine "<A".toList ++ ['\n'] ++
      innerText [longEvent2, longEvent3] ++ (longEvent4.skipped ++ ">\n".toList)) = _
    have h2 : innerText [longEvent2, longEvent3] = longLineCut ++ "\nK 0\n".toList := by
      show (longEvent2.skipped ++ longEvent2.fetched) ++
        ((longEvent3.skipped ++ longEvent3.fetched) ++ []) = _
      have h3 : longEvent2.fetched = longLineCut ++ ['\n'] := by
        show truncLine longLine ++ ['\n'] = _
        rw [truncLine_longLine]
      rw [h3]
      show [] ++ (longLineCut ++ ['\n']) ++ ("K 0\n".toList ++ []) = _
      simp
    rw [h2]
    have h1 : truncLine "<A".toList = "<A".toList := by decide
    rw [h1]
    simp only [List.append_assoc]
    rfl
  refine ⟨⟨r.engine, by rw [hG2, hv]⟩, rfl, longLine_length, longLineCut_length, ?_⟩
  intro h
  have := congrArg List.length h
  rw [longLineDoc_length] at this
  simp only [List.length_append, longLineCut_length] at this
  revert this
  decide

/-- C14 (amended): for depth > 0 and occurence `k`, when line `i` of the Document opens
the (k+1)-th element named `keyword` at that depth (under any parent), line `i + 1 + n`
is the first line behind it with fewer open elements, `"<keyword"` is found at offset
`off` of the opening line, and no line up to the closing line is a line without token
directly inside an element of that name at that depth, `GetSubChunk` returns the
offset of that `"<keyword"` with, in the output buffer, the opening line cut to 8191
bytes, the lines in between as fetched (opaque regions kept, tokenized lines cut to
8191 bytes, lines that fail to tokenize dropped) and `">\n"` in place of the closing
line. This is the text of the Document from the start of the opening line through the
newline of the closing line if no line is cut or dropped and the closing line is
exactly `>`. When the Document has at most `k` such elements, its scan comes to the end
of the text and none of its lines is without token directly inside an element of that
name at that depth, `GetSubChunk` returns -1 and the output buffer is empty. -/
theorem c14_fetch_returns (lp : LineParser) (e : SNM_ChunkParserPatcher) (depth : Int)
    (keyword : CStr) (k : Nat) (out : CStr)
    (hb : e.m_breakParsePatch = false) (hd : 0 < depth) :
    (∀ (i n off : Nat) (evi evj : LineEvent),
      (documentLines lp e)[i]? = some evi →
      evi.Matches depth keyword ('<' :: keyword) →
      ((documentLines lp e).take i).countP
        (fun ev => decide (ev.Matches depth keyword ('<' :: keyword))) = k →
      ((documentLines lp e).drop (i + 1))[n]? = some evj →
      (evj.parents.length : Int) < depth →
      (∀ m ev, m < n → ((documentLines lp e).drop (i + 1))[m]? = some ev →
        depth ≤ (ev.parents.length : Int)) →
      strstr (evi.line ++ '\n' :: evi.after) ('<' :: keyword) = some off →
      (∀ ev ∈ (documentLines lp e).take (i + 1 + n), ¬ ev.Tokenless depth keyword) →
      (∃ e1, e.GetSubChunk lp (some keyword) depth (k : Int) (some out) none =
        .ok (e1, ((evi.linePos + off : Nat) : Int),
          some (fetchedText evi (((documentLines lp e).drop (i + 1)).take n) evj))) ∧
      (∃ X, X.length = evi.linePos ∧
        e.GetChunk.m_chunk = X ++ (evi.line ++ '\n' ::
          verbatimLines (((documentLines lp e).drop (i + 1)).take n ++ [evj])) ++
          evj.after) ∧
      (truncLine evi.line = evi.line →
        (∀ m ev, m < n → ((documentLines lp e).drop (i + 1))[m]? = some ev →
          ev.fetched = ev.line ++ ['\n']) →
        evj.line = ['>'] →
        fetchedText evi (((documentLines lp e).drop (i + 1)).take n) evj =
          evi.line ++ '\n' ::
            verbatimLines (((documentLines lp e).drop (i + 1)).take n ++ [evj]))) ∧
    ((documentLines lp e).countP
        (fun ev => decide (ev.Matches depth keyword ('<' :: keyword))) ≤ k →
      documentEnds lp e = true →
      (∀ ev ∈ documentLines lp e, ¬ ev.Tokenless depth keyword) →
      ∃ e1, e.GetSubChunk lp (some keyword) depth (k : Int) (some out) none =
        .ok (e1, -1, some [])) := by
  constructor
  · intro i n off evi evj hev hm hcnt hevj hj hall hoff hnt
    obtain ⟨r, hP, hret, hval, -⟩ := get_core_returns lp e depth keyword k i n evi evj hb hd
      hev hm hcnt hevj hj hall hnt
    have hkp : keywordPos1 (evi.line ++ '\n' :: evi.after) evi.linePos ('<' :: keyword) =
        ((evi.linePos + off + 1 : Nat) : Int) := by
      simp only [keywordPos1, hoff]
    refine ⟨⟨r.engine, ?_⟩, documentLines_span lp e i n evi evj hev hevj, ?_⟩
    · rw [GetSubChunk_found lp e depth keyword (k : Int) out hd r (evi.linePos + off) hP
        (by rw [hret, hkp]), hval]
    · intro hopen hin hclose
      simp only [fetchedText, hopen,
        innerText_verbatim ((documentLines lp e).drop (i + 1)) n hin, verbatimLines_append]
      simp [verbatimLines, hclose, List.append_assoc]
  · intro hcnt hends hnt
    obtain ⟨r, hP, hret, hval⟩ := get_core_none_returns lp e depth keyword k hb hd hcnt hends
      hnt
    refine ⟨r.engine, ?_⟩
    rw [GetSubChunk_eq lp e depth keyword k out hd, hP]
    have hle : r.ret ≤ 0 := by rw [hret]
    simp only [hle, if_true, hval, Option.map_some']

/-- C14 (witness): in `twoFxDoc`, `GetSubChunk("FX", 2, 1)` returns the offset 11 of the
second `FX` element and its text, which is the text of the Document from that offset
through the newline of the close marker. -/
theorem c14_fetch_returns_witness :
    (∃ e1, (newFromChunk (some twoFxDoc) true false false false).GetSubChunk wdlLineParser
      (some "FX".toList) 2 1 (some []) none = .ok (e1, 11, some "<FX b\nP 1\n>\n".toList)) ∧
    (twoFxDoc.drop 11).take 12 = "<FX b\nP 1\n>\n".toList :=
  ⟨((c14_fetch_returns wdlLineParser
      (newFromChunk (some twoFxDoc) true false false false) 2 "FX".toList 1 [] rfl
      (by decide)).1 3 1 0
      { skipped := [], linePos := 11, line := "<FX b".toList,
        after := "P 1\n>\n>\n".toList, toks := some ["<FX".toList, "b".toList],
        parents := ["T".toList, "FX".toList] }
      { skipped := [], linePos := 21, line := ">".toList,
        after := ">\n".toList, toks := some [">".toList],
        parents := ["T".toList] }
      rfl (by decide) rfl rfl (by decide)
      (by
        intro m ev hm hm2
        have hm0 : m = 0 := by omega
        subst hm0
        have h2 : ((documentLines wdlLineParser
            (newFromChunk (some twoFxDoc) true false false false)).drop (3 + 1))[0]? =
            some { skipped := [], linePos := 17, line := "P 1".toList,
                   after := ">\n>\n".toList, toks := some ["P".toList, "1".toList],
                   parents := ["T".toList, "FX".toList] } := rfl
        rw [h2] at hm2
        cases hm2
        decide)
      (by decide) (by decide)).1, by decide⟩

/-- C24 (amended): a fetch in the end-of-line variant (`SNM_GET_SUBCHUNK_OR_LINE_EOL`)
whose keyword opens a sub-chunk (begins with `<`) goes to the end of the sub-chunk: when
line `i` of the Document opens the (k+1)-th element named `keyword` at depth `depth`,
line `i + 1 + n` is the first line behind it with fewer open elements, and no line up
to that closing line is a line without token directly inside an element of that name
at that depth, the call returns, the output buffer holds the element as fetched (the
opening line, the lines in between and `">\n"` for the closing line) and the returned
value is the offset + 1 of the newline of the closing line. It is for a keyword that
does not begin with `<` that the matched line alone is appended and the call returns
at once, with the offset + 1 of the newline of that line. -/
theorem c24_eol_returns (lp : LineParser) (e : SNM_ChunkParserPatcher) (depth : Int)
    (keyword : CStr) (k : Nat) (i n : Nat) (evi evj : LineEvent)
    (hb : e.m_breakParsePatch = false) (hd : 0 < depth)
    (hev : (documentLines lp e)[i]? = some evi)
    (hm : evi.Matches depth keyword ('<' :: keyword))
    (hcnt : ((documentLines lp e).take i).countP
      (fun ev => decide (ev.Matches depth keyword ('<' :: keyword))) = k)
    (hevj : ((documentLines lp e).drop (i + 1))[n]? = some evj)
    (hj : (evj.parents.length : Int) < depth)
    (hall : ∀ m ev, m < n → ((documentLines lp e).drop (i + 1))[m]? = some ev →
      depth ≤ (ev.parents.length : Int))
    (hnt : ∀ ev ∈ (documentLines lp e).take (i + 1 + n), ¬ ev.Tokenless depth keyword) :
    (∃ r, e.Parse lp SNM_GET_SUBCHUNK_OR_LINE_EOL depth (some keyword)
        (some ('<' :: keyword)) (k : Int) (-1) (some []) none none = .ok r ∧
      r.ret = ((evj.linePos + evj.line.length + 1 : Nat) : Int) ∧
      r.value = some (fetchedText evi (((documentLines lp e).drop (i + 1)).take n) evj)) ∧
    (∀ (p : Params) (s : Scan) (alter : Bool) (toks : List CStr) (curLine lineText : CStr)
      (linePos : Nat) (eolPos1 : Int) (currentParent : Nat) (keyWord : CStr),
      p.mode = SNM_GET_SUBCHUNK_OR_LINE_EOL →
      (keyWord.head? ≠ some '<' →
        matchingOccurence lp p s alter toks curLine lineText linePos eolPos1 currentParent
            keyWord =
          .ret { s with value := s.value.map (· ++ curLine ++ ['\n']) } eolPos1) ∧
      (keyWord.head? = some '<' →
        matchingOccurence lp p s alter toks curLine lineText linePos eolPos1 currentParent
            keyWord =
          .cont { s with value := s.value.map (· ++ curLine ++ ['\n']),
                         subChunkKeyword := some currentParent } alter)) := by
  constructor
  · obtain ⟨r, hr, h1, h2, -⟩ := eol_core_returns lp e depth keyword k i n evi evj hb hd hev
      hm hcnt hevj hj hall hnt
    exact ⟨r, hr, h1, h2⟩
  · intro p s alter toks curLine lineText linePos eolPos1 currentParent keyWord hmode
    constructor
    · intro hk
      simp [matchingOccurence, hmode, hk]
    · intro hk
      simp [matchingOccurence, hmode, hk]

/-- C24 (witness): the end-of-line fetch of the second element `FX` of `twoFxDoc`
returns 23 with the whole element in the output buffer. -/
theorem c24_eol_returns_witness :
    ∃ r, (newFromChunk (some twoFxDoc) true false false false).Parse wdlLineParser
        SNM_GET_SUBCHUNK_OR_LINE_EOL 2 (some "FX".toList) (some "<FX".toList)
        ((1 : Nat) : Int) (-1) (some []) none none = .ok r ∧
      r.ret = 23 ∧ r.value = some "<FX b\nP 1\n>\n".toList :=
  (c24_eol_returns wdlLineParser
    (newFromChunk (some twoFxDoc) true false false false) 2 "FX".toList 1 3 1
    { skipped := [], linePos := 11, line := "<FX b".toList,
      after := "P 1\n>\n>\n".toList, toks := some ["<FX".toList, "b".toList],
      parents := ["T".toList, "FX".toList] }
    { skipped := [], linePos := 21, line := ">".toList,
      after := ">\n".toList, toks := some [">".toList],
      parents := ["T".toList] }
    rfl (by decide) rfl (by decide) rfl rfl (by decide)
    (by
      intro m ev hm hm2
      have hm0 : m = 0 := by omega
      subst hm0
      have h2 : ((documentLines wdlLineParser
          (newFromChunk (some twoFxDoc) true false false false)).drop (3 + 1))[0]? =
          some { skipped := [], linePos := 17, line := "P 1".toList,
                 after := ">\n>\n".toList, toks := some ["P".toList, "1".toList],
                 parents := ["T".toList, "FX".toList] } := rfl
      rw [h2] at hm2
      cases hm2
      decide)
    (by decide)).1

/-- C5 (amended): occurences are counted over all the elements with the name at the
depth, whatever their parent. On an engine that is not breaking, for `depth > 0`, when
line `i` of the Document is the opening line of an element named `keyword` at depth
`depth`, exactly `k` such opening lines come before it, the text `<keyword` is found
`n0` bytes into the text at that line, and the element is closed by the line `n` lines
further (the first one that brings the element stack below `depth`): if no line up to
that closing line is a line without token directly inside an element of that name at
that depth, `GetSubChunk(keyword, depth, k, out)` returns the offset of that `<keyword`
and, as text, the opening line, the lines inside the element and a `>` line, leaving
the cached Document and the update counter as they are; and if the scan of the
Document comes to the end of the text and no line at all is a line without token
directly inside an element of that name at that depth,
`ReplaceSubChunk(keyword, depth, -1, text)` returns true and, if the rebuilt text is
not empty, the cached Document is the rebuild in which every element named `keyword` at
depth `depth` is replaced by `text` (`replaced`), otherwise the cached Document is left
as it is. -/
theorem c5_occurrence_returns (lp : LineParser) (e : SNM_ChunkParserPatcher)
    (depth : Int) (keyword : CStr) (k : Nat) (i n n0 : Nat) (evi evj : LineEvent)
    (out text : CStr)
    (hb : e.m_breakParsePatch = false) (hd : 0 < depth)
    (hev : (documentLines lp e)[i]? = some evi)
    (hm : evi.Matches depth keyword ('<' :: keyword))
    (hcnt : ((documentLines lp e).take i).countP
      (fun ev => decide (ev.Matches depth keyword ('<' :: keyword))) = k)
    (hstr : strstr (evi.line ++ '\n' :: evi.after) ('<' :: keyword) = some n0)
    (hevj : ((documentLines lp e).drop (i + 1))[n]? = some evj)
    (hj : (evj.parents.length : Int) < depth)
    (hall : ∀ m ev, m < n → ((documentLines lp e).drop (i + 1))[m]? = some ev →
      depth ≤ (ev.parents.length : Int)) :
    ((∀ ev ∈ (documentLines lp e).take (i + 1 + n), ¬ ev.Tokenless depth keyword) →
      ∃ e1, e.GetSubChunk lp (some keyword) depth k (some out) none =
          .ok (e1, ((evi.linePos + n0 : Nat) : Int),
            some (fetchedText evi (((documentLines lp e).drop (i + 1)).take n) evj)) ∧
        e1.m_chunk = e.GetChunk.m_chunk ∧ e1.m_updates = e.m_updates) ∧
    (documentEnds lp e = true →
      (∀ ev ∈ documentLines lp e, ¬ ev.Tokenless depth keyword) →
      ∃ e2, e.ReplaceSubChunk lp (some keyword) depth (-1) (some text) none =
          .ok (e2, true) ∧
        (if replaced depth keyword text (-1) (documentLines lp e) 0 false ≠ [] then
          e2.m_chunk = replaced depth keyword text (-1) (documentLines lp e) 0 false
        else e2.m_chunk = e.GetChunk.m_chunk)) := by
  constructor
  · intro hnt
    obtain ⟨r, hP, hret, hval, -, -, hst⟩ := get_core_returns lp e depth keyword k i n evi evj
      hb hd hev hm hcnt hevj hj hall hnt
    have hpos : r.ret = ((evi.linePos + n0 + 1 : Nat) : Int) := by
      rw [hret]
      simp [keywordPos1, hstr]
    refine ⟨r.engine, ?_, congrArg (·.m_chunk) hst,
      (congrArg (·.m_updates) hst).trans (GetChunk_m_updates e)⟩
    rw [GetSubChunk_found lp e depth keyword (k : Int) out hd r (evi.linePos + n0) hP hpos,
      hval]
  · intro hends hnt
    have hc := replace_core lp e depth keyword (-1) text hb hd
    have hpos := replacedLines_pos depth keyword (documentLines lp e) 0 i evi hev hm
    obtain ⟨sr, hs⟩ := scanLoop_defined lp (replaceSubParams depth keyword (-1)) keyword
      ('<' :: keyword) rfl rfl rfl (by show SNM_REPLACE_SUBCHUNK_OR_LINE ≥ 0; decide)
      (e.GetChunk.m_chunk.length + 1)
      (initScan e.GetChunk (replaceSubParams depth keyword (-1)) (some text))
      (startCursor e.GetChunk) (initScan_ready _ _ _ ⟨fun _ => rfl, fun _ => rfl⟩)
      ((GetChunk_break e).trans hb) (fun _ => rfl) hends hnt
    have hdef := ParsePatchCore_defined lp e (replaceSubParams depth keyword (-1))
      (some text) (by rw [hs]; simp)
    rw [ReplaceSubChunk_eq lp e depth keyword (-1) text hd]
    cases hr : e.ParsePatchCore lp (replaceSubParams depth keyword (-1)) (some text) with
    | ok r =>
      rw [hr] at hc
      simp only at hc ⊢
      obtain ⟨hret, hcache⟩ := hc
      have hgt : r.ret > 0 := by rw [hret]; exact_mod_cast hpos
      have hne : r.ret ≠ 0 := by omega
      refine ⟨r.engine, by simp [hgt], ?_⟩
      by_cases hnil : replaced depth keyword text (-1) (documentLines lp e) 0 false ≠ []
      · rw [if_pos hnil]
        rw [if_pos ⟨hne, hnil⟩] at hcache
        exact hcache.1
      · rw [if_neg hnil]
        rw [if_neg (fun h => hnil h.2)] at hcache
        exact hcache.1
    | undefined => exact absurd hr hdef
    | outOfFuel => rw [hr] at hc; exact hc.elim

/-- C5 (witness): in `twoFxDoc`, `GetSubChunk("FX", 2, 1)` returns the second `FX`
element and its offset 11, and `ReplaceSubChunk("FX", 2, -1, "Z\n")` replaces both. -/
theorem c5_occurrence_returns_witness :
    (documentLines wdlLineParser (newFromChunk (some twoFxDoc) true false false false))[3]? =
      some { skipped := [], linePos := 11, line := "<FX b".toList,
             after := "P 1\n>\n>\n".toList, toks := some ["<FX".toList, "b".toList],
             parents := ["T".toList, "FX".toList] } ∧
    (∃ e1, (newFromChunk (some twoFxDoc) true false false false).GetSubChunk wdlLineParser
      (some "FX".toList) 2 1 (some []) none = .ok (e1, 11, some "<FX b\nP 1\n>\n".toList) ∧
      e1.m_chunk = twoFxDoc ∧ e1.m_updates = 0) ∧
    (∃ e2, (newFromChunk (some twoFxDoc) true false false false).ReplaceSubChunk
      wdlLineParser (some "FX".toList) 2 (-1) (some "Z\n".toList) none = .ok (e2, true) ∧
      (if "<T\nZ\nZ\n>\n".toList ≠ [] then e2.m_chunk = "<T\nZ\nZ\n>\n".toList
       else e2.m_chunk = twoFxDoc)) :=
  have h := c5_occurrence_returns wdlLineParser
    (newFromChunk (some twoFxDoc) true false false false) 2 "FX".toList 1 3 1 0
    { skipped := [], linePos := 11, line := "<FX b".toList,
      after := "P 1\n>\n>\n".toList, toks := some ["<FX".toList, "b".toList],
      parents := ["T".toList, "FX".toList] }
    { skipped := [], linePos := 21, line := ">".toList,
      after := ">\n".toList, toks := some [">".toList],
      parents := ["T".toList] }
    [] "Z\n".toList rfl (by decide) rfl (by decide) rfl rfl rfl (by decide)
    (by
      intro m ev hm hm2
      have hm0 : m = 0 := by omega
      subst hm0
      have h2 : ((documentLines wdlLineParser
          (newFromChunk (some twoFxDoc) true false false false)).drop (3 + 1))[0]? =
          some { skipped := [], linePos := 17, line := "P 1".toList,
                 after := ">\n>\n".toList, toks := some ["P".toList, "1".toList],
                 parents := ["T".toList, "FX".toList] } := rfl
      rw [h2] at hm2
      cases hm2
      decide)
  ⟨rfl, h.1 (by decide), h.2 rfl (by decide)⟩

theorem getPos_ready (depth : Int) (parent keyWord : CStr) (k : Nat) (s : Scan) :
    s.Ready (getPosParams depth parent keyWord k) :=
  ⟨fun h => absurd (show AltersLines SNM_GET_CHUNK_CHAR from h)
      (by unfold AltersLines; decide),
   fun h => absurd (show SNM_GET_CHUNK_CHAR = SNM_SET_CHUNK_CHAR ∨
      SNM_GET_CHUNK_CHAR = SNM_SETALL_CHUNK_CHAR_EXCEPT ∨
      SNM_GET_CHUNK_CHAR = SNM_GETALL_CHUNK_CHAR_EXCEPT ∨
      SNM_GET_CHUNK_CHAR = SNM_REPLACE_SUBCHUNK_OR_LINE from h) (by decide)⟩

theorem getPos_scanLoop_returns (lp : LineParser) (depth : Int) (parent keyWord : CStr)
    (k : Nat) (ev : LineEvent) (hm : ev.Matches depth parent keyWord)
    (fuel : Nat) (s : Scan) (i : Nat)
    (hb : s.e.m_breakParsePatch = false) (hsub : s.subChunkKeyword = none)
    (hv : s.value = none)
    (hev : (walk lp fuel s.cursor)[i]? = some ev)
    (hcnt : s.occurence + ((walk lp fuel s.cursor).take i).countP
      (fun ev => decide (ev.Matches depth parent keyWord)) = k)
    (hall : ∀ evl ∈ (walk lp fuel s.cursor).take i, ¬ evl.Tokenless depth parent) :
    scanLoop lp (getPosParams depth parent keyWord k) fuel s ≠ .undefined := by
  have hd : 0 < depth := matches_depth_pos hm
  obtain ⟨f, s1, c1, -, hs, -, hb1, hsub1, hocc, hw, -, -, hval⟩ :=
    scanLoop_upto lp (getPosParams depth parent keyWord k) parent keyWord
      k rfl rfl rfl (by show SNM_GET_CHUNK_CHAR ≥ 0; decide) rfl
      (by show SNM_GET_CHUNK_CHAR ≠ SNM_GETALL_CHUNK_CHAR_EXCEPT; decide) ev fuel s i
      (getPos_ready depth parent keyWord k s) hb hsub hev hcnt hall
  have hv1 : s1.value = none := by
    rw [hv] at hval
    cases h : s1.value with
    | none => rfl
    | some x => rw [h] at hval; simp at hval
  rw [hs]
  have hit := iteration_normal lp (getPosParams depth parent keyWord k) s1 hb1 hsub1
  rw [hw] at hit
  simp only at hit
  rw [getPos_onLine_target lp depth parent keyWord k s1 ev c1 hd hw hsub1 hv1 hm hocc] at hit
  simp [scanLoop, hit]

/-- The position query of occurence `k` returns when no line in front of the target
line makes the scan compare a NULL keyword. -/
theorem getPos_core_returns (lp : LineParser) (e : SNM_ChunkParserPatcher) (depth : Int)
    (parent keyWord : CStr) (k : Nat) (i : Nat) (ev : LineEvent)
    (hb : e.m_breakParsePatch = false)
    (hev : (documentLines lp e)[i]? = some ev)
    (hm : ev.Matches depth parent keyWord)
    (hcnt : ((documentLines lp e).take i).countP
      (fun ev => decide (ev.Matches depth parent keyWord)) = k)
    (hall : ∀ evl ∈ (documentLines lp e).take i, ¬ evl.Tokenless depth parent) :
    ∃ r, e.ParsePatchCore lp (getPosParams depth parent keyWord k) none = .ok r := by
  have hc := getPos_core_found lp e depth parent keyWord k i ev hb hev hm hcnt
  have hdef := ParsePatchCore_defined lp e (getPosParams depth parent keyWord k) none
    (getPos_scanLoop_returns lp depth parent keyWord k ev hm _ _ i
      ((GetChunk_break e).trans hb) rfl rfl hev (by
        have : (initScan e.GetChunk (getPosParams depth parent keyWord k) none).occurence =
          0 := rfl
        rw [this, Nat.zero_add]
        exact hcnt) hall)
  cases hr : e.ParsePatchCore lp (getPosParams depth parent keyWord k) none with
  | ok r => exact ⟨r, rfl⟩
  | undefined => exact absurd hr hdef
  | outOfFuel => rw [hr] at hc; exact hc.elim

/-- The position query on a Document with at most `k` matching lines returns when the
scan comes to the end of the text and no line makes it compare a NULL keyword. -/
theorem getPos_core_none_returns (lp : LineParser) (e : SNM_ChunkParserPatcher)
    (depth : Int) (parent keyWord : CStr) (k : Nat)
    (hb : e.m_breakParsePatch = false) (hd : 0 < depth)
    (hcnt : (documentLines lp e).countP
      (fun ev => decide (ev.Matches depth parent keyWord)) ≤ k)
    (hends : documentEnds lp e = true)
    (hnt : ∀ ev ∈ documentLines lp e, ¬ ev.Tokenless depth parent) :
    ∃ r, e.ParsePatchCore lp (getPosParams depth parent keyWord k) none = .ok r ∧
      r.ret = 0 := by
  have hc := getPos_core_none lp e depth parent keyWord k hb hd hcnt
  obtain ⟨sr, hs⟩ := scanLoop_defined lp (getPosParams depth parent keyWord k) parent
    keyWord rfl rfl rfl (by show SNM_GET_CHUNK_CHAR ≥ 0; decide)
    (e.GetChunk.m_chunk.length + 1)
    (initScan e.GetChunk (getPosParams depth parent keyWord k) none)
    (startCursor e.GetChunk) (getPos_ready depth parent keyWord k _)
    ((GetChunk_break e).trans hb) (fun _ => rfl) hends hnt
  have hdef := ParsePatchCore_defined lp e (getPosParams depth parent keyWord k) none
    (by rw [hs]; simp)
  cases hr : e.ParsePatchCore lp (getPosParams depth parent keyWord k) none with
  | ok r =>
    rw [hr] at hc
    exact ⟨r, rfl, hc.1⟩
  | undefined => exact absurd hr hdef
  | outOfFuel => rw [hr] at hc; exact hc.elim

/-- C20 (counterexample): three Documents whose lines all begin at their first byte.
On `"<A\n\"K\" 1\n>\n"`, where the line of `K` starts at offset 3 with a quoted keyword,
`GetLinePos` returns 4 for direction 0: the offset of the keyword text, not of the line.
On `"<A\nB 1\n\"K\" 1\n>\n"`, where that line starts at offset 7 and the preceding line at
offset 3, it returns 7 for direction -1: the start of the line itself. On
`"<A\nK 1\n>\n"`, where the preceding line `<A` is the first line of the Document,
direction -1 does not return 0: the backward scan passes the start of the buffer. -/
theorem c20_counterexample_quoted :
    (documentLines wdlLineParser
      (newFromChunk (some "<A\n\"K\" 1\n>\n".toList) true false false false))[1]? =
      some { skipped := [], linePos := 3, line := "\"K\" 1".toList, after := ">\n".toList,
             toks := some ["K".toList, "1".toList], parents := ["A".toList] } ∧
    (∃ e1, (newFromChunk (some "<A\n\"K\" 1\n>\n".toList) true false false false).GetLinePos
      wdlLineParser 0 (some "A".toList) (some "K".toList) 1 0 none = .ok (e1, 4)) ∧
    (documentLines wdlLineParser
      (newFromChunk (some "<A\nB 1\n\"K\" 1\n>\n".toList) true false false false))[2]? =
      some { skipped := [], linePos := 7, line := "\"K\" 1".toList, after := ">\n".toList,
             toks := some ["K".toList, "1".toList], parents := ["A".toList] } ∧
    (∃ e1, (newFromChunk (some "<A\nB 1\n\"K\" 1\n>\n".toList) true false false
      false).GetLinePos
      wdlLineParser (-1) (some "A".toList) (some "K".toList) 1 0 none = .ok (e1, 7)) ∧
    (newFromChunk (some "<A\nK 1\n>\n".toList) true false false false).GetLinePos
      wdlLineParser (-1) (some "A".toList) (some "K".toList) 1 0 none = .undefined := by
  refine ⟨rfl, ⟨_, rfl⟩, rfl, ?_, by decide⟩
  obtain ⟨r, hr⟩ := getPos_core_returns wdlLineParser
    (newFromChunk (some "<A\nB 1\n\"K\" 1\n>\n".toList) true false false false) 1 "A".toList
    "K".toList 0 2
    { skipped := [], linePos := 7, line := "\"K\" 1".toList, after := ">\n".toList,
      toks := some ["K".toList, "1".toList], parents := ["A".toList] }
    rfl rfl (by decide) (by decide) (by decide)
  have hc := getPos_core_found wdlLineParser
    (newFromChunk (some "<A\nB 1\n\"K\" 1\n>\n".toList) true false false false) 1 "A".toList
    "K".toList 0 2
    { skipped := [], linePos := 7, line := "\"K\" 1".toList, after := ">\n".toList,
      toks := some ["K".toList, "1".toList], parents := ["A".toList] }
    rfl rfl (by decide) (by decide)
  rw [hr] at hc
  obtain ⟨hret, hch, -⟩ := hc
  have hk : keywordPos1 ("\"K\" 1".toList ++ '\n' :: ">\n".toList) 7 "K".toList = 9 := by
    decide
  have hch2 : r.engine.m_chunk = "<A\nB 1\n\"K\" 1\n>\n".toList := hch
  have hret2 : r.ret = 9 := hret.trans hk
  refine ⟨r.engine, ?_⟩
  have hG := GetLinePos_eq wdlLineParser
    (newFromChunk (some "<A\nB 1\n\"K\" 1\n>\n".toList) true false false false) (-1) 1
    "A".toList "K".toList 0
  rw [hr] at hG
  simp only [hret2, hch2] at hG
  have hs : scanBackward "<A\nB 1\n\"K\" 1\n>\n".toList
      (if ((9 : Int) - 1).toNat ≥ 2 then ((9 : Int) - 1).toNat - 2
       else ((9 : Int) - 1).toNat) = .ok 6 := by decide
  rw [if_pos trivial, hs] at hG
  exact hG

/-- C20 (amended): when line `i` of the Document is occurence `k` of the lines with
keyword `keyWord` at depth `depth` under `parent`, the line begins with the keyword
(no leading blank or quote) at offset `p`, and no line in front of it is a line without
token at that depth under that parent, `GetLinePos` returns: `p` for direction 0; for
direction +1 the offset behind the newline of the line if a byte follows it, and -1 if
the line is the last of the Document; for direction -1 the start offset of the
preceding line if that line is itself preceded by a newline (nothing is said of a
preceding line that is the first line of the Document). When the Document has at most
`k` such lines, its scan comes to the end of the text and none of its lines is without
token at that depth under that parent, `GetLinePos` returns -1 for every direction. -/
theorem c20_line_pos_returns (lp : LineParser) (e : SNM_ChunkParserPatcher) (depth : Int)
    (parent keyWord : CStr) (k : Nat) (hb : e.m_breakParsePatch = false) (hd : 0 < depth) :
    (∀ i ev, (documentLines lp e)[i]? = some ev → ev.Matches depth parent keyWord →
      ((documentLines lp e).take i).countP
        (fun ev => decide (ev.Matches depth parent keyWord)) = k →
      startsWith ev.line keyWord = true →
      (∀ evl ∈ (documentLines lp e).take i, ¬ evl.Tokenless depth parent) →
      (∃ e1, e.GetLinePos lp 0 (some parent) (some keyWord) depth (k : Int) none =
        .ok (e1, ((ev.linePos : Nat) : Int))) ∧
      (∃ e1, e.GetLinePos lp 1 (some parent) (some keyWord) depth (k : Int) none =
        .ok (e1, if ev.after = [] then -1
          else ((ev.linePos + ev.line.length + 1 : Nat) : Int))) ∧
      (∀ pre prev : CStr,
        e.GetChunk.m_chunk = pre ++ '\n' :: (prev ++ '\n' :: (ev.line ++ '\n' :: ev.after)) →
        '\n' ∉ prev →
        ∃ e1, e.GetLinePos lp (-1) (some parent) (some keyWord) depth (k : Int) none =
          .ok (e1, ((pre.length + 1 : Nat) : Int)))) ∧
    ((documentLines lp e).countP (fun ev => decide (ev.Matches depth parent keyWord)) ≤ k →
      documentEnds lp e = true →
      (∀ ev ∈ documentLines lp e, ¬ ev.Tokenless depth parent) →
      ∀ dir, ∃ e1,
        e.GetLinePos lp dir (some parent) (some keyWord) depth (k : Int) none =
          .ok (e1, -1)) := by
  constructor
  · intro i ev hev hm hcnt hstart hnt
    obtain ⟨hnl, X, hX, hXl⟩ := documentLines_at lp e i ev hev
    obtain ⟨r, hr⟩ := getPos_core_returns lp e depth parent keyWord k i ev hb hev hm hcnt hnt
    have hf := fun dir => GetLinePos_found lp e depth parent keyWord k i ev hb hev hm hcnt
      hstart dir
    rw [hr] at hf
    simp only at hf
    refine ⟨⟨r.engine, ?_⟩, ⟨r.engine, ?_⟩, ?_⟩
    · rw [hf 0, if_neg (by decide)]
    · rw [hf 1, if_pos (by decide), if_neg (by decide), hX, ← hXl,
        scanForward_line X ev.line ev.after hnl, lineStartBehind_newline]
    · intro pre prev hch hnp
      refine ⟨r.engine, ?_⟩
      rw [hf (-1), if_pos (by decide), if_pos rfl]
      have hlen : ev.linePos = pre.length + prev.length + 2 := by
        have := congrArg List.length (hX.symm.trans hch)
        simp only [List.length_append, List.length_cons] at this
        omega
      have h2 : ev.linePos ≥ 2 := by omega
      rw [if_pos h2]
      have h3 : ev.linePos - 2 = pre.length + prev.length := by omega
      rw [h3, hch, scanBackward_line pre _ prev prev.length hnp (Nat.le_refl _)]
      simp only
      cases prev with
      | nil =>
        exact congrArg (fun q => Outcome.ok (r.engine, q)) (lineStartBehind_some pre _ '\n')
      | cons a l =>
        exact congrArg (fun q => Outcome.ok (r.engine, q)) (lineStartBehind_some pre _ a)
  · intro hcnt hends hnt dir
    obtain ⟨r, hr, hret⟩ := getPos_core_none_returns lp e depth parent keyWord k hb hd hcnt
      hends hnt
    refine ⟨r.engine, ?_⟩
    rw [GetLinePos_eq, hr]
    simp only
    have : ¬ (r.ret > 0) := by rw [hret]; decide
    rw [if_neg this]

/-- C20 (witness): on `"<A\nB 1\nK 1\n>\n"` the line of `K` starts at offset 7; the
following line starts at 11 and the preceding one at 3. -/
theorem c20_line_pos_returns_witness :
    (documentLines wdlLineParser (newFromChunk (some threeLineDoc) true false false false))[2]? =
      some threeLineDocK ∧
    (∃ e1, (newFromChunk (some threeLineDoc) true false false false).GetLinePos
      wdlLineParser 0 (some "A".toList) (some "K".toList) 1 ((0 : Nat) : Int) none =
      .ok (e1, 7)) ∧
    (∃ e1, (newFromChunk (some threeLineDoc) true false false false).GetLinePos
      wdlLineParser 1 (some "A".toList) (some "K".toList) 1 ((0 : Nat) : Int) none =
      .ok (e1, 11)) ∧
    (∃ e1, (newFromChunk (some threeLineDoc) true false false false).GetLinePos
      wdlLineParser (-1) (some "A".toList) (some "K".toList) 1 ((0 : Nat) : Int) none =
      .ok (e1, 3)) :=
  have h := (c20_line_pos_returns wdlLineParser
    (newFromChunk (some threeLineDoc) true false false false) 1 "A".toList
    "K".toList 0 rfl (by decide)).1 2 threeLineDocK rfl (by decide) rfl rfl (by decide)
  ⟨rfl, h.1, h.2.1, h.2.2 "<A".toList "B 1".toList rfl (by decide)⟩

/-! ## A replace of one sub-chunk returns -/

theorem replace_ready (depth : Int) (keyword : CStr) (k : Int) (s : Scan)
    (hnc : s.newChunk.isSome = true) (hv : s.value.isSome = true) :
    s.Ready (replaceSubParams depth keyword k) :=
  ⟨fun _ => hnc, fun _ => hv⟩

theorem replace_scanLoop_inside_defined (lp : LineParser) (depth : Int) (keyword : CStr)
    (k : Int) (hk : k ≠ -1) (hd : 0 < depth) (evj : LineEvent)
    (hj : (evj.parents.length : Int) < depth) :
    ∀ (fuel : Nat) (s : Scan) (n : Nat),
      s.e.m_breakParsePatch = false → InsideSub depth s →
      s.newChunk.isSome = true → s.value.isSome = true →
      (walk lp fuel s.cursor)[n]? = some evj →
      (∀ m ev, m < n → (walk lp fuel s.cursor)[m]? = some ev →
        depth ≤ (ev.parents.length : Int)) →
      (∀ ev ∈ (walk lp fuel s.cursor).take n, ¬ ev.Tokenless depth keyword) →
      scanLoop lp (replaceSubParams depth keyword k) fuel s ≠ .undefined := by
  intro fuel
  induction fuel with
  | zero => intro s n _ _ _ _ _ _ _; simp [scanLoop]
  | succ fuel ih =>
    intro s n hb hin hnc hv hev hall hnt
    cases hw : walkStep lp s.cursor with
    | stop => simp [walk, hw] at hev
    | undefined => simp [walk, hw] at hev
    | fuel => simp [walk, hw] at hev
    | line ev c1 =>
      have hb1 : c1.e.m_breakParsePatch = false := (walkStep_break hw).trans hb
      have hevp : ev.parents.length = c1.parents.length := by
        rw [(walkStep_line hw).2.2.2.2, List.length_map]
      simp only [walk, hw] at hev hall hnt
      obtain ⟨id, hsub, hlen, hid⟩ := hin
      obtain ⟨hstep, hinv⟩ := replace_inside lp depth keyword k s ev c1 id hd hb hw hsub hlen
        hid
      cases n with
      | zero =>
        simp only [List.getElem?_cons_zero, Option.some.injEq] at hev
        subst hev
        have hlt : (c1.parents.length : Int) < depth := by rw [← hevp]; exact hj
        have hdef := iteration_defined lp (replaceSubParams depth keyword k) s ev c1 keyword
          ('<' :: keyword) rfl rfl rfl (by show SNM_REPLACE_SUBCHUNK_OR_LINE ≥ 0; decide) hb hw
          (replace_ready depth keyword k s hnc hv) (by
            rintro ⟨-, h2, -⟩
            have h2 : (ev.parents.length : Int) = depth := h2
            omega)
        rcases hstep with ho | ho
        · rw [ho] at hdef
          exact hdef.elim
        · rw [if_pos hlt] at ho
          rw [scanLoop_next fuel ho]
          exact scanLoop_flagged lp _ fuel _ (by simp [hk])
      | succ n =>
        simp only [List.getElem?_cons_succ] at hev
        simp only [List.take_succ_cons, List.mem_cons, forall_eq_or_imp] at hnt
        have hge : depth ≤ (c1.parents.length : Int) := by
          rw [← hevp]
          exact hall 0 ev (by omega) (by simp)
        have hdef := iteration_defined lp (replaceSubParams depth keyword k) s ev c1 keyword
          ('<' :: keyword) rfl rfl rfl (by show SNM_REPLACE_SUBCHUNK_OR_LINE ≥ 0; decide) hb hw
          (replace_ready depth keyword k s hnc hv) hnt.1
        rcases hstep with ho | ho
        · rw [ho] at hdef
          exact hdef.elim
        · rw [if_neg (by omega)] at ho
          obtain ⟨s2, hs2⟩ : ∃ s2 : Scan, s2 = { s.withCursor c1 with
              updates := s.updates + (if ev.toks.isSome = true then 1 else 0) } := ⟨_, rfl⟩
          have hit2 : iteration lp (replaceSubParams depth keyword k) s = .next s2 := by
            rw [hs2]; exact ho
          have f1 : s2.cursor = c1 := by rw [hs2]; cases s; rfl
          have f5 : s2.value = s.value := by rw [hs2]; cases s; rfl
          have f4 : s2.newChunk = s.newChunk := by rw [hs2]; cases s; rfl
          have f6 : s2.e.m_breakParsePatch = false := by rw [hs2]; exact hb1
          have f7 : s2.subChunkKeyword = some id := by rw [hs2]; exact hsub
          have f8 : s2.parents = c1.parents := by rw [hs2]; rfl
          rw [scanLoop_next fuel hit2]
          exact ih s2 n f6
            ⟨id, f7, by rw [f8]; exact hge, by rw [f8]; exact hinv hge⟩
            (by rw [f4]; exact hnc) (by rw [f5]; exact hv)
            (by rw [f1]; exact hev)
            (fun m ev' hm' h' => hall (m + 1) ev' (by omega) (by
              rw [f1] at h'
              simpa using h'))
            (by rw [f1]; exact hnt.2)

theorem replace_scanLoop_defined (lp : LineParser) (depth : Int) (keyword : CStr) (k : Nat)
    (hd : 0 < depth) (evi evj : LineEvent)
    (hm : evi.Matches depth keyword ('<' :: keyword))
    (hj : (evj.parents.length : Int) < depth)
    (fuel : Nat) (s : Scan) (i n : Nat)
    (hb : s.e.m_breakParsePatch = false) (hsub : s.subChunkKeyword = none)
    (hnc : s.newChunk.isSome = true) (hv : s.value.isSome = true)
    (hev : (walk lp fuel s.cursor)[i]? = some evi)
    (hcnt : s.occurence + ((walk lp fuel s.cursor).take i).countP
      (fun ev => decide (ev.Matches depth keyword ('<' :: keyword))) = k)
    (hevj : ((walk lp fuel s.cursor).drop (i + 1))[n]? = some evj)
    (hall : ∀ m ev, m < n → ((walk lp fuel s.cursor).drop (i + 1))[m]? = some ev →
      depth ≤ (ev.parents.length : Int))
    (hnt : ∀ ev ∈ (walk lp fuel s.cursor).take (i + 1 + n), ¬ ev.Tokenless depth keyword) :
    scanLoop lp (replaceSubParams depth keyword k) fuel s ≠ .undefined := by
  have hnt1 : ∀ ev ∈ (walk lp fuel s.cursor).take i, ¬ ev.Tokenless depth keyword := by
    intro ev hmem
    apply hnt ev
    have : (walk lp fuel s.cursor).take i =
        ((walk lp fuel s.cursor).take (i + 1 + n)).take i := by
      rw [List.take_take]
      congr 1
      omega
    rw [this] at hmem
    exact List.mem_of_mem_take hmem
  have hnt2 : ∀ ev ∈ ((walk lp fuel s.cursor).drop (i + 1)).take n,
      ¬ ev.Tokenless depth keyword := by
    intro ev hmem
    apply hnt ev
    have h1 : (walk lp fuel s.cursor).take (i + 1 + n) =
        (walk lp fuel s.cursor).take (i + 1) ++
          ((walk lp fuel s.cursor).drop (i + 1)).take n := by
      rw [List.take_add]
    rw [h1]
    exact List.mem_append_right _ hmem
  obtain ⟨f, s1, c1, -, hs, -, hb1, hsub1, hocc, hw, hwalk, hnc1, hval⟩ :=
    scanLoop_upto lp (replaceSubParams depth keyword k) keyword ('<' :: keyword)
      k rfl rfl rfl (by show SNM_REPLACE_SUBCHUNK_OR_LINE ≥ 0; decide) rfl
      (by show SNM_REPLACE_SUBCHUNK_OR_LINE ≠ SNM_GETALL_CHUNK_CHAR_EXCEPT; decide) evi fuel s i
      (replace_ready depth keyword k s hnc hv) hb hsub hev hcnt hnt1
  obtain ⟨v1, hv1⟩ : ∃ v1, s1.value = some v1 := by
    apply Option.isSome_iff_exists.mp
    rw [hval, hv]
  obtain ⟨n1, hn1⟩ : ∃ n1, s1.newChunk = some n1 := by
    apply Option.isSome_iff_exists.mp
    rw [hnc1, hnc]
  rw [hs]
  have hit := iteration_normal lp (replaceSubParams depth keyword k) s1 hb1 hsub1
  rw [hw] at hit
  simp only at hit
  have hdef := iteration_defined lp (replaceSubParams depth keyword k) s1 evi c1 keyword
    ('<' :: keyword) rfl rfl rfl (by show SNM_REPLACE_SUBCHUNK_OR_LINE ≥ 0; decide) hb1 hw
    (replace_ready depth keyword k s1 (by rw [hn1]; rfl) (by rw [hv1]; rfl)) (by
      rintro ⟨h1, -⟩
      obtain ⟨t, ts, ht⟩ := matches_toks hm
      rw [ht] at h1
      cases h1)
  have hb2 : c1.e.m_breakParsePatch = false := (walkStep_break hw).trans hb1
  have hevp : evi.parents.length = c1.parents.length := by
    rw [(walkStep_line hw).2.2.2.2, List.length_map]
  rcases replace_onLine lp depth keyword k s1 evi c1 n1 v1 hd hw hsub1 hn1 hv1 with ho | ho
  · rw [ho] at hit
    rw [hit] at hdef
    exact hdef.elim
  · rw [ho] at hit
    have hk : ((k : Nat) : Int) = (s1.occurence : Int) ∨ ((k : Nat) : Int) = -1 := by
      left; rw [hocc]
    simp only [hm, hk, if_true] at hit
    rw [scanLoop_next f hit]
    have hlen : (c1.parents.length : Int) = depth := by
      rw [← hevp]; exact hm.2.1
    have hcur : ({ s1.withCursor c1 with
        newChunk := some (n1 ++ (evi.skipped ++ v1)),
        subChunkKeyword := some ((c1.parents.getLast?.map Prod.fst).getD 0),
        occurence := s1.occurence + 1,
        updates := s1.updates + 1 } : Scan).cursor = c1 := by cases s1; rfl
    refine replace_scanLoop_inside_defined lp depth keyword k (by omega) hd evj hj f _ n hb2
      ⟨_, rfl, by show depth ≤ (c1.parents.length : Int); omega,
        opened_insideSub depth c1.parents hd hlen⟩ rfl ?_ ?_ ?_ ?_
    · show (s1.withCursor c1).value.isSome = true
      have : (s1.withCursor c1).value = s1.value := by cases s1; rfl
      rw [this, hv1]
      rfl
    · rw [hcur, hwalk]
      exact hevj
    · intro m ev hm' h'
      rw [hcur, hwalk] at h'
      exact hall m ev hm' h'
    · rw [hcur, hwalk]
      exact hnt2

/-- A replace of occurence `k` of a sub-chunk returns when no line up to the closing
line of the sub-chunk makes the scan compare a NULL keyword: what it leaves then. -/
theorem replace_core_returns (lp : LineParser) (e : SNM_ChunkParserPatcher) (depth : Int)
    (keyword : CStr) (k : Nat) (text : CStr) (i n : Nat) (evi evj : LineEvent)
    (hb : e.m_breakParsePatch = false) (hd : 0 < depth)
    (hev : (documentLines lp e)[i]? = some evi)
    (hm : evi.Matches depth keyword ('<' :: keyword))
    (hcnt : ((documentLines lp e).take i).countP
      (fun ev => decide (ev.Matches depth keyword ('<' :: keyword))) = k)
    (hevj : ((documentLines lp e).drop (i + 1))[n]? = some evj)
    (hj : (evj.parents.length : Int) < depth)
    (hall : ∀ m ev, m < n → ((documentLines lp e).drop (i + 1))[m]? = some ev →
      depth ≤ (ev.parents.length : Int))
    (hnt : ∀ ev ∈ (documentLines lp e).take (i + 1 + n), ¬ ev.Tokenless depth keyword) :
    ∃ r, e.ParsePatchCore lp (replaceSubParams depth keyword k) (some text) = .ok r ∧
      0 < r.ret ∧
      (rebuiltLines ((documentLines lp e).take i) ++ (evi.skipped ++ text) ++
          keptTail evj.after ≠ [] →
        r.engine.m_chunk = rebuiltLines ((documentLines lp e).take i) ++
          (evi.skipped ++ text) ++ keptTail evj.after) ∧
      (rebuiltLines ((documentLines lp e).take i) ++ (evi.skipped ++ text) ++
          keptTail evj.after = [] →
        r.engine.m_chunk = e.GetChunk.m_chunk) := by
  have hc := replace_core lp e depth keyword (k : Int) text hb hd
  obtain ⟨hrep, hpos⟩ := replaced_outside depth keyword text k evi evj hm hj
    (documentLines lp e) 0 i n hev (by rw [Nat.zero_add]; exact hcnt) hevj hall
  have hdef := ParsePatchCore_defined lp e (replaceSubParams depth keyword k) (some text)
    (replace_scanLoop_defined lp depth keyword k hd evi evj hm hj _ _ i n
      ((GetChunk_break e).trans hb) rfl rfl rfl hev (by
        have : (initScan e.GetChunk (replaceSubParams depth keyword k)
          (some text)).occurence = 0 := rfl
        rw [this, Nat.zero_add]
        exact hcnt) hevj hall hnt)
  cases hr : e.ParsePatchCore lp (replaceSubParams depth keyword k) (some text) with
  | ok r =>
    rw [hr] at hc
    simp only at hc
    obtain ⟨hret, hcache⟩ := hc
    rw [hrep] at hcache
    have hgt : 0 < r.ret := by rw [hret]; exact_mod_cast hpos
    refine ⟨r, rfl, hgt, ?_, ?_⟩
    · intro hne
      rw [if_pos ⟨by omega, hne⟩] at hcache
      exact hcache.1
    · intro hnil
      rw [if_neg (fun h => h.2 hnil)] at hcache
      exact hcache.1
  | undefined => exact absurd hr hdef
  | outOfFuel => rw [hr] at hc; exact hc.elim

/-! ## The early-stop keyword -/

theorem matchingOccurence_noStop (lp : LineParser) (p : Params) (s : Scan) (alter : Bool)
    (toks : List CStr) (curLine lineText : CStr) (linePos : Nat) (eolPos1 : Int)
    (currentParent : Nat) (keyWord : CStr) :
    matchingOccurence lp p.noStop s alter toks curLine lineText linePos eolPos1
      currentParent keyWord =
    matchingOccurence lp p s alter toks curLine lineText linePos eolPos1
      currentParent keyWord := rfl

theorem otherOccurence_noStop (lp : LineParser) (p : Params) (s : Scan) (alter : Bool)
    (toks : List CStr) :
    otherOccurence lp p.noStop s alter toks = otherOccurence lp p s alter toks := rfl

theorem updateParents_noStop (p : Params) (s : Scan) (toks : List CStr) (n : Nat)
    (eolPos1 : Int) :
    updateParents p.noStop s toks n eolPos1 = updateParents p s toks n eolPos1 := rfl

theorem finishLine_noStop (p : Params) (s : Scan) (alter : Bool) (toks : List CStr)
    (curLine : CStr) :
    finishLine p.noStop s alter toks curLine = finishLine p s alter toks curLine := rfl

theorem skipState_noStop (p : Params) (s : Scan) (e1 : SNM_ChunkParserPatcher)
    (k : Option Nat) : skipState p.noStop s e1 k = skipState p s e1 k := by
  cases k <;> rfl

/-- On a line whose first token is not the early-stop keyword the dispatch is that of
the pass without early-stop keyword. -/
theorem dispatch_noStop (lp : LineParser) (p : Params) (s : Scan) (alter : Bool)
    (kw : CStr) (ts : List CStr) (curLine lineText : CStr) (linePos : Nat) (eolPos1 : Int)
    (h : some kw ≠ p.breakKeyword) :
    dispatch lp p s alter (kw :: ts) curLine lineText linePos eolPos1 =
      dispatch lp p.noStop s alter (kw :: ts) curLine lineText linePos eolPos1 := by
  unfold dispatch
  cases s.parents.getLast? with
  | none => rfl
  | some cp =>
    have e1 : p.noStop.depth = p.depth := rfl
    have e2 : p.noStop.expectedParent = p.expectedParent := rfl
    have e3 : p.noStop.keyWord = p.keyWord := rfl
    have e4 : p.noStop.mode = p.mode := rfl
    have e5 : p.noStop.occurence = p.occurence := rfl
    have e6 : p.noStop.breakKeyword = none := rfl
    simp only [e1, e2, e3, e4, e5, e6, matchingOccurence_noStop, otherOccurence_noStop]
    cases IsMatchingParsedLine p.depth s.parents.length p.expectedParent cp.2 p.keyWord
        (kw :: ts).head? with
    | none => rfl
    | some tm =>
      simp only [List.head?_cons, h, if_false, Option.isSome_none, Bool.false_eq_true,
        and_false]
      by_cases c1 : tm.1 = true ∧ p.mode < 0
      · simp only [c1, and_self, if_true]
      · simp only [c1, if_false]
        by_cases c2 : tm.2 = true ∧ p.mode ≥ 0
        · simp only [c2, and_self, if_true]
        · simp only [c2, if_false]
          by_cases c3 : s.subChunkKeyword.isSome = false ∧ p.keyWord.isSome = true ∧
              p.breakKeyword.isSome = true
          · simp [c3]
          · simp only [c3, if_false]

/-- Outside every element the dispatch does nothing. -/
theorem dispatch_outside (lp : LineParser) (p : Params) (s : Scan) (alter : Bool)
    (toks : List CStr) (curLine lineText : CStr) (linePos : Nat) (eolPos1 : Int)
    (h : s.parents = []) :
    dispatch lp p s alter toks curLine lineText linePos eolPos1 = .cont s alter := by
  unfold dispatch
  rw [h]
  rfl

/-- On a line that the test of the early-stop keyword passes over, the processing of
the line is that of the pass without early-stop keyword. -/
theorem processLine_noStop (lp : LineParser) (p : Params) (s : Scan) (off : Nat)
    (line after : CStr) (b : CStr) (hbk : p.breakKeyword = some b)
    (h1 : lp.parse (truncLine line) = some [] → s.parents = [])
    (h2 : (lp.parse (truncLine line)).bind List.head? ≠ some b) :
    processLine lp p s off line after = processLine lp p.noStop s off line after := by
  unfold processLine
  simp only [updateParents_noStop, finishLine_noStop]
  cases hp : lp.parse (truncLine line) with
  | none => rfl
  | some toks =>
    simp only
    cases toks with
    | nil =>
      have hnil := h1 hp
      simp only [updateParents]
      rw [dispatch_outside lp p _ false [] _ _ _ _ (by exact hnil),
        dispatch_outside lp p.noStop _ false [] _ _ _ _ (by exact hnil)]
    | cons kw ts =>
      have hkw : some kw ≠ p.breakKeyword := by
        rw [hbk]
        intro h
        apply h2
        rw [hp]
        exact h
      cases updateParents p { s with rest := after, pos := s.pos + off + line.length + 1 }
          (kw :: ts) line.length ((s.pos + off + line.length + 1 : Nat) : Int) with
      | cont s1 a1 =>
        simp only
        rw [dispatch_noStop lp p s1 a1 kw ts _ _ _ _ hkw]
      | ret s1 v => rfl
      | undefined => rfl

/-- On a line that the test of the early-stop keyword passes over, the iteration is
that of the pass without early-stop keyword. -/
theorem iteration_noStop (lp : LineParser) (p : Params) (s : Scan) (ev : LineEvent)
    (c1 : Cursor) (b : CStr) (hbk : p.breakKeyword = some b)
    (hb : s.e.m_breakParsePatch = false) (hw : walkStep lp s.cursor = .line ev c1)
    (hpass : ev.PassesStop b) :
    iteration lp p s = iteration lp p.noStop s := by
  obtain ⟨line, after, e1, k, hsp, hn, hsk, hpos, hparse, hc1⟩ := walkStep_inv hw
  have hn1 : nextLine s line after = .ok (e1, k, ev.line, ev.after) := hn
  have hsp1 : splitLine s.rest = some (line, after) := hsp
  rw [iteration_at lp p s line after e1 k ev.line ev.after hb hsp1 hn1,
    iteration_at lp p.noStop s line after e1 k ev.line ev.after hb hsp1 hn1, skipState_noStop]
  apply processLine_noStop lp p _ _ _ _ b hbk
  · intro h0
    rw [hparse] at h0
    have hnil := hpass.1 h0
    rw [(skipState_facts p s e1 k).2.2.2.1]
    rw [h0] at hc1
    simp only [applyParents] at hc1
    have hpar : ev.parents = c1.parents.map Prod.snd := (walkStep_line hw).2.2.2.2
    rw [hnil, hc1] at hpar
    have : s.cursor.parents = [] := by
      cases hs : s.cursor.parents with
      | nil => rfl
      | cons a l => rw [hs] at hpar; simp at hpar
    exact this
  · rw [hparse]
    exact hpass.2

/-- On a line inside an element whose first token is the early-stop keyword and that is
no strict match, outside a sub-chunk being processed, the dispatch raises the early-exit
flag (l.949-952); without early-stop keyword it does nothing. -/
theorem dispatch_stop (lp : LineParser) (p : Params) (s : Scan) (alter : Bool)
    (b : CStr) (ts : List CStr) (curLine lineText : CStr) (linePos : Nat) (eolPos1 : Int)
    (parent keyWord : CStr) (hP : p.expectedParent = some parent)
    (hK : p.keyWord = some keyWord) (hbk : p.breakKeyword = some b) (hmode : p.mode ≥ 0)
    (hne : s.parents ≠ []) (hsub : s.subChunkKeyword = none)
    (hM : ¬ (b = keyWord ∧ (s.parents.length : Int) = p.depth ∧
        s.parents.getLast?.map Prod.snd = some parent)) :
    dispatch lp p s alter (b :: ts) curLine lineText linePos eolPos1 = .cont s.raised alter ∧
    dispatch lp p.noStop s alter (b :: ts) curLine lineText linePos eolPos1 =
      .cont s alter := by
  have hm : ¬ (p.mode < 0) := by omega
  have e1 : p.noStop.depth = p.depth := rfl
  have e2 : p.noStop.expectedParent = p.expectedParent := rfl
  have e3 : p.noStop.keyWord = p.keyWord := rfl
  have e4 : p.noStop.mode = p.mode := rfl
  have e5 : p.noStop.occurence = p.occurence := rfl
  have e6 : p.noStop.breakKeyword = none := rfl
  unfold dispatch
  cases hl : s.parents.getLast? with
  | none => exact absurd (List.getLast?_eq_none_iff.mp hl) hne
  | some cp =>
    simp only [e1, e2, e3, e4, e5, e6, IsMatchingParsedLine, hP, hK, List.head?_cons]
    by_cases h1 : p.depth = -1
    · simp [h1, hm, hbk, hsub, Scan.raised]
    · by_cases h2 : p.depth = (s.parents.length : Int)
      · by_cases h3 : cp.2 = parent
        · by_cases h4 : b = keyWord
          · exact absurd ⟨h4, h2.symm, by simp [hl, h3]⟩ hM
          · simp [h1, h2.symm, h3, h4, hm, hbk, hsub, Scan.raised]
        · simp [h1, h2.symm, h3, hm, hbk, hsub, Scan.raised]
      · simp [h1, h2, hm, hbk, hsub, Scan.raised]

/-- The steps of two passes on the same line start from the same skip. -/
theorem iteration_line_both (lp : LineParser) (p q : Params) (s : Scan) (ev : LineEvent)
    (c1 : Cursor) (hb : s.e.m_breakParsePatch = false)
    (hw : walkStep lp s.cursor = .line ev c1) :
    ∃ e1 k, iteration lp p s =
        processLine lp p (skipState p s e1 k) (k.getD 0) ev.line ev.after ∧
      iteration lp q s =
        processLine lp q (skipState q s e1 k) (k.getD 0) ev.line ev.after ∧
      ev.linePos = s.pos + k.getD 0 ∧
      lp.parse (truncLine ev.line) = ev.toks ∧
      c1 = (match ev.toks with
        | none => s.cursor.behind e1 ev
        | some toks => applyParents (s.cursor.behind e1 ev) toks ev.line.length) := by
  obtain ⟨line, after, e1, k, hsp, hn, hsk, hpos, hparse, hc1⟩ := walkStep_inv hw
  have hn1 : nextLine s line after = .ok (e1, k, ev.line, ev.after) := hn
  have hsp1 : splitLine s.rest = some (line, after) := hsp
  refine ⟨e1, k, iteration_at lp p s line after e1 k ev.line ev.after hb hsp1 hn1,
    iteration_at lp q s line after e1 k ev.line ev.after hb hsp1 hn1, hpos, hparse, ?_⟩
  rw [hc1]
  have hpos2 : ev.linePos = s.cursor.pos + k.getD 0 := hpos
  cases ev.toks <;> simp [Cursor.behind, hpos2]

/-- The iteration on the line of the early-stop keyword is that of the pass without
early-stop keyword, with the early-exit flag raised. -/
theorem iteration_stop (lp : LineParser) (p : Params) (s : Scan) (ev : LineEvent)
    (c1 : Cursor) (b : CStr) (ts : List CStr) (parent keyWord : CStr)
    (hP : p.expectedParent = some parent) (hK : p.keyWord = some keyWord)
    (hbk : p.breakKeyword = some b) (hmode : p.mode ≥ 0)
    (hb : s.e.m_breakParsePatch = false) (hsub : s.subChunkKeyword = none)
    (hw : walkStep lp s.cursor = .line ev c1)
    (ht : ev.toks = some (b :: ts)) (hne : ev.parents ≠ [])
    (hnm : ¬ ev.Matches p.depth parent keyWord) :
    iteration lp p s = (iteration lp p.noStop s).raised := by
  obtain ⟨e1, k, hit, hit0, hpos, hparse, hc1⟩ :=
    iteration_line_both lp p p.noStop s ev c1 hb hw
  obtain ⟨f1, f2, f3, f4, f5, f6, f7, f8, f9⟩ := skipState_facts p s e1 k
  have hpar : ev.parents = c1.parents.map Prod.snd := (walkStep_line hw).2.2.2.2
  rw [hit, hit0, skipState_noStop]
  unfold processLine
  simp only [hparse, ht, updateParents_noStop, finishLine_noStop]
  rw [ht] at hc1
  simp only at hc1
  obtain ⟨s0, hs0⟩ : ∃ s0 : Scan, s0 = { skipState p s e1 k with
      rest := ev.after,
      pos := (skipState p s e1 k).pos + k.getD 0 + ev.line.length + 1 } := ⟨_, rfl⟩
  have hcur : s0.cursor = s.cursor.behind e1 ev := by
    rw [hs0]
    simp [Scan.cursor, Cursor.behind, f1, f3, f4, f5, hpos]
  have hu := updateParents_def p s0 (b :: ts) ev.line.length
    (((skipState p s e1 k).pos + k.getD 0 + ev.line.length + 1 : Nat) : Int)
  rw [hcur, ← hc1] at hu
  rw [← hs0]
  cases hup : updateParents p s0 (b :: ts) ev.line.length
      (((skipState p s e1 k).pos + k.getD 0 + ev.line.length + 1 : Nat) : Int) with
  | ret s1 v => rfl
  | undefined => rfl
  | cont s1 a1 =>
    rw [hup] at hu
    obtain ⟨u1, u2, u3, u4, u5, u6, u7, u8, u9⟩ := hu
    have hs0n : s0.subChunkKeyword = none := by rw [hs0]; exact f7.trans hsub
    have hiff := matches_iff hw ht p.depth parent keyWord
    have hd := dispatch_stop lp p s1 a1 b ts (truncLine ev.line)
      ((skipState p s e1 k).rest.drop (k.getD 0)) ((skipState p s e1 k).pos + k.getD 0)
      (((skipState p s e1 k).pos + k.getD 0 + ev.line.length + 1 : Nat) : Int)
      parent keyWord hP hK hbk hmode (by
        rw [u3]
        intro h
        rw [h] at hpar
        exact hne hpar) (u9 hs0n).1 (by
        rintro ⟨h1, h2, h3⟩
        apply hnm
        apply hiff.mp
        rw [u3] at h2 h3
        exact ⟨by rw [h1]; rfl, h2, h3⟩)
    simp only [hd.1, hd.2]
    rfl

theorem setBreak_all (p : Params) (ho : p.occurence = -1) (s : Scan)
    (hb : s.e.m_breakParsePatch = false) (f : Flow) (h : QuietFlow s f) :
    QuietFlow s (setBreak p f) := by
  cases f with
  | cont s1 a =>
    simp only [setBreak, ho]
    refine ⟨h.1, ?_⟩
    show ({ s1.e with m_breakParsePatch := decide ((-1 : Int) ≠ -1) } :
      SNM_ChunkParserPatcher) = s.e
    rw [h.2]
    cases hs : s.e
    rw [hs] at hb
    simp only at hb
    simp [hb]
  | ret s1 v => exact h
  | undefined => trivial

theorem writeLine_all (p : Params) (s : Scan) (alter : Bool) (v : Option CStr)
    (toks : List CStr) : QuietFlow s (writeLine p s alter v toks) := by
  unfold writeLine
  cases WriteChunkLine s.newChunk v p.tokenPos toks with
  | none => trivial
  | some cu => exact ⟨rfl, rfl⟩

/-- When every occurence is asked for in such a mode, the matching line leaves the scan
outside a sub-chunk and the engine as it was. -/
theorem matchingOccurence_all (lp : LineParser) (p : Params) (s : Scan) (alter : Bool)
    (toks : List CStr) (curLine lineText : CStr) (linePos : Nat) (eolPos1 : Int)
    (currentParent : Nat) (keyWord : CStr) (hK : p.keyWord = some keyWord)
    (hq : p.AllQuiet) (hb : s.e.m_breakParsePatch = false) :
    QuietFlow s (matchingOccurence lp p s alter toks curLine lineText linePos eolPos1
        currentParent keyWord) := by
  obtain ⟨ho, q1, q2, q3, q4⟩ := hq
  unfold matchingOccurence
  rw [if_neg q1]
  split
  · exact setBreak_all p ho s hb _ (writeLine_all p s alter _ toks)
  split
  · split
    · split
      · exact writeLine_all p s alter _ toks
      · exact ⟨rfl, rfl⟩
    · exact ⟨rfl, rfl⟩
  split
  · exact setBreak_all p ho s hb _ ⟨rfl, rfl⟩
  split
  · exact setBreak_all p ho s hb _ (writeLine_all p s alter _ toks)
  split
  · rename_i hm
    have hh : ¬ (keyWord.head? = some '<') := by
      have := q4 hm
      rw [hK] at this
      exact this
    split
    · simp only [hh, if_false]
      exact ⟨rfl, rfl⟩
    · trivial
  · exact ⟨rfl, rfl⟩

/-- The iteration on a matching line when every occurence is asked for in such a mode:
the scan goes on outside a sub-chunk, with the engine of the walk. -/
theorem iteration_all (lp : LineParser) (p : Params) (s : Scan) (ev : LineEvent)
    (c1 : Cursor) (parent keyWord : CStr) (hP : p.expectedParent = some parent)
    (hK : p.keyWord = some keyWord) (hbk : p.breakKeyword = none) (hmode : p.mode ≥ 0)
    (hq : p.AllQuiet)
    (hb : s.e.m_breakParsePatch = false) (hsub : s.subChunkKeyword = none)
    (hw : walkStep lp s.cursor = .line ev c1)
    (hm : ev.Matches p.depth parent keyWord) :
    match iteration lp p s with
    | .next t => t.subChunkKeyword = none ∧ t.e = c1.e
    | .ret _ _ => False
    | _ => True := by
  obtain ⟨e1, k, hit, hsk, hpos, hparse, hc1, hb1, heng, hdrop⟩ :=
    iteration_line lp p s ev c1 hb hw
  obtain ⟨f1, f2, f3, f4, f5, f6, f7, f8, f9⟩ := skipState_facts p s e1 k
  obtain ⟨t0, ts, ht⟩ := matches_toks hm
  have hd : 0 < p.depth := matches_depth_pos hm
  have hc1b : c1.e.m_breakParsePatch = false := (walkStep_break hw).trans hb
  rw [hit]
  unfold processLine
  simp only [hparse, ht]
  rw [ht] at hc1
  simp only at hc1
  obtain ⟨s0, hs0⟩ : ∃ s0 : Scan, s0 = { skipState p s e1 k with
      rest := ev.after,
      pos := (skipState p s e1 k).pos + k.getD 0 + ev.line.length + 1 } := ⟨_, rfl⟩
  have hcur : s0.cursor = s.cursor.behind e1 ev := by
    rw [hs0]
    simp [Scan.cursor, Cursor.behind, f1, f3, f4, f5, hpos]
  have hu := updateParents_def p s0 (t0 :: ts) ev.line.length
    (((skipState p s e1 k).pos + k.getD 0 + ev.line.length + 1 : Nat) : Int)
  rw [hcur, ← hc1] at hu
  rw [← hs0]
  have hs0n : s0.subChunkKeyword = none := by rw [hs0]; exact f7.trans hsub
  cases hup : updateParents p s0 (t0 :: ts) ev.line.length
      (((skipState p s e1 k).pos + k.getD 0 + ev.line.length + 1 : Nat) : Int) with
  | ret s1 v =>
    rw [hup] at hu
    exact hu hs0n
  | undefined => trivial
  | cont s1 a1 =>
    rw [hup] at hu
    obtain ⟨u1, u2, u3, u4, u5, u6, u7, u8, u9⟩ := hu
    obtain ⟨v1, v2⟩ := u9 hs0n
    have hiff := matches_iff hw ht p.depth parent keyWord
    have hM := hiff.mpr hm
    rw [← u3] at hM
    have hdc := (dispatch_cases lp p s1 a1 (t0 :: ts) (truncLine ev.line)
      ((skipState p s e1 k).rest.drop (k.getD 0)) ((skipState p s e1 k).pos + k.getD 0)
      (((skipState p s e1 k).pos + k.getD 0 + ev.line.length + 1 : Nat) : Int)
      parent keyWord hP hK hbk hmode hd).2.2 hM
    have hmo := matchingOccurence_all lp p s1 a1 (t0 :: ts) (truncLine ev.line)
      ((skipState p s e1 k).rest.drop (k.getD 0)) ((skipState p s e1 k).pos + k.getD 0)
      (((skipState p s e1 k).pos + k.getD 0 + ev.line.length + 1 : Nat) : Int)
      (currentParentId s1) keyWord hK hq (by rw [v2]; exact hc1b)
    simp only
    rw [hdc, if_pos (Or.inr hq.1)]
    cases hmc : matchingOccurence lp p s1 a1 (t0 :: ts) (truncLine ev.line)
      ((skipState p s e1 k).rest.drop (k.getD 0)) ((skipState p s e1 k).pos + k.getD 0)
      (((skipState p s e1 k).pos + k.getD 0 + ev.line.length + 1 : Nat) : Int)
      (currentParentId s1) keyWord with
    | cont s2 a2 =>
      rw [hmc] at hmo
      simp only [incOccurence]
      exact ⟨hmo.1.trans v1, hmo.2.trans v2⟩
    | ret s2 v => rw [hmc] at hmo; exact hmo
    | undefined => trivial

theorem passesStop_not_tokenless {b : CStr} {ev : LineEvent} (h : ev.PassesStop b)
    (depth : Int) (parent : CStr) : ¬ ev.Tokenless depth parent := by
  rintro ⟨h1, -, h3⟩
  rw [h.1 h1] at h3
  simp at h3

/-- The scan up to the line of the early-stop keyword: when the test of the keyword
passes over every line in front of it, and either the requested occurence is not among
them or every occurence is asked for in a mode that goes on, the scan reaches that line
outside a sub-chunk with the early-exit flag down. -/
theorem scanLoop_upto_stop (lp : LineParser) (p : Params) (parent keyWord b : CStr)
    (hP : p.expectedParent = some parent) (hK : p.keyWord = some keyWord)
    (hbk : p.breakKeyword = some b) (hmode : p.mode ≥ 0)
    (hga : p.mode ≠ SNM_GETALL_CHUNK_CHAR_EXCEPT)
    (ev : LineEvent) :
    ∀ (fuel : Nat) (s : Scan) (i : Nat), s.Ready p → s.e.m_breakParsePatch = false →
      s.subChunkKeyword = none →
      (walk lp fuel s.cursor)[i]? = some ev →
      ((∃ k : Nat, p.occurence = (k : Int) ∧
        s.occurence + ((walk lp fuel s.cursor).take i).countP
          (fun ev => decide (ev.Matches p.depth parent keyWord)) ≤ k) ∨ p.AllQuiet) →
      (∀ evl ∈ (walk lp fuel s.cursor).take i, evl.PassesStop b) →
      ∃ (f : Nat) (s1 : Scan) (c1 : Cursor), fuel = i + (f + 1) ∧
        scanLoop lp p fuel s = scanLoop lp p (f + 1) s1 ∧ s1.Ready p ∧
        s1.e.m_breakParsePatch = false ∧ s1.subChunkKeyword = none ∧
        walkStep lp s1.cursor = .line ev c1 ∧
        s1.newChunk.isSome = s.newChunk.isSome := by
  intro fuel
  induction fuel with
  | zero => intro s i _ _ _ hev _ _; simp [walk] at hev
  | succ fuel ih =>
    intro s i hr hb hsub hev hocc hall
    cases hw : walkStep lp s.cursor with
    | stop => simp [walk, hw] at hev
    | undefined => simp [walk, hw] at hev
    | fuel => simp [walk, hw] at hev
    | line ev0 c1 =>
      simp only [walk, hw] at hev hocc hall ⊢
      cases i with
      | zero =>
        simp only [List.getElem?_cons_zero, Option.some.injEq] at hev
        subst hev
        exact ⟨fuel, s, c1, by omega, rfl, hr, hb, hsub, hw, rfl⟩
      | succ j =>
        simp only [List.getElem?_cons_succ] at hev
        simp only [List.take_succ_cons, List.countP_cons, decide_eq_true_eq] at hocc
        simp only [List.take_succ_cons, List.mem_cons, forall_eq_or_imp] at hall
        have hb1 : c1.e.m_breakParsePatch = false := (walkStep_break hw).trans hb
        have hdef := iteration_defined lp p.noStop s ev0 c1 parent keyWord hP hK rfl hmode hb
          hw hr (passesStop_not_tokenless hall.1 _ _)
        have hq2 : ¬ (ev0.Matches p.depth parent keyWord ∧
            (p.occurence = s.occurence ∨ p.occurence = -1)) ∨
            (ev0.Matches p.depth parent keyWord ∧ p.AllQuiet) := by
          by_cases hm : ev0.Matches p.depth parent keyWord
          · rcases hocc with ⟨k, hk, hc⟩ | hq
            · left
              rintro ⟨-, ho⟩
              simp only [hm, if_true] at hc
              rw [hk] at ho
              omega
            · exact Or.inr ⟨hm, hq⟩
          · exact Or.inl (fun h => hm h.1)
        have hsame := iteration_noStop lp p s ev0 c1 b hbk hb hw hall.1
        have hall2 := fun (hm : ev0.Matches p.depth parent keyWord) (hq : p.AllQuiet) =>
          iteration_all lp p.noStop s ev0 c1 parent keyWord hP hK rfl hmode hq hb hsub hw hm
        cases hit : iteration lp p.noStop s with
        | next s1 =>
          rw [hit] at hdef hsame
          obtain ⟨g1, g2⟩ : s1.subChunkKeyword = none ∧ s1.e = c1.e := by
            rcases hq2 with h | ⟨hm, hq⟩
            · exact hdef.2.2.2.2.2.2.2.1 hsub h
            · have := hall2 hm hq
              rw [hit] at this
              exact this
          have hbs : s1.e.m_breakParsePatch = false := by rw [g2]; exact hb1
          have hcur : s1.cursor = c1 := after_cursor hdef hb1 hbs
          have hocc1 : s1.occurence =
              s.occurence + (if ev0.Matches p.depth parent keyWord then 1 else 0) :=
            hdef.2.2.2.2.2.2.1
          obtain ⟨f, s2, c2, hf, hs2, h3, h4, h5, h7, h9⟩ :=
            ih s1 j hdef.2.2.2.2.2.1 hbs g1
            (by rw [hcur]; exact hev)
            (by
              rcases hocc with ⟨k, hk, hc⟩ | hq
              · left
                refine ⟨k, hk, ?_⟩
                rw [hcur, hocc1]
                omega
              · exact Or.inr hq)
            (by rw [hcur]; exact hall.2)
          refine ⟨f, s2, c2, by omega, ?_, h3, h4, h5, h7,
            h9.trans hdef.2.2.2.2.2.2.2.2.1⟩
          rw [scanLoop_next fuel hsame]
          exact hs2
        | brk s1 => rw [hit] at hdef; exact hdef.elim
        | ret s1 v =>
          rw [hit] at hdef
          rcases hq2 with hnh | ⟨hm, hq⟩
          · rcases hdef hsub with h | h
            · exact absurd h hnh
            · exact absurd h hga
          · have := hall2 hm hq
            rw [hit] at this
            exact this.elim
        | undefined => rw [hit] at hdef; exact hdef.elim
        | fuel => rw [hit] at hdef; exact hdef.elim

/-- A write pass that meets its early-stop keyword returns; the cached Document it
leaves is the one it had, or ends with the text behind the line of the keyword. -/
theorem stop_core_returns (lp : LineParser) (e : SNM_ChunkParserPatcher) (p : Params)
    (value : Option CStr) (parent keyWord b : CStr) (i : Nat) (ev : LineEvent)
    (ts : List CStr)
    (hb : e.m_breakParsePatch = false) (hwr : p.write = true)
    (hP : p.expectedParent = some parent) (hK : p.keyWord = some keyWord)
    (hbk : p.breakKeyword = some b) (hmode : p.mode ≥ 0)
    (hga : p.mode ≠ SNM_GETALL_CHUNK_CHAR_EXCEPT)
    (hval : (p.mode = SNM_SET_CHUNK_CHAR ∨ p.mode = SNM_SETALL_CHUNK_CHAR_EXCEPT ∨
      p.mode = SNM_GETALL_CHUNK_CHAR_EXCEPT ∨ p.mode = SNM_REPLACE_SUBCHUNK_OR_LINE) →
      value.isSome = true)
    (hev : (documentLines lp e)[i]? = some ev)
    (ht : ev.toks = some (b :: ts)) (hne : ev.parents ≠ [])
    (hnm : ¬ ev.Matches p.depth parent keyWord)
    (hocc : (∃ k : Nat, p.occurence = (k : Int) ∧
      ((documentLines lp e).take i).countP
        (fun ev => decide (ev.Matches p.depth parent keyWord)) ≤ k) ∨ p.AllQuiet)
    (hall : ∀ evl ∈ (documentLines lp e).take i, evl.PassesStop b) :
    ∃ r front, e.ParsePatchCore lp p value = .ok r ∧
      ((r.engine.m_chunk = e.GetChunk.m_chunk ∧ r.engine.m_updates = e.m_updates) ∨
       (r.engine.m_chunk = front ++ keptTail ev.after ∧
        e.m_updates < r.engine.m_updates)) := by
  have hfacts := scanLoop_facts lp p (e.GetChunk.m_chunk.length + 1)
    (initScan e.GetChunk p value) (Nat.lt_succ_self _) (initScan_filled e _ _)
  obtain ⟨f, s1, c1, hf, hs, hr1, hb1, hsub1, hw, hnc1⟩ :=
    scanLoop_upto_stop lp p parent keyWord b hP hK hbk hmode hga ev
      (e.GetChunk.m_chunk.length + 1) (initScan e.GetChunk p value) i
      (initScan_ready _ _ _ ⟨fun _ => hwr, hval⟩) ((GetChunk_break e).trans hb) rfl hev
      (by
        have : (initScan e.GetChunk p value).occurence = 0 := rfl
        rw [this, Nat.zero_add]
        exact hocc) hall
  have hstop := iteration_stop lp p s1 ev c1 b ts parent keyWord hP hK hbk hmode hb1 hsub1 hw
    ht hne hnm
  have hdef := iteration_defined lp p.noStop s1 ev c1 parent keyWord hP hK rfl hmode hb1 hw
    hr1 (by
      rintro ⟨h1, -⟩
      rw [ht] at h1
      cases h1)
  have hnh : ¬ (ev.Matches p.depth parent keyWord ∧
      (p.occurence = s1.occurence ∨ p.occurence = -1)) := fun h => hnm h.1
  cases hit : iteration lp p.noStop s1 with
  | next t =>
    rw [hit] at hdef hstop
    have hrest : t.rest = ev.after := hdef.1.trans (walkStep_line hw).2.2.1
    have hnc : t.newChunk.isSome = true := by
      rw [hdef.2.2.2.2.2.2.2.2.1, hnc1]
      simp [initScan, hwr]
    obtain ⟨c, hc⟩ := Option.isSome_iff_exists.mp hnc
    have hstep : scanLoop lp p (e.GetChunk.m_chunk.length + 1) (initScan e.GetChunk p value) =
        scanLoop lp p f t.raised := by
      rw [hs]
      exact scanLoop_next f hstop
    rw [hstep] at hfacts
    cases f with
    | zero => simp [scanLoop] at hfacts
    | succ f =>
      have hbrk := iteration_breaking lp p t.raised c hwr rfl hc
      have hfin : scanLoop lp p (f + 1) t.raised =
          .ok ({ t.raised with newChunk := some (c ++ keptTail t.raised.rest) }, none) := by
        simp only [scanLoop, hbrk]
      rw [hfin] at hfacts hstep
      simp only at hfacts
      obtain ⟨⟨hst, -, -⟩, -⟩ := hfacts
      have hchunk : t.raised.e.m_chunk = e.GetChunk.m_chunk := congrArg (·.m_chunk) hst
      have hu : t.raised.e.m_updates = e.m_updates :=
        (congrArg (·.m_updates) hst).trans (GetChunk_m_updates e)
      refine ⟨_, c, ParsePatchCore_brk lp e p value _ hstep, ?_⟩
      have hrest2 : t.raised.rest = ev.after := hrest
      simp only [updateCache, hrest2]
      by_cases hcond : p.write = true ∧ t.raised.updates ≠ 0 ∧
          (c ++ keptTail ev.after).length ≠ 0
      · right
        rw [if_pos hcond]
        refine ⟨rfl, ?_⟩
        simp only [hu]
        have : 0 < t.raised.updates := Nat.pos_of_ne_zero hcond.2.1
        omega
      · left
        rw [if_neg hcond]
        exact ⟨hchunk, hu⟩
  | brk s1 => rw [hit] at hdef; exact hdef.elim
  | ret s1 v =>
    rw [hit] at hdef
    rcases hdef hsub1 with h | h
    · exact absurd h hnh
    · exact absurd h hga
  | undefined => rw [hit] at hdef; exact hdef.elim
  | fuel => rw [hit] at hdef; exact hdef.elim

theorem sameOptions_refl (e : SNM_ChunkParserPatcher) : SameOptions e e := ⟨rfl, rfl, rfl⟩

theorem sameOptions_trans {a b c : SNM_ChunkParserPatcher} (h1 : SameOptions a b)
    (h2 : SameOptions b c) : SameOptions a c :=
  ⟨h2.1.trans h1.1, h2.2.1.trans h1.2.1, h2.2.2.trans h1.2.2⟩

theorem startsNoRegion_congr {e e1 : SNM_ChunkParserPatcher} (h : SameOptions e e1)
    (line : CStr) (hn : StartsNoRegion e line) : StartsNoRegion e1 line := by
  unfold StartsNoRegion at hn ⊢
  rw [h.1, h.2.1, h.2.2]
  exact hn

theorem startsWith_append_left : ∀ (l r p : CStr), p.length ≤ l.length →
    startsWith (l ++ r) p = startsWith l p
  | _, _, [], _ => by simp [startsWith]
  | [], _, _ :: _, h => by simp at h
  | c :: cs, r, d :: ds, h => by
    have ih := startsWith_append_left cs r ds (by simpa using h)
    show (c == d && startsWith (cs ++ r) ds) = (c == d && startsWith cs ds)
    rw [ih]

theorem startsWithNoCase_append_left : ∀ (l r p : CStr), p.length ≤ l.length →
    startsWithNoCase (l ++ r) p = startsWithNoCase l p
  | _, _, [], _ => by simp [startsWithNoCase]
  | [], _, _ :: _, h => by simp at h
  | c :: cs, r, d :: ds, h => by
    have ih := startsWithNoCase_append_left cs r ds (by simpa using h)
    show (toLowerAscii c == toLowerAscii d && startsWithNoCase (cs ++ r) ds) =
      (toLowerAscii c == toLowerAscii d && startsWithNoCase cs ds)
    rw [ih]

/-- On a line that starts no opaque region nothing is skipped. -/
theorem detectSkip_noRegion (s : Scan) (line after : CStr)
    (hsp : splitLine s.rest = some (line, after)) (h : StartsNoRegion s.e line) :
    ∃ e1, detectSkip s line = .ok (e1, none) ∧ SameOptions s.e e1 := by
  have hrest : s.rest = line ++ '\n' :: after := splitLine_eq hsp
  obtain ⟨h1, h2, h3⟩ := h
  have c1 : ¬ (s.e.m_processBase64 = false ∧ line.length > 2 ∧
      line.drop (line.length - 2) = "==".toList) := by
    rintro ⟨g1, g2⟩
    rcases h1 with h1 | h1
    · rw [g1] at h1; cases h1
    · exact h1 g2
  have c2 : ¬ (s.e.m_processInProjectMIDI = false ∧ s.e.m_isParsingSource = true ∧
      ((line.length > 2 ∧ startsWithNoCase s.rest "E ".toList = true) ∨
       (line.length > 3 ∧ startsWithNoCase s.rest "Em ".toList = true))) := by
    rintro ⟨g1, -, g3⟩
    rcases h2 with h2 | h2
    · rw [g1] at h2; cases h2
    · rcases g3 with ⟨gl, g⟩ | ⟨gl, g⟩
      · rw [hrest, startsWithNoCase_append_left line _ _ (by
          show 2 ≤ line.length
          omega), h2.1] at g
        cases g
      · rw [hrest, startsWithNoCase_append_left line _ _ (by
          show 3 ≤ line.length
          omega), h2.2] at g
        cases g
  unfold detectSkip
  simp only
  rw [if_neg c1, if_neg c2]
  split
  · rename_i hc
    have hfz : startsWith s.rest "<FREEZE ".toList = false := by
      rcases h3 with h3 | h3
      · rw [hc.1] at h3; cases h3
      · rw [hrest, startsWith_append_left line _ _ (by
          show 8 ≤ line.length
          omega), h3]
    simp only [hfz, Bool.false_eq_true, and_false, if_false]
    obtain ⟨g1, g2, g3, -⟩ := GetChunkType_flags s.e
    exact ⟨_, rfl, g1, g2, g3⟩
  · exact ⟨_, rfl, sameOptions_refl _⟩

/-- The walk step on a line that starts no opaque region. -/
theorem walkStep_noRegion (lp : LineParser) (c : Cursor) (line after : CStr)
    (hsp : splitLine c.rest = some (line, after)) (h : StartsNoRegion c.e line) :
    ∃ e1, SameOptions c.e e1 ∧
      walkStep lp c =
        (match lp.parse (truncLine line) with
         | none =>
           .line { skipped := [], linePos := c.pos, line := line, after := after,
                   toks := none, parents := c.parents.map Prod.snd }
             { c with e := e1, rest := after, pos := c.pos + line.length + 1 }
         | some toks =>
           .line { skipped := [], linePos := c.pos, line := line, after := after,
                   toks := some toks,
                   parents := (applyParents
                     { c with e := e1, rest := after, pos := c.pos + line.length + 1 }
                     toks line.length).parents.map Prod.snd }
             (applyParents { c with e := e1, rest := after, pos := c.pos + line.length + 1 }
               toks line.length)) := by
  obtain ⟨e1, hd, ho⟩ := detectSkip_noRegion c.scan line after hsp h
  refine ⟨e1, ho, ?_⟩
  simp only [walkStep, hsp, nextLine, hd, Option.getD_none, Nat.add_zero, List.take_zero]

theorem applyParents_sameOptions (c : Cursor) (toks : List CStr) (n : Nat) :
    SameOptions c.e (applyParents c toks n).e := by
  obtain ⟨b, hb⟩ := applyParents_engine c toks n
  rw [hb]
  exact ⟨rfl, rfl, rfl⟩

/-- A walk step that skipped nothing: the line is the first line of the text, and the
element stack behind it is that of the tokens. -/
theorem walkStep_unskipped_inv {lp : LineParser} {c c1 : Cursor} {ev : LineEvent}
    (h : walkStep lp c = .line ev c1) (hsk : ev.skipped = []) :
    splitLine c.rest = some (ev.line, ev.after) ∧
    lp.parse (truncLine ev.line) = ev.toks ∧ c1.rest = ev.after ∧
    (ev.toks = none → c1.parents = c.parents) ∧
    (∀ toks, ev.toks = some toks → ∃ c0 : Cursor, c0.parents = c.parents ∧
      c1.parents = (applyParents c0 toks ev.line.length).parents) := by
  obtain ⟨hrest, -, hr1, -, -⟩ := walkStep_line h
  obtain ⟨line, after, e1, k, -, -, -, -, hparse, hc1⟩ := walkStep_inv h
  rw [hsk, List.nil_append] at hrest
  refine ⟨?_, hparse, hr1, ?_, ?_⟩
  · rw [hrest]
    exact splitLine_append (walkStep_noNewline h)
  · intro ht
    rw [ht] at hc1
    rw [hc1]
  · intro toks ht
    rw [ht] at hc1
    exact ⟨{ c with e := e1, rest := ev.after, pos := c.pos + k.getD 0 + ev.line.length + 1 },
      rfl, by rw [hc1]⟩

/-- The walk over a rebuilt text: let line `i` of a walk be `ev`, let the walk have
skipped nothing in front of it, and let another cursor with the same open elements
stand on the rebuild of the lines in front of it followed by some text `X`, none of the
copied lines starting an opaque region. Its walk first gives lines with the same tokens
and element stacks as those lines that have a token, as many of them match a filter,
and then goes on from `X` with the open elements that the first walk has in front of
`ev`. -/
theorem walk_rebuilt_general (lp : LineParser) (e0 : SNM_ChunkParserPatcher) (depth : Int)
    (parent keyWord : CStr) (X : CStr) (ev : LineEvent) :
    ∀ (fuel : Nat) (c : Cursor) (i : Nat) (fuel' : Nat) (c' : Cursor),
      SameOptions e0 c'.e →
      c'.parents.map Prod.snd = c.parents.map Prod.snd →
      (walk lp fuel c)[i]? = some ev →
      (∀ evl ∈ (walk lp fuel c).take i,
        evl.skipped = [] ∧ (evl.copied ≠ [] → StartsNoRegion e0 (truncLine evl.line))) →
      c'.rest = rebuiltLines ((walk lp fuel c).take i) ++ X →
      c'.rest.length < fuel' →
      ∃ (pre : List LineEvent) (f : Nat) (d' d d1 : Cursor),
        walk lp fuel' c' = pre ++ walk lp f d' ∧ d'.rest = X ∧ X.length < f ∧
        SameOptions e0 d'.e ∧
        d'.parents.map Prod.snd = d.parents.map Prod.snd ∧
        walkStep lp d = .line ev d1 ∧
        pre.countP (fun ev => decide (ev.Matches depth parent keyWord)) =
          ((walk lp fuel c).take i).countP
            (fun ev => decide (ev.Matches depth parent keyWord)) ∧
        (∀ evl ∈ pre, evl.toks ≠ some []) ∧
        rebuiltLines pre = rebuiltLines ((walk lp fuel c).take i) := by
  intro fuel
  induction fuel with
  | zero => intro c i fuel' c' _ _ hev; simp [walk] at hev
  | succ fuel ih =>
    intro c i fuel' c' ho hn hev hall hrest hlen
    cases hw : walkStep lp c with
    | stop => simp [walk, hw] at hev
    | undefined => simp [walk, hw] at hev
    | fuel => simp [walk, hw] at hev
    | line ev0 c1 =>
      simp only [walk, hw] at hev hall hrest ⊢
      cases i with
      | zero =>
        simp only [List.getElem?_cons_zero, Option.some.injEq] at hev
        subst hev
        simp only [List.take_zero, rebuiltLines, List.map_nil, List.flatten_nil,
          List.nil_append] at hrest
        refine ⟨[], fuel', c', c, c1, by simp, hrest, by rw [← hrest]; exact hlen, ho,
          hn, hw, by simp, by simp, by simp⟩
      | succ j =>
        simp only [List.getElem?_cons_succ] at hev
        simp only [List.take_succ_cons, List.mem_cons, forall_eq_or_imp] at hall
        obtain ⟨hsk, hnr⟩ := hall.1
        obtain ⟨hsp, hparse, hr1, hpn, hps⟩ := walkStep_unskipped_inv hw hsk
        have hreb : rebuiltLines (ev0 :: (walk lp fuel c1).take j) =
            (ev0.skipped ++ ev0.copied) ++ rebuiltLines ((walk lp fuel c1).take j) := by
          simp [rebuiltLines]
        simp only [List.take_succ_cons] at hrest
        rw [hreb, hsk, List.nil_append] at hrest
        rw [hsk, List.nil_append] at hreb
        have hdropped : ev0.copied = [] → c1.parents = c.parents →
            ¬ ev0.Matches depth parent keyWord →
            ∃ (pre : List LineEvent) (f : Nat) (d' d d1 : Cursor),
              walk lp fuel' c' = pre ++ walk lp f d' ∧ d'.rest = X ∧ X.length < f ∧
              SameOptions e0 d'.e ∧
              d'.parents.map Prod.snd = d.parents.map Prod.snd ∧
              walkStep lp d = .line ev d1 ∧
              pre.countP (fun ev => decide (ev.Matches depth parent keyWord)) =
                (ev0 :: (walk lp fuel c1).take j).countP
                  (fun ev => decide (ev.Matches depth parent keyWord)) ∧
              (∀ evl ∈ pre, evl.toks ≠ some []) ∧
              rebuiltLines pre = rebuiltLines (ev0 :: (walk lp fuel c1).take j) := by
          intro hcop hpar hnm
          have hreb0 := hreb
          rw [hcop, List.nil_append] at hrest
          obtain ⟨pre, f, d', d, d1, h1, h2, h3, h4, h6, h7, h8, h9, h10⟩ :=
            ih c1 j fuel' c' ho (by rw [hn, hpar]) hev hall.2 hrest hlen
          refine ⟨pre, f, d', d, d1, h1, h2, h3, h4, h6, h7, ?_, h9, ?_⟩
          · rw [h8, List.countP_cons]
            simp [hnm]
          · rw [hreb0, hcop, h10]
            rfl
        cases ht : ev0.toks with
        | none =>
          exact hdropped (by simp [LineEvent.copied, ht]) (hpn ht) (not_matches_none ht _ _ _)
        | some toks =>
          cases toks with
          | nil =>
            obtain ⟨c0, hc0, hc1⟩ := hps [] ht
            refine hdropped (by simp [LineEvent.copied, ht]) ?_ ?_
            · rw [hc1, ← hc0]
              simp [applyParents]
            · simp [LineEvent.Matches, ht]
          | cons t ts =>
            have hcop : ev0.copied = truncLine ev0.line ++ ['\n'] := by
              simp [LineEvent.copied, ht]
            rw [hcop] at hrest
            simp only [List.append_assoc, List.singleton_append] at hrest
            have hnl : '\n' ∉ truncLine ev0.line :=
              truncLine_no_newline (splitLine_no_newline hsp)
            have hsp' : splitLine c'.rest = some (truncLine ev0.line,
                rebuiltLines ((walk lp fuel c1).take j) ++ X) := by
              rw [hrest]
              exact splitLine_append hnl
            have hp' : lp.parse (truncLine (truncLine ev0.line)) = some (t :: ts) := by
              rw [truncLine_idem, hparse, ht]
            obtain ⟨e1', ho1, hw'⟩ := walkStep_noRegion lp c' (truncLine ev0.line)
              (rebuiltLines ((walk lp fuel c1).take j) ++ X) hsp'
              (startsNoRegion_congr ho _ (hnr (by rw [hcop]; simp)))
            rw [hp'] at hw'
            simp only at hw'
            obtain ⟨f0, hf0⟩ : ∃ f0, fuel' = f0 + 1 := ⟨fuel' - 1, by omega⟩
            subst hf0
            have hlen' := splitLine_length hsp'
            obtain ⟨c1', hc1'⟩ : ∃ c1' : Cursor, c1' = applyParents
                { c' with e := e1', rest := rebuiltLines ((walk lp fuel c1).take j) ++ X,
                          pos := c'.pos + (truncLine ev0.line).length + 1 }
                (t :: ts) (truncLine ev0.line).length := ⟨_, rfl⟩
            obtain ⟨ev0', hev0'⟩ : ∃ ev0' : LineEvent, ev0' =
                { skipped := [], linePos := c'.pos, line := truncLine ev0.line,
                  after := rebuiltLines ((walk lp fuel c1).take j) ++ X,
                  toks := some (t :: ts),
                  parents := c1'.parents.map Prod.snd } := ⟨_, rfl⟩
            have hw2 : walkStep lp c' = .line ev0' c1' := by
              rw [hw', hev0', hc1']
            obtain ⟨c0, hc0, hc1p⟩ := hps (t :: ts) ht
            have hn1 : c1'.parents.map Prod.snd = c1.parents.map Prod.snd := by
              rw [hc1', hc1p]
              exact applyParents_names _ _ (by rw [hc0]; exact hn) rfl
            have hrest1 : c1'.rest = rebuiltLines ((walk lp fuel c1).take j) ++ X := by
              rw [hc1']
              exact (applyParents_rest _ _ _).1
            have ho1' : SameOptions e0 c1'.e := by
              rw [hc1']
              exact sameOptions_trans (sameOptions_trans ho ho1)
                (applyParents_sameOptions _ _ _)
            obtain ⟨pre, f, d', d, d1, h1, h2, h3, h4, h6, h7, h8, h9, h10⟩ :=
              ih c1 j f0 c1' ho1' hn1 hev hall.2 hrest1 (by rw [hrest1]; omega)
            have hpar0 : ev0'.parents = ev0.parents := by
              rw [(walkStep_line hw).2.2.2.2, ← hn1, hev0']
            have htok0 : ev0'.toks = ev0.toks := by rw [hev0', ht]
            refine ⟨ev0' :: pre, f, d', d, d1, ?_, h2, h3, h4, h6, h7, ?_, ?_, ?_⟩
            · rw [walk_line f0 hw2, h1]
              rfl
            · rw [List.take_succ_cons, List.countP_cons, List.countP_cons, h8]
              simp only [decide_eq_true_eq,
                matches_congr (congrArg (fun t => t.bind List.head?) htok0) hpar0 depth
                  parent keyWord]
            · intro evl hmem
              rcases List.mem_cons.mp hmem with h | h
              · rw [h, htok0, ht]
                simp
              · exact h9 evl h
            · rw [List.take_succ_cons, hreb, hcop, ← h10]
              have hc0 : ev0'.skipped ++ ev0'.copied = truncLine ev0.line ++ ['\n'] := by
                rw [hev0']
                simp [LineEvent.copied, truncLine_idem]
              have : rebuiltLines (ev0' :: pre) =
                  (ev0'.skipped ++ ev0'.copied) ++ rebuiltLines pre := by
                simp [rebuiltLines]
              rw [this, hc0]

/-- The walk step on a rewritten line: if a cursor with the same open elements stands
on a line that starts no opaque region and reads as tokens with the same first token,
its step gives these tokens and the same element stack. -/
theorem walkStep_rewritten_general (lp : LineParser) {d d1 d' : Cursor} {ev : LineEvent}
    {toks toks' : List CStr} (L T : CStr)
    (hn : d'.parents.map Prod.snd = d.parents.map Prod.snd)
    (hw : walkStep lp d = .line ev d1) (hsk : ev.skipped = []) (ht : ev.toks = some toks)
    (hrest : d'.rest = L ++ '\n' :: T) (hnl : '\n' ∉ L) (hnr : StartsNoRegion d'.e L)
    (hp : lp.parse (truncLine L) = some toks') (hh : toks'.head? = toks.head?) :
    ∃ ev' d1', walkStep lp d' = .line ev' d1' ∧ ev'.toks = some toks' ∧
      ev'.parents = ev.parents ∧ ev'.line = L ∧ ev'.after = T ∧ ev'.linePos = d'.pos ∧
      ev'.skipped = [] := by
  obtain ⟨-, -, -, -, hps⟩ := walkStep_unskipped_inv hw hsk
  have hsp' : splitLine d'.rest = some (L, T) := by
    rw [hrest]
    exact splitLine_append hnl
  obtain ⟨e1', -, hw'⟩ := walkStep_noRegion lp d' L T hsp' hnr
  rw [hp] at hw'
  simp only at hw'
  refine ⟨_, _, hw', rfl, ?_, rfl, rfl, rfl, rfl⟩
  obtain ⟨c0, hc0, hc1p⟩ := hps toks ht
  rw [(walkStep_line hw).2.2.2.2, hc1p]
  exact applyParents_names _ _ (by rw [hc0]; exact hn) hh

/-- What a pass in a mode that rewrites lines leaves of the engine: the early-exit flag
is down and the processing options are those of before. -/
theorem ParsePatchCore_write_options (lp : LineParser) (e : SNM_ChunkParserPatcher)
    (p : Params) (value : Option CStr) (r : Result) (hmode : ReadWriteMode p.mode)
    (h : e.ParsePatchCore lp p value = .ok r) :
    r.engine.m_breakParsePatch = false ∧ SameOptions e r.engine := by
  have hf := scanLoop_facts lp p (e.GetChunk.m_chunk.length + 1) (initScan e.GetChunk p value)
    (Nat.lt_succ_self _) (initScan_filled e _ value)
  unfold ParsePatchCore at h
  simp only at h
  cases hs : scanLoop lp p (e.GetChunk.m_chunk.length + 1) (initScan e.GetChunk p value) with
  | ok sr =>
    obtain ⟨s, rv⟩ := sr
    rw [hs] at hf h
    obtain ⟨⟨hst, -, -⟩, hrw⟩ := hf
    have hst2 : stablePart s.e = stablePart e.GetChunk := hst
    obtain ⟨g1, g2, g3, -⟩ := GetChunk_flags e
    have hall : SameOptions e s.e :=
      ⟨(congrArg (·.m_processBase64) hst2).trans g1,
       (congrArg (·.m_processInProjectMIDI) hst2).trans g2,
       (congrArg (·.m_processFreeze) hst2).trans g3⟩
    cases rv with
    | some v => exact absurd hmode (hrw rfl)
    | none =>
      simp only [Outcome.ok.injEq] at h
      subst h
      simp only [updateCache]
      cases hn : s.newChunk with
      | none => exact ⟨trivial, hall⟩
      | some c =>
        simp only
        by_cases hc : p.write = true ∧ s.updates ≠ 0 ∧ c.length ≠ 0
        · rw [if_pos hc]
          exact ⟨trivial, hall⟩
        · rw [if_neg hc]
          exact ⟨trivial, hall⟩
  | undefined => rw [hs] at h; simp at h
  | outOfFuel => rw [hs] at h; simp at h

/-! ## A set followed by a get, on engines that skip opaque regions -/

theorem keptTail_idem (after : CStr) : keptTail (keptTail after) = keptTail after := by
  unfold keptTail
  by_cases h : (splitLine after).isSome = true
  · rw [if_pos h, if_pos h]
  · rw [if_neg h]
    rfl

theorem set_gettoken_str (toks : List CStr) (tokenPos : Int) (w : CStr)
    (h0 : 0 ≤ tokenPos) (hlt : tokenPos < toks.length) :
    (toks.set tokenPos.toNat w).set tokenPos.toNat (gettoken_str toks tokenPos) = toks := by
  have hn : tokenPos.toNat < toks.length := by omega
  rw [List.set_set]
  apply List.ext_getElem
  · simp
  · intro n hn1 hn2
    by_cases hc : tokenPos.toNat = n
    · subst hc
      simp [gettoken_str, h0, hn]
    · simp [List.getElem_set, hc]

theorem flipToken_flip (tok : CStr) (h : tok = "0".toList ∨ tok = "1".toList) :
    flipToken (flipToken tok) = tok ∧
    (flipToken tok = "0".toList ∨ flipToken tok = "1".toList) := by
  rcases h with h | h <;> rw [h]
  · exact ⟨rfl, Or.inr rfl⟩
  · exact ⟨rfl, Or.inl rfl⟩

end SnM
